import Mathlib

/-! Sparse multivariate polynomial calculator: embedding and verification.

Shallow embedding of `src/part3/src/poly.c`, `poly_execute.c` and `instructions.c`
(with `poly.h`, `stack.c` and `tools.c` of `src/part2/src`).

* `poly_coeff_t` (`long`) is `Int` with an explicit wrap to the signed 64-bit range,
  `poly_exp_t` (`int`) is `Int` with an explicit wrap to the signed 32-bit range.
* A C `Poly` with `arr == NULL` is `Poly.Constant coeff`; with `arr != NULL` it is
  `Poly.Nested arr`, the list holding `arr[0 .. size)`.
* Values are immutable, so ownership transfer and `PolyDestroy` have no counterpart.
* Allocation never fails, and `malloc(0)` gives a non-null pointer as in glibc, so an
  array of size 0 is `Poly.Nested []`.
* `errno` is threaded through the parser as an explicit value: the library calls other
  than `strtol` and `sscanf` leave it as it is.
-/

namespace PolyCalc

/-! ## Data model (poly.h) -/

mutual
/-- A polynomial: a coefficient (`arr == NULL`) or an array of monomials. -/
inductive Poly where
  | Constant (coeff : Int) : Poly
  | Nested (arr : List Mono) : Poly
/-- A monomial `p * x^exp`; the coefficient `p` is a polynomial in the next variable. -/
inductive Mono where
  | mk (p : Poly) (exp : Int) : Mono
end

open Poly

/-- Field `p` of `struct Mono`. -/
def Mono.p : Mono → Poly
  | .mk p _ => p

/-- Field `exp` of `struct Mono`. -/
def Mono.exp : Mono → Int
  | .mk _ e => e

/-- Two's-complement wrap of an integer to the range of `long` (signed 64-bit). -/
def wrap64 (x : Int) : Int := (x + 2 ^ 63) % 2 ^ 64 - 2 ^ 63

/-- Two's-complement wrap of an integer to the range of `int` (signed 32-bit). -/
def wrap32 (x : Int) : Int := (x + 2 ^ 31) % 2 ^ 32 - 2 ^ 31

/-- PolyFromCoeff of poly.h. -/
def PolyFromCoeff (c : Int) : Poly := Constant c

/-- PolyZero of poly.h. -/
def PolyZero : Poly := PolyFromCoeff 0

/-- MonoFromPoly of poly.h. -/
def MonoFromPoly (p : Poly) (n : Int) : Mono := Mono.mk p n

/-- PolyIsCoeff of poly.h: `p->arr == NULL`. -/
def PolyIsCoeff : Poly → Bool
  | Constant _ => true
  | Nested _ => false

/-- PolyIsZero of poly.h: `PolyIsCoeff(p) && p->coeff == 0`. -/
def PolyIsZero : Poly → Bool
  | Constant c => c == 0
  | Nested _ => false

/-! ## poly.c -/

mutual
/-- PolyClone of poly.c: a deep copy, rebuilt node by node. -/
def PolyClone : Poly → Poly
  | Constant c => PolyFromCoeff c
  | Nested arr => Nested (PolyCloneArr arr)
/-- The loop of PolyClone over the monomials. -/
def PolyCloneArr : List Mono → List Mono
  | [] => []
  | m :: rest => MonoClone m :: PolyCloneArr rest
/-- MonoClone of poly.h. -/
def MonoClone : Mono → Mono
  | .mk p e => Mono.mk (PolyClone p) e
end

/-- AddTwoCoeff of poly.c: `p->coeff + q->coeff` in `long`. -/
def AddTwoCoeff (a b : Int) : Poly := PolyFromCoeff (wrap64 (a + b))

mutual
/-- PolyAdd of poly.c. In the last case `result` is the array filled by
AddTwoArraysTogether and the two tail copies, and `numOfDifferentElem` is the number
of entries written to it. -/
def PolyAdd : Poly → Poly → Poly
  | Constant a, Constant b => AddTwoCoeff a b
  | Constant a, Nested qs => AddCoeffNonCoeff a qs
  | Nested ps, Constant b => AddCoeffNonCoeff b ps
  | Nested ps, Nested qs =>
    match AddTwoArraysTogether ps qs with
    | [] => PolyZero
    | [Mono.mk (Constant c) 0] => Constant c
    | result => Nested result
  termination_by p q => sizeOf p + sizeOf q
/-- AddCoeffNonCoeff of poly.c; `c` is `polyCoeff->coeff`, the list is
`polyNonCoeff->arr`. The source reads `arr[0]` without looking at `size`: for an
empty array that read is outside the array, and the model takes the branch of a
non-zero exponent. -/
def AddCoeffNonCoeff (c : Int) : List Mono → Poly
  | [] => if c = 0 then PolyClone (Nested []) else Nested [MonoFromPoly (PolyClone (Constant c)) 0]
  | Mono.mk p e :: rest =>
    if c = 0 then PolyClone (Nested (Mono.mk p e :: rest))
    else if e = 0 then
      let sumAtFirstInd := PolyAdd p (Constant c)
      if !PolyIsZero sumAtFirstInd then Nested (MonoFromPoly sumAtFirstInd 0 :: rest)
      else Nested rest
    else Nested (MonoFromPoly (PolyClone (Constant c)) 0 :: Mono.mk p e :: rest)
  termination_by arr => sizeOf arr + sizeOf (Constant c)
/-- AddTwoArraysTogether of poly.c followed by the two DeepCopyArrayIntoAnother calls
of PolyAdd: the loop stops when one array is exhausted and the tail copy appends what
is left of the other. The list returned is what has been written to `result->arr`. -/
def AddTwoArraysTogether : List Mono → List Mono → List Mono
  | [], qs => qs
  | Mono.mk p e :: ps, [] => Mono.mk p e :: ps
  | Mono.mk p e :: ps, Mono.mk q f :: qs =>
    if e < f then Mono.mk p e :: AddTwoArraysTogether ps (Mono.mk q f :: qs)
    else if e > f then Mono.mk q f :: AddTwoArraysTogether (Mono.mk p e :: ps) qs
    else
      let sum := PolyAdd p q
      if !PolyIsZero sum then Mono.mk sum f :: AddTwoArraysTogether ps qs
      else AddTwoArraysTogether ps qs
  termination_by ps qs => sizeOf ps + sizeOf qs
end

/-- HowManyDifferentExp of poly.c: the number of entries PolyAdd allocates for
`result.arr`, and the initial value of `numOfDifferentElem`. -/
def HowManyDifferentExp : List Mono → List Mono → Nat
  | [], qs => qs.length
  | Mono.mk p e :: ps, [] => (Mono.mk p e :: ps).length
  | Mono.mk p e :: ps, Mono.mk q f :: qs =>
    if e < f then HowManyDifferentExp ps (Mono.mk q f :: qs) + 1
    else if e > f then HowManyDifferentExp (Mono.mk p e :: ps) qs + 1
    else HowManyDifferentExp ps qs + 1
  termination_by ps qs => ps.length + qs.length

/-- The number of times AddTwoArraysTogether runs `(*numOfDifferentElem)--`: once for
every pair of monomials of equal exponent whose coefficients sum to zero. -/
def CancelledExp : List Mono → List Mono → Nat
  | [], _ => 0
  | Mono.mk _ _ :: _, [] => 0
  | Mono.mk p e :: ps, Mono.mk q f :: qs =>
    if e < f then CancelledExp ps (Mono.mk q f :: qs)
    else if e > f then CancelledExp (Mono.mk p e :: ps) qs
    else if !PolyIsZero (PolyAdd p q) then CancelledExp ps qs
    else CancelledExp ps qs + 1
  termination_by ps qs => ps.length + qs.length

/-- IsCoeffTimesXToZero of poly.c. -/
def IsCoeffTimesXToZero : List Mono → Bool
  | [Mono.mk p e] => e == 0 && PolyIsCoeff p
  | _ => false

/-- SortMonos of poly.c: `qsort` with CompareMonos (`monoA->exp - monoB->exp`), that
is ascending by exponent. `qsort` leaves the order of monomials of equal exponent
unspecified; the model keeps their input order. The difference of CompareMonos is
taken in `int`: between exponents from 0 to `2^31 - 1` it cannot overflow and its sign
is that of the comparison, which is the case the model covers. With a negative
exponent (one that ParseExp has truncated) against a large one the difference wraps,
and the order `qsort` leaves is then not the ascending one of the model. -/
def SortMonos (monoArray : List Mono) : List Mono :=
  monoArray.insertionSort (fun a b => a.exp ≤ b.exp)

/-- The `for` loop of DeleteSameExponents, from index `i` on: `prevExp` is
`myMonos[i - 1].exp`, `sum` the running sum, the list is `myMonos[i .. count)`. The
result is what the loop and the final step write to `newMonos`. -/
def DeleteSameExponentsLoop (prevExp : Int) (sum : Poly) : List Mono → List Mono
  | [] => if !PolyIsZero sum then [Mono.mk sum prevExp] else []
  | Mono.mk p e :: rest =>
    if e = prevExp then DeleteSameExponentsLoop e (PolyAdd sum p) rest
    else if PolyIsZero sum then DeleteSameExponentsLoop e p rest
    else Mono.mk sum prevExp :: DeleteSameExponentsLoop e p rest

/-- DeleteSameExponents of poly.c; the list returned is `newMonos[0 .. newInd)`.
PolyCreateFromMonos never calls it with `count == 0`. -/
def DeleteSameExponents : List Mono → List Mono
  | [] => []
  | [m] => [m]
  | Mono.mk p e :: rest => DeleteSameExponentsLoop e p rest

/-- PolyCreateFromMonos of poly.c. -/
def PolyCreateFromMonos (myMonos : List Mono) : Poly :=
  match myMonos with
  | [] => PolyZero
  | m :: rest =>
    if rest.length = 0 && PolyIsZero m.p then PolyZero
    else
      let newMonos := DeleteSameExponents (SortMonos (m :: rest))
      if newMonos.length = 0 then PolyZero
      else if IsCoeffTimesXToZero newMonos then
        match newMonos with
        | Mono.mk (Constant c) _ :: _ => Constant c
        | _ => Nested newMonos
      else Nested newMonos

/-- PolyOwnMonos of poly.c. -/
def PolyOwnMonos (monos : List Mono) : Poly := PolyCreateFromMonos monos

/-- PolyCloneMonos of poly.c (DeepCopyofMonoArr, then PolyCreateFromMonos). -/
def PolyCloneMonos (monos : List Mono) : Poly := PolyCreateFromMonos (PolyCloneArr monos)

/-- PolyAddMonos of poly.c (ShallowCopyOfMonoArr, then PolyCreateFromMonos). -/
def PolyAddMonos (monos : List Mono) : Poly := PolyCreateFromMonos monos

mutual
/-- PolyMulByCoeff of poly.c. -/
def PolyMulByCoeff : Poly → Int → Poly
  | Constant a, c => if c = 0 then PolyZero else PolyFromCoeff (wrap64 (a * c))
  | Nested arr, c =>
    if c = 0 then PolyZero
    else
      let result := PolyMulByCoeffArr arr c
      if result.length = 0 then PolyZero else Nested result
/-- The `for` loop of PolyMulByCoeff; the list returned is `result.arr[0 .. indResult)`. -/
def PolyMulByCoeffArr : List Mono → Int → List Mono
  | [], _ => []
  | Mono.mk p e :: rest, c =>
    let partRes := PolyMulByCoeff p c
    if !PolyIsZero partRes then MonoFromPoly partRes e :: PolyMulByCoeffArr rest c
    else PolyMulByCoeffArr rest c
end

mutual
/-- PolyMul of poly.c. -/
def PolyMul : Poly → Poly → Poly
  | Constant a, Constant b => PolyFromCoeff (wrap64 (a * b))
  | Constant a, Nested qs => PolyMulByCoeff (Nested qs) a
  | Nested ps, Constant b => PolyMulByCoeff (Nested ps) b
  | Nested ps, Nested qs => MulTwoPolys ps qs PolyZero
  termination_by p q => sizeOf p + sizeOf q
/-- MulTwoPolys of poly.c, the outer loop (`i` over `poly1->arr`); `result` is
`*result`. -/
def MulTwoPolys : List Mono → List Mono → Poly → Poly
  | [], _, result => result
  | m :: ps, qs, result => MulTwoPolys ps qs (MulTwoPolysInner m qs result)
  termination_by ps qs _ => sizeOf ps + sizeOf qs
/-- The inner loop of MulTwoPolys (`j` over `poly2->arr`) for the monomial `poly1->arr[i]`.
`poly1` and `poly2` are not coefficients here, so `singlePoly` is always the
one-monomial array. `newExp` is a sum in `int`: signed overflow, undefined in C, wraps
on the two's-complement machines the program is built for, and the model wraps. -/
def MulTwoPolysInner : Mono → List Mono → Poly → Poly
  | _, [], result => result
  | Mono.mk p e, Mono.mk q f :: qs, result =>
    let singlePolyCoeff := PolyMul p q
    let newExp := wrap32 (e + f)
    let singlePoly := Nested [MonoFromPoly singlePolyCoeff newExp]
    let resultHelp := PolyAdd result singlePoly
    MulTwoPolysInner (Mono.mk p e) qs (PolyClone resultHelp)
  termination_by m qs _ => sizeOf m + sizeOf qs
end

/-! ## poly.c: degrees, equality, evaluation at a point, composition -/

/-- The `while` loop of Exponentiation: `result`, `basis` and `exponent` as they are
at the loop test. The products are taken in `long` (wrapping); `/` and `%` are those
of C, which truncate towards zero. -/
def ExponentiationLoop (basis exponent result : Int) : Int :=
  if 0 < exponent then
    ExponentiationLoop (wrap64 (basis * basis)) (exponent.tdiv 2)
      (if exponent.tmod 2 = 1 then wrap64 (result * basis) else result)
  else result
  termination_by exponent.toNat
  decreasing_by
    have h : exponent.tdiv 2 = exponent / 2 := Int.tdiv_eq_ediv (by omega) (by omega)
    rw [h]
    omega

/-- Exponentiation of poly.c. -/
def Exponentiation (basis exp : Int) : Int :=
  if basis = 0 ∧ exp = 0 then 1 else ExponentiationLoop basis exp 1

/-- The loop of PolyDegByHelper over the exponents of an array, `maxExp` being the
largest seen so far. -/
def MaxExpLoop : List Mono → Int → Int
  | [], maxExp => maxExp
  | Mono.mk _ e :: rest, maxExp => MaxExpLoop rest (if e > maxExp then e else maxExp)

mutual
/-- PolyDegByHelper of poly.c; the result is the value of `*maxExpIdx` on return.
`varIdx` and `countRecursion` are `size_t`; the depth of a polynomial in memory stays
far below `2 ^ 64`, so `countRecursion + 1` does not wrap. -/
def PolyDegByHelper : Poly → Nat → Nat → Int → Int
  | Constant _, varIdx, countRecursion, maxExpIdx =>
    if varIdx > countRecursion then 0 else maxExpIdx
  | Nested arr, varIdx, countRecursion, maxExpIdx =>
    if varIdx > countRecursion then PolyDegByHelperArr arr varIdx countRecursion maxExpIdx
    else if varIdx = countRecursion then
      let maxExp := MaxExpLoop arr 0
      if maxExp > maxExpIdx then maxExp else maxExpIdx
    else maxExpIdx
/-- The loop of PolyDegByHelper that calls it on every coefficient of the array. -/
def PolyDegByHelperArr : List Mono → Nat → Nat → Int → Int
  | [], _, _, maxExpIdx => maxExpIdx
  | Mono.mk p _ :: rest, varIdx, countRecursion, maxExpIdx =>
    PolyDegByHelperArr rest varIdx countRecursion
      (PolyDegByHelper p varIdx (countRecursion + 1) maxExpIdx)
end

/-- PolyDegBy of poly.c. -/
def PolyDegBy (p : Poly) (varIdx : Nat) : Int :=
  if PolyIsZero p then -1 else PolyDegByHelper p varIdx 0 0

mutual
/-- PolyGetMaxExp of poly.c; the result is the value of `*maxExp` on return. The sum
`currentMaxExp + p->arr[i].exp` is taken in `int` (wrapping). -/
def PolyGetMaxExp : Poly → Int → Int → Int
  | Constant _, currentMaxExp, maxExp => if currentMaxExp > maxExp then currentMaxExp else maxExp
  | Nested arr, currentMaxExp, maxExp => PolyGetMaxExpArr arr currentMaxExp maxExp
/-- The loop of PolyGetMaxExp over the monomials of an array. -/
def PolyGetMaxExpArr : List Mono → Int → Int → Int
  | [], _, maxExp => maxExp
  | Mono.mk p e :: rest, currentMaxExp, maxExp =>
    PolyGetMaxExpArr rest currentMaxExp (PolyGetMaxExp p (wrap32 (currentMaxExp + e)) maxExp)
end

/-- PolyDeg of poly.c. -/
def PolyDeg (p : Poly) : Int :=
  if PolyIsZero p then -1 else PolyGetMaxExp p 0 0

/-- The first loop of PolyIsEq: the exponents of two arrays of the same size agree
index by index. -/
def SameExps : List Mono → List Mono → Bool
  | Mono.mk _ e :: ps, Mono.mk _ f :: qs => if e != f then false else SameExps ps qs
  | _, _ => true

mutual
/-- PolyIsEq of poly.c. -/
def PolyIsEq : Poly → Poly → Bool
  | Constant a, Constant b => a == b
  | Constant _, Nested _ => false
  | Nested _, Constant _ => false
  | Nested ps, Nested qs =>
    if ps.length != qs.length then false
    else if !SameExps ps qs then false
    else PolyIsEqArr ps qs
/-- The second loop of PolyIsEq: the coefficients of two arrays of the same size are
equal index by index. -/
def PolyIsEqArr : List Mono → List Mono → Bool
  | Mono.mk p _ :: ps, Mono.mk q _ :: qs => if !PolyIsEq p q then false else PolyIsEqArr ps qs
  | _, _ => true
end

/-- The loop of PolyAt over the monomials still to add; `result` is the sum so far. -/
def PolyAtLoop (x : Int) : List Mono → Poly → Poly
  | [], result => result
  | Mono.mk p e :: rest, result =>
    let mulBy := Exponentiation x e
    let partialResult := PolyMulByCoeff p mulBy
    let result2 := PolyAdd result partialResult
    PolyAtLoop x rest (PolyClone result2)

/-- PolyAt of poly.c. -/
def PolyAt : Poly → Int → Poly
  | Constant c, _ => PolyClone (Constant c)
  | Nested arr, x => PolyAtLoop x arr PolyZero

/-- PolyExpBySquaring of poly.c; `exp / 2` and `exp % 2` are those of C. -/
def PolyExpBySquaring (basis : Poly) (exp : Int) : Poly :=
  if exp = 0 then PolyFromCoeff 1
  else if PolyIsZero basis then PolyZero
  else
    match basis with
    | Constant c => PolyFromCoeff (Exponentiation c exp)
    | Nested arr =>
      let sqrtResult := PolyExpBySquaring (Nested arr) (exp.tdiv 2)
      let result := PolyMul sqrtResult sqrtResult
      if exp.tmod 2 = 1 then PolyMul result (Nested arr) else result
  termination_by exp.natAbs
  decreasing_by
    rename_i h _
    rw [Int.natAbs_tdiv]
    have hpos : 0 < exp.natAbs := Int.natAbs_pos.mpr h
    show exp.natAbs / 2 < exp.natAbs
    omega

mutual
/-- PolyComposeHelper of poly.c. The array `q` has `k` entries, so `q[recurrenceLevel]`
is read inside it; the list is that array (a shorter list would make the read fall
outside, and the model then puts the zero polynomial). -/
def PolyComposeHelper : Poly → Nat → List Poly → Nat → Poly
  | Constant c, _, _, _ => PolyClone (Constant c)
  | Nested arr, k, q, recurrenceLevel => PolyComposeLoop arr k q recurrenceLevel PolyZero
/-- The loop of PolyComposeHelper over the monomials still to add; `result` is the
sum so far. -/
def PolyComposeLoop : List Mono → Nat → List Poly → Nat → Poly → Poly
  | [], _, _, _, result => result
  | Mono.mk p e :: rest, k, q, recurrenceLevel, result =>
    let composedCoeff := PolyComposeHelper p k q (recurrenceLevel + 1)
    let substitutedVar :=
      if recurrenceLevel ≥ k then PolyExpBySquaring PolyZero e
      else PolyExpBySquaring (q.getD recurrenceLevel PolyZero) e
    let composedMono := PolyMul composedCoeff substitutedVar
    PolyComposeLoop rest k q recurrenceLevel (PolyAdd result composedMono)
end

/-- PolyCompose of poly.c. -/
def PolyCompose (p : Poly) (k : Nat) (q : List Poly) : Poly := PolyComposeHelper p k q 0

/-! ## poly.c: negation and subtraction -/

mutual
/-- PolyNeg of poly.c; `(-1) * p->coeff` is a product in `long` (wrapping). -/
def PolyNeg : Poly → Poly
  | Constant c => PolyFromCoeff (wrap64 ((-1) * c))
  | Nested arr => Nested (PolyNegArr arr)
/-- The loop of PolyNeg over the monomials of an array. -/
def PolyNegArr : List Mono → List Mono
  | [] => []
  | Mono.mk p e :: rest => MonoFromPoly (PolyNeg p) e :: PolyNegArr rest
end

/-- PolySub of poly.c. -/
def PolySub (p q : Poly) : Poly :=
  let helperQ := PolyNeg q
  PolyAdd p helperQ

/-! ## poly1.c: the earlier PolyAdd -/

mutual
/-- A measure of a polynomial that decreases along the calls of PolyAdd of poly1.c: the
number of arrays and monomials in it. -/
def polyWeight : Poly → Nat
  | Constant _ => 0
  | Nested arr => 1 + monosWeight arr
/-- The measure `polyWeight` for an array of monomials. -/
def monosWeight : List Mono → Nat
  | [] => 0
  | Mono.mk p _ :: rest => 1 + polyWeight p + monosWeight rest
end

namespace poly1

/-- XToZeroFromCoeff of poly1.c: the one-monomial array `c x^0`. -/
def XToZeroFromCoeff (c : Int) : List Mono := [Mono.mk (PolyFromCoeff c) 0]

mutual
/-- PolyAdd of poly1.c. `polyP` and `polyQ` are the arrays of the two operands after
the Constant one, if any, has been wrapped by XToZeroFromCoeff; the source merges
clones of the operands, and a clone is the polynomial itself rebuilt node by node, so
the merge is written on the operands. As in PolyAdd of poly.c, `result` is the array
filled by AddTwoArraysTogether and the two tail copies, and `numOfDifferentElem` is the
number of entries written to it. -/
def PolyAdd : Poly → Poly → Poly
  | Constant a, Constant b => PolyFromCoeff (wrap64 (a + b))
  | Constant a, Nested qs =>
    if PolyIsZero (Constant a) then PolyClone (Nested qs)
    else
      match AddTwoArraysTogether (XToZeroFromCoeff a) qs with
      | [] => PolyZero
      | [Mono.mk (Constant c) 0] => Constant c
      | result => Nested result
  | Nested ps, Constant b =>
    if PolyIsZero (Constant b) then PolyClone (Nested ps)
    else
      match AddTwoArraysTogether ps (XToZeroFromCoeff b) with
      | [] => PolyZero
      | [Mono.mk (Constant c) 0] => Constant c
      | result => Nested result
  | Nested ps, Nested qs =>
    match AddTwoArraysTogether ps qs with
    | [] => PolyZero
    | [Mono.mk (Constant c) 0] => Constant c
    | result => Nested result
  termination_by p q => 2 * (polyWeight p + polyWeight q) + 1
  decreasing_by
    all_goals simp only [XToZeroFromCoeff, PolyFromCoeff, polyWeight, monosWeight]
    all_goals omega
/-- AddTwoArraysTogether of poly1.c followed by the two CopyArrayIntoAnother calls of
PolyAdd; the list returned is what has been written to `result->arr`. -/
def AddTwoArraysTogether : List Mono → List Mono → List Mono
  | [], qs => PolyCloneArr qs
  | Mono.mk p e :: ps, [] => PolyCloneArr (Mono.mk p e :: ps)
  | Mono.mk p e :: ps, Mono.mk q f :: qs =>
    if e < f then Mono.mk (PolyClone p) e :: AddTwoArraysTogether ps (Mono.mk q f :: qs)
    else if e > f then Mono.mk (PolyClone q) f :: AddTwoArraysTogether (Mono.mk p e :: ps) qs
    else
      let temp := PolyAdd p q
      if !PolyIsZero temp then Mono.mk temp f :: AddTwoArraysTogether ps qs
      else AddTwoArraysTogether ps qs
  termination_by ps qs => 2 * (monosWeight ps + monosWeight qs)
  decreasing_by
    all_goals simp only [polyWeight, monosWeight]
    all_goals omega
end

end poly1

/-! ## C library functions used by the parser -/

/-- The NUL byte that terminates a C string. -/
def NUL : Char := Char.ofNat 0

/-- The value of `ERANGE` in errno.h. -/
def ERANGE : Int := 34

/-- isdigit of ctype.h. -/
def isdigit (c : Char) : Bool := 48 ≤ c.toNat && c.toNat ≤ 57

/-- isspace of ctype.h: space, `\t`, `\n`, `\v`, `\f`, `\r`. -/
def isspace (c : Char) : Bool := c.toNat == 32 || (9 ≤ c.toNat && c.toNat ≤ 13)

/-- The C string at the start of a buffer: the bytes before the first NUL. -/
def cstr (buf : List Char) : List Char := buf.takeWhile (fun c => c != NUL)

/-- Value of a byte as a digit of the given base (letters count from 10). -/
def digitVal (base : Nat) (c : Char) : Option Nat :=
  let v :=
    if isdigit c then c.toNat - 48
    else if 97 ≤ c.toNat && c.toNat ≤ 122 then c.toNat - 87
    else if 65 ≤ c.toNat && c.toNat ≤ 90 then c.toNat - 55
    else 36
  if v < base then some v else none

/-- Reads the longest run of digits of the given base: the number read and what follows. -/
def scanDigits (base : Nat) : List Char → Nat → Nat × List Char
  | [], acc => (acc, [])
  | c :: cs, acc =>
    match digitVal base c with
    | some d => scanDigits base cs (acc * base + d)
    | none => (acc, c :: cs)

/-- What `strtol` gives back: the value, the string `*endptr` points to, and whether
it has set `errno` to `ERANGE`. -/
structure StrtolResult where
  value : Int
  pEnd : List Char
  erange : Bool

/-- The sign read by `strtol` and `sscanf`, and what follows it. -/
def scanSign : List Char → Bool × List Char
  | c :: cs => if c.toNat == 45 then (true, cs) else if c.toNat == 43 then (false, cs) else (false, c :: cs)
  | [] => (false, [])

/-- The base `strtol` works in and the digits it reads: with `base == 0` a leading
`0x` before a hexadecimal digit selects 16, another leading `0` selects 8, anything
else 10. -/
def scanBase (base : Nat) (s : List Char) : Nat × List Char :=
  if base == 0 then
    match s with
    | z :: x :: h :: rest =>
      if z.toNat == 48 && (x.toNat == 120 || x.toNat == 88) && (digitVal 16 h).isSome
      then (16, h :: rest)
      else if z.toNat == 48 then (8, s) else (10, s)
    | z :: _ => if z.toNat == 48 then (8, s) else (10, s)
    | [] => (10, s)
  else (base, s)

/-- The call `strtol(nptr, &pEnd, base)` on a C string: white space, an optional sign, then
digits; no digit at all gives 0 with `pEnd == nptr`; a value outside `long` gives
`LONG_MAX` or `LONG_MIN` and sets `errno` to `ERANGE`. -/
def strtol (nptr : List Char) (base : Nat) : StrtolResult :=
  let afterSpace := nptr.dropWhile isspace
  let (neg, afterSign) := scanSign afterSpace
  let (b, digits) := scanBase base afterSign
  match digits with
  | [] => ⟨0, nptr, false⟩
  | c :: _ =>
    if (digitVal b c).isNone then ⟨0, nptr, false⟩
    else
      let (n, rest) := scanDigits b digits 0
      if neg then
        if n > 2 ^ 63 then ⟨-2 ^ 63, rest, true⟩ else ⟨-(n : Int), rest, false⟩
      else
        if n ≥ 2 ^ 63 then ⟨2 ^ 63 - 1, rest, true⟩ else ⟨(n : Int), rest, false⟩

/-- What `sscanf(s, "%d", &e)` gives back. -/
inductive ScanfInt where
  | eof : ScanfInt
  | noMatch : ScanfInt
  | ok (e : Int) (erange : Bool) : ScanfInt

/-- The call `sscanf(s, "%d", &e)` on a C string: `EOF` when the input ends before a
conversion starts, 0 items when the first byte after white space starts no number,
else 1 item. The C standard leaves a value outside `int` undefined; as in glibc the
number is converted as by `strtol` (which sets `ERANGE` outside `long`) and stored
truncated to 32 bits. -/
def sscanfInt (s : List Char) : ScanfInt :=
  match s.dropWhile isspace with
  | [] => ScanfInt.eof
  | c :: cs =>
    let (neg, afterSign) := scanSign (c :: cs)
    match afterSign with
    | [] => ScanfInt.noMatch
    | d :: _ =>
      if !isdigit d then ScanfInt.noMatch
      else
        let (n, _) := scanDigits 10 afterSign 0
        if neg then
          if n > 2 ^ 63 then ScanfInt.ok (wrap32 (-2 ^ 63)) true
          else ScanfInt.ok (wrap32 (-(n : Int))) false
        else
          if n ≥ 2 ^ 63 then ScanfInt.ok (wrap32 (2 ^ 63 - 1)) true
          else ScanfInt.ok (wrap32 (n : Int)) false

/-- The call `sscanf(word, "%s", out)`: skips white space and copies the bytes up to the next
white space or the end of the C string, then a NUL. With nothing to copy it returns
`EOF` and leaves `out` unwritten: `none`. -/
def sscanfStr (word : List Char) : Option (List Char) :=
  let w := ((cstr word).dropWhile isspace).takeWhile (fun c => !isspace c)
  if w.isEmpty then none else some (w ++ [NUL])

/-- The text of `printf("%ld", x)` and `printf("%d", x)`: the signed decimal numeral. -/
def printInt (x : Int) : List Char :=
  if x < 0 then Char.ofNat 45 :: Nat.toDigits 10 x.natAbs else Nat.toDigits 10 x.natAbs

/-! ## tools.c -/

/-- Cut of tools.h; part3 ships only the declaration, the body is that of `cut` in
part2/src/tools.c: the bytes `line[wordBegin .. wordEnd)` read with
`sscanf(word, "%s", ...)`. `none` when `wordEnd` lies outside the initialised bytes
or before `wordBegin`, or nothing is copied. What `sscanf` does to `errno` is not
modelled: the model leaves `errno` as it was, while the C library may change it when
the word is blank and nothing is copied. -/
def Cut (line : List Char) (wordBegin wordEnd : Nat) : Option (List Char) :=
  if wordBegin ≤ wordEnd && wordEnd < line.length then
    sscanfStr ((line.set wordEnd NUL).drop wordBegin)
  else none

/-! ## poly_execute.c

Buffers are lists of their initialised bytes, the terminating NUL included; a result
`none` stands for an execution that reads outside them (undefined behaviour) or, for
`Parse`, that has used up its recursion budget. -/

/-- IsStringCoeff of poly_execute.c. -/
def IsStringCoeff (polyS : List Char) (lineSize : Nat) : Bool :=
  (List.range (lineSize - 1)).all (fun i =>
    let c := polyS.getD i NUL
    if c == '-' then i == 0 else isdigit c)

/-- IsCorrectSign of poly_execute.c. -/
def IsCorrectSign (c : Char) : Bool :=
  c == '+' || c == '-' || c == '(' || c == ')' || isdigit c || c == ','

/-- The `for` loop of HowManyMonos over the indices `i, i + 1, ...` (`n` of them). -/
def HowManyMonosLoop (polyS : List Char) : Nat → Nat → Int → Int → Int → Int
  | 0, _, howMany, _, _ => howMany
  | n + 1, i, howMany, numOfLeftBraces, numOfRightBraces =>
    let c := polyS.getD i NUL
    let l := if c == '(' then numOfLeftBraces + 1 else numOfLeftBraces
    let r := if c == ')' then numOfRightBraces + 1 else numOfRightBraces
    let h := if l == r && c == '+' && r > 0 then howMany + 1 else howMany
    HowManyMonosLoop polyS n (i + 1) h l r

/-- HowManyMonos of poly_execute.c. -/
def HowManyMonos (polyS : List Char) (lineSize : Nat) : Int :=
  HowManyMonosLoop polyS (lineSize - 1) 0 1 0 0

/-- The `for` loop of IsCorrectPoly over the indices `i, i + 1, ...` (`n` of them);
`none` is `return false`, otherwise the three counters after the loop. -/
def IsCorrectPolyLoop (polyS : List Char) : Nat → Nat → Int → Int → Int → Option (Int × Int × Int)
  | 0, _, numOfLeftBraces, numOfRightBraces, numOfComas =>
    some (numOfLeftBraces, numOfRightBraces, numOfComas)
  | n + 1, i, numOfLeftBraces, numOfRightBraces, numOfComas =>
    let c := polyS.getD i NUL
    let prev := polyS.getD (i - 1) NUL
    let next := polyS.getD (i + 1) NUL
    if !IsCorrectSign c then none
    else if c == ',' && (prev != ')' && !isdigit prev) then none
    else if c == ',' && !isdigit next then none
    else if c == '(' && (prev != '+' && prev != '(') then none
    else if c == '(' && (next != '(' && next != '-' && !isdigit next) then none
    else if c == ')' && !isdigit prev then none
    else if c == ')' && (next != '+' && next != ',' && next != '\n') then none
    else if c == '-' && prev != '(' then none
    else if c == '-' && !isdigit next then none
    else if c == '+' && prev != ')' then none
    else if c == '+' && next != '(' then none
    else
      let comas := if c == ',' then numOfComas + 1 else numOfComas
      let l := if c == '(' then numOfLeftBraces + 1 else numOfLeftBraces
      let r := if c == ')' then numOfRightBraces + 1 else numOfRightBraces
      if r > l then none else IsCorrectPolyLoop polyS n (i + 1) l r comas

/-- IsCorrectPoly of poly_execute.c. -/
def IsCorrectPoly (polyS : List Char) (lineSize : Nat) : Bool :=
  if IsStringCoeff polyS lineSize then true
  else if polyS.getD 0 NUL != '(' then false
  else if polyS.getD (lineSize - 1) NUL != '\n' && polyS.getD (lineSize - 1) NUL != ')' then false
  else
    match IsCorrectPolyLoop polyS (lineSize - 2) 1 1 0 0 with
    | none => false
    | some (numOfLeftBraces, numOfRightBraces, numOfComas) =>
      if numOfLeftBraces != numOfRightBraces then false
      else if numOfRightBraces != numOfComas then false
      else true

/-- ParseCoeff of poly_execute.c: the coefficient, `okPoly` and `errno` afterwards. -/
def ParseCoeff (polyS : List Char) (okPoly : Bool) (errno : Int) : Int × Bool × Int :=
  let r := strtol (cstr polyS) 10
  let errno2 := if r.erange then ERANGE else errno
  let ok := if errno2 == ERANGE || (r.pEnd != ['\n'] && r.pEnd != []) then false else okPoly
  (r.value, ok, errno2)

/-- The `while` loop of IterateTillMonoEnd at index `i` with `n` indices left below
`lineSize`; `lineSize - 1` when the loop runs out. -/
def IterateTillMonoEndLoop (polyS : List Char) (lineSize : Nat) : Nat → Nat → Int → Int → Nat
  | 0, _, _, _ => lineSize - 1
  | n + 1, i, numOfLeftBraces, numOfRightBraces =>
    let c := polyS.getD i NUL
    let l := if c == '(' then numOfLeftBraces + 1 else numOfLeftBraces
    let r := if c == ')' then numOfRightBraces + 1 else numOfRightBraces
    if l == r && c == '+' && r > 0 then i
    else IterateTillMonoEndLoop polyS lineSize n (i + 1) l r

/-- IterateTillMonoEnd of poly_execute.c (`indStart <= lineSize` on every call). -/
def IterateTillMonoEnd (indStart lineSize : Nat) (polyS : List Char) : Nat :=
  if indStart < lineSize then IterateTillMonoEndLoop polyS lineSize (lineSize - indStart) indStart 0 0
  else indStart - 1

/-- CutMono of poly_execute.c: the monomial cut out, the buffer with the NUL written
into it, and the new `*indStart`. -/
def CutMono (polyS : List Char) (lineSize indStart : Nat) : Option (List Char × List Char × Nat) :=
  let firstIndexAfterMono := IterateTillMonoEnd indStart lineSize polyS
  if firstIndexAfterMono < polyS.length then
    let polyS2 := polyS.set firstIndexAfterMono NUL
    match sscanfStr (polyS2.drop indStart) with
    | none => none
    | some extractedMono => some (extractedMono, polyS2, firstIndexAfterMono)
  else none

/-- The loop of FindComaBeforeExp, about to read index `i - 1`; `none` when `i`
passes below 0 or the byte read is not initialised. -/
def FindComaBeforeExpLoop (monoToParse : List Char) : Nat → Option Nat
  | 0 => none
  | i + 1 =>
    match monoToParse.get? i with
    | none => none
    | some c => if c == ',' then some i else FindComaBeforeExpLoop monoToParse i

/-- FindComaBeforeExp of poly_execute.c. -/
def FindComaBeforeExp (monoToParse : List Char) (monoSize : Nat) : Option Nat :=
  FindComaBeforeExpLoop monoToParse monoSize

/-- CutExp of poly_execute.c: the exponent cut out and the buffer afterwards (the
byte at `monoSize - 1` is overwritten with a right parenthesis). -/
def CutExp (monoToParse : List Char) (monoSize expBegin : Nat) : Option (List Char × List Char) :=
  let firstIndexAfterExp := monoSize - 1
  if 0 < monoSize && firstIndexAfterExp < monoToParse.length then
    match sscanfStr ((monoToParse.set firstIndexAfterExp NUL).drop expBegin) with
    | none => none
    | some extractedExp => some (extractedExp, monoToParse.set firstIndexAfterExp ')')
  else none

/-- ParseExp of poly_execute.c: the exponent, `okPoly` and `errno` afterwards. When
`sscanf` returns `EOF` the exponent returned is not initialised, but the polynomial
is rejected whatever it is (the model puts 0); when `sscanf` converts nothing the
uninitialised exponent is used: `none`. -/
def ParseExp (expS : List Char) (okPoly : Bool) (errno : Int) : Option (Int × Bool × Int) :=
  match sscanfInt (cstr expS) with
  | ScanfInt.eof => some (0, false, errno)
  | ScanfInt.noMatch => none
  | ScanfInt.ok e erange => some (e, okPoly, if erange then ERANGE else errno)

/-- The loop of FindPolyAsCoeffBegin, about to read index `i - 1`; `none` when `i`
passes below 0 or the byte read is not initialised. -/
def FindPolyAsCoeffBeginLoop (monoToParse : List Char) : Nat → Int → Int → Option Nat
  | 0, _, _ => none
  | i + 1, numOfLeftBraces, numOfRightBraces =>
    match monoToParse.get? i with
    | none => none
    | some c =>
      let r := if c == ')' then numOfRightBraces + 1 else numOfRightBraces
      let l := if c == '(' then numOfLeftBraces + 1 else numOfLeftBraces
      if l == r && c == '(' && r > 0 then some i
      else FindPolyAsCoeffBeginLoop monoToParse i l r

/-- FindPolyAsCoeffBegin of poly_execute.c (the first index read is `monoSize`). -/
def FindPolyAsCoeffBegin (monoToParse : List Char) (monoSize : Nat) : Option Nat :=
  FindPolyAsCoeffBeginLoop monoToParse (monoSize + 1) 0 0

/-- ParseMono of poly_execute.c; `parse` is the recursive call of Parse. The result
is the monomial, `okPoly` and `errno`. -/
def ParseMono (parse : List Char → Nat → Bool → Int → Option (Poly × Bool × Int))
    (monoToParse : List Char) (monoSize : Nat) (okPoly : Bool) (errno : Int) :
    Option (Mono × Bool × Int) := do
  let comma ← FindComaBeforeExp monoToParse monoSize
  let expBegin := comma + 1
  let (expS, mono2) ← CutExp monoToParse monoSize expBegin
  let (exp, ok1, errno1) ← ParseExp expS okPoly errno
  let polyAsCoeffBegin := (← FindPolyAsCoeffBegin mono2 monoSize) + 1
  let polyAsCoeffEnd := expBegin - 1
  let coeffS ← Cut mono2 polyAsCoeffBegin polyAsCoeffEnd
  if polyAsCoeffEnd = 0 then none
  else
    let last ← mono2.get? (polyAsCoeffEnd - 1)
    if last == ')' then
      let lineSize := polyAsCoeffEnd - polyAsCoeffBegin + 1
      let (p, ok2, errno2) ← parse coeffS lineSize ok1 errno1
      some (Mono.mk p exp, ok2, errno2)
    else
      let r := strtol (cstr coeffS) 0
      let errno2 := if r.erange then ERANGE else errno1
      let ok2 := if errno2 == ERANGE then false else ok1
      some (Mono.mk (PolyFromCoeff r.value) exp, ok2, errno2)

/-- The `for` loop of Parse with `n` monomials still to cut; the state is the buffer,
`indStart`, the monomials parsed so far, `okPoly` and `errno`. -/
def ParseLoop (parseMono : List Char → Nat → Bool → Int → Option (Mono × Bool × Int))
    (lineSize : Nat) :
    Nat → List Char → Nat → List Mono → Bool → Int → Option (List Mono × Bool × Int)
  | 0, _, _, monos, okPoly, errno => some (monos, okPoly, errno)
  | n + 1, polyS, indStart, monos, okPoly, errno =>
    let monoBegin := indStart
    match CutMono polyS lineSize indStart with
    | none => none
    | some (monoToParse, polyS2, indStart1) =>
      let indStart2 := if indStart1 < lineSize then indStart1 + 1 else indStart1
      let monoSize := indStart2 - monoBegin - 1
      match parseMono monoToParse monoSize okPoly errno with
      | none => none
      | some (mono, ok2, errno2) =>
        ParseLoop parseMono lineSize n polyS2 indStart2 (monos ++ [mono]) ok2 errno2

/-- Parse of poly_execute.c, with a budget for the depth of the recursion through
ParseMono (each nested call is on a shorter string, so `lineSize` is enough). The
result is the polynomial, `okPoly` and `errno`. -/
def Parse : Nat → List Char → Nat → Bool → Int → Option (Poly × Bool × Int)
  | 0, _, _, _, _ => none
  | fuel + 1, polyS, lineSize, okPoly, errno =>
    let howMany := HowManyMonos polyS lineSize
    match ParseLoop (ParseMono (Parse fuel)) lineSize howMany.toNat polyS 0 [] okPoly errno with
    | none => none
    | some (monos, ok2, errno2) => some (PolyAddMonos monos, ok2, errno2)

/-! ## stack.c and instructions.c -/

/-- The operand stack: the polynomials `arr[0 .. pointer)`, the top first. -/
abbrev Stack := List Poly

/-- Push of stack.c. -/
def Push (stack : Stack) (newPoly : Poly) : Stack := PolyClone newPoly :: stack

/-- What a call of ParsePoly leaves behind: the stack, whether it has written
`ERROR <n> WRONG POLY` to stderr, and `errno`. -/
structure ParsePolyResult where
  stack : Stack
  wrongPoly : Bool
  errno : Int

/-- ParsePoly of poly_execute.c on the line `polyS` (of `lineSize` bytes, as `getline`
returns it, followed by a NUL), with the value `errno` has on entry. -/
def ParsePoly (stack : Stack) (polyS : List Char) (errno : Int) : Option ParsePolyResult :=
  let lineSize := polyS.length
  let buf := polyS ++ [NUL]
  if !IsCorrectPoly buf lineSize then some ⟨stack, true, errno⟩
  else if IsStringCoeff buf lineSize then
    let (c, okPoly, errno2) := ParseCoeff buf true errno
    if okPoly then some ⟨Push stack (PolyFromCoeff c), false, errno2⟩
    else some ⟨stack, true, errno2⟩
  else
    match Parse lineSize buf lineSize true errno with
    | none => none
    | some (newPoly, okPoly, errno2) =>
      if okPoly then some ⟨Push stack newPoly, false, errno2⟩
      else some ⟨stack, true, errno2⟩

mutual
/-- PrintPoly of instructions.c: the text written for the monomials of an array, the
first of them at index `i`. -/
def PrintPoly : List Mono → Nat → List Char
  | [], _ => []
  | m :: rest, i =>
    (if i == 0 then ['('] else ['+', '(']) ++ PrintMono m ++ PrintPoly rest (i + 1)
/-- The body of the loop of PrintPoly after the opening parenthesis. -/
def PrintMono : Mono → List Char
  | Mono.mk p e => PrintCoeff p ++ [','] ++ printInt e ++ [')']
/-- The text PrintPoly writes for the coefficient of a monomial. -/
def PrintCoeff : Poly → List Char
  | Constant c => printInt c
  | Nested arr => PrintPoly arr 0
end

/-- PRINT of instructions.c: the text written to stdout; `none` for an empty stack
(nothing is written to stdout). -/
def PRINT (stack : Stack) : Option (List Char) :=
  match stack with
  | [] => none
  | Constant c :: _ => some (printInt c ++ ['\n'])
  | Nested arr :: _ => some (PrintPoly arr 0 ++ ['\n'])

/-! ## stack.c and instructions.c: the commands -/

/-- What a command leaves behind: the stack, the text it has written to stdout, and
whether it has written `ERROR <n> STACK UNDERFLOW` to stderr. -/
structure CommandResult where
  stack : Stack
  stdout : List Char
  stackUnderflow : Bool

/-- IsStackEmpty of stack.c. -/
def IsStackEmpty (stack : Stack) : Bool := stack.length == 0

/-- IsStackSingle of stack.c. -/
def IsStackSingle (stack : Stack) : Bool := stack.length == 1

/-- Modelled from the spec: IsStackOfSizeAtLeastN, which COMPOSE calls, is declared and
defined in no file under src (`stack.h` and `stack.c` exist only for part 2, which has
no COMPOSE). By its name and by section 4.5 of the specification (`COMPOSE k` requires
at least `k + 1` polynomials on the stack) it tells whether the stack holds at least
`n` polynomials. -/
def IsStackOfSizeAtLeastN (stack : Stack) (n : Nat) : Bool := decide (n ≤ stack.length)

/-- Pop of stack.c. -/
def Pop (stack : Stack) : CommandResult :=
  match stack with
  | [] => ⟨stack, [], true⟩
  | _ :: rest => ⟨rest, [], false⟩

/-- POP of instructions.c. -/
def POP (stack : Stack) : CommandResult := Pop stack

/-- The operations of TwoArgOperation (`enum TwoArgOp`). -/
inductive TwoArgOp where
  | add : TwoArgOp
  | sub : TwoArgOp
  | mul : TwoArgOp

/-- TwoArgOperation of instructions.c: `PolyA` is the top of the stack and `PolyB` the
polynomial under it; both are popped and the result is pushed. -/
def TwoArgOperation (stack : Stack) (operation : TwoArgOp) : CommandResult :=
  match stack with
  | [] => ⟨stack, [], true⟩
  | [_] => ⟨stack, [], true⟩
  | polyA :: polyB :: _ =>
    let polyRes :=
      match operation with
      | TwoArgOp.add => PolyAdd polyA polyB
      | TwoArgOp.sub => PolySub polyA polyB
      | TwoArgOp.mul => PolyMul polyA polyB
    let r1 := POP stack
    let r2 := POP r1.stack
    ⟨Push r2.stack polyRes, r1.stdout ++ r2.stdout, r1.stackUnderflow || r2.stackUnderflow⟩

/-- ADD of instructions.c. -/
def ADD (stack : Stack) : CommandResult := TwoArgOperation stack TwoArgOp.add

/-- SUB of instructions.c. -/
def SUB (stack : Stack) : CommandResult := TwoArgOperation stack TwoArgOp.sub

/-- MUL of instructions.c. -/
def MUL (stack : Stack) : CommandResult := TwoArgOperation stack TwoArgOp.mul

/-- IS_EQ of instructions.c. -/
def IS_EQ (stack : Stack) : CommandResult :=
  match stack with
  | [] => ⟨stack, [], true⟩
  | [_] => ⟨stack, [], true⟩
  | polyA :: polyB :: _ =>
    if PolyIsEq polyA polyB then ⟨stack, ['1', '\n'], false⟩ else ⟨stack, ['0', '\n'], false⟩

/-- DEG of instructions.c. -/
def DEG (stack : Stack) : CommandResult :=
  match stack with
  | [] => ⟨stack, [], true⟩
  | polyTop :: _ => ⟨stack, printInt (PolyDeg polyTop) ++ ['\n'], false⟩

/-- DEG_BY of instructions.c. -/
def DEG_BY (stack : Stack) (idx : Nat) : CommandResult :=
  match stack with
  | [] => ⟨stack, [], true⟩
  | polyTop :: _ => ⟨stack, printInt (PolyDegBy polyTop idx) ++ ['\n'], false⟩

/-- AT of instructions.c. -/
def AT (stack : Stack) (x : Int) : CommandResult :=
  match stack with
  | [] => ⟨stack, [], true⟩
  | polyTop :: _ =>
    let polyRes := PolyAt polyTop x
    let r := POP stack
    ⟨Push r.stack polyRes, r.stdout, r.stackUnderflow⟩

/-- NEG of instructions.c. -/
def NEG (stack : Stack) : CommandResult :=
  match stack with
  | [] => ⟨stack, [], true⟩
  | polyTop :: _ =>
    let polyRes := PolyNeg polyTop
    let r := POP stack
    ⟨Push r.stack polyRes, r.stdout, r.stackUnderflow⟩

/-- ZERO of instructions.c. -/
def ZERO (stack : Stack) : CommandResult := ⟨Push stack PolyZero, [], false⟩

/-- IS_COEFF of instructions.c. -/
def IS_COEFF (stack : Stack) : CommandResult :=
  match stack with
  | [] => ⟨stack, [], true⟩
  | polyTop :: _ =>
    if PolyIsCoeff polyTop then ⟨stack, ['1', '\n'], false⟩ else ⟨stack, ['0', '\n'], false⟩

/-- IS_ZERO of instructions.c. -/
def IS_ZERO (stack : Stack) : CommandResult :=
  match stack with
  | [] => ⟨stack, [], true⟩
  | polyTop :: _ =>
    if PolyIsZero polyTop then ⟨stack, ['1', '\n'], false⟩ else ⟨stack, ['0', '\n'], false⟩

/-- CLONE of instructions.c. -/
def CLONE (stack : Stack) : CommandResult :=
  match stack with
  | [] => ⟨stack, [], true⟩
  | polyTop :: _ => ⟨Push stack (PolyClone polyTop), [], false⟩

/-- CreateComposeArgumentsArray of instructions.c: the array `q` and the stack left.
The loop reads `Top(stack)` and lowers `pointer` without looking at it; `none` is a
read below the bottom of the stack. -/
def CreateComposeArgumentsArray : Stack → Nat → Option (List Poly × Stack)
  | stack, 0 => some ([], stack)
  | [], _ + 1 => none
  | top :: rest, k + 1 =>
    match CreateComposeArgumentsArray rest k with
    | none => none
    | some (q, stack2) => some (q ++ [top], stack2)

/-- COMPOSE of instructions.c. -/
def COMPOSE (stack : Stack) (k : Nat) : Option CommandResult :=
  if !IsStackOfSizeAtLeastN stack 1 then some ⟨stack, [], true⟩
  else
    match stack with
    | [] => none
    | mainPoly :: stack1 =>
      if !IsStackOfSizeAtLeastN stack1 k then some ⟨mainPoly :: stack1, [], true⟩
      else
        match CreateComposeArgumentsArray stack1 k with
        | none => none
        | some (q, stack2) =>
          let result := PolyCompose mainPoly k q
          some ⟨Push stack2 result, [], false⟩

/-! ## instruction_scan.c and read_input.c -/

/-- What `strtoul` gives back: the value, the string `*endptr` points to, and whether
it has set `errno` to `ERANGE`. -/
structure StrtoulResult where
  value : Nat
  pEnd : List Char
  erange : Bool

/-- The call `strtoul(nptr, &pEnd, base)` on a C string: white space, an optional sign,
then digits; no digit at all gives 0 with `pEnd == nptr`; a value outside
`unsigned long` gives `ULONG_MAX` and sets `errno` to `ERANGE`; after a minus sign the
value is negated in `unsigned long`. -/
def strtoul (nptr : List Char) (base : Nat) : StrtoulResult :=
  let afterSpace := nptr.dropWhile isspace
  let (neg, afterSign) := scanSign afterSpace
  let (b, digits) := scanBase base afterSign
  match digits with
  | [] => ⟨0, nptr, false⟩
  | c :: _ =>
    if (digitVal b c).isNone then ⟨0, nptr, false⟩
    else
      let (n, rest) := scanDigits b digits 0
      if n ≥ 2 ^ 64 then ⟨2 ^ 64 - 1, rest, true⟩
      else if neg then ⟨(2 ^ 64 - n) % 2 ^ 64, rest, false⟩
      else ⟨n, rest, false⟩

/-- The state of the calculator between two lines: the stack, `errno`, and the text
written so far to stdout and to stderr. -/
structure CalcState where
  stack : Stack
  errno : Int
  stdout : List Char
  stderr : List Char

/-- The text of `fprintf(stderr, "ERROR %d <what>\n", lineNumber)`; the calls that use
`%u` write the same digits, the line number being positive. -/
def errorMessage (lineNumber : Nat) (what : String) : List Char :=
  "ERROR ".toList ++ printInt (lineNumber : Int) ++ [' '] ++ what.toList ++ ['\n']

/-- The state after a command of instructions.c has run on the stack of `st` at line
`lineNumber`: its text is added to stdout and its STACK UNDERFLOW report to stderr. -/
def afterCommand (st : CalcState) (lineNumber : Nat) (r : CommandResult) : CalcState :=
  ⟨r.stack, st.errno, st.stdout ++ r.stdout,
    if r.stackUnderflow then st.stderr ++ errorMessage lineNumber "STACK UNDERFLOW"
    else st.stderr⟩

/-- The state after a diagnostic other than STACK UNDERFLOW has been written. -/
def afterError (st : CalcState) (lineNumber : Nat) (what : String) : CalcState :=
  ⟨st.stack, st.errno, st.stdout, st.stderr ++ errorMessage lineNumber what⟩

/-- The test `memcmp(s1, s2, n) == 0` on two buffers. -/
def memcmpEq (s1 s2 : List Char) (n : Nat) : Bool := s1.take n == s2.take n

/-- ExecuteInstruction of instruction_scan.c; `instruction` is the buffer of `getline`
(`lineSize` bytes and a NUL). The string literals are followed by their NUL. -/
def ExecuteInstruction (st : CalcState) (lineNumber : Nat) (instruction : List Char)
    (lineSize : Nat) : CalcState :=
  let instruction2 :=
    if instruction.getD (lineSize - 1) NUL != '\n' then instruction.set lineSize '\n'
    else instruction
  if memcmpEq instruction2 ("ADD\n".toList ++ [NUL]) (lineSize + 1) then
    afterCommand st lineNumber (ADD st.stack)
  else if memcmpEq instruction2 ("ZERO\n".toList ++ [NUL]) (lineSize + 1) then
    afterCommand st lineNumber (ZERO st.stack)
  else if memcmpEq instruction2 ("SUB\n".toList ++ [NUL]) (lineSize + 1) then
    afterCommand st lineNumber (SUB st.stack)
  else if memcmpEq instruction2 ("MUL\n".toList ++ [NUL]) (lineSize + 1) then
    afterCommand st lineNumber (MUL st.stack)
  else if memcmpEq instruction2 ("IS_COEFF\n".toList ++ [NUL]) (lineSize + 1) then
    afterCommand st lineNumber (IS_COEFF st.stack)
  else if memcmpEq instruction2 ("IS_ZERO\n".toList ++ [NUL]) (lineSize + 1) then
    afterCommand st lineNumber (IS_ZERO st.stack)
  else if memcmpEq instruction2 ("NEG\n".toList ++ [NUL]) (lineSize + 1) then
    afterCommand st lineNumber (NEG st.stack)
  else if memcmpEq instruction2 ("IS_EQ\n".toList ++ [NUL]) (lineSize + 1) then
    afterCommand st lineNumber (IS_EQ st.stack)
  else if memcmpEq instruction2 ("DEG\n".toList ++ [NUL]) (lineSize + 1) then
    afterCommand st lineNumber (DEG st.stack)
  else if memcmpEq instruction2 ("POP\n".toList ++ [NUL]) (lineSize + 1) then
    afterCommand st lineNumber (POP st.stack)
  else if memcmpEq instruction2 ("PRINT\n".toList ++ [NUL]) (lineSize + 1) then
    match PRINT st.stack with
    | none => afterCommand st lineNumber ⟨st.stack, [], true⟩
    | some text => afterCommand st lineNumber ⟨st.stack, text, false⟩
  else if memcmpEq instruction2 ("CLONE\n".toList ++ [NUL]) (lineSize + 1) then
    afterCommand st lineNumber (CLONE st.stack)
  else if memcmpEq instruction2 ("DEG_BY\n".toList ++ [NUL]) (lineSize + 1) then
    afterError st lineNumber "DEG BY WRONG VARIABLE"
  else if memcmpEq instruction2 ("AT\n".toList ++ [NUL]) (lineSize + 1) then
    afterError st lineNumber "AT WRONG VALUE"
  else if memcmpEq instruction2 ("COMPOSE\n".toList ++ [NUL]) (lineSize + 1) then
    afterError st lineNumber "COMPOSE WRONG PARAMETER"
  else afterError st lineNumber "WRONG COMMAND"

/-- DoesLineContainSpace of instruction_scan.c. -/
def DoesLineContainSpace (line : List Char) (lineSize : Nat) : Bool :=
  (List.range lineSize).any (fun i => line.getD i NUL == ' ')

/-- FindSpace of instruction_scan.c. -/
def FindSpace (line : List Char) (lineSize : Nat) : Nat :=
  match (List.range lineSize).find? (fun i => line.getD i NUL == ' ') with
  | some i => i
  | none => 0

/-- IsCorrectDegByComposeEnd of instruction_scan.c. -/
def IsCorrectDegByComposeEnd (line : List Char) (lineSize spaceInd : Nat) : Bool :=
  (List.range lineSize).all (fun i =>
    if i < spaceInd + 1 then true
    else if !isdigit (line.getD i NUL) then
      (if !(i == lineSize - 1 && line.getD i NUL == '\n') then false else true)
    else true)

/-- IsCorrectAtEnd of instruction_scan.c. -/
def IsCorrectAtEnd (line : List Char) (lineSize spaceInd : Nat) : Bool :=
  (List.range lineSize).all (fun i =>
    if i < spaceInd + 1 then true
    else if line.getD i NUL == '-' then
      (if i != spaceInd + 1 then false else true)
    else if !isdigit (line.getD i NUL) then
      (if !(i == lineSize - 1 && line.getD i NUL == '\n') then false else true)
    else true)

/-- ExecuteInstructionWithParametr of instruction_scan.c; `line` is the buffer of
`getline` (`lineSize` bytes and a NUL). `none` is a read of a buffer that Cut has left
unwritten, or a read outside the stack in COMPOSE. The tests `memcmp(instruction, ...)`
look at the first bytes of the C string `instruction`. -/
def ExecuteInstructionWithParametr (st : CalcState) (lineNumber : Nat) (line : List Char)
    (lineSize : Nat) : Option CalcState :=
  match Cut line 0 lineSize with
  | none => none
  | some instruction =>
    let spaceInd := FindSpace line lineSize
    let parametr := Cut line spaceInd lineSize
    if memcmpEq (cstr instruction) "DEG_BY".toList 6 then
      if line.getD 6 NUL != ' ' then some (afterError st lineNumber "WRONG COMMAND")
      else if !isdigit (line.getD (6 + 1) NUL) || !IsCorrectDegByComposeEnd line lineSize spaceInd then
        some (afterError st lineNumber "DEG BY WRONG VARIABLE")
      else
        match parametr with
        | none => none
        | some par =>
          let r := strtoul (cstr par) 10
          let errno2 := if r.erange then ERANGE else st.errno
          let st2 : CalcState := ⟨st.stack, errno2, st.stdout, st.stderr⟩
          if errno2 == ERANGE || (r.pEnd != ['\n'] && r.pEnd != []) then
            some (afterError st2 lineNumber "DEG BY WRONG VARIABLE")
          else some (afterCommand st2 lineNumber (DEG_BY st.stack r.value))
    else if memcmpEq (cstr instruction) "COMPOSE".toList 7 then
      if line.getD 7 NUL != ' ' then some (afterError st lineNumber "WRONG COMMAND")
      else if !isdigit (line.getD (7 + 1) NUL) || !IsCorrectDegByComposeEnd line lineSize spaceInd then
        some (afterError st lineNumber "COMPOSE WRONG PARAMETER")
      else
        match parametr with
        | none => none
        | some par =>
          let r := strtoul (cstr par) 10
          let errno2 := if r.erange then ERANGE else st.errno
          let st2 : CalcState := ⟨st.stack, errno2, st.stdout, st.stderr⟩
          if errno2 == ERANGE || (r.pEnd != ['\n'] && r.pEnd != []) then
            some (afterError st2 lineNumber "COMPOSE WRONG PARAMETER")
          else
            match COMPOSE st.stack r.value with
            | none => none
            | some res => some (afterCommand st2 lineNumber res)
    else if memcmpEq (cstr instruction) "AT".toList 2 then
      if line.getD 2 NUL != ' ' then some (afterError st lineNumber "WRONG COMMAND")
      else if !(isdigit (line.getD (2 + 1) NUL) || line.getD (2 + 1) NUL == '-') ||
          !IsCorrectAtEnd line lineSize spaceInd then
        some (afterError st lineNumber "AT WRONG VALUE")
      else
        match parametr with
        | none => none
        | some par =>
          let r := strtol (cstr par) 10
          let errno2 := if r.erange then ERANGE else st.errno
          let st2 : CalcState := ⟨st.stack, errno2, st.stdout, st.stderr⟩
          if errno2 == ERANGE || (r.pEnd != ['\n'] && r.pEnd != []) then
            some (afterError st2 lineNumber "AT WRONG VALUE")
          else some (afterCommand st2 lineNumber (AT st.stack r.value))
    else some (afterError st lineNumber "WRONG COMMAND")

/-- The call `getline(&line, &length, stdin)`: the bytes up to and including the first
newline (all of them when there is none), and what is left of stdin. -/
def getline : List Char → List Char × List Char
  | [] => ([], [])
  | c :: cs =>
    if c == '\n' then (['\n'], cs)
    else
      let (line, rest) := getline cs
      (c :: line, rest)

/-- InstructionScan of instruction_scan.c on the line that `getline` has read. -/
def InstructionScan (st : CalcState) (lineNumber : Nat) (line : List Char) :
    Option CalcState :=
  let lineSize := line.length
  let instruction := line ++ [NUL]
  if DoesLineContainSpace instruction lineSize then
    ExecuteInstructionWithParametr st lineNumber instruction lineSize
  else some (ExecuteInstruction st lineNumber instruction lineSize)

/-- PolyScan of poly_execute.c on the line that `getline` has read. -/
def PolyScan (st : CalcState) (lineNumber : Nat) (line : List Char) : Option CalcState :=
  match ParsePoly st.stack line st.errno with
  | none => none
  | some r =>
    some ⟨r.stack, r.errno, st.stdout,
      if r.wrongPoly then st.stderr ++ errorMessage lineNumber "WRONG POLY" else st.stderr⟩

/-- IsCharLetter of read_input.c. -/
def IsCharLetter (c : Char) : Bool :=
  (c.toNat ≥ 65 && c.toNat ≤ 90) || (c.toNat ≥ 97 && c.toNat ≤ 122)

/-- IsComment of read_input.c. -/
def IsComment (c : Char) : Bool := c == '#'

/-- SkipComment of read_input.c, with a budget of `getchar` calls: the result is what
is left of stdin, `none` when the budget is used up. At the end of stdin `getchar`
returns `EOF`, which is not a newline, and the loop goes on. -/
def SkipComment : Nat → List Char → Option (List Char)
  | 0, _ => none
  | fuel + 1, [] => SkipComment fuel []
  | fuel + 1, sign :: rest => if sign != '\n' then SkipComment fuel rest else some rest

/-- The `while` loop of ReadInput with a budget of iterations, also given to each call
of SkipComment; `none` when a budget is used up or a line has undefined behaviour. The
line counter is an `int` that the model does not wrap. -/
def ReadInputLoop : Nat → CalcState → Nat → List Char → Option CalcState
  | 0, _, _, _ => none
  | _ + 1, st, _, [] => some st
  | fuel + 1, st, lineNumber, firstSign :: rest =>
    if IsComment firstSign then
      match SkipComment (fuel + 1) rest with
      | none => none
      | some rest2 => ReadInputLoop fuel st (lineNumber + 1) rest2
    else if IsCharLetter firstSign then
      match InstructionScan st lineNumber (getline (firstSign :: rest)).1 with
      | none => none
      | some st2 => ReadInputLoop fuel st2 (lineNumber + 1) (getline (firstSign :: rest)).2
    else if firstSign == '\n' then ReadInputLoop fuel st (lineNumber + 1) rest
    else
      match PolyScan st lineNumber (getline (firstSign :: rest)).1 with
      | none => none
      | some st2 => ReadInputLoop fuel st2 (lineNumber + 1) (getline (firstSign :: rest)).2

/-- ReadInput of read_input.c on a stack, from the start of the program (`errno` is 0,
nothing is written yet); the result is the final state. -/
def ReadInput (fuel : Nat) (stack : Stack) (stdin : List Char) : Option CalcState :=
  ReadInputLoop fuel ⟨stack, 0, [], []⟩ 1 stdin

/-! ## Specification vocabulary -/

/-- The 64-bit machine words, the ring in which coefficients are evaluated. -/
abbrev Word := ZMod (2 ^ 64)

mutual
/-- Value of a polynomial under an assignment `v 0, v 1, ...` of 64-bit words to the
variables `x_0, x_1, ...`, with arithmetic modulo `2 ^ 64`. -/
def eval : Poly → (Nat → Word) → Word
  | Constant c, _ => (c : Word)
  | Nested arr, v => evalMonos arr v
/-- Sum of the values of the monomials of an array: `eval coeff (tail v) * v 0 ^ exp`. -/
def evalMonos : List Mono → (Nat → Word) → Word
  | [], _ => 0
  | Mono.mk p e :: rest, v => eval p (fun i => v (i + 1)) * v 0 ^ e.toNat + evalMonos rest v
end

mutual
/-- Canonical form of section 3 of the specification: a coefficient in the range of
`long`, or a non-empty array of monomials (see `CanonicalMonos`) that is not a single
monomial of exponent 0 with a coefficient. -/
def Canonical : Poly → Prop
  | Constant c => -2 ^ 63 ≤ c ∧ c < 2 ^ 63
  | Nested arr => arr ≠ [] ∧ CanonicalMonos (-1) arr ∧ IsCoeffTimesXToZero arr = false
/-- The monomials have exponents strictly increasing, above `lo` and in the range of
`int`, and every coefficient is canonical and not the zero polynomial. -/
def CanonicalMonos : Int → List Mono → Prop
  | _, [] => True
  | lo, Mono.mk p e :: rest =>
    lo < e ∧ e < 2 ^ 31 ∧ Canonical p ∧ PolyIsZero p = false ∧ CanonicalMonos e rest
end

mutual
/-- A polynomial is well formed when every array of monomials in it is non-empty and
every exponent is at least 0. -/
def WellFormed : Poly → Prop
  | Constant _ => True
  | Nested arr => arr ≠ [] ∧ WellFormedMonos arr
/-- Every monomial has an exponent at least 0 and a well-formed coefficient. -/
def WellFormedMonos : List Mono → Prop
  | [] => True
  | Mono.mk p e :: rest => 0 ≤ e ∧ WellFormed p ∧ WellFormedMonos rest
end

/-- The production `digit { digit }` of the grammar: at least one digit, then what follows the digits. -/
def grammarDigits : List Char → Option (List Char)
  | [] => none
  | c :: cs => if isdigit c then some (cs.dropWhile isdigit) else none

/-- The production `Coeff = [ "-" ] digit { digit }` of the grammar: what follows the literal. -/
def grammarCoeff : List Char → Option (List Char)
  | [] => none
  | c :: cs => if c == '-' then grammarDigits cs else grammarDigits (c :: cs)

mutual
/-- The production `Poly = Coeff | Mono { "+" Mono }` of the grammar of section 4.4 of the
specification, as a recursive-descent recogniser with a budget for the recursion:
what follows the polynomial read, or `none` when the input starts with none. -/
def grammarPoly : Nat → List Char → Option (List Char)
  | 0, _ => none
  | _ + 1, [] => none
  | fuel + 1, c :: cs => if c == '(' then grammarMonos fuel (c :: cs) else grammarCoeff (c :: cs)
/-- The sequence `Mono { "+" Mono }` with `Mono = "(" Poly "," Exp ")"` and `Exp = digit { digit }`. -/
def grammarMonos : Nat → List Char → Option (List Char)
  | 0, _ => none
  | _ + 1, [] => none
  | fuel + 1, c :: cs =>
    if c == '(' then
      match grammarPoly fuel cs with
      | some (c1 :: r1) =>
        if c1 == ',' then
          match grammarDigits r1 with
          | some (c2 :: r2) =>
            if c2 == ')' then
              match r2 with
              | c3 :: r3 => if c3 == '+' then grammarMonos fuel r3 else some (c3 :: r3)
              | [] => some []
            else none
          | _ => none
        else none
      | _ => none
    else none
end

/-- The string is a polynomial literal of the grammar of section 4.4. -/
def InGrammar (s : List Char) : Bool :=
  grammarPoly (2 * s.length + 2) s == some []

mutual
/-- No sum of two exponents that PolyMul forms for the two polynomials leaves the
range of `int`. -/
def NoExpOverflow : Poly → Poly → Prop
  | Nested ps, Nested qs => NoExpOverflowArr ps qs
  | Nested _, Constant _ => True
  | Constant _, _ => True
  termination_by p q => sizeOf p + sizeOf q
/-- The condition of `NoExpOverflow` for every pair of monomials of the two arrays. -/
def NoExpOverflowArr : List Mono → List Mono → Prop
  | [], _ => True
  | m :: ps, qs => NoExpOverflowInner m qs ∧ NoExpOverflowArr ps qs
  termination_by ps qs => sizeOf ps + sizeOf qs
/-- The condition of `NoExpOverflow` for a monomial and every monomial of an array. -/
def NoExpOverflowInner : Mono → List Mono → Prop
  | _, [] => True
  | Mono.mk p e, Mono.mk q f :: qs =>
    e + f < 2 ^ 31 ∧ NoExpOverflow p q ∧ NoExpOverflowInner (Mono.mk p e) qs
  termination_by m qs => sizeOf m + sizeOf qs
end

/-- Coefficients of the monomials of exponent `e`, in the order of the list. -/
def coeffsAt (e : Int) (monos : List Mono) : List Poly :=
  (monos.filter (fun m => decide (m.exp = e))).map Mono.p

/-- Sum of a list of polynomials with PolyAdd, from the left. -/
def sumCoeffs : List Poly → Poly
  | [] => PolyZero
  | p :: ps => ps.foldl PolyAdd p

/-- The collapse rule: what PolyAdd and PolyCreateFromMonos return for the array of
monomials they have built. -/
def collapseRule : List Mono → Poly
  | [] => PolyZero
  | [Mono.mk (Constant c) 0] => Constant c
  | arr => Nested arr

/-! ## Vocabulary for degrees, evaluation at a point and composition -/

/-- The largest exponent of an array of monomials; 0 for the empty array. -/
def maxExpOfArr : List Mono → Int
  | [] => 0
  | Mono.mk _ e :: rest => max e (maxExpOfArr rest)

mutual
/-- The largest exponent among the monomials of the arrays that lie at nesting depth
exactly `d` in the tree of a polynomial; 0 when there is none. -/
def maxExpAtDepth : Poly → Nat → Int
  | Constant _, _ => 0
  | Nested arr, 0 => maxExpOfArr arr
  | Nested arr, d + 1 => maxExpAtDepthArr arr d
/-- The largest of `maxExpAtDepth` over the coefficients of an array; 0 for none. -/
def maxExpAtDepthArr : List Mono → Nat → Int
  | [], _ => 0
  | Mono.mk p _ :: rest, d => max (maxExpAtDepth p d) (maxExpAtDepthArr rest d)
end

mutual
/-- The largest sum of exponents along a path from the root of a polynomial to a
coefficient; a coefficient counts 0. -/
def maxPathSum : Poly → Int
  | Constant _ => 0
  | Nested arr => maxPathSumArr arr
/-- The largest of `exp + maxPathSum coefficient` over the monomials of an array. -/
def maxPathSumArr : List Mono → Int
  | [] => 0
  | Mono.mk p e :: rest => max (e + maxPathSum p) (maxPathSumArr rest)
end

mutual
/-- No array of monomials of the polynomial lies at nesting depth `d`. -/
def NoNestedAtDepth : Poly → Nat → Prop
  | Constant _, _ => True
  | Nested _, 0 => False
  | Nested arr, d + 1 => NoNestedAtDepthArr arr d
/-- No coefficient of the array has an array of monomials at nesting depth `d`. -/
def NoNestedAtDepthArr : List Mono → Nat → Prop
  | [], _ => True
  | Mono.mk p _ :: rest, d => NoNestedAtDepth p d ∧ NoNestedAtDepthArr rest d
end

mutual
/-- Every exponent anywhere in the polynomial lies between 0 and `B`. -/
def ExpsWithin (B : Int) : Poly → Prop
  | Constant _ => True
  | Nested arr => ExpsWithinArr B arr
/-- Every exponent of the monomials and of their coefficients lies between 0 and `B`. -/
def ExpsWithinArr (B : Int) : List Mono → Prop
  | [] => True
  | Mono.mk p e :: rest => 0 ≤ e ∧ e ≤ B ∧ ExpsWithin B p ∧ ExpsWithinArr B rest
end

/-- The assignment under which PolyCompose evaluates `p`: the value of `q[i]` for the
variable `x_i` with `i < k`, zero for the others. -/
def composeAssignment (q : List Poly) (v : Nat → Word) (i : Nat) : Word :=
  match q.get? i with
  | some qi => eval qi v
  | none => 0

/-- No sum of two exponents that PolyMul forms inside `PolyExpBySquaring basis exp`
leaves the range of `int`: the condition of `NoExpOverflow` for every product the
function takes, on the operands it takes it of. -/
def ExpBySquaringNoOverflow (basis : Poly) (exp : Int) : Prop :=
  if exp = 0 then True
  else if PolyIsZero basis then True
  else
    match basis with
    | Constant _ => True
    | Nested arr =>
      ExpBySquaringNoOverflow (Nested arr) (exp.tdiv 2) ∧
      NoExpOverflow (PolyExpBySquaring (Nested arr) (exp.tdiv 2))
        (PolyExpBySquaring (Nested arr) (exp.tdiv 2)) ∧
      (exp.tmod 2 = 1 →
        NoExpOverflow (PolyMul (PolyExpBySquaring (Nested arr) (exp.tdiv 2))
          (PolyExpBySquaring (Nested arr) (exp.tdiv 2))) (Nested arr))
  termination_by exp.natAbs
  decreasing_by
    rename_i h _
    rw [Int.natAbs_tdiv]
    have hpos : 0 < exp.natAbs := Int.natAbs_pos.mpr h
    show exp.natAbs / 2 < exp.natAbs
    omega

mutual
/-- No sum of two exponents that PolyMul forms inside
`PolyComposeHelper p k q recurrenceLevel` leaves the range of `int`. -/
def ComposeNoOverflow : Poly → Nat → List Poly → Nat → Prop
  | Constant _, _, _, _ => True
  | Nested arr, k, q, recurrenceLevel => ComposeLoopNoOverflow arr k q recurrenceLevel
/-- The condition of `ComposeNoOverflow` for the loop over the monomials: for each one,
the composition of its coefficient, the power of the substituted polynomial, and their
product. The sums of the loop are taken by PolyAdd, which adds no exponents. -/
def ComposeLoopNoOverflow : List Mono → Nat → List Poly → Nat → Prop
  | [], _, _, _ => True
  | Mono.mk p e :: rest, k, q, recurrenceLevel =>
    ComposeNoOverflow p k q (recurrenceLevel + 1) ∧
    ExpBySquaringNoOverflow
      (if recurrenceLevel ≥ k then PolyZero else q.getD recurrenceLevel PolyZero) e ∧
    NoExpOverflow (PolyComposeHelper p k q (recurrenceLevel + 1))
      (PolyExpBySquaring
        (if recurrenceLevel ≥ k then PolyZero else q.getD recurrenceLevel PolyZero) e) ∧
    ComposeLoopNoOverflow rest k q recurrenceLevel
end

/-! ## Vocabulary for negation, composition with constants and the commands -/

mutual
/-- Every coefficient of the polynomial is a value of `long`, as in every Poly that
the program holds in memory. -/
def CoeffsInRange : Poly → Prop
  | Constant c => -2 ^ 63 ≤ c ∧ c < 2 ^ 63
  | Nested arr => CoeffsInRangeArr arr
/-- Every coefficient in the monomials of the array is a value of `long`. -/
def CoeffsInRangeArr : List Mono → Prop
  | [] => True
  | Mono.mk p _ :: rest => CoeffsInRange p ∧ CoeffsInRangeArr rest
end

mutual
/-- The second polynomial has the tree shape of the first (the same variant, the same
number of monomials and the same exponents at every node) and every coefficient `c`
of the first is replaced by `-c` in `long`. -/
def NegatedShape : Poly → Poly → Prop
  | Constant c, Constant d => d = wrap64 (-c)
  | Nested ps, Nested qs => NegatedShapeArr ps qs
  | Constant _, Nested _ => False
  | Nested _, Constant _ => False
/-- The condition of `NegatedShape` for two arrays of monomials, index by index. -/
def NegatedShapeArr : List Mono → List Mono → Prop
  | [], [] => True
  | Mono.mk p e :: ps, Mono.mk q f :: qs => e = f ∧ NegatedShape p q ∧ NegatedShapeArr ps qs
  | [], _ :: _ => False
  | _ :: _, [] => False
end

/-- Every monomial of the array has a Constant as its coefficient. -/
def ConstantCoeffs : List Mono → Prop
  | [] => True
  | Mono.mk p _ :: rest => PolyIsCoeff p = true ∧ ConstantCoeffs rest

/-- The polynomial has no variable but `x_0`: it is a Constant, or every coefficient of
its array of monomials is a Constant. -/
def OnlyFirstVariable : Poly → Prop
  | Constant _ => True
  | Nested arr => ConstantCoeffs arr

mutual
/-- The coefficient reached from the root by following the monomial of exponent 0 at
every nesting level; 0 when some level on the way has no monomial of exponent 0. -/
def valueAtZero : Poly → Int
  | Constant c => c
  | Nested arr => valueAtZeroArr arr
/-- The value of `valueAtZero` for the coefficient of the monomial of exponent 0 of an
array; 0 when the array has none. -/
def valueAtZeroArr : List Mono → Int
  | [] => 0
  | Mono.mk p e :: rest => if e = 0 then valueAtZero p else valueAtZeroArr rest
end

/-- The commands of the calculator, with the parameter that ExecuteInstructionWithParametr
of instruction_scan.c has read for DEG_BY, AT and COMPOSE. -/
inductive Command where
  | ADD : Command
  | ZERO : Command
  | SUB : Command
  | MUL : Command
  | IS_COEFF : Command
  | IS_ZERO : Command
  | NEG : Command
  | IS_EQ : Command
  | DEG : Command
  | POP : Command
  | PRINT : Command
  | CLONE : Command
  | DEG_BY (idx : Nat) : Command
  | COMPOSE (k : Nat) : Command
  | AT (x : Int) : Command

/-- The call of instructions.c that ExecuteInstruction and ExecuteInstructionWithParametr
of instruction_scan.c make for a command; `none` is a read outside the stack. -/
def RunCommand (stack : Stack) : Command → Option CommandResult
  | Command.ADD => some (ADD stack)
  | Command.ZERO => some (ZERO stack)
  | Command.SUB => some (SUB stack)
  | Command.MUL => some (MUL stack)
  | Command.IS_COEFF => some (IS_COEFF stack)
  | Command.IS_ZERO => some (IS_ZERO stack)
  | Command.NEG => some (NEG stack)
  | Command.IS_EQ => some (IS_EQ stack)
  | Command.DEG => some (DEG stack)
  | Command.POP => some (POP stack)
  | Command.PRINT =>
    match PRINT stack with
    | none => some ⟨stack, [], true⟩
    | some text => some ⟨stack, text, false⟩
  | Command.CLONE => some (CLONE stack)
  | Command.DEG_BY idx => some (DEG_BY stack idx)
  | Command.COMPOSE k => COMPOSE stack k
  | Command.AT x => some (AT stack x)

/-- The number of polynomials a command needs on the stack (section 6 of the
specification). -/
def needs : Command → Nat
  | Command.ADD => 2
  | Command.SUB => 2
  | Command.MUL => 2
  | Command.IS_EQ => 2
  | Command.IS_COEFF => 1
  | Command.IS_ZERO => 1
  | Command.CLONE => 1
  | Command.NEG => 1
  | Command.DEG => 1
  | Command.DEG_BY _ => 1
  | Command.AT _ => 1
  | Command.POP => 1
  | Command.PRINT => 1
  | Command.COMPOSE k => k + 1
  | Command.ZERO => 0

/-! ## Vocabulary for powers, formal coefficients and the order of monomials -/

/-- The e-fold product of `q` by repeated multiplication from the left,
`PolyMul (... PolyMul (PolyMul q q) q ...) q`; Constant 1 for `e = 0`. -/
def naivePower (q : Poly) : Nat → Poly
  | 0 => Constant 1
  | 1 => q
  | n + 2 => PolyMul (naivePower q (n + 1)) q

/-- Every coefficient of the monomials of the array is canonical. -/
def CoeffsCanonical (arr : List Mono) : Prop := ∀ m ∈ arr, Canonical (Mono.p m)

mutual
/-- The coefficient of the power product `x_0^(i_0) x_1^(i_1) ...` in a polynomial, as
a 64-bit word; the list holds `i_0, i_1, ...` and stands for zeros beyond its end. -/
def coeffOf : Poly → List Nat → Word
  | Constant c, idx => if idx.all (fun i => i == 0) then (c : Word) else 0
  | Nested arr, idx => coeffOfMonos arr (idx.headD 0) idx.tail
/-- The coefficient of `x_0^i` times the power product of `idx` in the other variables
in the sum of the monomials of an array. -/
def coeffOfMonos : List Mono → Nat → List Nat → Word
  | [], _, _ => 0
  | Mono.mk p e :: rest, i, idx =>
    (if e = (i : Int) then coeffOf p idx else 0) + coeffOfMonos rest i idx
end

/-- The number that a string of decimal digits denotes. -/
def decimalValue (ds : List Char) : Nat :=
  ds.foldl (fun a c => a * 10 + (c.toNat - 48)) 0

/-- The buffer `getline` returns for a line made of a word, one space, an argument and
a newline. -/
def commandBuffer (name arg : List Char) : List Char :=
  name ++ ' ' :: (arg ++ ['\n', NUL])

/-! ## Vocabulary for the proofs about the parser -/

/-- Number of left parentheses in a text. -/
def cntL (s : List Char) : Int := (s.count '(' : Nat)

/-- Number of right parentheses in a text. -/
def cntR (s : List Char) : Int := (s.count ')' : Nat)

/-- No byte of the text, read with the parenthesis counters starting at `l` and `r`, is
a `+` outside all parentheses: the test of HowManyMonos and IterateTillMonoEnd fails
at every byte. -/
def NoTopPlus : Int → Int → List Char → Prop
  | _, _, [] => True
  | l, r, c :: cs =>
    let l2 := if c == '(' then l + 1 else l
    let r2 := if c == ')' then r + 1 else r
    (l2 == r2 && c == '+' && r2 > 0) = false ∧ NoTopPlus l2 r2 cs

/-- Number of commas in a text. -/
def cntC (s : List Char) : Int := (s.count ',' : Nat)

/-- The parentheses of the text, read from the left with the counters starting at `l`
and `r`, never close more than was opened, and every `+` lies strictly inside. -/
def Inside : Int → Int → List Char → Prop
  | _, _, [] => True
  | l, r, c :: cs =>
    let l2 := if c == '(' then l + 1 else l
    let r2 := if c == ')' then r + 1 else r
    r2 ≤ l2 ∧ (c = '+' → r2 < l2) ∧ Inside l2 r2 cs

/-- The parentheses of the text, read from the right with the counters starting at `l`
and `r`: every `(` read leaves more right than left parentheses. The list is the
text reversed. -/
def InsideRev : Int → Int → List Char → Prop
  | _, _, [] => True
  | l, r, c :: cs =>
    let r2 := if c == ')' then r + 1 else r
    let l2 := if c == '(' then l + 1 else l
    (c = '(' → l2 < r2) ∧ InsideRev l2 r2 cs

/-- A text without parentheses and without `+`. -/
def Plain (s : List Char) : Prop := ∀ c ∈ s, c ≠ '(' ∧ c ≠ ')' ∧ c ≠ '+'

/-- The tests of IsCorrectPoly on a byte `c` that look at the byte before it. -/
def prevOk (prev c : Char) : Bool :=
  !((c == ',' && (prev != ')' && !isdigit prev)) || (c == '(' && (prev != '+' && prev != '('))
    || (c == ')' && !isdigit prev) || (c == '-' && prev != '(') || (c == '+' && prev != ')'))

/-- The tests of IsCorrectPoly on a byte `c` that look at the byte after it. -/
def nextOk (c next : Char) : Bool :=
  !((c == ',' && !isdigit next)
    || (c == '(' && (next != '(' && next != '-' && !isdigit next))
    || (c == ')' && (next != '+' && next != ',' && next != '\n'))
    || (c == '-' && !isdigit next) || (c == '+' && next != '('))

/-- Byte `b` may stand right after byte `a`: IsCorrectPoly objects neither at `a`
looking forward nor at `b` looking back. -/
def Follows (a b : Char) : Prop := nextOk a b = true ∧ prevOk a b = true

/-- The parentheses of the text, read from the left with the counters starting at `l`
and `r`, never close more than was opened. -/
def NoOverClose : Int → Int → List Char → Prop
  | _, _, [] => True
  | l, r, c :: cs =>
    let l2 := if c == '(' then l + 1 else l
    let r2 := if c == ')' then r + 1 else r
    r2 ≤ l2 ∧ NoOverClose l2 r2 cs

/-! ## Lemmas -/

mutual
theorem PolyClone_eq : ∀ p : Poly, PolyClone p = p
  | Constant c => by simp [PolyClone, PolyFromCoeff]
  | Nested arr => by simp [PolyClone, PolyCloneArr_eq arr]
theorem PolyCloneArr_eq : ∀ arr : List Mono, PolyCloneArr arr = arr
  | [] => by simp [PolyCloneArr]
  | m :: rest => by simp [PolyCloneArr, MonoClone_eq m, PolyCloneArr_eq rest]
theorem MonoClone_eq : ∀ m : Mono, MonoClone m = m
  | .mk p e => by simp [MonoClone, PolyClone_eq p]
end

theorem wrap64_range (x : Int) : -2 ^ 63 ≤ wrap64 x ∧ wrap64 x < 2 ^ 63 := by
  unfold wrap64; omega

theorem CanonicalMonos_mono {lo lo2 : Int} (h : lo2 ≤ lo) :
    ∀ arr, CanonicalMonos lo arr → CanonicalMonos lo2 arr
  | [] => by simp [CanonicalMonos]
  | Mono.mk p e :: rest => by
    simp only [CanonicalMonos]
    intro ⟨h1, h2⟩
    exact ⟨by omega, h2⟩

theorem PolyIsZero_eq_true {p : Poly} : PolyIsZero p = true ↔ p = Constant 0 := by
  cases p <;> simp [PolyIsZero]

theorem Canonical_zero : Canonical PolyZero := by
  simp [PolyZero, PolyFromCoeff, Canonical]

theorem AddCoeffNonCoeff_isCoeff (c : Int) (arr : List Mono) :
    PolyIsCoeff (AddCoeffNonCoeff c arr) = false := by
  cases arr with
  | nil => rw [AddCoeffNonCoeff]; split <;> simp [PolyClone_eq, PolyIsCoeff]
  | cons m rest =>
    cases m with
    | mk p e =>
      rw [AddCoeffNonCoeff]
      split
      · simp [PolyClone_eq, PolyIsCoeff]
      · split
        · simp only []
          split <;> simp [PolyIsCoeff]
        · simp [PolyIsCoeff]

theorem PolyIsZero_of_isCoeff_false {p : Poly} (h : PolyIsCoeff p = false) :
    PolyIsZero p = false := by
  cases p <;> simp_all [PolyIsCoeff, PolyIsZero]

theorem PolyAdd_canonical_aux :
    ∀ p q : Poly, Canonical p → Canonical q → Canonical (PolyAdd p q) := by
  apply PolyAdd.induct
    (fun p q => Canonical p → Canonical q → Canonical (PolyAdd p q))
    (fun ps qs => ∀ lo, CanonicalMonos lo ps → CanonicalMonos lo qs →
      CanonicalMonos lo (AddTwoArraysTogether ps qs))
    (fun c arr => (-2 ^ 63 ≤ c ∧ c < 2 ^ 63) → Canonical (Nested arr) →
      Canonical (AddCoeffNonCoeff c arr))
  case case1 =>
    intro a b _ _
    rw [PolyAdd]
    simp only [AddTwoCoeff, PolyFromCoeff, Canonical]
    exact wrap64_range _
  case case2 =>
    intro a qs ih ha hq
    rw [PolyAdd]
    exact ih (by simpa [Canonical] using ha) hq
  case case3 =>
    intro ps b ih hp hb
    rw [PolyAdd]
    exact ih (by simpa [Canonical] using hb) hp
  case case4 =>
    intro ps qs hres _ _ _
    rw [PolyAdd, hres]
    exact Canonical_zero
  case case5 =>
    intro ps qs c hres ih hp hq
    rw [PolyAdd, hres]
    simp only [Canonical] at hp hq
    have h := ih (-1) hp.2.1 hq.2.1
    rw [hres] at h
    simp only [CanonicalMonos] at h
    simpa [Canonical] using h.2.2.1
  case case6 =>
    intro ps qs hne hnc ih hp hq
    simp only [Canonical] at hp hq
    have h := ih (-1) hp.2.1 hq.2.1
    rw [PolyAdd]
    generalize AddTwoArraysTogether ps qs = res at *
    match res, hne, hnc, h with
    | [], hne, _, _ => exact absurd rfl hne
    | [Mono.mk (Constant c) e], _, hnc, h =>
      have he : e ≠ 0 := fun h0 => hnc c (by rw [h0])
      split
      · rename_i heq; cases heq
      · rename_i c2 heq; simp at heq; exact absurd heq.2 he
      · simp only [Canonical]
        refine ⟨by simp, h, ?_⟩
        simp [IsCoeffTimesXToZero, he]
    | [Mono.mk (Nested a) e], _, _, h =>
      simp only [Canonical]
      exact ⟨by simp, h, by simp [IsCoeffTimesXToZero, PolyIsCoeff]⟩
    | m1 :: m2 :: r, _, _, h =>
      simp only [Canonical]
      exact ⟨by simp, h, by simp [IsCoeffTimesXToZero]⟩
  case case7 =>
    intro qs lo _ hq
    rw [AddTwoArraysTogether]
    exact hq
  case case8 =>
    intro p e ps lo hp _
    rw [AddTwoArraysTogether]
    exact hp
  case case9 =>
    intro p e ps q f qs hef ih lo hp hq
    rw [AddTwoArraysTogether]
    simp only [hef, if_true]
    simp only [CanonicalMonos] at hp hq ⊢
    refine ⟨hp.1, hp.2.1, hp.2.2.1, hp.2.2.2.1, ?_⟩
    apply ih e hp.2.2.2.2
    simp only [CanonicalMonos]
    exact ⟨hef, hq.2⟩
  case case10 =>
    intro p e ps q f qs hef hfe ih lo hp hq
    rw [AddTwoArraysTogether]
    simp only [hef, hfe, if_true, if_false]
    simp only [CanonicalMonos] at hp hq ⊢
    refine ⟨hq.1, hq.2.1, hq.2.2.1, hq.2.2.2.1, ?_⟩
    apply ih f _ hq.2.2.2.2
    simp only [CanonicalMonos]
    exact ⟨hfe, hp.2⟩
  case case11 =>
    intro p e ps q f qs hef hfe sum hsum ih1 ih2 lo hp hq
    rw [AddTwoArraysTogether]
    simp only [hef, hfe, if_false]
    have hefeq : e = f := by omega
    subst hefeq
    simp only [CanonicalMonos] at hp hq
    have hs : (!PolyIsZero (PolyAdd p q)) = true := hsum
    simp only [hs, if_true]
    simp only [CanonicalMonos]
    refine ⟨hp.1, hp.2.1, ih1 hp.2.2.1 hq.2.2.1, by simpa using hs, ?_⟩
    exact ih2 e hp.2.2.2.2 hq.2.2.2.2
  case case12 =>
    intro p e ps q f qs hef hfe sum hsum ih1 ih2 lo hp hq
    rw [AddTwoArraysTogether]
    simp only [hef, hfe, if_false]
    have hefeq : e = f := by omega
    subst hefeq
    simp only [CanonicalMonos] at hp hq
    have hs : ¬ (!PolyIsZero (PolyAdd p q)) = true := hsum
    simp only [hs, if_false]
    apply CanonicalMonos_mono (le_of_lt hp.1)
    exact ih2 e hp.2.2.2.2 hq.2.2.2.2
  case case13 =>
    intro _ h
    simp [Canonical] at h
  case case14 =>
    intro c _ _ h
    simp [Canonical] at h
  case case15 =>
    intro p e rest _ h
    rw [AddCoeffNonCoeff]
    simpa [PolyClone_eq] using h
  case case16 =>
    intro c p rest hc sum hsum ih hr h
    rw [AddCoeffNonCoeff]
    have hs : (!PolyIsZero (PolyAdd p (Constant c))) = true := hsum
    simp only [hc, if_false, if_true, hs, MonoFromPoly]
    simp only [Canonical, CanonicalMonos] at h ⊢
    obtain ⟨_, ⟨_, h31, hcp, hnz, hrest⟩, hx⟩ := h
    refine ⟨by simp, ⟨by norm_num, by norm_num, ih hcp hr, by simpa using hs, hrest⟩, ?_⟩
    cases rest with
    | cons m r => simp [IsCoeffTimesXToZero]
    | nil =>
      cases p with
      | Constant a => simp [IsCoeffTimesXToZero, PolyIsCoeff] at hx
      | Nested arr =>
        have := AddCoeffNonCoeff_isCoeff c arr
        rw [PolyAdd]
        simp [IsCoeffTimesXToZero, this]
  case case17 =>
    intro c p rest hc sum hsum ih hr h
    rw [AddCoeffNonCoeff]
    have hs : ¬ (!PolyIsZero (PolyAdd p (Constant c))) = true := hsum
    simp only [hc, if_false, if_true, hs]
    simp only [Canonical, CanonicalMonos] at h ⊢
    obtain ⟨_, ⟨_, h31, hcp, hnz, hrest⟩, hx⟩ := h
    cases p with
    | Nested arr =>
      exfalso
      apply hs
      have := PolyIsZero_of_isCoeff_false (AddCoeffNonCoeff_isCoeff c arr)
      rw [PolyAdd]
      simp [this]
    | Constant a =>
      cases rest with
      | nil => simp [IsCoeffTimesXToZero, PolyIsCoeff] at hx
      | cons m r =>
        refine ⟨by simp, CanonicalMonos_mono (by norm_num) _ hrest, ?_⟩
        cases r with
        | cons m2 r2 => simp [IsCoeffTimesXToZero]
        | nil =>
          cases m with
          | mk q f =>
            simp only [CanonicalMonos] at hrest
            have : f ≠ 0 := by omega
            simp [IsCoeffTimesXToZero, this]
  case case18 =>
    intro c p e rest hc he hr h
    rw [AddCoeffNonCoeff]
    simp only [hc, he, if_false, MonoFromPoly, PolyClone_eq]
    simp only [Canonical, CanonicalMonos] at h ⊢
    obtain ⟨_, ⟨h1, h31, hcp, hnz, hrest⟩, hx⟩ := h
    refine ⟨by simp, ⟨by norm_num, by norm_num, hr, by simpa [PolyIsZero] using hc,
      by omega, h31, hcp, hnz, hrest⟩, by simp [IsCoeffTimesXToZero]⟩

instance : IsTotal Mono (fun a b => a.exp ≤ b.exp) := ⟨fun a b => le_total a.exp b.exp⟩
instance : IsTrans Mono (fun a b => a.exp ≤ b.exp) := ⟨fun _ _ _ h1 h2 => le_trans h1 h2⟩

theorem SortMonos_sorted (l : List Mono) :
    (SortMonos l).Pairwise (fun a b => a.exp ≤ b.exp) :=
  List.sorted_insertionSort _ l

theorem SortMonos_perm (l : List Mono) : (SortMonos l).Perm l :=
  List.perm_insertionSort _ l

theorem filter_orderedInsert (e : Int) (a : Mono) (l : List Mono) :
    (List.orderedInsert (fun a b : Mono => a.exp ≤ b.exp) a l).filter (fun m => decide (m.exp = e))
      = (a :: l).filter (fun m => decide (m.exp = e)) := by
  induction l with
  | nil => simp
  | cons b l ih =>
    simp only [List.orderedInsert]
    split
    · rfl
    · rename_i hab
      have hlt : b.exp < a.exp := by omega
      by_cases hae : a.exp = e
      · have hbe : ¬ b.exp = e := by omega
        simp [List.filter_cons, hae, hbe, ih]
      · simp [List.filter_cons, hae, ih]

theorem coeffsAt_SortMonos (e : Int) (l : List Mono) :
    coeffsAt e (SortMonos l) = coeffsAt e l := by
  unfold coeffsAt SortMonos
  congr 1
  induction l with
  | nil => simp
  | cons a l ih =>
    rw [List.insertionSort, filter_orderedInsert, List.filter_cons, List.filter_cons, ih]

theorem DeleteSameExponentsLoop_canonical :
    ∀ (rest : List Mono) (prevExp : Int) (sum : Poly) (lo : Int),
      lo < prevExp → prevExp < 2 ^ 31 → Canonical sum →
      rest.Pairwise (fun a b => a.exp ≤ b.exp) →
      (∀ m ∈ rest, prevExp ≤ m.exp ∧ m.exp < 2 ^ 31 ∧ Canonical m.p) →
      CanonicalMonos lo (DeleteSameExponentsLoop prevExp sum rest)
  | [], prevExp, sum, lo, hlo, h31, hs, _, _ => by
    rw [DeleteSameExponentsLoop]
    split
    · rename_i hz
      simp only [CanonicalMonos]
      exact ⟨hlo, h31, hs, by simpa using hz, trivial⟩
    · simp [CanonicalMonos]
  | Mono.mk p e :: rest, prevExp, sum, lo, hlo, h31, hs, hsorted, hall => by
    rw [DeleteSameExponentsLoop]
    have hm := hall (Mono.mk p e) (by simp)
    simp only [Mono.exp, Mono.p] at hm
    rw [List.pairwise_cons] at hsorted
    have hrest : ∀ m ∈ rest, e ≤ m.exp ∧ m.exp < 2 ^ 31 ∧ Canonical m.p := by
      intro m hmem
      have h1 := hsorted.1 m hmem
      have h2 := hall m (by simp [hmem])
      exact ⟨by simpa [Mono.exp] using h1, h2.2⟩
    split
    · rename_i heq
      subst heq
      exact DeleteSameExponentsLoop_canonical rest e (PolyAdd sum p) lo hlo h31
        (PolyAdd_canonical_aux sum p hs hm.2.2) hsorted.2 hrest
    · rename_i hne
      have hlt : prevExp < e := by omega
      split
      · exact DeleteSameExponentsLoop_canonical rest e p lo (by omega) hm.2.1 hm.2.2
          hsorted.2 hrest
      · rename_i hz
        simp only [CanonicalMonos]
        refine ⟨hlo, h31, hs, by simpa using hz, ?_⟩
        exact DeleteSameExponentsLoop_canonical rest e p prevExp hlt hm.2.1 hm.2.2
          hsorted.2 hrest

theorem DeleteSameExponentsLoop_cancel :
    ∀ (rest : List Mono) (prevExp : Int) (sum : Poly),
      rest.Pairwise (fun a b => a.exp ≤ b.exp) →
      (∀ m ∈ rest, prevExp ≤ m.exp) →
      (coeffsAt prevExp rest).foldl PolyAdd sum = Constant 0 →
      (∀ e, e ≠ prevExp → sumCoeffs (coeffsAt e rest) = Constant 0) →
      DeleteSameExponentsLoop prevExp sum rest = []
  | [], prevExp, sum, _, _, hsum, _ => by
    rw [DeleteSameExponentsLoop]
    simp [coeffsAt] at hsum
    simp [hsum, PolyIsZero]
  | Mono.mk p e :: rest, prevExp, sum, hsorted, hall, hsum, hoth => by
    rw [DeleteSameExponentsLoop]
    have hm := hall (Mono.mk p e) (by simp)
    simp only [Mono.exp] at hm
    rw [List.pairwise_cons] at hsorted
    have hrest : ∀ m ∈ rest, e ≤ m.exp := fun m hmem => by
      simpa [Mono.exp] using hsorted.1 m hmem
    split
    · rename_i heq
      subst heq
      apply DeleteSameExponentsLoop_cancel rest e (PolyAdd sum p) hsorted.2 hrest
      · simpa [coeffsAt, List.filter_cons, Mono.exp, Mono.p] using hsum
      · intro e2 he2
        have := hoth e2 he2
        have hne : ¬ e = e2 := fun h => he2 h.symm
        simpa [coeffsAt, List.filter_cons, Mono.exp, hne] using this
    · rename_i hne
      have hlt : prevExp < e := by omega
      have hnone : coeffsAt prevExp (Mono.mk p e :: rest) = [] := by
        simp only [coeffsAt, List.map_eq_nil_iff, List.filter_eq_nil_iff]
        intro m hmem
        simp only [List.mem_cons] at hmem
        rcases hmem with rfl | hmem
        · simp [Mono.exp, hne]
        · have := hrest m hmem
          simp; omega
      rw [hnone] at hsum
      simp only [List.foldl_nil] at hsum
      subst hsum
      simp only [PolyIsZero, beq_self_eq_true, if_true]
      apply DeleteSameExponentsLoop_cancel rest e p hsorted.2 hrest
      · have := hoth e hne
        simpa [coeffsAt, List.filter_cons, Mono.exp, Mono.p, sumCoeffs] using this
      · intro e2 he2
        by_cases h2 : e2 = prevExp
        · subst h2
          have : coeffsAt e2 rest = [] := by
            simp only [coeffsAt, List.map_eq_nil_iff, List.filter_eq_nil_iff]
            intro m hmem
            have := hrest m hmem
            simp; omega
          rw [this]; rfl
        · have := hoth e2 h2
          have hne2 : ¬ e = e2 := fun h => he2 h.symm
          simpa [coeffsAt, List.filter_cons, Mono.exp, hne2] using this

theorem DeleteSameExponents_canonical (s : List Mono)
    (hsorted : s.Pairwise (fun a b => a.exp ≤ b.exp))
    (hall : ∀ m ∈ s, 0 ≤ m.exp ∧ m.exp < 2 ^ 31 ∧ Canonical m.p)
    (hsingle : ∀ m, s = [m] → PolyIsZero m.p = false) :
    CanonicalMonos (-1) (DeleteSameExponents s) := by
  match s, hsorted, hall, hsingle with
  | [], _, _, _ => simp [DeleteSameExponents, CanonicalMonos]
  | [Mono.mk p e], _, hall, hsingle =>
    have h := hall (Mono.mk p e) (by simp)
    have hz := hsingle _ rfl
    simp only [Mono.exp, Mono.p] at h hz
    simp only [DeleteSameExponents, CanonicalMonos]
    exact ⟨by omega, h.2.1, h.2.2, hz, trivial⟩
  | Mono.mk p e :: b :: r, hsorted, hall, _ =>
    have h := hall (Mono.mk p e) (by simp)
    simp only [Mono.exp, Mono.p] at h
    rw [List.pairwise_cons] at hsorted
    simp only [DeleteSameExponents]
    apply DeleteSameExponentsLoop_canonical (b :: r) e p (-1) (by omega) h.2.1 h.2.2 hsorted.2
    intro m hm
    have h1 := hsorted.1 m hm
    have h2 := hall m (List.mem_cons_of_mem _ hm)
    exact ⟨by simpa [Mono.exp] using h1, h2.2⟩

theorem DeleteSameExponents_cancel (s : List Mono)
    (hsorted : s.Pairwise (fun a b => a.exp ≤ b.exp))
    (hlen : 2 ≤ s.length)
    (hcancel : ∀ e, sumCoeffs (coeffsAt e s) = Constant 0) :
    DeleteSameExponents s = [] := by
  match s, hsorted, hlen, hcancel with
  | [], _, hlen, _ => simp at hlen
  | [_], _, hlen, _ => simp at hlen
  | Mono.mk p e :: b :: r, hsorted, _, hcancel =>
    rw [List.pairwise_cons] at hsorted
    simp only [DeleteSameExponents]
    have hrest : ∀ m ∈ b :: r, e ≤ m.exp := fun m hm => by
      simpa [Mono.exp] using hsorted.1 m hm
    apply DeleteSameExponentsLoop_cancel (b :: r) e p hsorted.2 hrest
    · have := hcancel e
      simpa [coeffsAt, List.filter_cons, Mono.exp, Mono.p, sumCoeffs] using this
    · intro e2 he2
      have := hcancel e2
      have hne2 : ¬ e = e2 := fun h => he2 h.symm
      rw [coeffsAt, List.filter_cons] at this
      simpa [coeffsAt, Mono.exp, hne2] using this

theorem Canonical_collapseRule (arr : List Mono) (h : CanonicalMonos (-1) arr) :
    Canonical (collapseRule arr) := by
  match arr, h with
  | [], _ => exact Canonical_zero
  | [Mono.mk (Constant c) e], h =>
    by_cases he : e = 0
    · subst he
      simp only [CanonicalMonos] at h
      simpa [collapseRule, Canonical] using h.2.2.1
    · unfold collapseRule
      split
      · rename_i heq; cases heq
      · rename_i heq; simp at heq; exact absurd heq.2 he
      · simp only [Canonical]
        exact ⟨by simp, h, by simp [IsCoeffTimesXToZero, he]⟩
  | [Mono.mk (Nested a) e], h =>
    simp only [collapseRule, Canonical]
    exact ⟨by simp, h, by simp [IsCoeffTimesXToZero, PolyIsCoeff]⟩
  | m1 :: m2 :: r, h =>
    simp only [collapseRule, Canonical]
    exact ⟨by simp, h, by simp [IsCoeffTimesXToZero]⟩

theorem PolyCreateFromMonos_eq (m : Mono) (rest : List Mono)
    (hg : ¬ (rest.length = 0 ∧ PolyIsZero m.p = true)) :
    PolyCreateFromMonos (m :: rest) =
      collapseRule (DeleteSameExponents (SortMonos (m :: rest))) := by
  unfold PolyCreateFromMonos
  simp only [Bool.and_eq_true, decide_eq_true_eq, hg, if_false]
  generalize DeleteSameExponents (SortMonos (m :: rest)) = arr
  match arr with
  | [] => simp [collapseRule]
  | [Mono.mk (Constant c) e] =>
    by_cases he : e = 0
    · subst he; simp [IsCoeffTimesXToZero, PolyIsCoeff, collapseRule]
    · simp [IsCoeffTimesXToZero, he, collapseRule]
  | [Mono.mk (Nested a) e] => simp [IsCoeffTimesXToZero, PolyIsCoeff, collapseRule]
  | m1 :: m2 :: r => simp [IsCoeffTimesXToZero, collapseRule]

theorem PolyCreateFromMonos_canonical (monos : List Mono)
    (h : ∀ m ∈ monos, 0 ≤ m.exp ∧ m.exp < 2 ^ 31 ∧ Canonical m.p) :
    Canonical (PolyCreateFromMonos monos) := by
  cases monos with
  | nil => exact Canonical_zero
  | cons m rest =>
    by_cases hg : rest.length = 0 ∧ PolyIsZero m.p = true
    · unfold PolyCreateFromMonos
      simp only [Bool.and_eq_true, decide_eq_true_eq, hg, and_self, if_true]
      exact Canonical_zero
    · rw [PolyCreateFromMonos_eq m rest hg]
      apply Canonical_collapseRule
      apply DeleteSameExponents_canonical _ (SortMonos_sorted _)
      · intro x hx
        exact h x ((SortMonos_perm _).mem_iff.mp hx)
      · intro x hx
        have hlen := (SortMonos_perm (m :: rest)).length_eq
        rw [hx] at hlen
        simp only [List.length_cons, List.length_nil] at hlen
        have hr : rest = [] := List.length_eq_zero.mp (by omega)
        subst hr
        simp only [SortMonos, List.insertionSort, List.orderedInsert] at hx
        cases hx
        simpa using hg

theorem PolyCreateFromMonos_cancel (monos : List Mono)
    (hcancel : ∀ e, sumCoeffs (coeffsAt e monos) = Constant 0) :
    PolyCreateFromMonos monos = Constant 0 := by
  cases monos with
  | nil => rfl
  | cons m rest =>
    by_cases hg : rest.length = 0 ∧ PolyIsZero m.p = true
    · unfold PolyCreateFromMonos
      simp only [Bool.and_eq_true, decide_eq_true_eq, hg, and_self, if_true]
      rfl
    · rw [PolyCreateFromMonos_eq m rest hg]
      have hlen := (SortMonos_perm (m :: rest)).length_eq
      cases rest with
      | nil =>
        exfalso
        apply hg
        have := hcancel m.exp
        simp [coeffsAt, sumCoeffs] at this
        simp [this, PolyIsZero]
      | cons m2 r =>
        rw [DeleteSameExponents_cancel _ (SortMonos_sorted _)]
        · rfl
        · rw [hlen]; simp
        · intro e
          rw [coeffsAt_SortMonos]
          exact hcancel e

theorem cast_wrap64 (x : Int) : ((wrap64 x : Int) : Word) = (x : Word) := by
  unfold wrap64
  have h : (((x + 2 ^ 63) % 2 ^ 64 : Int) : Word) = ((x + 2 ^ 63 : Int) : Word) := by
    have := ZMod.intCast_mod (x + 2 ^ 63) (2 ^ 64)
    simpa using this
  rw [Int.cast_sub, h]
  push_cast
  ring

theorem eval_collapseRule (arr : List Mono) (v : Nat → Word) :
    eval (collapseRule arr) v = evalMonos arr v := by
  unfold collapseRule
  split
  · simp [PolyZero, PolyFromCoeff, eval, evalMonos]
  · simp [eval, evalMonos]
  · simp [eval]

theorem PolyAdd_Nested_Nested (ps qs : List Mono) :
    PolyAdd (Nested ps) (Nested qs) = collapseRule (AddTwoArraysTogether ps qs) := by
  rw [PolyAdd]
  unfold collapseRule
  rfl

theorem eval_PolyAdd_aux :
    ∀ p q : Poly, ∀ v, eval (PolyAdd p q) v = eval p v + eval q v := by
  apply PolyAdd.induct
    (fun p q => ∀ v, eval (PolyAdd p q) v = eval p v + eval q v)
    (fun ps qs => ∀ v, evalMonos (AddTwoArraysTogether ps qs) v
        = evalMonos ps v + evalMonos qs v)
    (fun c arr => ∀ v, eval (AddCoeffNonCoeff c arr) v = (c : Word) + evalMonos arr v)
  case case1 =>
    intro a b v
    rw [PolyAdd]
    simp [AddTwoCoeff, PolyFromCoeff, eval, cast_wrap64]
  case case2 =>
    intro a qs ih v
    rw [PolyAdd, ih]
    simp [eval]
  case case3 =>
    intro ps b ih v
    rw [PolyAdd, ih]
    simp [eval, add_comm]
  case case4 =>
    intro ps qs _ ih v
    rw [PolyAdd_Nested_Nested, eval_collapseRule, ih]
    simp [eval]
  case case5 =>
    intro ps qs c _ ih v
    rw [PolyAdd_Nested_Nested, eval_collapseRule, ih]
    simp [eval]
  case case6 =>
    intro ps qs _ _ ih v
    rw [PolyAdd_Nested_Nested, eval_collapseRule, ih]
    simp [eval]
  case case7 =>
    intro qs v
    rw [AddTwoArraysTogether]
    simp [evalMonos]
  case case8 =>
    intro p e ps v
    rw [AddTwoArraysTogether]
    simp [evalMonos]
  case case9 =>
    intro p e ps q f qs hef ih v
    rw [AddTwoArraysTogether]
    simp only [hef, if_true, evalMonos, ih]
    ring
  case case10 =>
    intro p e ps q f qs hef hfe ih v
    rw [AddTwoArraysTogether]
    simp only [hef, hfe, if_true, if_false, evalMonos, ih]
    ring
  case case11 =>
    intro p e ps q f qs hef hfe sum hsum ih1 ih2 v
    rw [AddTwoArraysTogether]
    have hefeq : e = f := by omega
    subst hefeq
    have hs : (!PolyIsZero (PolyAdd p q)) = true := hsum
    simp only [hef, if_false, hs, if_true, evalMonos, ih1, ih2]
    ring
  case case12 =>
    intro p e ps q f qs hef hfe sum hsum ih1 ih2 v
    rw [AddTwoArraysTogether]
    have hefeq : e = f := by omega
    subst hefeq
    have hs : ¬ (!PolyIsZero (PolyAdd p q)) = true := hsum
    have hz : PolyAdd p q = Constant 0 := PolyIsZero_eq_true.mp (by simpa using hs)
    have h0 := ih1 (fun i => v (i + 1))
    rw [hz] at h0
    simp only [eval, Int.cast_zero] at h0
    have hs2 : (!PolyIsZero (PolyAdd p q)) = false := by simpa using hs
    simp only [hef, if_false, hs2, Bool.false_eq_true, evalMonos, ih2]
    linear_combination (v 0 ^ e.toNat) * h0
  case case13 =>
    intro v
    rw [AddCoeffNonCoeff]
    simp [PolyClone_eq, eval, evalMonos]
  case case14 =>
    intro c hc v
    rw [AddCoeffNonCoeff]
    simp [hc, PolyClone_eq, MonoFromPoly, eval, evalMonos]
  case case15 =>
    intro p e rest v
    rw [AddCoeffNonCoeff]
    simp [PolyClone_eq, eval, evalMonos]
  case case16 =>
    intro c p rest hc sum hsum ih v
    rw [AddCoeffNonCoeff]
    have hs : (!PolyIsZero (PolyAdd p (Constant c))) = true := hsum
    simp only [hc, if_false, if_true, hs, MonoFromPoly, eval, evalMonos, ih]
    simp
    ring
  case case17 =>
    intro c p rest hc sum hsum ih v
    rw [AddCoeffNonCoeff]
    have hs : ¬ (!PolyIsZero (PolyAdd p (Constant c))) = true := hsum
    have hz : PolyAdd p (Constant c) = Constant 0 := PolyIsZero_eq_true.mp (by simpa using hs)
    have h0 := ih (fun i => v (i + 1))
    rw [hz] at h0
    simp only [eval, Int.cast_zero] at h0
    simp only [hc, if_false, if_true, hs, eval, evalMonos]
    simp
    linear_combination h0
  case case18 =>
    intro c p e rest hc he v
    rw [AddCoeffNonCoeff]
    simp [hc, he, MonoFromPoly, PolyClone_eq, eval, evalMonos]

mutual
theorem eval_PolyMulByCoeff : ∀ (p : Poly) (c : Int) (v : Nat → Word),
    eval (PolyMulByCoeff p c) v = eval p v * (c : Word)
  | Constant a, c, v => by
    rw [PolyMulByCoeff]
    split
    · rename_i h; subst h; simp [PolyZero, PolyFromCoeff, eval]
    · simp [PolyFromCoeff, eval, cast_wrap64]
  | Nested arr, c, v => by
    rw [PolyMulByCoeff]
    split
    · rename_i h; subst h; simp [PolyZero, PolyFromCoeff, eval]
    · have ih := eval_PolyMulByCoeffArr arr c v
      simp only []
      split
      · rename_i hlen
        have : PolyMulByCoeffArr arr c = [] := List.length_eq_zero.mp hlen
        rw [this] at ih
        simp only [evalMonos] at ih
        simp [PolyZero, PolyFromCoeff, eval, ← ih]
      · simp [eval, ih]
theorem eval_PolyMulByCoeffArr : ∀ (arr : List Mono) (c : Int) (v : Nat → Word),
    evalMonos (PolyMulByCoeffArr arr c) v = evalMonos arr v * (c : Word)
  | [], c, v => by simp [PolyMulByCoeffArr, evalMonos]
  | Mono.mk p e :: rest, c, v => by
    have ih1 := eval_PolyMulByCoeff p c (fun i => v (i + 1))
    have ih2 := eval_PolyMulByCoeffArr rest c v
    rw [PolyMulByCoeffArr]
    split
    · simp only [MonoFromPoly, evalMonos, ih1, ih2]
      ring
    · rename_i hs
      have hz : PolyMulByCoeff p c = Constant 0 := PolyIsZero_eq_true.mp (by simpa using hs)
      rw [hz] at ih1
      simp only [eval, Int.cast_zero] at ih1
      simp only [evalMonos, ih2]
      linear_combination (v 0 ^ e.toNat) * ih1
end

theorem wrap32_eq {x : Int} (h1 : -2 ^ 31 ≤ x) (h2 : x < 2 ^ 31) : wrap32 x = x := by
  unfold wrap32; omega

mutual
theorem WellFormed_of_Canonical : ∀ p : Poly, Canonical p → WellFormed p
  | Constant _, _ => by simp [WellFormed]
  | Nested arr, h => by
    simp only [Canonical] at h
    simp only [WellFormed]
    exact ⟨h.1, WellFormedMonos_of_CanonicalMonos arr (-1) (by norm_num) h.2.1⟩
theorem WellFormedMonos_of_CanonicalMonos : ∀ (arr : List Mono) (lo : Int), -1 ≤ lo →
    CanonicalMonos lo arr → WellFormedMonos arr
  | [], _, _, _ => by simp [WellFormedMonos]
  | Mono.mk p e :: rest, lo, hlo, h => by
    simp only [CanonicalMonos] at h
    simp only [WellFormedMonos]
    exact ⟨by omega, WellFormed_of_Canonical p h.2.2.1,
      WellFormedMonos_of_CanonicalMonos rest e (by omega) h.2.2.2.2⟩
end

theorem CanonicalMonos_iff (arr : List Mono) : ∀ lo : Int,
    CanonicalMonos lo arr ↔
      (∀ m ∈ arr, lo < m.exp ∧ m.exp < 2 ^ 31 ∧ Canonical m.p ∧ m.p ≠ Constant 0) ∧
      (arr.map Mono.exp).Pairwise (fun a b => a < b) := by
  induction arr with
  | nil => intro lo; simp [CanonicalMonos]
  | cons m rest ih =>
    intro lo
    cases m with
    | mk p e =>
      simp only [CanonicalMonos, ih e, List.mem_cons, forall_eq_or_imp, Mono.exp, Mono.p,
        List.map_cons, List.pairwise_cons, List.mem_map, forall_exists_index, and_imp,
        forall_apply_eq_imp_iff₂]
      have hz : PolyIsZero p = false ↔ p ≠ Constant 0 := by
        cases p <;> simp [PolyIsZero]
      constructor
      · rintro ⟨h1, h2, h3, h4, h5, h6⟩
        refine ⟨⟨⟨h1, h2, h3, hz.mp h4⟩, ?_⟩, ?_, h6⟩
        · intro a ha
          have := h5 a ha
          exact ⟨by omega, this.2⟩
        · intro a ha
          exact (h5 a ha).1
      · rintro ⟨⟨⟨h1, h2, h3, h4⟩, h5⟩, h6, h7⟩
        refine ⟨h1, h2, h3, hz.mpr h4, ?_, h7⟩
        intro a ha
        exact ⟨h6 a ha, (h5 a ha).2⟩

/-- Canonical form spelt out: a non-empty array whose exponents are strictly
increasing and in `[0, 2^31)`, whose coefficients are canonical and not Constant 0, and
which is not a single monomial of exponent 0 with a Constant coefficient. -/
theorem Canonical_Nested_iff (arr : List Mono) :
    Canonical (Nested arr) ↔
      arr ≠ [] ∧
      (arr.map Mono.exp).Pairwise (fun a b => a < b) ∧
      (∀ m ∈ arr, 0 ≤ m.exp ∧ m.exp < 2 ^ 31 ∧ Canonical m.p ∧ m.p ≠ Constant 0) ∧
      ¬ ∃ c, arr = [Mono.mk (Constant c) 0] := by
  simp only [Canonical, CanonicalMonos_iff]
  have hx : IsCoeffTimesXToZero arr = false ↔ ¬ ∃ c, arr = [Mono.mk (Constant c) 0] := by
    match arr with
    | [] => simp [IsCoeffTimesXToZero]
    | [Mono.mk (Constant c) e] =>
      by_cases he : e = 0
      · subst he; simp [IsCoeffTimesXToZero, PolyIsCoeff]
      · simp [IsCoeffTimesXToZero, he]
    | [Mono.mk (Nested a) e] => simp [IsCoeffTimesXToZero, PolyIsCoeff]
    | m1 :: m2 :: r => simp [IsCoeffTimesXToZero]
  rw [hx]
  constructor
  · rintro ⟨h1, ⟨h2, h3⟩, h4⟩
    exact ⟨h1, h3, fun m hm => ⟨by have := (h2 m hm).1; omega, (h2 m hm).2⟩, h4⟩
  · rintro ⟨h1, h2, h3, h4⟩
    exact ⟨h1, ⟨fun m hm => ⟨by have := (h3 m hm).1; omega, (h3 m hm).2⟩, h2⟩, h4⟩

/-- The value PolyAdd leaves in `numOfDifferentElem` (and stores in `result.size`) is
the number of entries written to `result.arr`. -/
theorem numOfDifferentElem_eq_length (ps qs : List Mono) :
    HowManyDifferentExp ps qs - CancelledExp ps qs = (AddTwoArraysTogether ps qs).length ∧
    CancelledExp ps qs ≤ HowManyDifferentExp ps qs := by
  induction ps, qs using HowManyDifferentExp.induct with
  | case1 qs => rw [HowManyDifferentExp, CancelledExp, AddTwoArraysTogether]; simp
  | case2 p e ps => rw [HowManyDifferentExp, CancelledExp, AddTwoArraysTogether]; simp
  | case3 p e ps q f qs hef ih =>
    rw [HowManyDifferentExp, CancelledExp, AddTwoArraysTogether]
    simp only [hef, if_true, List.length_cons]
    omega
  | case4 p e ps q f qs hef hfe ih =>
    rw [HowManyDifferentExp, CancelledExp, AddTwoArraysTogether]
    simp only [hef, hfe, if_true, if_false, List.length_cons]
    omega
  | case5 p e ps q f qs hef hfe ih =>
    rw [HowManyDifferentExp, CancelledExp, AddTwoArraysTogether]
    simp only [hef, hfe, if_false]
    split
    · simp only [List.length_cons]; omega
    · omega

/-! ## The round trip through PRINT and ParsePoly -/

theorem toDigitsCore_append (b : Nat) : ∀ (fuel n : Nat) (ds : List Char),
    Nat.toDigitsCore b fuel n ds = Nat.toDigitsCore b fuel n [] ++ ds := by
  intro fuel
  induction fuel with
  | zero => intro n ds; simp [Nat.toDigitsCore]
  | succ f ih =>
    intro n ds
    simp only [Nat.toDigitsCore]
    split
    · simp
    · rw [ih (n / b) (Nat.digitChar (n % b) :: ds), ih (n / b) [Nat.digitChar (n % b)]]
      simp

theorem toDigitsCore_fuel (b : Nat) (hb : 2 ≤ b) (n : Nat) : ∀ fuel, n < fuel →
    Nat.toDigitsCore b fuel n [] = Nat.toDigits b n := by
  induction n using Nat.strong_induction_on with
  | _ n ih =>
    intro fuel hf
    obtain ⟨f, rfl⟩ : ∃ f, fuel = f + 1 := ⟨fuel - 1, by omega⟩
    unfold Nat.toDigits
    simp only [Nat.toDigitsCore]
    by_cases h0 : n / b = 0
    · simp [h0]
    · simp only [h0, if_false]
      have hge : b ≤ n := by
        by_contra hlt
        exact h0 (Nat.div_eq_of_lt (by omega))
      have hdiv : n / b < n := Nat.div_lt_self (by omega) (by omega)
      rw [toDigitsCore_append b f, toDigitsCore_append b n]
      rw [ih (n / b) hdiv f (by omega), ih (n / b) hdiv n hdiv]

theorem toDigits_small (b : Nat) (n : Nat) (h : n < b) :
    Nat.toDigits b n = [Nat.digitChar n] := by
  unfold Nat.toDigits
  simp [Nat.toDigitsCore, Nat.div_eq_of_lt h, Nat.mod_eq_of_lt h]

theorem toDigits_large (b : Nat) (hb : 2 ≤ b) (n : Nat) (h : b ≤ n) :
    Nat.toDigits b n = Nat.toDigits b (n / b) ++ [Nat.digitChar (n % b)] := by
  have hdiv : n / b < n := Nat.div_lt_self (by omega) (by omega)
  have h0 : n / b ≠ 0 := by
    have := Nat.div_pos h (by omega : 0 < b)
    omega
  conv_lhs => unfold Nat.toDigits
  simp only [Nat.toDigitsCore, h0, if_false]
  rw [toDigitsCore_append, toDigitsCore_fuel b hb (n / b) n hdiv]

theorem digitChar_toNat (d : Nat) (h : d < 10) : (Nat.digitChar d).toNat = 48 + d := by
  interval_cases d <;> rfl

theorem isdigit_digitChar (d : Nat) (h : d < 10) : isdigit (Nat.digitChar d) = true := by
  interval_cases d <;> rfl

theorem digitVal_digitChar (d : Nat) (h : d < 10) : digitVal 10 (Nat.digitChar d) = some d := by
  interval_cases d <;> rfl

theorem isdigit_of_mem_toDigits (n : Nat) : ∀ c ∈ Nat.toDigits 10 n, isdigit c = true := by
  induction n using Nat.strong_induction_on with
  | _ n ih =>
    intro c hc
    by_cases h : n < 10
    · rw [toDigits_small 10 n h] at hc
      simp only [List.mem_singleton] at hc
      subst hc
      exact isdigit_digitChar n h
    · rw [toDigits_large 10 (by norm_num) n (by omega)] at hc
      simp only [List.mem_append, List.mem_singleton] at hc
      rcases hc with hc | hc
      · exact ih (n / 10) (Nat.div_lt_self (by omega) (by norm_num)) c hc
      · subst hc
        exact isdigit_digitChar _ (Nat.mod_lt _ (by norm_num))

theorem toDigits_ne_nil (n : Nat) : Nat.toDigits 10 n ≠ [] := by
  by_cases h : n < 10
  · rw [toDigits_small 10 n h]; simp
  · rw [toDigits_large 10 (by norm_num) n (by omega)]; simp

/-- The digits of a non-zero number do not start with the digit 0. -/
theorem toDigits_head (n : Nat) (hn : 0 < n) :
    ∃ c cs, Nat.toDigits 10 n = c :: cs ∧ isdigit c = true ∧ c.toNat ≠ 48 := by
  induction n using Nat.strong_induction_on with
  | _ n ih =>
    by_cases h : n < 10
    · rw [toDigits_small 10 n h]
      refine ⟨_, [], rfl, isdigit_digitChar n h, ?_⟩
      rw [digitChar_toNat n h]; omega
    · rw [toDigits_large 10 (by norm_num) n (by omega)]
      obtain ⟨c, cs, hc, hd, h48⟩ := ih (n / 10) (Nat.div_lt_self (by omega) (by norm_num))
        (Nat.div_pos (by omega) (by norm_num))
      exact ⟨c, cs ++ [Nat.digitChar (n % 10)], by rw [hc]; rfl, hd, h48⟩

theorem scanDigits_append (b : Nat) : ∀ (ds rest : List Char) (acc : Nat),
    (∀ c ∈ ds, (digitVal b c).isSome) →
    scanDigits b (ds ++ rest) acc =
      scanDigits b rest (ds.foldl (fun a c => a * b + (digitVal b c).getD 0) acc) := by
  intro ds
  induction ds with
  | nil => intro rest acc _; rfl
  | cons d ds ih =>
    intro rest acc h
    have hd := h d (by simp)
    obtain ⟨v, hv⟩ := Option.isSome_iff_exists.mp hd
    simp only [List.cons_append, scanDigits, hv, List.foldl_cons, Option.getD_some]
    exact ih rest _ (fun c hc => h c (by simp [hc]))

theorem digitVal_of_isdigit (c : Char) (h : isdigit c = true) :
    digitVal 10 c = some (c.toNat - 48) := by
  unfold isdigit at h
  simp only [Bool.and_eq_true, decide_eq_true_eq] at h
  unfold digitVal
  have : isdigit c = true := by unfold isdigit; simp [h]
  simp only [this, if_true]
  have : c.toNat - 48 < 10 := by omega
  simp [this]

theorem foldl_toDigits (n : Nat) :
    (Nat.toDigits 10 n).foldl (fun a c => a * 10 + (digitVal 10 c).getD 0) 0 = n := by
  induction n using Nat.strong_induction_on with
  | _ n ih =>
    by_cases h : n < 10
    · rw [toDigits_small 10 n h]
      simp [digitVal_digitChar n h]
    · rw [toDigits_large 10 (by norm_num) n (by omega)]
      rw [List.foldl_append, ih (n / 10) (Nat.div_lt_self (by omega) (by norm_num))]
      simp only [List.foldl_cons, List.foldl_nil]
      rw [digitVal_digitChar _ (Nat.mod_lt _ (by norm_num))]
      simp only [Option.getD_some]
      omega

/-- Reading back the decimal digits of `n`, followed by something that is not a digit. -/
theorem scanDigits_toDigits (n : Nat) (rest : List Char)
    (hrest : ∀ c cs, rest = c :: cs → digitVal 10 c = none) :
    scanDigits 10 (Nat.toDigits 10 n ++ rest) 0 = (n, rest) := by
  rw [scanDigits_append 10 _ rest 0]
  · rw [foldl_toDigits]
    cases rest with
    | nil => rfl
    | cons c cs => simp [scanDigits, hrest c cs rfl]
  · intro c hc
    rw [digitVal_of_isdigit c (isdigit_of_mem_toDigits n c hc)]
    rfl

theorem isdigit_range {c : Char} (h : isdigit c = true) : 48 ≤ c.toNat ∧ c.toNat ≤ 57 := by
  unfold isdigit at h
  simpa using h

theorem isspace_of_isdigit {c : Char} (h : isdigit c = true) : isspace c = false := by
  have := isdigit_range h
  unfold isspace
  simp only [Bool.or_eq_false_iff, beq_eq_false_iff_ne, ne_eq, Bool.and_eq_false_iff,
    decide_eq_false_iff_not]
  constructor <;> omega

theorem scanSign_digit {c : Char} (h : isdigit c = true) (cs : List Char) :
    scanSign (c :: cs) = (false, c :: cs) := by
  have := isdigit_range h
  unfold scanSign
  have h1 : (c.toNat == 45) = false := by simp; omega
  have h2 : (c.toNat == 43) = false := by simp; omega
  simp [h1, h2]

theorem digitVal_isSome_of_isdigit {c : Char} (h : isdigit c = true) :
    (digitVal 10 c).isNone = false := by
  rw [digitVal_of_isdigit c h]; rfl

theorem natAbs_bounds_neg {c : Int} (h1 : -2 ^ 63 ≤ c) (h2 : c < 0) :
    ¬ c.natAbs > 2 ^ 63 ∧ -(c.natAbs : Int) = c := by
  omega

theorem natAbs_bounds_pos {c : Int} (h1 : c < 2 ^ 63) (h2 : 0 ≤ c) :
    ¬ c.natAbs ≥ 2 ^ 63 ∧ (c.natAbs : Int) = c := by
  omega

theorem strtol_printInt (base : Nat) (c : Int) (h1 : -2 ^ 63 ≤ c) (h2 : c < 2 ^ 63)
    (hbase : base = 10 ∨ (base = 0 ∧ c ≠ 0))
    (rest : List Char) (hrest : ∀ d ds, rest = d :: ds → digitVal 10 d = none) :
    strtol (printInt c ++ rest) base = ⟨c, rest, false⟩ := by
  obtain ⟨d, ds, hds⟩ : ∃ d ds, Nat.toDigits 10 c.natAbs = d :: ds := by
    cases h : Nat.toDigits 10 c.natAbs with
    | nil => exact absurd h (toDigits_ne_nil _)
    | cons d ds => exact ⟨d, ds, rfl⟩
  have hd : isdigit d = true := isdigit_of_mem_toDigits _ d (by rw [hds]; simp)
  have hs := scanDigits_toDigits c.natAbs rest hrest
  have hbaseEq : scanBase base (Nat.toDigits 10 c.natAbs ++ rest)
      = (10, Nat.toDigits 10 c.natAbs ++ rest) := by
    rcases hbase with hb | ⟨hb, hc0⟩
    · subst hb; rfl
    · subst hb
      obtain ⟨d2, ds2, hds2, _, h48⟩ := toDigits_head c.natAbs (by omega)
      rw [hds2]
      have hz : (d2.toNat == 48) = false := by simpa using h48
      unfold scanBase
      simp only [beq_self_eq_true, if_true, List.cons_append]
      cases hl : ds2 ++ rest with
      | nil => simp [hz]
      | cons x xs =>
        cases xs with
        | nil => simp [hz]
        | cons y ys => simp [hz]
  unfold strtol printInt
  by_cases hneg : c < 0
  · have hb := natAbs_bounds_neg h1 hneg
    simp only [hneg, if_true, List.cons_append]
    have hsp : List.dropWhile isspace (Char.ofNat 45 :: (Nat.toDigits 10 c.natAbs ++ rest))
        = Char.ofNat 45 :: (Nat.toDigits 10 c.natAbs ++ rest) := by
      rw [List.dropWhile_cons_of_neg]; decide
    have hsg : scanSign (Char.ofNat 45 :: (Nat.toDigits 10 c.natAbs ++ rest))
        = (true, Nat.toDigits 10 c.natAbs ++ rest) := by
      simp [scanSign]
    simp only [hsp, hsg, hbaseEq]
    rw [hds] at hs ⊢
    simp only [List.cons_append] at hs ⊢
    simp only [digitVal_isSome_of_isdigit hd, hs, if_true, Bool.false_eq_true, if_false, hb.1]
    rw [hb.2]
  · have hb := natAbs_bounds_pos h2 (by omega)
    simp only [hneg, if_false]
    have hsp : List.dropWhile isspace (Nat.toDigits 10 c.natAbs ++ rest)
        = Nat.toDigits 10 c.natAbs ++ rest := by
      rw [hds, List.cons_append, List.dropWhile_cons_of_neg]
      simp [isspace_of_isdigit hd]
    have hsg : scanSign (Nat.toDigits 10 c.natAbs ++ rest)
        = (false, Nat.toDigits 10 c.natAbs ++ rest) := by
      rw [hds, List.cons_append]; exact scanSign_digit hd _
    simp only [hsp, hsg, hbaseEq]
    rw [hds] at hs ⊢
    simp only [List.cons_append] at hs ⊢
    simp only [digitVal_isSome_of_isdigit hd, hs, Bool.false_eq_true, if_false, hb.1]
    rw [hb.2]

theorem sscanfInt_printInt (e : Int) (h1 : 0 ≤ e) (h2 : e < 2 ^ 31) :
    sscanfInt (printInt e) = ScanfInt.ok e false := by
  obtain ⟨d, ds, hds⟩ : ∃ d ds, Nat.toDigits 10 e.natAbs = d :: ds := by
    cases h : Nat.toDigits 10 e.natAbs with
    | nil => exact absurd h (toDigits_ne_nil _)
    | cons d ds => exact ⟨d, ds, rfl⟩
  have hd : isdigit d = true := isdigit_of_mem_toDigits _ d (by rw [hds]; simp)
  have hs := scanDigits_toDigits e.natAbs [] (by simp)
  have hneg : ¬ e < 0 := by omega
  unfold sscanfInt printInt
  simp only [hneg, if_false]
  rw [List.append_nil] at hs
  rw [hds] at hs ⊢
  rw [List.dropWhile_cons_of_neg (by simp [isspace_of_isdigit hd])]
  simp only [scanSign_digit hd, hd, Bool.not_true, Bool.false_eq_true, if_false, hs]
  have hn : ¬ e.natAbs ≥ 2 ^ 63 := by omega
  simp only [hn, if_false]
  have hw : wrap32 (e.natAbs : Int) = e := by unfold wrap32; omega
  rw [hw]

theorem CanonicalMonos_sorted (arr : List Mono) (lo : Int) (h : CanonicalMonos lo arr) :
    arr.Pairwise (fun a b => a.exp ≤ b.exp) := by
  have h2 := ((CanonicalMonos_iff arr lo).mp h).2
  rw [List.pairwise_map] at h2
  exact h2.imp (fun hab => le_of_lt hab)

theorem SortMonos_of_canonical (arr : List Mono) (lo : Int) (h : CanonicalMonos lo arr) :
    SortMonos arr = arr :=
  List.Sorted.insertionSort_eq (CanonicalMonos_sorted arr lo h)

theorem DeleteSameExponentsLoop_of_canonical : ∀ (rest : List Mono) (e : Int) (p : Poly),
    PolyIsZero p = false → CanonicalMonos e rest →
    DeleteSameExponentsLoop e p rest = Mono.mk p e :: rest
  | [], e, p, hz, _ => by simp [DeleteSameExponentsLoop, hz]
  | Mono.mk q f :: rest, e, p, hz, h => by
    simp only [CanonicalMonos] at h
    rw [DeleteSameExponentsLoop]
    have hne : ¬ f = e := by omega
    simp only [hne, if_false, hz, Bool.false_eq_true]
    rw [DeleteSameExponentsLoop_of_canonical rest f q h.2.2.2.1 h.2.2.2.2]

theorem DeleteSameExponents_of_canonical (arr : List Mono) (lo : Int)
    (h : CanonicalMonos lo arr) : DeleteSameExponents arr = arr := by
  match arr, h with
  | [], _ => rfl
  | [m], _ => cases m; rfl
  | Mono.mk p e :: Mono.mk q f :: rest, h =>
    simp only [CanonicalMonos] at h
    simp only [DeleteSameExponents]
    exact DeleteSameExponentsLoop_of_canonical (Mono.mk q f :: rest) e p h.2.2.2.1
      (by simp only [CanonicalMonos]; exact h.2.2.2.2)

/-- PolyAddMonos gives back a canonical array of monomials as it is. -/
theorem PolyAddMonos_of_canonical (arr : List Mono) (h : Canonical (Nested arr)) :
    PolyAddMonos arr = Nested arr := by
  simp only [Canonical] at h
  obtain ⟨hne, hmonos, hx⟩ := h
  cases arr with
  | nil => exact absurd rfl hne
  | cons m rest =>
    have hg : ¬ (rest.length = 0 ∧ PolyIsZero m.p = true) := by
      cases m with
      | mk p e =>
        simp only [CanonicalMonos] at hmonos
        simp [Mono.p, hmonos.2.2.2.1]
    unfold PolyAddMonos
    rw [PolyCreateFromMonos_eq m rest hg, SortMonos_of_canonical _ _ hmonos,
      DeleteSameExponents_of_canonical _ _ hmonos]
    match rest, m, hx with
    | [], Mono.mk (Constant c) e, hx =>
      have he : e ≠ 0 := by
        intro h0; subst h0
        simp [IsCoeffTimesXToZero, PolyIsCoeff] at hx
      unfold collapseRule
      split
      · rename_i heq; cases heq
      · rename_i heq; simp at heq; exact absurd heq.2 he
      · rfl
    | [], Mono.mk (Nested a) e, _ =>
      unfold collapseRule
      split
      · rename_i heq; cases heq
      · rename_i heq; cases heq
      · rfl
    | m2 :: r, m, _ =>
      unfold collapseRule
      split
      · rename_i heq; cases heq
      · rename_i heq; cases heq
      · rfl

theorem cntL_cons (c : Char) (cs : List Char) :
    cntL (c :: cs) = (if c == '(' then 1 else 0) + cntL cs := by
  unfold cntL
  rw [List.count_cons]
  split <;> simp_all [add_comm]

theorem cntR_cons (c : Char) (cs : List Char) :
    cntR (c :: cs) = (if c == ')' then 1 else 0) + cntR cs := by
  unfold cntR
  rw [List.count_cons]
  split <;> simp_all [add_comm]

theorem cntL_append (a b : List Char) : cntL (a ++ b) = cntL a + cntL b := by
  unfold cntL; simp

theorem cntR_append (a b : List Char) : cntR (a ++ b) = cntR a + cntR b := by
  unfold cntR; simp

theorem cntL_nil : cntL [] = 0 := rfl
theorem cntR_nil : cntR [] = 0 := rfl

theorem ite_add_int (b : Bool) (l k : Int) :
    (if b then l + 1 else l) + k = l + ((if b then 1 else 0) + k) := by
  split <;> omega

theorem NoTopPlus_append (a : List Char) : ∀ (b : List Char) (l r : Int),
    NoTopPlus l r (a ++ b) ↔ NoTopPlus l r a ∧ NoTopPlus (l + cntL a) (r + cntR a) b := by
  induction a with
  | nil => intro b l r; simp [NoTopPlus, cntL_nil, cntR_nil]
  | cons c cs ih =>
    intro b l r
    rw [List.cons_append]
    simp only [NoTopPlus]
    rw [ih, cntL_cons, cntR_cons, ite_add_int, ite_add_int]
    tauto

theorem getD_append_mid (pre : List Char) (c : Char) (post : List Char) (d : Char) :
    (pre ++ c :: post).getD pre.length d = c := by
  rw [List.getD_eq_getElem?_getD, List.getElem?_append_right (le_refl _)]
  simp

/-- HowManyMonosLoop across a stretch of text without a `+` outside parentheses. -/
theorem HowManyMonosLoop_skip : ∀ (s pre post : List Char) (n : Nat) (h l r : Int),
    NoTopPlus l r s →
    HowManyMonosLoop (pre ++ s ++ post) (s.length + n) pre.length h l r
      = HowManyMonosLoop (pre ++ s ++ post) n (pre.length + s.length) h
          (l + cntL s) (r + cntR s)
  | [], pre, post, n, h, l, r, _ => by simp [cntL_nil, cntR_nil]
  | c :: cs, pre, post, n, h, l, r, hs => by
    simp only [NoTopPlus] at hs
    have hlen : (c :: cs).length + n = (cs.length + n) + 1 := by simp; omega
    rw [hlen, HowManyMonosLoop]
    have hget : (pre ++ (c :: cs) ++ post).getD pre.length NUL = c := by
      rw [List.append_assoc, List.cons_append]; exact getD_append_mid _ _ _ _
    simp only [hget, hs.1, Bool.false_eq_true, if_false]
    have hbuf : pre ++ (c :: cs) ++ post = (pre ++ [c]) ++ cs ++ post := by simp
    have ih := HowManyMonosLoop_skip cs (pre ++ [c]) post n h _ _ hs.2
    rw [hbuf]
    simp only [List.length_append, List.length_singleton] at ih
    rw [ih, cntL_cons, cntR_cons]
    simp only [List.length_cons]
    rw [ite_add_int, ite_add_int]
    congr 1
    omega

/-- IterateTillMonoEndLoop across a stretch of text without a `+` outside parentheses. -/
theorem IterateTillMonoEndLoop_skip : ∀ (s pre post : List Char) (lineSize n : Nat) (l r : Int),
    NoTopPlus l r s →
    IterateTillMonoEndLoop (pre ++ s ++ post) lineSize (s.length + n) pre.length l r
      = IterateTillMonoEndLoop (pre ++ s ++ post) lineSize n (pre.length + s.length)
          (l + cntL s) (r + cntR s)
  | [], pre, post, lineSize, n, l, r, _ => by simp [cntL_nil, cntR_nil]
  | c :: cs, pre, post, lineSize, n, l, r, hs => by
    simp only [NoTopPlus] at hs
    have hlen : (c :: cs).length + n = (cs.length + n) + 1 := by simp; omega
    rw [hlen, IterateTillMonoEndLoop]
    have hget : (pre ++ (c :: cs) ++ post).getD pre.length NUL = c := by
      rw [List.append_assoc, List.cons_append]; exact getD_append_mid _ _ _ _
    simp only [hget, hs.1, Bool.false_eq_true, if_false]
    have hbuf : pre ++ (c :: cs) ++ post = (pre ++ [c]) ++ cs ++ post := by simp
    have ih := IterateTillMonoEndLoop_skip cs (pre ++ [c]) post lineSize n _ _ hs.2
    rw [hbuf]
    simp only [List.length_append, List.length_singleton] at ih
    rw [ih, cntL_cons, cntR_cons]
    simp only [List.length_cons]
    rw [ite_add_int, ite_add_int]
    congr 1
    omega

theorem cntC_append (a b : List Char) : cntC (a ++ b) = cntC a + cntC b := by
  unfold cntC; simp

theorem cntC_cons (c : Char) (cs : List Char) :
    cntC (c :: cs) = (if c == ',' then 1 else 0) + cntC cs := by
  unfold cntC
  rw [List.count_cons]
  split <;> simp_all [add_comm]

theorem Inside_append (a : List Char) : ∀ (b : List Char) (l r : Int),
    Inside l r (a ++ b) ↔ Inside l r a ∧ Inside (l + cntL a) (r + cntR a) b := by
  induction a with
  | nil => intro b l r; simp [Inside, cntL_nil, cntR_nil]
  | cons c cs ih =>
    intro b l r
    rw [List.cons_append]
    simp only [Inside]
    rw [ih, cntL_cons, cntR_cons, ite_add_int, ite_add_int]
    tauto

theorem InsideRev_append (a : List Char) : ∀ (b : List Char) (l r : Int),
    InsideRev l r (a ++ b) ↔ InsideRev l r a ∧ InsideRev (l + cntL a) (r + cntR a) b := by
  induction a with
  | nil => intro b l r; simp [InsideRev, cntL_nil, cntR_nil]
  | cons c cs ih =>
    intro b l r
    rw [List.cons_append]
    simp only [InsideRev]
    rw [ih, cntL_cons, cntR_cons, ite_add_int, ite_add_int]
    tauto

theorem cntL_reverse (s : List Char) : cntL s.reverse = cntL s := by
  unfold cntL; simp

theorem cntR_reverse (s : List Char) : cntR s.reverse = cntR s := by
  unfold cntR; simp

theorem NoTopPlus_of_Inside : ∀ (s : List Char) (l r : Int), Inside l r s → NoTopPlus l r s
  | [], _, _, _ => trivial
  | c :: cs, l, r, h => by
    simp only [Inside] at h
    simp only [NoTopPlus]
    refine ⟨?_, NoTopPlus_of_Inside cs _ _ h.2.2⟩
    by_cases hc : c = '+'
    · have := h.2.1 hc
      have hne : ((if c == '(' then l + 1 else l) == (if c == ')' then r + 1 else r)) = false := by
        rw [beq_eq_false_iff_ne]; omega
      rw [hne]; rfl
    · simp [hc]

theorem Plain_cntL : ∀ (s : List Char), Plain s → cntL s = 0
  | [], _ => rfl
  | c :: cs, h => by
    rw [cntL_cons, Plain_cntL cs (fun x hx => h x (List.mem_cons_of_mem _ hx))]
    have := (h c (List.mem_cons_self _ _)).1
    simp [this]

theorem Plain_cntR : ∀ (s : List Char), Plain s → cntR s = 0
  | [], _ => rfl
  | c :: cs, h => by
    rw [cntR_cons, Plain_cntR cs (fun x hx => h x (List.mem_cons_of_mem _ hx))]
    have := (h c (List.mem_cons_self _ _)).2.1
    simp [this]

theorem Plain_Inside : ∀ (s : List Char) (l r : Int), Plain s → r ≤ l → Inside l r s
  | [], _, _, _, _ => trivial
  | c :: cs, l, r, h, hlr => by
    have hc := h c (List.mem_cons_self _ _)
    simp only [Inside]
    have h1 : (c == '(') = false := by simp [hc.1]
    have h2 : (c == ')') = false := by simp [hc.2.1]
    simp only [h1, h2, Bool.false_eq_true, if_false]
    exact ⟨hlr, fun h3 => absurd h3 hc.2.2,
      Plain_Inside cs l r (fun x hx => h x (List.mem_cons_of_mem _ hx)) hlr⟩

theorem Plain_InsideRev : ∀ (s : List Char) (l r : Int), Plain s → InsideRev l r s
  | [], _, _, _ => trivial
  | c :: cs, l, r, h => by
    have hc := h c (List.mem_cons_self _ _)
    simp only [InsideRev]
    have h1 : (c == '(') = false := by simp [hc.1]
    have h2 : (c == ')') = false := by simp [hc.2.1]
    simp only [h1, h2, Bool.false_eq_true, if_false]
    exact ⟨fun h3 => absurd h3 hc.1,
      Plain_InsideRev cs l r (fun x hx => h x (List.mem_cons_of_mem _ hx))⟩

theorem Plain_reverse (s : List Char) (h : Plain s) : Plain s.reverse :=
  fun c hc => h c (List.mem_reverse.mp hc)

theorem printInt_chars (x : Int) : ∀ c ∈ printInt x, c = '-' ∨ isdigit c = true := by
  intro c hc
  unfold printInt at hc
  split at hc
  · rcases List.mem_cons.mp hc with h | h
    · left; exact h
    · right; exact isdigit_of_mem_toDigits _ c h
  · right; exact isdigit_of_mem_toDigits _ c hc

theorem isdigit_ne {c : Char} (h : isdigit c = true) :
    c ≠ '(' ∧ c ≠ ')' ∧ c ≠ '+' ∧ c ≠ ',' ∧ c ≠ '-' ∧ c ≠ NUL ∧ c ≠ '\n' := by
  have := isdigit_range h
  refine ⟨?_, ?_, ?_, ?_, ?_, ?_, ?_⟩ <;> (intro hc; rw [hc] at this; revert this; decide)

theorem Plain_printInt (x : Int) : Plain (printInt x) := by
  intro c hc
  rcases printInt_chars x c hc with h | h
  · rw [h]; decide
  · have := isdigit_ne h
    exact ⟨this.1, this.2.1, this.2.2.1⟩

theorem cntC_printInt (x : Int) : cntC (printInt x) = 0 := by
  unfold cntC
  have : List.count ',' (printInt x) = 0 := by
    rw [List.count_eq_zero]
    intro hc
    rcases printInt_chars x _ hc with h | h
    · revert h; decide
    · exact (isdigit_ne h).2.2.2.1 rfl
  simp [this]

theorem PrintPoly_shift : ∀ (arr : List Mono) (i j : Nat),
    PrintPoly arr (i + 1) = PrintPoly arr (j + 1)
  | [], _, _ => by simp [PrintPoly]
  | m :: rest, i, j => by
    rw [PrintPoly, PrintPoly, PrintPoly_shift rest (i + 1) (j + 1)]
    simp

theorem PrintPoly_cons_zero (m : Mono) (rest : List Mono) :
    PrintPoly (m :: rest) 0 = '(' :: PrintMono m ++ PrintPoly rest 1 := by
  rw [PrintPoly]; simp

theorem PrintPoly_cons_succ (m : Mono) (rest : List Mono) (i : Nat) :
    PrintPoly (m :: rest) (i + 1) = '+' :: PrintPoly (m :: rest) 0 := by
  rw [PrintPoly, PrintPoly, PrintPoly_shift rest (i + 1) 0]
  simp

mutual
theorem cnt_PrintCoeff : ∀ p : Poly,
    cntL (PrintCoeff p) = cntR (PrintCoeff p) ∧ cntC (PrintCoeff p) = cntR (PrintCoeff p)
  | Constant c => by
    simp only [PrintCoeff]
    rw [Plain_cntL _ (Plain_printInt c), Plain_cntR _ (Plain_printInt c), cntC_printInt]
    exact ⟨rfl, rfl⟩
  | Nested arr => by
    simp only [PrintCoeff]
    exact cnt_PrintPoly arr 0
theorem cnt_PrintPoly : ∀ (arr : List Mono) (i : Nat),
    cntL (PrintPoly arr i) = cntR (PrintPoly arr i) ∧ cntC (PrintPoly arr i) = cntR (PrintPoly arr i)
  | [], _ => by simp [PrintPoly, cntL, cntR, cntC]
  | m :: rest, i => by
    have h1 := cnt_PrintMono m
    have h2 := cnt_PrintPoly rest (i + 1)
    rw [PrintPoly]
    simp only [cntL_append, cntR_append, cntC_append]
    have e1 : cntL (if (i == 0) = true then ['('] else ['+', '(']) = 1 := by
      split <;> rfl
    have e2 : cntR (if (i == 0) = true then ['('] else ['+', '(']) = 0 := by
      split <;> rfl
    have e3 : cntC (if (i == 0) = true then ['('] else ['+', '(']) = 0 := by
      split <;> rfl
    rw [e1, e2, e3]
    omega
theorem cnt_PrintMono : ∀ m : Mono,
    cntL (PrintMono m) + 1 = cntR (PrintMono m) ∧ cntC (PrintMono m) = cntR (PrintMono m)
  | Mono.mk p e => by
    have h1 := cnt_PrintCoeff p
    simp only [PrintMono, cntL_append, cntR_append, cntC_append]
    rw [Plain_cntL _ (Plain_printInt e), Plain_cntR _ (Plain_printInt e), cntC_printInt]
    have e1 : cntL [','] = 0 := rfl
    have e2 : cntR [','] = 0 := rfl
    have e3 : cntC [','] = 1 := rfl
    have e4 : cntL [')'] = 0 := rfl
    have e5 : cntR [')'] = 1 := rfl
    have e6 : cntC [')'] = 0 := rfl
    rw [e1, e2, e3, e4, e5, e6]
    omega
end

theorem Inside_cons_open (l r : Int) (cs : List Char) :
    Inside l r ('(' :: cs) ↔ r ≤ l + 1 ∧ Inside (l + 1) r cs := by
  simp [Inside]

theorem Inside_cons_close (l r : Int) (cs : List Char) :
    Inside l r (')' :: cs) ↔ r + 1 ≤ l ∧ Inside l (r + 1) cs := by
  simp [Inside]

theorem Inside_cons_plus (l r : Int) (cs : List Char) :
    Inside l r ('+' :: cs) ↔ r < l ∧ Inside l r cs := by
  simp only [Inside]
  have h1 : ('+' == '(') = false := by decide
  have h2 : ('+' == ')') = false := by decide
  simp only [h1, h2, Bool.false_eq_true, if_false]
  constructor
  · intro h; exact ⟨h.2.1 trivial, h.2.2⟩
  · intro h; exact ⟨le_of_lt h.1, fun _ => h.1, h.2⟩

theorem Inside_cons_comma (l r : Int) (cs : List Char) :
    Inside l r (',' :: cs) ↔ r ≤ l ∧ Inside l r cs := by
  simp [Inside]

theorem InsideRev_cons_open (l r : Int) (cs : List Char) :
    InsideRev l r ('(' :: cs) ↔ l + 1 < r ∧ InsideRev (l + 1) r cs := by
  simp [InsideRev]

theorem InsideRev_cons_close (l r : Int) (cs : List Char) :
    InsideRev l r (')' :: cs) ↔ InsideRev l (r + 1) cs := by
  simp [InsideRev]

theorem InsideRev_cons_plus (l r : Int) (cs : List Char) :
    InsideRev l r ('+' :: cs) ↔ InsideRev l r cs := by
  simp [InsideRev]

theorem InsideRev_cons_comma (l r : Int) (cs : List Char) :
    InsideRev l r (',' :: cs) ↔ InsideRev l r cs := by
  simp [InsideRev]

theorem PrintPoly_cons (m : Mono) (rest : List Mono) (i : Nat) :
    PrintPoly (m :: rest) i
      = (if i = 0 then [] else ['+']) ++ '(' :: (PrintMono m ++ PrintPoly rest 1) := by
  cases i with
  | zero => simp [PrintPoly_cons_zero]
  | succ j => simp [PrintPoly_cons_succ, PrintPoly_cons_zero]

theorem PrintMono_eq (p : Poly) (e : Int) :
    PrintMono (Mono.mk p e) = PrintCoeff p ++ ',' :: (printInt e ++ [')']) := by
  simp [PrintMono]

mutual
theorem Inside_PrintCoeff : ∀ (p : Poly) (l r : Int), r < l → Inside l r (PrintCoeff p)
  | Constant c, l, r, h => by
    simp only [PrintCoeff]
    exact Plain_Inside _ l r (Plain_printInt c) (le_of_lt h)
  | Nested arr, l, r, h => by
    simp only [PrintCoeff]
    exact Inside_PrintPoly arr 0 l r h
theorem Inside_PrintPoly : ∀ (arr : List Mono) (i : Nat) (l r : Int), r < l →
    Inside l r (PrintPoly arr i)
  | [], _, _, _, _ => by simp [PrintPoly, Inside]
  | m :: rest, i, l, r, h => by
    have hm := Inside_PrintMono m (l + 1) r (by omega)
    have hc := (cnt_PrintMono m).1
    have hrest := Inside_PrintPoly rest 1 (l + 1 + cntL (PrintMono m))
      (r + cntR (PrintMono m)) (by omega)
    have hbody : Inside l r ('(' :: (PrintMono m ++ PrintPoly rest 1)) := by
      rw [Inside_cons_open, Inside_append]
      exact ⟨by omega, hm, hrest⟩
    rw [PrintPoly_cons]
    split
    · exact hbody
    · rw [List.singleton_append, Inside_cons_plus]
      exact ⟨h, hbody⟩
theorem Inside_PrintMono : ∀ (m : Mono) (l r : Int), r < l → Inside l r (PrintMono m)
  | Mono.mk p e, l, r, h => by
    have hp := Inside_PrintCoeff p l r h
    have hc := (cnt_PrintCoeff p).1
    rw [PrintMono_eq, Inside_append, Inside_cons_comma, Inside_append,
      Plain_cntL _ (Plain_printInt e), Plain_cntR _ (Plain_printInt e), Inside_cons_close]
    exact ⟨hp, by omega, Plain_Inside _ _ _ (Plain_printInt e) (by omega), by omega, trivial⟩
end

/-- The text of one monomial with its opening parenthesis, read from the left. -/
theorem Inside_mono (m : Mono) (l r : Int) (h : r ≤ l) : Inside l r ('(' :: PrintMono m) := by
  rw [Inside_cons_open]
  exact ⟨by omega, Inside_PrintMono m _ _ (by omega)⟩

theorem reverse_cons_append (c : Char) (s : List Char) :
    (c :: s).reverse = s.reverse ++ [c] := by simp

mutual
theorem InsideRev_PrintCoeff : ∀ (p : Poly) (l r : Int), l < r →
    InsideRev l r (PrintCoeff p).reverse
  | Constant c, l, r, _ => by
    simp only [PrintCoeff]
    exact Plain_InsideRev _ l r (Plain_reverse _ (Plain_printInt c))
  | Nested arr, l, r, h => by
    simp only [PrintCoeff]
    exact InsideRev_PrintPoly arr 0 l r h
theorem InsideRev_PrintPoly : ∀ (arr : List Mono) (i : Nat) (l r : Int), l < r →
    InsideRev l r (PrintPoly arr i).reverse
  | [], _, _, _, _ => by simp [PrintPoly, InsideRev]
  | m :: rest, i, l, r, h => by
    have hrest := InsideRev_PrintPoly rest 1 l r h
    have hcr := (cnt_PrintPoly rest 1).1
    have hm := InsideRev_PrintMono m (l + cntL (PrintPoly rest 1))
      (r + cntR (PrintPoly rest 1)) (by omega)
    have hc := (cnt_PrintMono m).1
    rw [PrintPoly_cons, List.reverse_append, reverse_cons_append, List.reverse_append,
      InsideRev_append, InsideRev_append, InsideRev_append]
    simp only [cntL_append, cntR_append, cntL_reverse, cntR_reverse]
    refine ⟨⟨⟨hrest, hm⟩, ?_⟩, ?_⟩
    · rw [InsideRev_cons_open]
      exact ⟨by omega, trivial⟩
    · split
      · trivial
      · rw [List.reverse_singleton, InsideRev_cons_plus]; trivial
theorem InsideRev_PrintMono : ∀ (m : Mono) (l r : Int), l ≤ r →
    InsideRev l r (PrintMono m).reverse
  | Mono.mk p e, l, r, h => by
    have hp := InsideRev_PrintCoeff p l (r + 1) (by omega)
    rw [PrintMono_eq, List.reverse_append, reverse_cons_append, List.reverse_append,
      List.reverse_singleton, List.append_assoc, List.append_assoc, List.singleton_append,
      InsideRev_cons_close, InsideRev_append, List.singleton_append, InsideRev_cons_comma,
      cntL_reverse, cntR_reverse, Plain_cntL _ (Plain_printInt e),
      Plain_cntR _ (Plain_printInt e), add_zero, add_zero]
    exact ⟨Plain_InsideRev _ _ _ (Plain_reverse _ (Plain_printInt e)), hp⟩
end

theorem IsCorrectSign_printInt (x : Int) : ∀ c ∈ printInt x, IsCorrectSign c = true := by
  intro c hc
  rcases printInt_chars x c hc with h | h
  · rw [h]; rfl
  · simp [IsCorrectSign, h]

mutual
theorem IsCorrectSign_PrintCoeff : ∀ (p : Poly), ∀ c ∈ PrintCoeff p, IsCorrectSign c = true
  | Constant x => by
    simp only [PrintCoeff]
    exact IsCorrectSign_printInt x
  | Nested arr => by
    simp only [PrintCoeff]
    exact IsCorrectSign_PrintPoly arr 0
theorem IsCorrectSign_PrintPoly : ∀ (arr : List Mono) (i : Nat),
    ∀ c ∈ PrintPoly arr i, IsCorrectSign c = true
  | [], _ => by simp [PrintPoly]
  | m :: rest, i => by
    intro c hc
    rw [PrintPoly] at hc
    rcases List.mem_append.mp hc with h | h
    · rcases List.mem_append.mp h with h | h
      · split at h
        · rw [List.mem_singleton.mp h]; rfl
        · simp only [List.mem_cons, List.mem_singleton, List.not_mem_nil, or_false] at h
          rcases h with h | h <;> (rw [h]; rfl)
      · exact IsCorrectSign_PrintMono m c h
    · exact IsCorrectSign_PrintPoly rest (i + 1) c h
theorem IsCorrectSign_PrintMono : ∀ (m : Mono), ∀ c ∈ PrintMono m, IsCorrectSign c = true
  | Mono.mk p e => by
    intro c hc
    simp only [PrintMono, List.mem_append, List.mem_singleton] at hc
    rcases hc with ((h | h) | h) | h
    · exact IsCorrectSign_PrintCoeff p c h
    · rw [h]; rfl
    · exact IsCorrectSign_printInt e c h
    · rw [h]; rfl
end

theorem IsCorrectSign_props {c : Char} (h : IsCorrectSign c = true) :
    c ≠ NUL ∧ isspace c = false := by
  simp only [IsCorrectSign, Bool.or_eq_true, beq_iff_eq] at h
  rcases h with ((((h | h) | h) | h) | h) | h
  · rw [h]; exact ⟨by decide, by decide⟩
  · rw [h]; exact ⟨by decide, by decide⟩
  · rw [h]; exact ⟨by decide, by decide⟩
  · rw [h]; exact ⟨by decide, by decide⟩
  · exact ⟨(isdigit_ne h).2.2.2.2.2.1, isspace_of_isdigit h⟩
  · rw [h]; exact ⟨by decide, by decide⟩

theorem get?_append_mid (pre : List Char) (c : Char) (post : List Char) :
    (pre ++ c :: post).get? pre.length = some c := by
  rw [List.get?_eq_getElem?, List.getElem?_append_right (le_refl _)]
  simp

theorem set_append_mid (pre : List Char) (c d : Char) (post : List Char) :
    (pre ++ c :: post).set pre.length d = pre ++ d :: post := by
  induction pre with
  | nil => rfl
  | cons x xs ih => simp [List.set, ih]

theorem drop_append_mid (pre s : List Char) : (pre ++ s).drop pre.length = s := by
  simp

/-- The loop of FindComaBeforeExp, read downwards across bytes that are no comma. -/
theorem FindComaBeforeExpLoop_skip : ∀ (t pre post : List Char), ',' ∉ t →
    FindComaBeforeExpLoop (pre ++ ',' :: (t.reverse ++ post)) (pre.length + 1 + t.length)
      = some pre.length
  | [], pre, post, _ => by
    simp only [List.reverse_nil, List.nil_append, List.length_nil, add_zero]
    rw [FindComaBeforeExpLoop, get?_append_mid]
    simp
  | c :: cs, pre, post, h => by
    have hc : c ≠ ',' := fun hc => h (by rw [hc]; exact List.mem_cons_self _ _)
    have hcs : ',' ∉ cs := fun hcs => h (List.mem_cons_of_mem _ hcs)
    have hlen : pre.length + 1 + (c :: cs).length = (pre.length + 1 + cs.length) + 1 := by
      simp; omega
    have hbuf : pre ++ ',' :: ((c :: cs).reverse ++ post)
        = (pre ++ ',' :: cs.reverse) ++ c :: post := by simp
    rw [hlen, FindComaBeforeExpLoop, hbuf]
    have hl2 : pre.length + 1 + cs.length = (pre ++ ',' :: cs.reverse).length := by
      simp; omega
    rw [hl2, get?_append_mid]
    have hc2 : (c == ',') = false := by simp [hc]
    simp only [hc2, Bool.false_eq_true, if_false]
    have ih := FindComaBeforeExpLoop_skip cs pre (c :: post) hcs
    rw [← hl2]
    have hbuf2 : (pre ++ ',' :: cs.reverse) ++ c :: post
        = pre ++ ',' :: (cs.reverse ++ c :: post) := by simp
    rw [hbuf2]
    exact ih

/-- The loop of FindPolyAsCoeffBegin, read downwards across a stretch that holds no
left parenthesis closing the count. -/
theorem FindPolyAsCoeffBeginLoop_skip : ∀ (t pre post : List Char) (l r : Int),
    InsideRev l r t →
    FindPolyAsCoeffBeginLoop (pre ++ (t.reverse ++ post)) (pre.length + t.length) l r
      = FindPolyAsCoeffBeginLoop (pre ++ (t.reverse ++ post)) pre.length
          (l + cntL t) (r + cntR t)
  | [], pre, post, l, r, _ => by simp [cntL_nil, cntR_nil]
  | c :: cs, pre, post, l, r, h => by
    simp only [InsideRev] at h
    have hlen : pre.length + (c :: cs).length = (pre.length + cs.length) + 1 := by
      simp; omega
    have hbuf : pre ++ ((c :: cs).reverse ++ post) = (pre ++ cs.reverse) ++ c :: post := by simp
    rw [hlen, FindPolyAsCoeffBeginLoop, hbuf]
    have hl2 : pre.length + cs.length = (pre ++ cs.reverse).length := by simp
    rw [hl2, get?_append_mid]
    have htrig : ((if c == '(' then l + 1 else l) == (if c == ')' then r + 1 else r)
        && c == '(' && decide ((if c == ')' then r + 1 else r) > 0)) = false := by
      by_cases hc : c = '('
      · have := h.1 hc
        have hne : ((if c == '(' then l + 1 else l) == (if c == ')' then r + 1 else r))
            = false := by
          rw [beq_eq_false_iff_ne]; omega
        rw [hne]; rfl
      · simp [hc]
    simp only [htrig, Bool.false_eq_true, if_false]
    have ih := FindPolyAsCoeffBeginLoop_skip cs pre (c :: post) _ _ h.2
    rw [← hl2]
    have hbuf2 : (pre ++ cs.reverse) ++ c :: post = pre ++ (cs.reverse ++ c :: post) := by simp
    rw [hbuf2, ih, cntL_cons, cntR_cons, ite_add_int, ite_add_int]

theorem cstr_append_NUL (s rest : List Char) (h : ∀ c ∈ s, c ≠ NUL) :
    cstr (s ++ NUL :: rest) = s := by
  unfold cstr
  induction s with
  | nil => simp [List.takeWhile]
  | cons c cs ih =>
    have hc := h c (List.mem_cons_self _ _)
    have : (c != NUL) = true := by simp [hc]
    rw [List.cons_append, List.takeWhile_cons, this]
    simp only [if_true]
    rw [ih (fun x hx => h x (List.mem_cons_of_mem _ hx))]

/-- The call `sscanf(word, "%s", out)` on a text without white space, followed by a NUL. -/
theorem sscanfStr_text (s rest : List Char) (hne : s ≠ [])
    (h : ∀ c ∈ s, c ≠ NUL ∧ isspace c = false) :
    sscanfStr (s ++ NUL :: rest) = some (s ++ [NUL]) := by
  unfold sscanfStr
  rw [cstr_append_NUL s rest (fun c hc => (h c hc).1)]
  cases s with
  | nil => exact absurd rfl hne
  | cons c cs =>
    have hc := (h c (List.mem_cons_self _ _)).2
    have h1 : (c :: cs).dropWhile isspace = c :: cs := by
      rw [List.dropWhile_cons, hc]; simp
    have h2 : (c :: cs).takeWhile (fun c => !isspace c) = c :: cs := by
      rw [List.takeWhile_eq_self_iff]
      intro x hx
      simp [(h x hx).2]
    simp only [h1, h2]
    simp

theorem text_props (s : List Char) (h : ∀ c ∈ s, IsCorrectSign c = true) :
    ∀ c ∈ s, c ≠ NUL ∧ isspace c = false :=
  fun c hc => IsCorrectSign_props (h c hc)

theorem printInt_ne_nil (x : Int) : printInt x ≠ [] := by
  unfold printInt
  split
  · simp
  · exact toDigits_ne_nil _

theorem toDigits_last (n : Nat) : ∃ ds x, Nat.toDigits 10 n = ds ++ [x] ∧ isdigit x = true := by
  by_cases h : n < 10
  · rw [toDigits_small 10 n h]
    exact ⟨[], _, rfl, isdigit_digitChar n h⟩
  · rw [toDigits_large 10 (by norm_num) n (by omega)]
    exact ⟨_, _, rfl, isdigit_digitChar _ (Nat.mod_lt _ (by norm_num))⟩

theorem printInt_last (x : Int) : ∃ ds d, printInt x = ds ++ [d] ∧ isdigit d = true := by
  obtain ⟨ds, d, h1, h2⟩ := toDigits_last x.natAbs
  unfold printInt
  split
  · exact ⟨Char.ofNat 45 :: ds, d, by rw [h1]; rfl, h2⟩
  · exact ⟨ds, d, h1, h2⟩

theorem PrintPoly_last : ∀ (arr : List Mono) (i : Nat), arr ≠ [] →
    ∃ s, PrintPoly arr i = s ++ [')']
  | [], _, h => absurd rfl h
  | [Mono.mk p e], i, _ => by
    rw [PrintPoly_cons, PrintMono_eq]
    refine ⟨(if i = 0 then [] else ['+']) ++ '(' :: (PrintCoeff p ++ ',' :: printInt e), ?_⟩
    simp [PrintPoly]
  | m :: m2 :: rest, i, _ => by
    obtain ⟨s, hs⟩ := PrintPoly_last (m2 :: rest) 1 (by simp)
    rw [PrintPoly_cons, hs]
    exact ⟨(if i = 0 then [] else ['+']) ++ '(' :: (PrintMono m ++ s), by simp⟩

theorem FindComaBeforeExp_printed (C E : List Char) (hE : ',' ∉ E) :
    FindComaBeforeExp ('(' :: (C ++ ',' :: (E ++ [')'])) ++ [NUL]) (C.length + E.length + 3)
      = some (C.length + 1) := by
  unfold FindComaBeforeExp
  have h := FindComaBeforeExpLoop_skip (E ++ [')']).reverse ('(' :: C) [NUL]
    (by
      intro hmem
      rw [List.mem_reverse, List.mem_append, List.mem_singleton] at hmem
      rcases hmem with hmem | hmem
      · exact hE hmem
      · revert hmem; decide)
  rw [List.reverse_reverse] at h
  have hbuf : '(' :: (C ++ ',' :: (E ++ [')'])) ++ [NUL]
      = ('(' :: C) ++ ',' :: ((E ++ [')']) ++ [NUL]) := by simp
  have hlen : C.length + E.length + 3
      = ('(' :: C).length + 1 + (E ++ [')']).reverse.length := by simp; omega
  rw [hbuf, hlen, h]
  simp

theorem CutExp_printed (C E : List Char) (hne : E ≠ [])
    (hE : ∀ c ∈ E, c ≠ NUL ∧ isspace c = false) :
    CutExp ('(' :: (C ++ ',' :: (E ++ [')'])) ++ [NUL]) (C.length + E.length + 3) (C.length + 2)
      = some (E ++ [NUL], '(' :: (C ++ ',' :: (E ++ [')'])) ++ [NUL]) := by
  unfold CutExp
  have hbuf : '(' :: (C ++ ',' :: (E ++ [')'])) ++ [NUL]
      = ('(' :: (C ++ ',' :: E)) ++ ')' :: [NUL] := by simp
  have hlen : C.length + E.length + 3 - 1 = ('(' :: (C ++ ',' :: E)).length := by
    simp; omega
  have hcond : (decide (0 < C.length + E.length + 3)
      && decide (C.length + E.length + 3 - 1
        < ('(' :: (C ++ ',' :: (E ++ [')'])) ++ [NUL]).length)) = true := by
    simp; omega
  simp only [hcond, if_true]
  rw [hbuf, hlen, set_append_mid, set_append_mid]
  have hbuf2 : ('(' :: (C ++ ',' :: E)) ++ NUL :: [NUL]
      = ('(' :: (C ++ [','])) ++ (E ++ NUL :: [NUL]) := by simp
  have hlen2 : C.length + 2 = ('(' :: (C ++ [','])).length := by simp
  rw [hbuf2, hlen2, drop_append_mid, sscanfStr_text E [NUL] hne hE]

theorem FindPolyAsCoeffBegin_printed (body : List Char) (h : InsideRev 0 0 body.reverse)
    (hc : cntL body + 1 = cntR body) :
    FindPolyAsCoeffBegin ('(' :: body ++ [NUL]) (body.length + 1) = some 0 := by
  unfold FindPolyAsCoeffBegin
  have hbuf : '(' :: body ++ [NUL] = ('(' :: body) ++ NUL :: [] := by simp
  have hlen : body.length + 1 = ('(' :: body).length := by simp
  rw [FindPolyAsCoeffBeginLoop, hbuf, hlen, get?_append_mid]
  have h1 : (NUL == ')') = false := by decide
  have h2 : (NUL == '(') = false := by decide
  simp only [h1, h2, Bool.false_eq_true, if_false, Bool.and_false, Bool.false_and]
  have hs := FindPolyAsCoeffBeginLoop_skip body.reverse ['('] [NUL] 0 0 h
  rw [List.reverse_reverse, cntL_reverse, cntR_reverse] at hs
  have hbuf2 : ('(' :: body) ++ NUL :: [] = ['('] ++ (body ++ [NUL]) := by simp
  have hlen2 : ('(' :: body).length = ['('].length + body.reverse.length := by
    simp; omega
  rw [hbuf2, hlen2, hs]
  have hl3 : ['('].length = 0 + 1 := rfl
  rw [hl3, FindPolyAsCoeffBeginLoop]
  have hget : (['('] ++ (body ++ [NUL])).get? 0 = some '(' := rfl
  rw [hget]
  have hpos : 0 < cntR body := by
    have : 0 ≤ cntL body := by unfold cntL; omega
    omega
  have htrig : ((0 + cntL body + 1 == 0 + cntR body) && ('(' == '(')
      && decide (0 + cntR body > 0)) = true := by
    simp; omega
  have e1 : ('(' == ')') = false := by decide
  have e2 : ('(' == '(') = true := by decide
  simp only [e1, e2, Bool.false_eq_true, if_false, if_true]
  simp only [e2] at htrig
  simp only [htrig, if_true]

theorem Cut_printed (C rest : List Char) (hne : C ≠ [])
    (hC : ∀ c ∈ C, c ≠ NUL ∧ isspace c = false) :
    Cut ('(' :: (C ++ ',' :: rest)) 1 (C.length + 1) = some (C ++ [NUL]) := by
  unfold Cut
  have hcond : (decide (1 ≤ C.length + 1)
      && decide (C.length + 1 < ('(' :: (C ++ ',' :: rest)).length)) = true := by
    simp
  simp only [hcond, if_true]
  have hbuf : '(' :: (C ++ ',' :: rest) = ('(' :: C) ++ ',' :: rest := by simp
  have hlen : C.length + 1 = ('(' :: C).length := by simp
  rw [hbuf, hlen, set_append_mid]
  have hbuf2 : ('(' :: C) ++ NUL :: rest = ['('] ++ (C ++ NUL :: rest) := by simp
  have hlen2 : 1 = ['('].length := rfl
  rw [hbuf2]
  nth_rewrite 1 [hlen2]
  rw [drop_append_mid, sscanfStr_text C rest hne hC]

theorem ParseExp_printed (e : Int) (h1 : 0 ≤ e) (h2 : e < 2 ^ 31) (ok : Bool) (errno : Int) :
    ParseExp (printInt e ++ [NUL]) ok errno = some (e, ok, errno) := by
  unfold ParseExp
  rw [cstr_append_NUL _ [] (fun c hc =>
    (IsCorrectSign_props (IsCorrectSign_printInt e c hc)).1), sscanfInt_printInt e h1 h2]
  simp

theorem comma_not_mem_printInt (x : Int) : ',' ∉ printInt x := by
  intro hc
  rcases printInt_chars x _ hc with h | h
  · revert h; decide
  · exact (isdigit_ne h).2.2.2.1 rfl

theorem get?_last_of_coeff (s : List Char) (x : Char) (rest : List Char) :
    ('(' :: ((s ++ [x]) ++ rest)).get? ((s ++ [x]).length + 1 - 1) = some x := by
  have hbuf : '(' :: ((s ++ [x]) ++ rest) = ('(' :: s) ++ x :: rest := by simp
  have hlen : (s ++ [x]).length + 1 - 1 = ('(' :: s).length := by simp
  rw [hbuf, hlen, get?_append_mid]

/-- ParseMono gives back the monomial whose text PrintPoly has written, provided the
recursive call does so for a coefficient that is itself an array of monomials. -/
theorem ParseMono_printed (parse : List Char → Nat → Bool → Int → Option (Poly × Bool × Int))
    (p : Poly) (e : Int) (errno : Int) (he1 : 0 ≤ e) (he2 : e < 2 ^ 31)
    (herr : errno ≠ ERANGE)
    (hp : (∃ c, p = Constant c ∧ -2 ^ 63 ≤ c ∧ c < 2 ^ 63 ∧ c ≠ 0) ∨
      (∃ arr, p = Nested arr ∧ arr ≠ [] ∧
        parse (PrintPoly arr 0 ++ [NUL]) ((PrintPoly arr 0).length + 1) true errno
          = some (Nested arr, true, errno))) :
    ParseMono parse ('(' :: PrintMono (Mono.mk p e) ++ [NUL])
        ((PrintMono (Mono.mk p e)).length + 1) true errno
      = some (Mono.mk p e, true, errno) := by
  have hCne : PrintCoeff p ≠ [] := by
    rcases hp with ⟨c, hc, _⟩ | ⟨arr, ha, hne, _⟩
    · rw [hc]; simp only [PrintCoeff]; exact printInt_ne_nil c
    · rw [ha]; simp only [PrintCoeff]
      obtain ⟨s, hs⟩ := PrintPoly_last arr 0 hne
      rw [hs]; simp
  have hCch := text_props _ (IsCorrectSign_PrintCoeff p)
  have hEch := text_props _ (IsCorrectSign_printInt e)
  have hrev := InsideRev_PrintMono (Mono.mk p e) 0 0 (le_refl _)
  have hcnt := (cnt_PrintMono (Mono.mk p e)).1
  have h4 := FindPolyAsCoeffBegin_printed (PrintMono (Mono.mk p e)) hrev hcnt
  rw [PrintMono_eq] at h4 ⊢
  have hlen : (PrintCoeff p ++ ',' :: (printInt e ++ [')'])).length + 1
      = (PrintCoeff p).length + (printInt e).length + 3 := by simp; omega
  rw [hlen] at h4 ⊢
  have h1 := FindComaBeforeExp_printed (PrintCoeff p) (printInt e) (comma_not_mem_printInt e)
  have h2 := CutExp_printed (PrintCoeff p) (printInt e) (printInt_ne_nil e) hEch
  have h3 := ParseExp_printed e he1 he2 true errno
  have h5 := Cut_printed (PrintCoeff p) (printInt e ++ [')'] ++ [NUL]) hCne hCch
  have hbuf : '(' :: (PrintCoeff p ++ ',' :: (printInt e ++ [')'] ++ [NUL]))
      = '(' :: (PrintCoeff p ++ ',' :: (printInt e ++ [')'])) ++ [NUL] := by simp
  rw [hbuf] at h5
  unfold ParseMono
  simp only [h1, h2, h3, h4, Option.bind_eq_bind, Option.some_bind, Option.pure_def,
    Nat.add_sub_cancel, zero_add, h5]
  have hne0 : ¬ ((PrintCoeff p).length + 1 = 0) := by omega
  simp only [hne0, if_false]
  rcases hp with ⟨c, hc, hc1, hc2, hc3⟩ | ⟨arr, ha, hne, hparse⟩
  · subst hc
    simp only [PrintCoeff]
    obtain ⟨ds, d, hds, hd⟩ := printInt_last c
    have hget := get?_last_of_coeff ds d (',' :: (printInt e ++ [')'] ++ [NUL]))
    rw [← hds] at hget
    have hbuf3 : '(' :: (printInt c ++ ',' :: (printInt e ++ [')'] ++ [NUL]))
        = '(' :: (printInt c ++ ',' :: (printInt e ++ [')'])) ++ [NUL] := by simp
    rw [hbuf3] at hget
    simp only [Nat.add_sub_cancel] at hget
    rw [hget]
    have hdne : (d == ')') = false := by
      have := (isdigit_ne hd).2.1
      simp [this]
    simp only [Option.some_bind, hdne, Bool.false_eq_true, if_false]
    have hcs : cstr (printInt c ++ [NUL]) = printInt c :=
      cstr_append_NUL _ [] (fun x hx =>
        (IsCorrectSign_props (IsCorrectSign_printInt c x hx)).1)
    have hst := strtol_printInt 0 c hc1 hc2 (Or.inr ⟨rfl, hc3⟩) [] (by simp)
    rw [List.append_nil] at hst
    have herr2 : (errno == ERANGE) = false := by simp [herr]
    simp only [hcs, hst, Bool.false_eq_true, if_false, herr2, PolyFromCoeff]
  · subst ha
    simp only [PrintCoeff] at *
    obtain ⟨s, hs⟩ := PrintPoly_last arr 0 hne
    have hget := get?_last_of_coeff s ')' (',' :: (printInt e ++ [')'] ++ [NUL]))
    rw [← hs] at hget
    have hbuf3 : '(' :: (PrintPoly arr 0 ++ ',' :: (printInt e ++ [')'] ++ [NUL]))
        = '(' :: (PrintPoly arr 0 ++ ',' :: (printInt e ++ [')'])) ++ [NUL] := by simp
    rw [hbuf3] at hget
    simp only [Nat.add_sub_cancel] at hget
    rw [hget]
    simp only [Option.some_bind, beq_self_eq_true, if_true]
    have hl : (PrintPoly arr 0).length + 1 - 1 + 1 = (PrintPoly arr 0).length + 1 := by omega
    simp only [hl, hparse, Option.some_bind]

theorem PrintPoly_one (m : Mono) (rest : List Mono) :
    PrintPoly (m :: rest) 1 = '+' :: PrintPoly (m :: rest) 0 :=
  PrintPoly_cons_succ m rest 0

theorem cnt_mono (m : Mono) :
    cntL ('(' :: PrintMono m) = cntR ('(' :: PrintMono m) ∧ 0 < cntR ('(' :: PrintMono m) := by
  have h := (cnt_PrintMono m).1
  have h0 : 0 ≤ cntL (PrintMono m) := by unfold cntL; omega
  rw [cntL_cons, cntR_cons]
  have e1 : ('(' == '(') = true := by decide
  have e2 : ('(' == ')') = false := by decide
  simp only [e1, e2, if_true, Bool.false_eq_true, if_false]
  omega

theorem IterateTillMonoEndLoop_last (buf : List Char) (lineSize i : Nat) (l r : Int)
    (h : lineSize - 1 = i) : IterateTillMonoEndLoop buf lineSize 1 i l r = i := by
  rw [IterateTillMonoEndLoop]
  simp only [IterateTillMonoEndLoop]
  by_cases hc : ((if buf.getD i NUL == '(' then l + 1 else l)
      == (if buf.getD i NUL == ')' then r + 1 else r) && buf.getD i NUL == '+'
      && decide ((if buf.getD i NUL == ')' then r + 1 else r) > 0)) = true
  · rw [if_pos hc]
  · rw [if_neg hc]; exact h

theorem IterateTillMonoEndLoop_plus (pre post : List Char) (lineSize n : Nat) (l : Int)
    (hl : 0 < l) :
    IterateTillMonoEndLoop (pre ++ '+' :: post) lineSize (n + 1) pre.length l l
      = pre.length := by
  rw [IterateTillMonoEndLoop, getD_append_mid]
  have e1 : ('+' == '(') = false := by decide
  have e2 : ('+' == ')') = false := by decide
  have htrig : ((l == l) && '+' == '+' && decide (l > 0)) = true := by
    simp; exact hl
  simp only [e1, e2, Bool.false_eq_true, if_false, htrig, if_true]

/-- IterateTillMonoEnd stops right after the first monomial of a printed array. -/
theorem IterateTillMonoEnd_printed (m : Mono) (rest : List Mono) (pre post : List Char)
    (t : Char) :
    IterateTillMonoEnd pre.length (pre.length + (PrintPoly (m :: rest) 0).length + 1)
        (pre ++ (PrintPoly (m :: rest) 0 ++ t :: post))
      = pre.length + ((PrintMono m).length + 1) := by
  unfold IterateTillMonoEnd
  have hlt : pre.length < pre.length + (PrintPoly (m :: rest) 0).length + 1 := by omega
  simp only [hlt, if_true]
  have hsub : pre.length + (PrintPoly (m :: rest) 0).length + 1 - pre.length
      = ('(' :: PrintMono m).length + ((PrintPoly rest 1).length + 1) := by
    rw [PrintPoly_cons_zero]; simp; omega
  have hbuf : pre ++ (PrintPoly (m :: rest) 0 ++ t :: post)
      = pre ++ ('(' :: PrintMono m) ++ (PrintPoly rest 1 ++ t :: post) := by
    rw [PrintPoly_cons_zero]; simp
  rw [hsub, hbuf, IterateTillMonoEndLoop_skip _ _ _ _ _ _ _
    (NoTopPlus_of_Inside _ _ _ (Inside_mono m 0 0 (le_refl _)))]
  have hc := cnt_mono m
  rw [zero_add, zero_add, hc.1]
  have hlen2 : pre.length + ('(' :: PrintMono m).length
      = (pre ++ ('(' :: PrintMono m)).length := by simp
  cases rest with
  | nil =>
    have hnil : PrintPoly [] 1 = [] := by simp [PrintPoly]
    rw [hnil, List.length_nil, zero_add, IterateTillMonoEndLoop_last]
    · simp
    · rw [PrintPoly_cons_zero, hnil]; simp
  | cons m2 r =>
    rw [PrintPoly_one, List.cons_append, hlen2, IterateTillMonoEndLoop_plus _ _ _ _ _ hc.2]
    simp

/-- CutMono cuts the first monomial out of a printed array. -/
theorem CutMono_printed (m : Mono) (rest : List Mono) (pre post : List Char) (t : Char) :
    CutMono (pre ++ (PrintPoly (m :: rest) 0 ++ t :: post))
        (pre.length + (PrintPoly (m :: rest) 0).length + 1) pre.length
      = some ('(' :: PrintMono m ++ [NUL],
          (pre ++ ('(' :: PrintMono m ++ [NUL])) ++
            ((PrintPoly (m :: rest) 0 ++ t :: post).drop ((PrintMono m).length + 2)),
          pre.length + ((PrintMono m).length + 1)) := by
  unfold CutMono
  rw [IterateTillMonoEnd_printed]
  obtain ⟨x, tail, htail⟩ : ∃ x tail, PrintPoly rest 1 ++ t :: post = x :: tail := by
    cases h : PrintPoly rest 1 with
    | nil => exact ⟨t, post, rfl⟩
    | cons y ys => exact ⟨y, ys ++ t :: post, rfl⟩
  have hbuf : pre ++ (PrintPoly (m :: rest) 0 ++ t :: post)
      = (pre ++ ('(' :: PrintMono m)) ++ x :: tail := by
    rw [PrintPoly_cons_zero, ← htail]; simp
  have hlen : pre.length + ((PrintMono m).length + 1) = (pre ++ ('(' :: PrintMono m)).length := by
    simp
  have hdrop : (PrintPoly (m :: rest) 0 ++ t :: post).drop ((PrintMono m).length + 2) = tail := by
    have e : PrintPoly (m :: rest) 0 ++ t :: post = (('(' :: PrintMono m) ++ [x]) ++ tail := by
      rw [PrintPoly_cons_zero]
      simp only [List.cons_append, List.append_assoc, List.singleton_append, List.nil_append]
      rw [htail]
    have e2 : (PrintMono m).length + 2 = (('(' :: PrintMono m) ++ [x]).length := by simp
    rw [e, e2, drop_append_mid]
  rw [hdrop, hbuf, hlen]
  have hlt : (pre ++ ('(' :: PrintMono m)).length < ((pre ++ ('(' :: PrintMono m)) ++ x :: tail).length := by
    simp
  simp only [hlt, if_true]
  rw [set_append_mid]
  have hbuf2 : (pre ++ ('(' :: PrintMono m)) ++ NUL :: tail
      = pre ++ (('(' :: PrintMono m) ++ NUL :: tail) := by simp
  rw [hbuf2, drop_append_mid]
  have hch : ∀ c ∈ '(' :: PrintMono m, c ≠ NUL ∧ isspace c = false := by
    intro c hc
    rcases List.mem_cons.mp hc with h | h
    · rw [h]; exact ⟨by decide, by decide⟩
    · exact IsCorrectSign_props (IsCorrectSign_PrintMono m c h)
  rw [sscanfStr_text _ tail (by simp) hch]
  simp

/-- The loop of Parse gives back the monomials of a printed array one by one. -/
theorem ParseLoop_printed
    (parseMono : List Char → Nat → Bool → Int → Option (Mono × Bool × Int)) (errno : Int) :
    ∀ (ms : List Mono), ms ≠ [] → ∀ (pre post : List Char) (t : Char) (acc : List Mono)
      (lineSize indStart : Nat) (buf : List Char),
      lineSize = pre.length + (PrintPoly ms 0).length + 1 →
      indStart = pre.length →
      buf = pre ++ (PrintPoly ms 0 ++ t :: post) →
      (∀ m ∈ ms, parseMono ('(' :: PrintMono m ++ [NUL]) ((PrintMono m).length + 1) true errno
        = some (m, true, errno)) →
      ParseLoop parseMono lineSize ms.length buf indStart acc true errno
        = some (acc ++ ms, true, errno)
  | [], h, _, _, _, _, _, _, _, _, _, _, _ => absurd rfl h
  | m :: rest, _, pre, post, t, acc, lineSize, indStart, buf, hls, hi, hbuf, hpm => by
    subst hi hbuf
    have hcut := CutMono_printed m rest pre post t
    rw [← hls] at hcut
    rw [List.length_cons, ParseLoop]
    simp only [hcut]
    have hlt : pre.length + ((PrintMono m).length + 1) < lineSize := by
      rw [hls, PrintPoly_cons_zero]; simp; omega
    simp only [hlt, if_true]
    have hms : pre.length + ((PrintMono m).length + 1) + 1 - pre.length - 1
        = (PrintMono m).length + 1 := by omega
    rw [hms, hpm m (List.mem_cons_self _ _)]
    simp only
    cases rest with
    | nil => simp [ParseLoop]
    | cons m2 r =>
      have hdrop : (PrintPoly (m :: m2 :: r) 0 ++ t :: post).drop ((PrintMono m).length + 2)
          = PrintPoly (m2 :: r) 0 ++ t :: post := by
        have e : PrintPoly (m :: m2 :: r) 0 ++ t :: post
            = (('(' :: PrintMono m) ++ ['+']) ++ (PrintPoly (m2 :: r) 0 ++ t :: post) := by
          rw [PrintPoly_cons_zero, PrintPoly_one]; simp
        have e2 : (PrintMono m).length + 2 = (('(' :: PrintMono m) ++ ['+']).length := by simp
        rw [e, e2, drop_append_mid]
      rw [hdrop]
      have ih := ParseLoop_printed parseMono errno (m2 :: r) (by simp)
        (pre ++ ('(' :: PrintMono m ++ [NUL])) post t (acc ++ [m]) lineSize
        (pre.length + ((PrintMono m).length + 1) + 1)
        ((pre ++ ('(' :: PrintMono m ++ [NUL])) ++ (PrintPoly (m2 :: r) 0 ++ t :: post))
        (by
          rw [hls, PrintPoly_cons_zero, PrintPoly_one]
          simp; omega)
        (by simp; omega)
        rfl
        (fun x hx => hpm x (List.mem_cons_of_mem _ hx))
      rw [ih]
      simp

/-- The loop of HowManyMonos over a printed array: one more for every `+` between two
monomials. -/
theorem HowManyMonosLoop_printed : ∀ (ms : List Mono), ms ≠ [] →
    ∀ (pre post : List Char) (h l : Int), 0 ≤ l →
    HowManyMonosLoop (pre ++ (PrintPoly ms 0 ++ post)) (PrintPoly ms 0).length pre.length h l l
      = h + ms.length - 1
  | [], hne, _, _, _, _, _ => absurd rfl hne
  | m :: rest, _, pre, post, h, l, hl => by
    have hc := cnt_mono m
    have hbuf : pre ++ (PrintPoly (m :: rest) 0 ++ post)
        = pre ++ ('(' :: PrintMono m) ++ (PrintPoly rest 1 ++ post) := by
      rw [PrintPoly_cons_zero]; simp
    have hlen : (PrintPoly (m :: rest) 0).length
        = ('(' :: PrintMono m).length + (PrintPoly rest 1).length := by
      rw [PrintPoly_cons_zero]; simp; omega
    rw [hbuf, hlen, HowManyMonosLoop_skip _ _ _ _ _ _ _
      (NoTopPlus_of_Inside _ _ _ (Inside_mono m l l (le_refl _)))]
    cases rest with
    | nil =>
      have hnil : PrintPoly [] 1 = [] := by simp [PrintPoly]
      rw [hnil]
      simp [HowManyMonosLoop]
    | cons m2 r =>
      rw [PrintPoly_one]
      have hlen2 : pre.length + ('(' :: PrintMono m).length
          = (pre ++ ('(' :: PrintMono m)).length := by simp
      have hl3 : ('+' :: PrintPoly (m2 :: r) 0).length = (PrintPoly (m2 :: r) 0).length + 1 := by
        simp
      have hbuf2 : pre ++ ('(' :: PrintMono m) ++ ('+' :: PrintPoly (m2 :: r) 0 ++ post)
          = (pre ++ ('(' :: PrintMono m)) ++ '+' :: (PrintPoly (m2 :: r) 0 ++ post) := by simp
      rw [hl3, HowManyMonosLoop, hbuf2, hlen2, getD_append_mid]
      have e1 : ('+' == '(') = false := by decide
      have e2 : ('+' == ')') = false := by decide
      have htrig : ((l + cntL ('(' :: PrintMono m) == l + cntR ('(' :: PrintMono m))
          && '+' == '+' && decide (l + cntR ('(' :: PrintMono m) > 0)) = true := by
        simp; omega
      simp only [e1, e2, Bool.false_eq_true, if_false, htrig, if_true]
      have ih := HowManyMonosLoop_printed (m2 :: r) (by simp)
        ((pre ++ ('(' :: PrintMono m)) ++ ['+']) post (h + 1)
        (l + cntR ('(' :: PrintMono m)) (by omega)
      have hbuf3 : (pre ++ ('(' :: PrintMono m)) ++ '+' :: (PrintPoly (m2 :: r) 0 ++ post)
          = ((pre ++ ('(' :: PrintMono m)) ++ ['+']) ++ (PrintPoly (m2 :: r) 0 ++ post) := by
        simp
      have hlen3 : (pre ++ ('(' :: PrintMono m)).length + 1
          = ((pre ++ ('(' :: PrintMono m)) ++ ['+']).length := by simp; omega
      rw [hbuf3, hlen3, hc.1, ih]
      simp only [List.length_cons]
      push_cast
      omega

theorem HowManyMonos_printed (ms : List Mono) (hne : ms ≠ []) (post : List Char) :
    HowManyMonos (PrintPoly ms 0 ++ post) ((PrintPoly ms 0).length + 1) = ms.length := by
  unfold HowManyMonos
  have h := HowManyMonosLoop_printed ms hne [] post 1 0 (le_refl _)
  simp only [List.nil_append, List.length_nil] at h
  rw [Nat.add_sub_cancel, h]
  omega

theorem length_PrintPoly_cons (m : Mono) (rest : List Mono) (i : Nat) :
    (PrintMono m).length + 1 + (PrintPoly rest 1).length ≤ (PrintPoly (m :: rest) i).length := by
  rw [PrintPoly_cons]
  simp only [List.length_append, List.length_cons]
  omega

theorem length_PrintCoeff_lt (p : Poly) (e : Int) :
    (PrintCoeff p).length < (PrintMono (Mono.mk p e)).length := by
  rw [PrintMono_eq]
  simp only [List.length_append, List.length_cons]
  omega

mutual
/-- Parse gives back the canonical array of monomials whose text PrintPoly has written. -/
theorem Parse_printed : ∀ (p : Poly), Canonical p → ∀ (arr : List Mono), p = Nested arr →
    ∀ (fuel : Nat) (t : Char) (post : List Char) (errno : Int), errno ≠ ERANGE →
    (PrintPoly arr 0).length < fuel →
    Parse fuel (PrintPoly arr 0 ++ t :: post) ((PrintPoly arr 0).length + 1) true errno
      = some (Nested arr, true, errno)
  | Constant _, _, _, h, _, _, _, _, _, _ => by cases h
  | Nested arr0, hcan, arr, h, fuel, t, post, errno, herr, hfuel => by
    have harr : arr0 = arr := by injection h
    subst harr
    have hcan2 := hcan
    simp only [Canonical] at hcan2
    cases fuel with
    | zero => omega
    | succ fuel =>
      have hpm := ParseMono_all arr0 (-1) (le_refl _) hcan2.2.1 fuel errno herr 0 (by omega)
      rw [Parse]
      simp only [HowManyMonos_printed arr0 hcan2.1 (t :: post), Int.toNat_ofNat]
      have hloop := ParseLoop_printed (ParseMono (Parse fuel)) errno arr0 hcan2.1 [] post t []
        ((PrintPoly arr0 0).length + 1) 0 (PrintPoly arr0 0 ++ t :: post)
        (by simp) rfl (by simp) hpm
      rw [hloop]
      simp only [List.nil_append]
      rw [PolyAddMonos_of_canonical arr0 hcan]
/-- ParseMono, calling Parse, gives back every monomial of a canonical array. -/
theorem ParseMono_all : ∀ (arr : List Mono) (lo : Int), -1 ≤ lo → CanonicalMonos lo arr →
    ∀ (fuel : Nat) (errno : Int), errno ≠ ERANGE → ∀ (i : Nat),
    (PrintPoly arr i).length ≤ fuel →
    ∀ m ∈ arr, ParseMono (Parse fuel) ('(' :: PrintMono m ++ [NUL])
      ((PrintMono m).length + 1) true errno = some (m, true, errno)
  | [], _, _, _, _, _, _, _, _ => by simp
  | Mono.mk p e :: rest, lo, hlo, hcan, fuel, errno, herr, i, hfuel => by
    simp only [CanonicalMonos] at hcan
    have hlen := length_PrintPoly_cons (Mono.mk p e) rest i
    intro m hm
    rcases List.mem_cons.mp hm with h | h
    · subst h
      exact ParseMono_one (Mono.mk p e) (by simp only [Mono.exp]; omega)
        (by simp only [Mono.exp]; exact hcan.2.1) (by simp only [Mono.p]; exact hcan.2.2.1)
        (by simp only [Mono.p]; exact hcan.2.2.2.1) fuel errno herr (by omega)
    · exact ParseMono_all rest e (by omega) hcan.2.2.2.2 fuel errno herr 1 (by omega) m h
/-- ParseMono, calling Parse, gives back a monomial with a canonical coefficient. -/
theorem ParseMono_one : ∀ (m : Mono), 0 ≤ m.exp → m.exp < 2 ^ 31 → Canonical m.p →
    PolyIsZero m.p = false →
    ∀ (fuel : Nat) (errno : Int), errno ≠ ERANGE → (PrintMono m).length ≤ fuel →
    ParseMono (Parse fuel) ('(' :: PrintMono m ++ [NUL])
      ((PrintMono m).length + 1) true errno = some (m, true, errno)
  | Mono.mk p e, he1, he2, hcan, hz, fuel, errno, herr, hfuel => by
    simp only [Mono.exp] at he1 he2
    simp only [Mono.p] at hcan hz
    have hlt := length_PrintCoeff_lt p e
    refine ParseMono_printed (Parse fuel) p e errno he1 he2 herr ?_
    cases hpeq : p with
    | Constant c =>
      left
      rw [hpeq] at hcan hz
      simp only [Canonical] at hcan
      refine ⟨c, rfl, hcan.1, hcan.2, ?_⟩
      intro hc
      rw [hc] at hz
      simp [PolyIsZero] at hz
    | Nested arr =>
      right
      have hcan2 := hcan
      rw [hpeq] at hcan2
      simp only [Canonical] at hcan2
      rw [hpeq] at hlt hfuel
      simp only [PrintCoeff] at hlt
      exact ⟨arr, rfl, hcan2.1,
        Parse_printed p hcan arr hpeq fuel NUL [] errno herr (by omega)⟩
end

theorem NoOverClose_append (a : List Char) : ∀ (b : List Char) (l r : Int),
    NoOverClose l r (a ++ b)
      ↔ NoOverClose l r a ∧ NoOverClose (l + cntL a) (r + cntR a) b := by
  induction a with
  | nil => intro b l r; simp [NoOverClose, cntL_nil, cntR_nil]
  | cons c cs ih =>
    intro b l r
    rw [List.cons_append]
    simp only [NoOverClose]
    rw [ih, cntL_cons, cntR_cons, ite_add_int, ite_add_int]
    tauto

theorem NoOverClose_of_Inside : ∀ (s : List Char) (l r : Int), Inside l r s → NoOverClose l r s
  | [], _, _, _ => trivial
  | c :: cs, l, r, h => by
    simp only [Inside] at h
    simp only [NoOverClose]
    exact ⟨h.1, NoOverClose_of_Inside cs _ _ h.2.2⟩

theorem NoOverClose_PrintPoly : ∀ (ms : List Mono) (l : Int), NoOverClose l l (PrintPoly ms 0)
  | [], _ => by simp [PrintPoly, NoOverClose]
  | [m], l => by
    have hnil : PrintPoly [] 1 = [] := by simp [PrintPoly]
    rw [PrintPoly_cons_zero, hnil, List.append_nil]
    exact NoOverClose_of_Inside _ _ _ (Inside_mono m l l (le_refl _))
  | m :: m2 :: r, l => by
    have hc := cnt_mono m
    have ih := NoOverClose_PrintPoly (m2 :: r) (l + cntR ('(' :: PrintMono m))
    have e : PrintPoly (m :: m2 :: r) 0
        = ('(' :: PrintMono m) ++ ('+' :: PrintPoly (m2 :: r) 0) := by
      rw [PrintPoly_cons_zero, PrintPoly_one]
    rw [e, NoOverClose_append, hc.1]
    refine ⟨?_, ?_⟩
    · have := NoOverClose_of_Inside _ _ _ (Inside_mono m l l (le_refl _))
      exact this
    · simp only [NoOverClose]
      have e1 : ('+' == '(') = false := by decide
      have e2 : ('+' == ')') = false := by decide
      simp only [e1, e2, Bool.false_eq_true, if_false]
      exact ⟨le_refl _, ih⟩

/-- One turn of the loop of IsCorrectPoly at a byte that passes every test. -/
theorem IsCorrectPolyLoop_step (buf : List Char) (n i : Nat) (l r k : Int)
    (h1 : IsCorrectSign (buf.getD i NUL) = true)
    (h2 : prevOk (buf.getD (i - 1) NUL) (buf.getD i NUL) = true)
    (h3 : nextOk (buf.getD i NUL) (buf.getD (i + 1) NUL) = true)
    (h4 : (if buf.getD i NUL == ')' then r + 1 else r)
      ≤ (if buf.getD i NUL == '(' then l + 1 else l)) :
    IsCorrectPolyLoop buf (n + 1) i l r k
      = IsCorrectPolyLoop buf n (i + 1)
          (if buf.getD i NUL == '(' then l + 1 else l)
          (if buf.getD i NUL == ')' then r + 1 else r)
          (if buf.getD i NUL == ',' then k + 1 else k) := by
  rw [IsCorrectPolyLoop]
  generalize buf.getD i NUL = c at *
  generalize buf.getD (i - 1) NUL = pv at *
  generalize buf.getD (i + 1) NUL = nx at *
  unfold prevOk at h2
  unfold nextOk at h3
  simp only [Bool.not_eq_true', Bool.or_eq_false_iff] at h2 h3
  obtain ⟨⟨⟨⟨a1, a2⟩, a3⟩, a4⟩, a5⟩ := h2
  obtain ⟨⟨⟨⟨b1, b2⟩, b3⟩, b4⟩, b5⟩ := h3
  have h5 : ¬ ((if c == ')' then r + 1 else r) > (if c == '(' then l + 1 else l)) := by
    omega
  simp only [h1, a1, a2, a3, a4, a5, b1, b2, b3, b4, b5, Bool.not_true, Bool.false_eq_true,
    if_false, h5]

theorem getD_append_before (pre : List Char) (pv : Char) (rest : List Char) (d : Char) :
    (pre ++ pv :: rest).getD (pre.length + 1 - 1) d = pv := by
  rw [Nat.add_sub_cancel]; exact getD_append_mid _ _ _ _

theorem getD_append_at (pre : List Char) (pv c : Char) (rest : List Char) (d : Char) :
    (pre ++ pv :: c :: rest).getD (pre.length + 1) d = c := by
  have e : pre ++ pv :: c :: rest = (pre ++ [pv]) ++ c :: rest := by simp
  have e2 : pre.length + 1 = (pre ++ [pv]).length := by simp
  rw [e, e2]; exact getD_append_mid _ _ _ _

theorem getD_append_after (pre : List Char) (pv c nx : Char) (rest : List Char) (d : Char) :
    (pre ++ pv :: c :: nx :: rest).getD (pre.length + 1 + 1) d = nx := by
  have e : pre ++ pv :: c :: nx :: rest = (pre ++ [pv, c]) ++ nx :: rest := by simp
  have e2 : pre.length + 1 + 1 = (pre ++ [pv, c]).length := by simp
  rw [e, e2]; exact getD_append_mid _ _ _ _

/-- The loop of IsCorrectPoly across a stretch of text in which every byte may follow
the one before it and no parenthesis closes too early. -/
theorem IsCorrectPolyLoop_skip : ∀ (s pre : List Char) (pv nx : Char) (post : List Char)
    (n : Nat) (l r k : Int),
    List.Chain' Follows (pv :: (s ++ [nx])) → (∀ c ∈ s, IsCorrectSign c = true) →
    NoOverClose l r s →
    IsCorrectPolyLoop (pre ++ pv :: (s ++ nx :: post)) (s.length + n) (pre.length + 1) l r k
      = IsCorrectPolyLoop (pre ++ pv :: (s ++ nx :: post)) n (pre.length + 1 + s.length)
          (l + cntL s) (r + cntR s) (k + cntC s)
  | [], pre, pv, nx, post, n, l, r, k, _, _, _ => by
    simp [cntL_nil, cntR_nil, cntC]
  | c :: cs, pre, pv, nx, post, n, l, r, k, hch, hsign, hno => by
    simp only [NoOverClose] at hno
    obtain ⟨y, ys, hys⟩ : ∃ y ys, cs ++ nx :: post = y :: ys ∧ cs ++ [nx] = y :: (cs ++ [nx]).tail := by
      cases cs with
      | nil => exact ⟨nx, post, rfl, rfl⟩
      | cons z zs => exact ⟨z, zs ++ nx :: post, rfl, rfl⟩
    have hch2 : Follows pv c ∧ Follows c y ∧ List.Chain' Follows (c :: (cs ++ [nx])) := by
      rw [List.cons_append, List.chain'_cons] at hch
      refine ⟨hch.1, ?_, hch.2⟩
      have h2 := hch.2
      rw [hys.2, List.chain'_cons] at h2
      exact h2.1
    have hlen : (c :: cs).length + n = (cs.length + n) + 1 := by simp; omega
    have hbuf : pre ++ pv :: ((c :: cs) ++ nx :: post) = pre ++ pv :: c :: y :: ys := by
      rw [List.cons_append, hys.1]
    have g1 : (pre ++ pv :: ((c :: cs) ++ nx :: post)).getD (pre.length + 1) NUL = c := by
      rw [hbuf]; exact getD_append_at _ _ _ _ _
    have g0 : (pre ++ pv :: ((c :: cs) ++ nx :: post)).getD (pre.length + 1 - 1) NUL = pv := by
      exact getD_append_before _ _ _ _
    have g2 : (pre ++ pv :: ((c :: cs) ++ nx :: post)).getD (pre.length + 1 + 1) NUL = y := by
      rw [hbuf]; exact getD_append_after _ _ _ _ _ _
    rw [hlen, IsCorrectPolyLoop_step _ _ _ _ _ _
      (by rw [g1]; exact hsign c (List.mem_cons_self _ _))
      (by rw [g0, g1]; exact hch2.1.2)
      (by rw [g1, g2]; exact hch2.2.1.1)
      (by rw [g1]; exact hno.1)]
    rw [g1]
    have ih := IsCorrectPolyLoop_skip cs (pre ++ [pv]) c nx post n
      (if c == '(' then l + 1 else l) (if c == ')' then r + 1 else r)
      (if c == ',' then k + 1 else k) hch2.2.2
      (fun x hx => hsign x (List.mem_cons_of_mem _ hx)) hno.2
    have hbuf2 : pre ++ pv :: ((c :: cs) ++ nx :: post)
        = (pre ++ [pv]) ++ c :: (cs ++ nx :: post) := by simp
    have hl2 : (pre ++ [pv]).length = pre.length + 1 := by simp
    rw [hbuf2, ← hl2, ih, cntL_cons, cntR_cons, cntC_cons, ite_add_int, ite_add_int,
      ite_add_int]
    simp only [List.length_cons]
    congr 1
    omega

theorem isdigit_beq {d : Char} (h : isdigit d = true) :
    (d == ',') = false ∧ (d == '(') = false ∧ (d == ')') = false ∧ (d == '-') = false
      ∧ (d == '+') = false := by
  have := isdigit_ne h
  simp [this.1, this.2.1, this.2.2.1, this.2.2.2.1, this.2.2.2.2.1]

theorem Follows_digit_digit {a b : Char} (ha : isdigit a = true) (hb : isdigit b = true) :
    Follows a b := by
  have h1 := isdigit_beq ha
  have h2 := isdigit_beq hb
  simp [Follows, nextOk, prevOk, h1, h2]

theorem Follows_open_digit {b : Char} (hb : isdigit b = true) : Follows '(' b := by
  have h2 := isdigit_beq hb
  simp [Follows, nextOk, prevOk, h2, hb]

theorem Follows_minus_digit {b : Char} (hb : isdigit b = true) : Follows '-' b := by
  have h2 := isdigit_beq hb
  simp [Follows, nextOk, prevOk, h2, hb]

theorem Follows_comma_digit {b : Char} (hb : isdigit b = true) : Follows ',' b := by
  have h2 := isdigit_beq hb
  simp [Follows, nextOk, prevOk, h2, hb]

theorem Follows_digit_comma {a : Char} (ha : isdigit a = true) : Follows a ',' := by
  have h1 := isdigit_beq ha
  simp [Follows, nextOk, prevOk, h1, ha]

theorem Follows_digit_close {a : Char} (ha : isdigit a = true) : Follows a ')' := by
  have h1 := isdigit_beq ha
  simp [Follows, nextOk, prevOk, h1, ha]

theorem Follows_open_open : Follows '(' '(' := by
  unfold Follows; exact ⟨by decide, by decide⟩

theorem Follows_open_minus : Follows '(' '-' := by
  unfold Follows; exact ⟨by decide, by decide⟩

theorem Follows_close_comma : Follows ')' ',' := by
  unfold Follows; exact ⟨by decide, by decide⟩

theorem Follows_close_plus : Follows ')' '+' := by
  unfold Follows; exact ⟨by decide, by decide⟩

theorem Follows_plus_open : Follows '+' '(' := by
  unfold Follows; exact ⟨by decide, by decide⟩

theorem Follows_close_newline : Follows ')' '\n' := by
  unfold Follows; exact ⟨by decide, by decide⟩

/-- A run of digits between two bytes that go with digits. -/
theorem Chain_digits (a b : Char) (ha : ∀ d, isdigit d = true → Follows a d)
    (hb : ∀ d, isdigit d = true → Follows d b) :
    ∀ (ds : List Char), ds ≠ [] → (∀ d ∈ ds, isdigit d = true) →
      List.Chain' Follows (a :: (ds ++ [b]))
  | [], h, _ => absurd rfl h
  | [d], _, hd => by
    have := hd d (List.mem_singleton.mpr rfl)
    simp only [List.singleton_append, List.chain'_cons, List.chain'_singleton, and_true]
    exact ⟨ha d this, hb d this⟩
  | d :: d2 :: ds, _, hd => by
    have h1 := hd d (List.mem_cons_self _ _)
    have ih := Chain_digits d b (fun x hx => Follows_digit_digit h1 hx) hb (d2 :: ds)
      (by simp) (fun x hx => hd x (List.mem_cons_of_mem _ hx))
    rw [List.cons_append, List.chain'_cons]
    exact ⟨ha d h1, ih⟩

theorem printInt_nonneg (x : Int) (h : 0 ≤ x) :
    printInt x ≠ [] ∧ ∀ d ∈ printInt x, isdigit d = true := by
  unfold printInt
  have : ¬ x < 0 := by omega
  simp only [this, if_false]
  exact ⟨toDigits_ne_nil _, isdigit_of_mem_toDigits _⟩

theorem Chain_printInt_coeff (c : Int) :
    List.Chain' Follows ('(' :: (printInt c ++ [','])) := by
  unfold printInt
  split
  · have e : Char.ofNat 45 = '-' := rfl
    rw [e, List.cons_append, List.chain'_cons]
    exact ⟨Follows_open_minus, Chain_digits '-' ',' (fun d hd => Follows_minus_digit hd)
      (fun d hd => Follows_digit_comma hd) _ (toDigits_ne_nil _) (isdigit_of_mem_toDigits _)⟩
  · exact Chain_digits '(' ',' (fun d hd => Follows_open_digit hd)
      (fun d hd => Follows_digit_comma hd) _ (toDigits_ne_nil _) (isdigit_of_mem_toDigits _)

theorem PrintPoly_head (ms : List Mono) (h : ms ≠ []) :
    ∃ s, PrintPoly ms 0 = '(' :: s := by
  cases ms with
  | nil => exact absurd rfl h
  | cons m rest => exact ⟨_, PrintPoly_cons_zero m rest⟩

theorem PrintMono_last (m : Mono) : ∃ s, '(' :: PrintMono m = s ++ [')'] := by
  cases m with
  | mk p e => exact ⟨'(' :: (PrintCoeff p ++ ',' :: printInt e), by rw [PrintMono_eq]; simp⟩

mutual
theorem Chain_PrintCoeff : ∀ (p : Poly), WellFormed p →
    List.Chain' Follows ('(' :: (PrintCoeff p ++ [',']))
  | Constant c, _ => by
    simp only [PrintCoeff]
    exact Chain_printInt_coeff c
  | Nested arr, h => by
    simp only [WellFormed] at h
    have ih := Chain_PrintPoly arr h.2 h.1
    obtain ⟨s, hs⟩ := PrintPoly_head arr h.1
    obtain ⟨u, hu⟩ := PrintPoly_last arr 0 h.1
    simp only [PrintCoeff]
    have e : '(' :: (PrintPoly arr 0 ++ [',']) = '(' :: '(' :: (s ++ [',']) := by rw [hs]; rfl
    rw [e, List.chain'_cons]
    refine ⟨Follows_open_open, ?_⟩
    have e2 : '(' :: (s ++ [',']) = u ++ ')' :: [','] := by
      rw [← List.cons_append, ← hs, hu]; simp
    rw [e2, List.chain'_split]
    rw [hu] at ih
    refine ⟨ih, ?_⟩
    simp only [List.chain'_cons, List.chain'_singleton, and_true]
    exact Follows_close_comma
theorem Chain_PrintPoly : ∀ (ms : List Mono), WellFormedMonos ms → ms ≠ [] →
    List.Chain' Follows (PrintPoly ms 0)
  | [], _, h => absurd rfl h
  | [m], hwf, _ => by
    have hnil : PrintPoly [] 1 = [] := by simp [PrintPoly]
    rw [PrintPoly_cons_zero, hnil, List.append_nil]
    exact Chain_PrintMono m (by
      cases m with
      | mk p e => simp only [WellFormedMonos] at hwf; exact ⟨hwf.1, hwf.2.1⟩)
  | m :: m2 :: r, hwf, _ => by
    have hm : 0 ≤ m.exp ∧ WellFormed m.p := by
      cases m with
      | mk p e => simp only [WellFormedMonos] at hwf; exact ⟨hwf.1, hwf.2.1⟩
    have hrest : WellFormedMonos (m2 :: r) := by
      cases m with
      | mk p e => simp only [WellFormedMonos] at hwf; exact hwf.2.2
    have ih1 := Chain_PrintMono m hm
    have ih2 := Chain_PrintPoly (m2 :: r) hrest (by simp)
    obtain ⟨u, hu⟩ := PrintMono_last m
    obtain ⟨s, hs⟩ := PrintPoly_head (m2 :: r) (by simp)
    rw [PrintPoly_cons_zero, PrintPoly_one, hu, hs, List.append_assoc, List.singleton_append,
      List.chain'_split]
    rw [hu] at ih1
    rw [hs] at ih2
    refine ⟨ih1, ?_⟩
    rw [List.chain'_cons, List.chain'_cons]
    exact ⟨Follows_close_plus, Follows_plus_open, ih2⟩
theorem Chain_PrintMono : ∀ (m : Mono), 0 ≤ m.exp ∧ WellFormed m.p →
    List.Chain' Follows ('(' :: PrintMono m)
  | Mono.mk p e, h => by
    simp only [Mono.exp, Mono.p] at h
    have ih := Chain_PrintCoeff p h.2
    have hE := printInt_nonneg e h.1
    rw [PrintMono_eq]
    have e1 : '(' :: (PrintCoeff p ++ ',' :: (printInt e ++ [')']))
        = ('(' :: PrintCoeff p) ++ ',' :: (printInt e ++ [')']) := by simp
    rw [e1, List.chain'_split]
    exact ⟨ih, Chain_digits ',' ')' (fun d hd => Follows_comma_digit hd)
      (fun d hd => Follows_digit_close hd) _ hE.1 hE.2⟩
end

theorem IsStringCoeff_open (rest : List Char) (n : Nat) :
    IsStringCoeff ('(' :: rest) (n + 2) = false := by
  unfold IsStringCoeff
  rw [List.all_eq_false]
  refine ⟨0, by simp, ?_⟩
  simp only [List.getD_cons_zero]
  decide

/-- IsCorrectPoly accepts the text PrintPoly writes for a well-formed array. -/
theorem IsCorrectPoly_printed (arr : List Mono) (hwf : WellFormedMonos arr) (hne : arr ≠ []) :
    IsCorrectPoly (PrintPoly arr 0 ++ ['\n', NUL]) ((PrintPoly arr 0).length + 1) = true := by
  obtain ⟨body, hbody⟩ := PrintPoly_head arr hne
  obtain ⟨u, hu⟩ := PrintPoly_last arr 0 hne
  have hch : List.Chain' Follows ('(' :: (body ++ ['\n'])) := by
    have h := Chain_PrintPoly arr hwf hne
    rw [← List.cons_append, ← hbody, hu, List.append_assoc, List.singleton_append,
      List.chain'_split]
    rw [hu] at h
    refine ⟨h, ?_⟩
    simp only [List.chain'_cons, List.chain'_singleton, and_true]
    exact Follows_close_newline
  have hsign : ∀ c ∈ body, IsCorrectSign c = true := by
    intro c hc
    exact IsCorrectSign_PrintPoly arr 0 c (by rw [hbody]; exact List.mem_cons_of_mem _ hc)
  have hno : NoOverClose 1 0 body := by
    have h := NoOverClose_PrintPoly arr 0
    rw [hbody] at h
    simp only [NoOverClose] at h
    have e1 : ('(' == '(') = true := by decide
    have e2 : ('(' == ')') = false := by decide
    simp only [e1, e2, if_true, Bool.false_eq_true, if_false, zero_add] at h
    exact h.2
  have hcnt := cnt_PrintPoly arr 0
  rw [hbody, cntL_cons, cntR_cons, cntC_cons] at hcnt
  have e1 : ('(' == '(') = true := by decide
  have e2 : ('(' == ')') = false := by decide
  have e3 : ('(' == ',') = false := by decide
  simp only [e1, e2, e3, if_true, Bool.false_eq_true, if_false, zero_add] at hcnt
  have hloop := IsCorrectPolyLoop_skip body [] '(' '\n' [NUL] 0 1 0 0 hch hsign hno
  simp only [List.nil_append, List.length_nil, zero_add, add_zero, IsCorrectPolyLoop] at hloop
  unfold IsCorrectPoly
  rw [hbody]
  have hlen : ('(' :: body).length + 1 = body.length + 2 := by simp
  have hbuf : '(' :: body ++ ['\n', NUL] = '(' :: (body ++ '\n' :: [NUL]) := by simp
  rw [hlen, hbuf, IsStringCoeff_open]
  have hlast : ('(' :: (body ++ '\n' :: [NUL])).getD (body.length + 2 - 1) NUL = '\n' := by
    have e : '(' :: (body ++ '\n' :: [NUL]) = ('(' :: body) ++ '\n' :: [NUL] := by simp
    have e4 : body.length + 2 - 1 = ('(' :: body).length := by simp
    rw [e, e4]; exact getD_append_mid _ _ _ _
  have hsub : body.length + 2 - 2 = body.length := by omega
  rw [hlast, hsub, hloop]
  simp only [List.getD_cons_zero, Bool.false_eq_true, if_false]
  have t1 : ('(' != '(') = false := by decide
  have t2 : ('\n' != '\n') = false := by decide
  simp only [t1, t2, Bool.false_and, Bool.false_eq_true, if_false]
  have t3 : (1 + cntL body != cntR body) = false := by
    rw [bne_eq_false_iff_eq]; omega
  have t4 : (cntR body != cntC body) = false := by
    rw [bne_eq_false_iff_eq]; omega
  simp only [t3, t4, Bool.false_eq_true, if_false]

/-- ParsePoly pushes the canonical array of monomials whose printed text it reads. -/
theorem ParsePoly_printed_nested (arr : List Mono) (hcan : Canonical (Nested arr))
    (stack : Stack) (errno : Int) (herr : errno ≠ ERANGE) :
    ParsePoly stack (PrintPoly arr 0 ++ ['\n']) errno
      = some ⟨Nested arr :: stack, false, errno⟩ := by
  have hcan2 := hcan
  simp only [Canonical] at hcan2
  have hwf := WellFormedMonos_of_CanonicalMonos arr (-1) (le_refl _) hcan2.2.1
  obtain ⟨body, hbody⟩ := PrintPoly_head arr hcan2.1
  have hbuf : PrintPoly arr 0 ++ ['\n'] ++ [NUL] = PrintPoly arr 0 ++ ['\n', NUL] := by simp
  have hlen : (PrintPoly arr 0 ++ ['\n']).length = (PrintPoly arr 0).length + 1 := by simp
  have hic := IsCorrectPoly_printed arr hwf hcan2.1
  have hsc : IsStringCoeff (PrintPoly arr 0 ++ ['\n', NUL]) ((PrintPoly arr 0).length + 1)
      = false := by
    rw [hbody]
    have e : ('(' :: body).length + 1 = body.length + 2 := by simp
    rw [e]
    exact IsStringCoeff_open _ _
  have hparse := Parse_printed (Nested arr) hcan arr rfl ((PrintPoly arr 0).length + 1)
    '\n' [NUL] errno herr (by omega)
  unfold ParsePoly
  simp only [hbuf, hlen, hic, hsc, Bool.not_true, Bool.false_eq_true, if_false, hparse,
    if_true, Push, PolyClone_eq]

theorem printInt_shape (c : Int) :
    (∃ ds, printInt c = '-' :: ds ∧ ∀ d ∈ ds, isdigit d = true)
      ∨ (∀ d ∈ printInt c, isdigit d = true) := by
  unfold printInt
  split
  · left; exact ⟨_, rfl, isdigit_of_mem_toDigits _⟩
  · right; exact isdigit_of_mem_toDigits _

theorem IsStringCoeff_digit {x : Char} (i : Nat) (hd : isdigit x = true) :
    (if x == '-' then i == 0 else isdigit x) = true := by
  have hne := (isdigit_beq hd).2.2.2.1
  simp only [hne, Bool.false_eq_true, if_false, hd]

theorem IsStringCoeff_printInt (c : Int) (post : List Char) :
    IsStringCoeff (printInt c ++ post) ((printInt c).length + 1) = true := by
  unfold IsStringCoeff
  rw [List.all_eq_true]
  intro i hi
  rw [List.mem_range, Nat.add_sub_cancel] at hi
  have hget : (printInt c ++ post).getD i NUL = (printInt c).getD i NUL := by
    rw [List.getD_eq_getElem?_getD, List.getD_eq_getElem?_getD, List.getElem?_append_left hi]
  simp only [hget]
  rcases printInt_shape c with ⟨ds, hds, hdig⟩ | hdig
  · rw [hds] at hi ⊢
    cases i with
    | zero => rfl
    | succ j =>
      have hj : j < ds.length := by
        simp only [List.length_cons] at hi; omega
      rw [List.getD_cons_succ, List.getD_eq_getElem _ _ hj]
      exact IsStringCoeff_digit _ (hdig _ (List.getElem_mem _))
  · rw [List.getD_eq_getElem _ _ hi]
    exact IsStringCoeff_digit _ (hdig _ (List.getElem_mem _))

/-- ParsePoly pushes the coefficient whose printed text it reads. -/
theorem ParsePoly_printed_const (c : Int) (h1 : -2 ^ 63 ≤ c) (h2 : c < 2 ^ 63)
    (stack : Stack) (errno : Int) (herr : errno ≠ ERANGE) :
    ParsePoly stack (printInt c ++ ['\n']) errno
      = some ⟨Constant c :: stack, false, errno⟩ := by
  have hbuf : printInt c ++ ['\n'] ++ [NUL] = printInt c ++ ['\n', NUL] := by simp
  have hlen : (printInt c ++ ['\n']).length = (printInt c).length + 1 := by simp
  have hsc := IsStringCoeff_printInt c ['\n', NUL]
  have hcs : cstr (printInt c ++ ['\n', NUL]) = printInt c ++ ['\n'] := by
    have e : printInt c ++ ['\n', NUL] = (printInt c ++ ['\n']) ++ NUL :: [] := by simp
    rw [e]
    apply cstr_append_NUL
    intro x hx
    rcases List.mem_append.mp hx with h | h
    · exact (IsCorrectSign_props (IsCorrectSign_printInt c x h)).1
    · rw [List.mem_singleton.mp h]; decide
  have hst := strtol_printInt 10 c h1 h2 (Or.inl rfl) ['\n'] (by
    intro d ds h
    injection h with h3 _
    rw [← h3]; rfl)
  have herr2 : (errno == ERANGE) = false := by simp [herr]
  unfold ParsePoly
  simp only [hbuf, hlen, IsCorrectPoly, hsc, if_true, Bool.not_true, Bool.false_eq_true,
    if_false, ParseCoeff, hcs, hst, herr2, Bool.false_or, Push, PolyClone_eq, PolyFromCoeff]
  simp

/-- The round trip: with `errno` not `ERANGE` on entry, ParsePoly reads the line PRINT
writes for a canonical polynomial on top of the stack, reports no error and pushes
that polynomial. -/
theorem ParsePoly_PRINT (p : Poly) (hp : Canonical p) (stack : Stack) (errno : Int)
    (herr : errno ≠ ERANGE) :
    ∃ text, PRINT (p :: stack) = some text
      ∧ ParsePoly stack text errno = some ⟨p :: stack, false, errno⟩ := by
  cases p with
  | Constant c =>
    simp only [Canonical] at hp
    exact ⟨_, rfl, ParsePoly_printed_const c hp.1 hp.2 stack errno herr⟩
  | Nested arr =>
    exact ⟨_, rfl, ParsePoly_printed_nested arr hp stack errno herr⟩

/-! ## Degrees, equality, evaluation at a point and composition -/

theorem ExponentiationLoop_cast (basis exponent result : Int) :
    ((ExponentiationLoop basis exponent result : Int) : Word)
      = (result : Word) * (basis : Word) ^ exponent.toNat := by
  induction basis, exponent, result using ExponentiationLoop.induct with
  | case1 basis exponent result hpos ih =>
    rw [ExponentiationLoop]
    simp only [hpos, if_true]
    simp only [dite_eq_ite] at ih
    rw [ih]
    have hd : exponent.tdiv 2 = exponent / 2 := Int.tdiv_eq_ediv (by omega) (by omega)
    have hm : exponent.tmod 2 = exponent % 2 := Int.tmod_eq_emod (by omega) (by omega)
    rw [hd, hm, cast_wrap64]
    have hsplit : exponent.toNat = 2 * (exponent / 2).toNat + (exponent % 2).toNat := by omega
    rw [hsplit, pow_add, pow_mul]
    by_cases hodd : exponent % 2 = 1
    · simp only [hodd, if_true, cast_wrap64]
      push_cast
      ring
    · have h0 : exponent % 2 = 0 := by omega
      simp only [h0]
      push_cast
      simp
      ring
  | case2 basis exponent result hneg =>
    rw [ExponentiationLoop]
    simp only [hneg, if_false]
    have : exponent.toNat = 0 := by omega
    rw [this]; simp

theorem Exponentiation_cast (basis exp : Int) :
    ((Exponentiation basis exp : Int) : Word) = (basis : Word) ^ exp.toNat := by
  unfold Exponentiation
  split
  · rename_i h
    rw [h.2]; simp
  · rw [ExponentiationLoop_cast]; simp

mutual
theorem PolyGetMaxExp_ge : ∀ (p : Poly) (cur m : Int), m ≤ PolyGetMaxExp p cur m
  | Constant _, cur, m => by
    rw [PolyGetMaxExp]; split <;> omega
  | Nested arr, cur, m => by
    rw [PolyGetMaxExp]; exact PolyGetMaxExpArr_ge arr cur m
theorem PolyGetMaxExpArr_ge : ∀ (arr : List Mono) (cur m : Int), m ≤ PolyGetMaxExpArr arr cur m
  | [], _, m => by rw [PolyGetMaxExpArr]
  | Mono.mk p e :: rest, cur, m => by
    rw [PolyGetMaxExpArr]
    exact le_trans (PolyGetMaxExp_ge p _ m) (PolyGetMaxExpArr_ge rest cur _)
end

theorem PolyDeg_nonneg (p : Poly) (h : PolyIsZero p = false) : 0 ≤ PolyDeg p := by
  unfold PolyDeg
  simp only [h, Bool.false_eq_true, if_false]
  exact PolyGetMaxExp_ge p 0 0

mutual
theorem maxPathSum_nonneg : ∀ p : Poly, 0 ≤ maxPathSum p
  | Constant _ => by simp [maxPathSum]
  | Nested arr => by rw [maxPathSum]; exact maxPathSumArr_nonneg arr
theorem maxPathSumArr_nonneg : ∀ arr : List Mono, 0 ≤ maxPathSumArr arr
  | [] => by simp [maxPathSumArr]
  | Mono.mk p e :: rest => by
    rw [maxPathSumArr]
    exact le_max_of_le_right (maxPathSumArr_nonneg rest)
end

mutual
/-- PolyGetMaxExp on a well-formed polynomial whose path sums, added to the sum so
far, stay in the range of `int`. -/
theorem PolyGetMaxExp_eq : ∀ (p : Poly) (cur m : Int), WellFormed p → 0 ≤ cur →
    cur + maxPathSum p < 2 ^ 31 → PolyGetMaxExp p cur m = max m (cur + maxPathSum p)
  | Constant _, cur, m, _, _, _ => by
    rw [PolyGetMaxExp, maxPathSum]
    split <;> omega
  | Nested arr, cur, m, hwf, hcur, hb => by
    simp only [WellFormed] at hwf
    rw [maxPathSum] at hb ⊢
    rw [PolyGetMaxExp, PolyGetMaxExpArr_eq arr cur m hwf.2 hwf.1 hcur hb]
theorem PolyGetMaxExpArr_eq : ∀ (arr : List Mono) (cur m : Int), WellFormedMonos arr →
    arr ≠ [] → 0 ≤ cur → cur + maxPathSumArr arr < 2 ^ 31 →
    PolyGetMaxExpArr arr cur m = max m (cur + maxPathSumArr arr)
  | [], _, m, _, hne, _, _ => absurd rfl hne
  | Mono.mk p e :: rest, cur, m, hwf, _, hcur, hb => by
    simp only [WellFormedMonos] at hwf
    rw [maxPathSumArr] at hb ⊢
    have hp0 := maxPathSum_nonneg p
    have hr0 := maxPathSumArr_nonneg rest
    have hl := le_max_left (e + maxPathSum p) (maxPathSumArr rest)
    have hr := le_max_right (e + maxPathSum p) (maxPathSumArr rest)
    have hw : wrap32 (cur + e) = cur + e := wrap32_eq (by omega) (by omega)
    have h1 := PolyGetMaxExp_eq p (cur + e) m hwf.2.1 (by omega) (by omega)
    rw [PolyGetMaxExpArr, hw, h1]
    cases rest with
    | nil =>
      rw [PolyGetMaxExpArr]
      have h0 : maxPathSumArr [] = 0 := by simp [maxPathSumArr]
      rw [h0, max_eq_left (by omega : (0 : Int) ≤ e + maxPathSum p)]
      congr 1
      omega
    | cons m2 r =>
      have h2 := PolyGetMaxExpArr_eq (m2 :: r) cur (max m (cur + e + maxPathSum p)) hwf.2.2
        (by simp) hcur (by omega)
      rw [h2]
      omega
end

/-- PolyDeg is the largest path sum when that sum is in the range of `int`. -/
theorem PolyDeg_eq_maxPathSum (p : Poly) (hwf : WellFormed p) (hz : PolyIsZero p = false)
    (hb : maxPathSum p < 2 ^ 31) : PolyDeg p = maxPathSum p := by
  unfold PolyDeg
  simp only [hz, Bool.false_eq_true, if_false]
  rw [PolyGetMaxExp_eq p 0 0 hwf (le_refl _) (by omega)]
  have := maxPathSum_nonneg p
  omega

theorem MaxExpLoop_le : ∀ (arr : List Mono) (m B : Int), m ≤ B →
    (∀ x ∈ arr, x.exp ≤ B) → MaxExpLoop arr m ≤ B
  | [], m, B, hm, _ => by rw [MaxExpLoop]; exact hm
  | Mono.mk p e :: rest, m, B, hm, h => by
    rw [MaxExpLoop]
    have he : e ≤ B := h (Mono.mk p e) (List.mem_cons_self _ _)
    apply MaxExpLoop_le rest _ B
    · split <;> omega
    · exact fun x hx => h x (List.mem_cons_of_mem _ hx)

theorem exp_le_maxPathSumArr : ∀ (arr : List Mono), WellFormedMonos arr →
    ∀ x ∈ arr, x.exp ≤ maxPathSumArr arr
  | [], _, _, hx => by simp at hx
  | Mono.mk p e :: rest, hwf, x, hx => by
    simp only [WellFormedMonos] at hwf
    rw [maxPathSumArr]
    rcases List.mem_cons.mp hx with h | h
    · subst h
      have := maxPathSum_nonneg p
      have := le_max_left (e + maxPathSum p) (maxPathSumArr rest)
      simp only [Mono.exp]
      omega
    · have := exp_le_maxPathSumArr rest hwf.2.2 x h
      have := le_max_right (e + maxPathSum p) (maxPathSumArr rest)
      omega

mutual
theorem PolyDegByHelper_le : ∀ (p : Poly) (varIdx c : Nat) (m : Int), WellFormed p →
    PolyDegByHelper p varIdx c m ≤ max m (maxPathSum p)
  | Constant _, varIdx, c, m, _ => by
    rw [PolyDegByHelper, maxPathSum]
    split
    · exact le_max_right _ _
    · exact le_max_left _ _
  | Nested arr, varIdx, c, m, hwf => by
    simp only [WellFormed] at hwf
    rw [PolyDegByHelper, maxPathSum]
    split
    · exact PolyDegByHelperArr_le arr varIdx c m hwf.2
    · split
      · have h := MaxExpLoop_le arr 0 (maxPathSumArr arr) (maxPathSumArr_nonneg arr)
          (exp_le_maxPathSumArr arr hwf.2)
        simp only []
        split
        · exact le_trans h (le_max_right _ _)
        · exact le_max_left _ _
      · exact le_max_left _ _
theorem PolyDegByHelperArr_le : ∀ (arr : List Mono) (varIdx c : Nat) (m : Int),
    WellFormedMonos arr → PolyDegByHelperArr arr varIdx c m ≤ max m (maxPathSumArr arr)
  | [], _, _, m, _ => by rw [PolyDegByHelperArr]; exact le_max_left _ _
  | Mono.mk p e :: rest, varIdx, c, m, hwf => by
    simp only [WellFormedMonos] at hwf
    rw [PolyDegByHelperArr, maxPathSumArr]
    have h1 := PolyDegByHelper_le p varIdx (c + 1) m hwf.2.1
    have h2 := PolyDegByHelperArr_le rest varIdx c (PolyDegByHelper p varIdx (c + 1) m) hwf.2.2
    have h3 := maxPathSum_nonneg p
    rcases le_max_iff.mp h1 with h | h
    · rcases le_max_iff.mp h2 with h' | h'
      · exact le_trans h' (le_trans h (le_max_left _ _))
      · exact le_trans h' (le_trans (le_max_right _ _) (le_max_right _ _))
    · rcases le_max_iff.mp h2 with h' | h'
      · refine le_trans h' (le_trans h ?_)
        refine le_trans ?_ (le_max_right _ _)
        refine le_trans ?_ (le_max_left _ _)
        omega
      · exact le_trans h' (le_trans (le_max_right _ _) (le_max_right _ _))
end

mutual
theorem PolyDegByHelper_zero : ∀ (p : Poly) (c d : Nat), NoNestedAtDepth p d →
    PolyDegByHelper p (c + d) c 0 = 0
  | Constant _, c, d, _ => by
    rw [PolyDegByHelper]; split <;> rfl
  | Nested arr, c, 0, h => by simp [NoNestedAtDepth] at h
  | Nested arr, c, d + 1, h => by
    simp only [NoNestedAtDepth] at h
    rw [PolyDegByHelper]
    have hgt : c + (d + 1) > c := by omega
    simp only [hgt, if_true]
    exact PolyDegByHelperArr_zero arr c d h
theorem PolyDegByHelperArr_zero : ∀ (arr : List Mono) (c d : Nat), NoNestedAtDepthArr arr d →
    PolyDegByHelperArr arr (c + (d + 1)) c 0 = 0
  | [], _, _, _ => by rw [PolyDegByHelperArr]
  | Mono.mk p e :: rest, c, d, h => by
    simp only [NoNestedAtDepthArr] at h
    rw [PolyDegByHelperArr]
    have e1 : c + (d + 1) = (c + 1) + d := by omega
    have h1 := PolyDegByHelper_zero p (c + 1) d h.1
    rw [← e1] at h1
    rw [h1]
    exact PolyDegByHelperArr_zero rest c d h.2
end

theorem SameExps_refl : ∀ ps : List Mono, SameExps ps ps = true
  | [] => by simp [SameExps]
  | Mono.mk p e :: ps => by simp [SameExps, SameExps_refl ps]

mutual
theorem PolyIsEq_refl : ∀ p : Poly, PolyIsEq p p = true
  | Constant a => by simp [PolyIsEq]
  | Nested ps => by simp [PolyIsEq, SameExps_refl, PolyIsEqArr_refl ps]
theorem PolyIsEqArr_refl : ∀ ps : List Mono, PolyIsEqArr ps ps = true
  | [] => by simp [PolyIsEqArr]
  | Mono.mk p e :: ps => by simp [PolyIsEqArr, PolyIsEq_refl p, PolyIsEqArr_refl ps]
end

mutual
theorem PolyIsEq_sound : ∀ p q : Poly, PolyIsEq p q = true → p = q
  | Constant a, Constant b, h => by
    simp only [PolyIsEq, beq_iff_eq] at h
    rw [h]
  | Constant _, Nested _, h => by simp [PolyIsEq] at h
  | Nested _, Constant _, h => by simp [PolyIsEq] at h
  | Nested ps, Nested qs, h => by
    simp only [PolyIsEq] at h
    split at h
    · exact absurd h (by simp)
    · rename_i hlen
      split at h
      · exact absurd h (by simp)
      · rename_i hexp
        have hlen2 : ps.length = qs.length := by simpa using hlen
        have hexp2 : SameExps ps qs = true := by simpa using hexp
        rw [PolyIsEqArr_sound ps qs hlen2 hexp2 h]
theorem PolyIsEqArr_sound : ∀ ps qs : List Mono, ps.length = qs.length →
    SameExps ps qs = true → PolyIsEqArr ps qs = true → ps = qs
  | [], [], _, _, _ => rfl
  | [], _ :: _, hl, _, _ => by simp at hl
  | _ :: _, [], hl, _, _ => by simp at hl
  | Mono.mk p e :: ps, Mono.mk q f :: qs, hl, he, h => by
    simp only [SameExps] at he
    simp only [PolyIsEqArr] at h
    split at he
    · exact absurd he (by simp)
    · rename_i hef
      split at h
      · exact absurd h (by simp)
      · rename_i hpq
        have h1 : e = f := by simpa using hef
        have h2 : PolyIsEq p q = true := by simpa using hpq
        rw [h1, PolyIsEq_sound p q h2,
          PolyIsEqArr_sound ps qs (by simpa using hl) he h]
end

/-- PolyIsEq is structural equality. -/
theorem PolyIsEq_iff (p q : Poly) : PolyIsEq p q = true ↔ p = q :=
  ⟨PolyIsEq_sound p q, fun h => by rw [h]; exact PolyIsEq_refl q⟩

theorem AddTwoArraysTogether_nil_right (ps : List Mono) : AddTwoArraysTogether ps [] = ps := by
  cases ps with
  | nil => rw [AddTwoArraysTogether]
  | cons m ps => cases m; rw [AddTwoArraysTogether]

theorem PolyAdd_comm_aux : ∀ p q : Poly, PolyAdd p q = PolyAdd q p := by
  apply PolyAdd.induct
    (fun p q => PolyAdd p q = PolyAdd q p)
    (fun ps qs => AddTwoArraysTogether ps qs = AddTwoArraysTogether qs ps)
    (fun _ _ => True)
  case case1 =>
    intro a b
    rw [PolyAdd, PolyAdd, AddTwoCoeff, AddTwoCoeff, add_comm]
  case case2 =>
    intro a qs _
    rw [PolyAdd, PolyAdd]
  case case3 =>
    intro ps b _
    rw [PolyAdd, PolyAdd]
  case case4 =>
    intro ps qs _ ih
    rw [PolyAdd, PolyAdd, ih]
  case case5 =>
    intro ps qs c _ ih
    rw [PolyAdd, PolyAdd, ih]
  case case6 =>
    intro ps qs _ _ ih
    rw [PolyAdd, PolyAdd, ih]
  case case7 =>
    intro qs
    rw [AddTwoArraysTogether_nil_right, AddTwoArraysTogether]
  case case8 =>
    intro p e ps
    rw [AddTwoArraysTogether_nil_right, AddTwoArraysTogether]
  case case9 =>
    intro p e ps q f qs hlt ih
    conv_lhs => rw [AddTwoArraysTogether]
    conv_rhs => rw [AddTwoArraysTogether]
    have h1 : ¬ f < e := by omega
    have h2 : f > e := by omega
    simp only [hlt, if_true, h1, if_false, h2, ih]
  case case10 =>
    intro p e ps q f qs hlt hgt ih
    conv_lhs => rw [AddTwoArraysTogether]
    conv_rhs => rw [AddTwoArraysTogether]
    have h1 : f < e := by omega
    simp only [hlt, if_false, hgt, if_true, h1, ih]
  case case11 =>
    intro p e ps q f qs hlt hgt sum hs ih1 ih2
    conv_lhs => rw [AddTwoArraysTogether]
    conv_rhs => rw [AddTwoArraysTogether]
    have h1 : ¬ f < e := by omega
    have h2 : ¬ f > e := by omega
    have h3 : e = f := by omega
    subst h3
    simp only [lt_self_iff_false, gt_iff_lt, if_false, ← ih1, ih2]
  case case12 =>
    intro p e ps q f qs hlt hgt sum hs ih1 ih2
    conv_lhs => rw [AddTwoArraysTogether]
    conv_rhs => rw [AddTwoArraysTogether]
    have h1 : ¬ f < e := by omega
    have h2 : ¬ f > e := by omega
    have h3 : e = f := by omega
    subst h3
    simp only [lt_self_iff_false, gt_iff_lt, if_false, ← ih1, ih2]
  all_goals (intros; trivial)

mutual
theorem PolyMulByCoeff_one : ∀ p : Poly, Canonical p → PolyMulByCoeff p 1 = p
  | Constant a, h => by
    simp only [Canonical] at h
    rw [PolyMulByCoeff]
    simp only [one_ne_zero, if_false, mul_one, PolyFromCoeff]
    have : wrap64 a = a := by unfold wrap64; omega
    rw [this]
  | Nested arr, h => by
    simp only [Canonical] at h
    rw [PolyMulByCoeff]
    simp only [one_ne_zero, if_false]
    rw [PolyMulByCoeffArr_one arr (-1) h.2.1]
    have : ¬ arr.length = 0 := fun hl => h.1 (List.length_eq_zero.mp hl)
    simp only [this, if_false]
theorem PolyMulByCoeffArr_one : ∀ (arr : List Mono) (lo : Int), CanonicalMonos lo arr →
    PolyMulByCoeffArr arr 1 = arr
  | [], _, _ => by rw [PolyMulByCoeffArr]
  | Mono.mk p e :: rest, lo, h => by
    simp only [CanonicalMonos] at h
    rw [PolyMulByCoeffArr, PolyMulByCoeff_one p h.2.2.1, PolyMulByCoeffArr_one rest e h.2.2.2.2]
    simp [h.2.2.2.1, MonoFromPoly]
end

theorem wrap64_eq {x : Int} (h1 : -2 ^ 63 ≤ x) (h2 : x < 2 ^ 63) : wrap64 x = x := by
  unfold wrap64; omega

theorem PolyAdd_zero_right (p : Poly) (h : Canonical p) : PolyAdd p PolyZero = p := by
  cases p with
  | Constant a =>
    simp only [Canonical] at h
    rw [PolyZero, PolyFromCoeff, PolyAdd, AddTwoCoeff, PolyFromCoeff, add_zero,
      wrap64_eq h.1 h.2]
  | Nested arr =>
    rw [PolyZero, PolyFromCoeff, PolyAdd]
    cases arr with
    | nil => rw [AddCoeffNonCoeff]; simp [PolyClone_eq]
    | cons m rest => cases m; rw [AddCoeffNonCoeff]; simp [PolyClone_eq]

theorem PolyMul_zero_right (p : Poly) : PolyMul p PolyZero = Constant 0 := by
  cases p with
  | Constant a =>
    rw [PolyZero, PolyFromCoeff, PolyMul, PolyFromCoeff, mul_zero]
    rfl
  | Nested arr =>
    rw [PolyZero, PolyFromCoeff, PolyMul, PolyMulByCoeff]
    simp [PolyZero, PolyFromCoeff]

theorem PolyMul_zero_left (p : Poly) : PolyMul PolyZero p = Constant 0 := by
  cases p with
  | Constant a =>
    rw [PolyZero, PolyFromCoeff, PolyMul, PolyFromCoeff, zero_mul]
    rfl
  | Nested arr =>
    rw [PolyZero, PolyFromCoeff, PolyMul, PolyMulByCoeff]
    simp [PolyZero, PolyFromCoeff]

theorem PolyMul_one_right (p : Poly) (h : Canonical p) : PolyMul p (PolyFromCoeff 1) = p := by
  cases p with
  | Constant a =>
    simp only [Canonical] at h
    rw [PolyFromCoeff, PolyMul, PolyFromCoeff, mul_one, wrap64_eq h.1 h.2]
  | Nested arr =>
    rw [PolyFromCoeff, PolyMul, PolyMulByCoeff_one _ h]

theorem PolyMul_one_left (p : Poly) (h : Canonical p) : PolyMul (PolyFromCoeff 1) p = p := by
  cases p with
  | Constant a =>
    simp only [Canonical] at h
    rw [PolyFromCoeff, PolyMul, PolyFromCoeff, one_mul, wrap64_eq h.1 h.2]
  | Nested arr =>
    rw [PolyFromCoeff, PolyMul, PolyMulByCoeff_one _ h]

mutual
theorem ExpsWithin_mono {B C : Int} (h : B ≤ C) : ∀ p : Poly, ExpsWithin B p → ExpsWithin C p
  | Constant _, _ => by simp [ExpsWithin]
  | Nested arr, hp => by
    simp only [ExpsWithin] at hp ⊢
    exact ExpsWithinArr_mono h arr hp
theorem ExpsWithinArr_mono {B C : Int} (h : B ≤ C) : ∀ arr : List Mono,
    ExpsWithinArr B arr → ExpsWithinArr C arr
  | [], _ => by simp [ExpsWithinArr]
  | Mono.mk p e :: rest, hp => by
    simp only [ExpsWithinArr] at hp ⊢
    exact ⟨hp.1, by omega, ExpsWithin_mono h p hp.2.2.1, ExpsWithinArr_mono h rest hp.2.2.2⟩
end

theorem ExpsWithin_collapseRule (B : Int) (arr : List Mono) (h : ExpsWithinArr B arr) :
    ExpsWithin B (collapseRule arr) := by
  unfold collapseRule
  split
  · simp [PolyZero, PolyFromCoeff, ExpsWithin]
  · simp [ExpsWithin]
  · simp only [ExpsWithin]; exact h

theorem ExpsWithin_PolyAdd (B : Int) (hB : 0 ≤ B) :
    ∀ p q : Poly, ExpsWithin B p → ExpsWithin B q → ExpsWithin B (PolyAdd p q) := by
  apply PolyAdd.induct
    (fun p q => ExpsWithin B p → ExpsWithin B q → ExpsWithin B (PolyAdd p q))
    (fun ps qs => ExpsWithinArr B ps → ExpsWithinArr B qs →
      ExpsWithinArr B (AddTwoArraysTogether ps qs))
    (fun c arr => ExpsWithinArr B arr → ExpsWithin B (AddCoeffNonCoeff c arr))
  case case1 =>
    intro a b _ _
    rw [PolyAdd]; simp [AddTwoCoeff, PolyFromCoeff, ExpsWithin]
  case case2 =>
    intro a qs ih _ hq
    rw [PolyAdd]; exact ih (by simpa only [ExpsWithin] using hq)
  case case3 =>
    intro ps b ih hp _
    rw [PolyAdd]; exact ih (by simpa only [ExpsWithin] using hp)
  case case4 =>
    intro ps qs _ ih hp hq
    rw [PolyAdd_Nested_Nested]
    exact ExpsWithin_collapseRule B _ (ih (by simpa only [ExpsWithin] using hp)
      (by simpa only [ExpsWithin] using hq))
  case case5 =>
    intro ps qs c _ ih hp hq
    rw [PolyAdd_Nested_Nested]
    exact ExpsWithin_collapseRule B _ (ih (by simpa only [ExpsWithin] using hp)
      (by simpa only [ExpsWithin] using hq))
  case case6 =>
    intro ps qs _ _ ih hp hq
    rw [PolyAdd_Nested_Nested]
    exact ExpsWithin_collapseRule B _ (ih (by simpa only [ExpsWithin] using hp)
      (by simpa only [ExpsWithin] using hq))
  case case7 =>
    intro qs _ hq
    rw [AddTwoArraysTogether]; exact hq
  case case8 =>
    intro p e ps hp _
    rw [AddTwoArraysTogether]; exact hp
  case case9 =>
    intro p e ps q f qs hlt ih hp hq
    rw [AddTwoArraysTogether]
    simp only [hlt, if_true]
    simp only [ExpsWithinArr] at hp ⊢
    exact ⟨hp.1, hp.2.1, hp.2.2.1, ih hp.2.2.2 hq⟩
  case case10 =>
    intro p e ps q f qs hlt hgt ih hp hq
    rw [AddTwoArraysTogether]
    simp only [hlt, if_false, hgt, if_true]
    simp only [ExpsWithinArr] at hq ⊢
    exact ⟨hq.1, hq.2.1, hq.2.2.1, ih hp hq.2.2.2⟩
  case case11 =>
    intro p e ps q f qs hlt hgt sum hs ih1 ih2 hp hq
    rw [AddTwoArraysTogether]
    simp only [hlt, if_false, hgt]
    simp only [ExpsWithinArr] at hp hq
    have h1 := ih1 hp.2.2.1 hq.2.2.1
    have h2 := ih2 hp.2.2.2 hq.2.2.2
    rw [if_pos hs]
    simp only [ExpsWithinArr]
    exact ⟨hq.1, hq.2.1, h1, h2⟩
  case case12 =>
    intro p e ps q f qs hlt hgt sum hs ih1 ih2 hp hq
    rw [AddTwoArraysTogether]
    simp only [hlt, if_false, hgt]
    simp only [ExpsWithinArr] at hp hq
    rw [if_neg hs]
    exact ih2 hp.2.2.2 hq.2.2.2
  case case13 =>
    intro _
    rw [AddCoeffNonCoeff]
    simp [PolyClone_eq, ExpsWithin, ExpsWithinArr]
  case case14 =>
    intro c hc _
    rw [AddCoeffNonCoeff]
    simp only [hc, if_false, PolyClone_eq, MonoFromPoly, ExpsWithin, ExpsWithinArr]
    exact ⟨le_refl _, hB, trivial, trivial⟩
  case case15 =>
    intro p e rest h
    rw [AddCoeffNonCoeff]
    simp only [if_true, PolyClone_eq, ExpsWithin]
    exact h
  case case16 =>
    intro c p rest hc sum hs ih h
    rw [AddCoeffNonCoeff]
    simp only [ExpsWithinArr] at h
    have h1 := ih h.2.2.1 (by simp [ExpsWithin])
    simp only [hc, if_false, if_true]
    rw [if_pos hs]
    simp only [ExpsWithin, ExpsWithinArr, MonoFromPoly]
    exact ⟨le_refl _, hB, h1, h.2.2.2⟩
  case case17 =>
    intro c p rest hc sum hs _ h
    rw [AddCoeffNonCoeff]
    simp only [ExpsWithinArr] at h
    simp only [hc, if_false, if_true]
    rw [if_neg hs]
    simp only [ExpsWithin]; exact h.2.2.2
  case case18 =>
    intro c p e rest hc he h
    rw [AddCoeffNonCoeff]
    simp only [hc, if_false, he, PolyClone_eq, MonoFromPoly, ExpsWithin, ExpsWithinArr]
    simp only [ExpsWithinArr] at h
    exact ⟨le_refl _, hB, trivial, h⟩

mutual
theorem ExpsWithin_PolyMulByCoeff (B : Int) : ∀ (p : Poly) (c : Int), ExpsWithin B p →
    ExpsWithin B (PolyMulByCoeff p c)
  | Constant a, c, _ => by
    rw [PolyMulByCoeff]
    split <;> simp [PolyZero, PolyFromCoeff, ExpsWithin]
  | Nested arr, c, h => by
    simp only [ExpsWithin] at h
    rw [PolyMulByCoeff]
    split
    · simp [PolyZero, PolyFromCoeff, ExpsWithin]
    · simp only []
      split
      · simp [PolyZero, PolyFromCoeff, ExpsWithin]
      · simp only [ExpsWithin]
        exact ExpsWithin_PolyMulByCoeffArr B arr c h
theorem ExpsWithin_PolyMulByCoeffArr (B : Int) : ∀ (arr : List Mono) (c : Int),
    ExpsWithinArr B arr → ExpsWithinArr B (PolyMulByCoeffArr arr c)
  | [], _, _ => by simp [PolyMulByCoeffArr, ExpsWithinArr]
  | Mono.mk p e :: rest, c, h => by
    simp only [ExpsWithinArr] at h
    rw [PolyMulByCoeffArr]
    split
    · simp only [ExpsWithinArr, MonoFromPoly]
      exact ⟨h.1, h.2.1, ExpsWithin_PolyMulByCoeff B p c h.2.2.1,
        ExpsWithin_PolyMulByCoeffArr B rest c h.2.2.2⟩
    · exact ExpsWithin_PolyMulByCoeffArr B rest c h.2.2.2
end

/-- PolyMul on polynomials whose exponents are at most `A` and at most `B`, with
`A + B` in the range of `int`: the exponents of the product are at most `A + B`, and
its value is the product of the values. -/
theorem PolyMul_within :
    ∀ p q : Poly, ∀ A B : Int, 0 ≤ A → 0 ≤ B → A + B < 2 ^ 31 →
      ExpsWithin A p → ExpsWithin B q →
      ExpsWithin (A + B) (PolyMul p q) ∧ ∀ v, eval (PolyMul p q) v = eval p v * eval q v := by
  apply PolyMul.induct
    (fun p q => ∀ A B : Int, 0 ≤ A → 0 ≤ B → A + B < 2 ^ 31 →
      ExpsWithin A p → ExpsWithin B q →
      ExpsWithin (A + B) (PolyMul p q) ∧ ∀ v, eval (PolyMul p q) v = eval p v * eval q v)
    (fun ps qs result => ∀ A B : Int, 0 ≤ A → 0 ≤ B → A + B < 2 ^ 31 →
      ExpsWithinArr A ps → ExpsWithinArr B qs → ExpsWithin (A + B) result →
      ExpsWithin (A + B) (MulTwoPolys ps qs result) ∧
        ∀ v, eval (MulTwoPolys ps qs result) v
          = eval result v + evalMonos ps v * evalMonos qs v)
    (fun m qs result => ∀ A B : Int, 0 ≤ A → 0 ≤ B → A + B < 2 ^ 31 →
      ExpsWithinArr A [m] → ExpsWithinArr B qs → ExpsWithin (A + B) result →
      ExpsWithin (A + B) (MulTwoPolysInner m qs result) ∧
        ∀ v, eval (MulTwoPolysInner m qs result) v
          = eval result v + evalMonos [m] v * evalMonos qs v)
  case case1 =>
    intro a b A B _ _ _ _ _
    rw [PolyMul]
    exact ⟨by simp [PolyFromCoeff, ExpsWithin],
      fun v => by simp [PolyFromCoeff, eval, cast_wrap64]⟩
  case case2 =>
    intro a qs A B hA _ _ _ hq
    rw [PolyMul]
    refine ⟨ExpsWithin_mono (by omega) _ (ExpsWithin_PolyMulByCoeff B _ a hq), fun v => ?_⟩
    rw [eval_PolyMulByCoeff]
    simp [eval, mul_comm]
  case case3 =>
    intro ps b A B _ hB _ hp _
    rw [PolyMul]
    refine ⟨ExpsWithin_mono (by omega) _ (ExpsWithin_PolyMulByCoeff A _ b hp), fun v => ?_⟩
    rw [eval_PolyMulByCoeff]
    simp [eval]
  case case4 =>
    intro ps qs ih A B hA hB hAB hp hq
    simp only [ExpsWithin] at hp hq
    have h := ih A B hA hB hAB hp hq (by simp [PolyZero, PolyFromCoeff, ExpsWithin])
    rw [PolyMul]
    refine ⟨h.1, fun v => ?_⟩
    rw [h.2]
    simp [PolyZero, PolyFromCoeff, eval]
  case case5 =>
    intro qs result A B _ _ _ _ _ hr
    rw [MulTwoPolys]
    exact ⟨hr, fun v => by simp [evalMonos]⟩
  case case6 =>
    intro m ps qs result ih3 ih2 A B hA hB hAB hp hq hr
    rw [MulTwoPolys]
    cases m with
    | mk p e =>
      simp only [ExpsWithinArr] at hp
      have h3 := ih3 A B hA hB hAB
        (by simp only [ExpsWithinArr]; exact ⟨hp.1, hp.2.1, hp.2.2.1, trivial⟩) hq hr
      have h2 := ih2 A B hA hB hAB hp.2.2.2 hq h3.1
      refine ⟨h2.1, fun v => ?_⟩
      rw [h2.2, h3.2]
      simp only [evalMonos]
      ring
  case case7 =>
    intro m result A B _ _ _ _ _ hr
    rw [MulTwoPolysInner]
    exact ⟨hr, fun v => by simp [evalMonos]⟩
  case case8 =>
    intro p e q f qs result c1 c2 c3 c4 ih1 ih3 A B hA hB hAB hp hq hr
    rw [MulTwoPolysInner]
    simp only [ExpsWithinArr] at hp hq
    have h1 := ih1 A B hA hB hAB hp.2.2.1 hq.2.2.1
    have hw : wrap32 (e + f) = e + f := wrap32_eq (by omega) (by omega)
    have hn : (e + f).toNat = e.toNat + f.toNat := by omega
    have hsingle : ExpsWithin (A + B) (Nested [MonoFromPoly (PolyMul p q) (wrap32 (e + f))]) := by
      simp only [ExpsWithin, ExpsWithinArr, MonoFromPoly, hw]
      exact ⟨by omega, by omega, h1.1, trivial⟩
    have hadd := ExpsWithin_PolyAdd (A + B) (by omega) result _ hr hsingle
    have h3 := ih3 A B hA hB hAB
      (by simp only [ExpsWithinArr]; exact hp) hq.2.2.2
      (by simp only [c4, c3, c2, c1, PolyClone_eq]; exact hadd)
    simp only [c4, c3, c2, c1] at h3
    refine ⟨h3.1, fun v => ?_⟩
    rw [h3.2, PolyClone_eq, eval_PolyAdd_aux]
    simp only [eval, evalMonos, MonoFromPoly, h1.2, hw, hn, pow_add]
    ring

/-- PolyExpBySquaring on a polynomial whose exponents are at most `Q`, for an exponent
`e` with `e * Q` in the range of `int`: the exponents of the power are at most
`e * Q` and its value is the power of the value. -/
theorem PolyExpBySquaring_within (Q : Int) (hQ : 0 ≤ Q) :
    ∀ (basis : Poly) (e : Int), ExpsWithin Q basis → 0 ≤ e → e * Q < 2 ^ 31 →
      ExpsWithin (e * Q) (PolyExpBySquaring basis e) ∧
        ∀ v, eval (PolyExpBySquaring basis e) v = eval basis v ^ e.toNat := by
  apply PolyExpBySquaring.induct
    (fun basis e => ExpsWithin Q basis → 0 ≤ e → e * Q < 2 ^ 31 →
      ExpsWithin (e * Q) (PolyExpBySquaring basis e) ∧
        ∀ v, eval (PolyExpBySquaring basis e) v = eval basis v ^ e.toNat)
  case case1 =>
    intro basis _ _ _
    rw [PolyExpBySquaring.eq_def]
    simp [PolyFromCoeff, ExpsWithin, eval]
  case case2 =>
    intro basis e he hz _ hpos _
    rw [PolyExpBySquaring.eq_def]
    simp only [he, if_false, hz, if_true]
    have hb : basis = Constant 0 := PolyIsZero_eq_true.mp hz
    subst hb
    refine ⟨by simp [PolyZero, PolyFromCoeff, ExpsWithin], fun v => ?_⟩
    have : e.toNat ≠ 0 := by omega
    simp [PolyZero, PolyFromCoeff, eval, this]
  case case3 =>
    intro e he c hz _ _ _
    rw [PolyExpBySquaring]
    simp only [he, if_false, hz]
    refine ⟨by simp [PolyFromCoeff, ExpsWithin], fun v => ?_⟩
    simp [PolyFromCoeff, eval, Exponentiation_cast]
  case case4 =>
    intro e he arr hodd hz ih hb hpos hlt
    have hd : e.tdiv 2 = e / 2 := Int.tdiv_eq_ediv (by omega) (by omega)
    have hm : e.tmod 2 = e % 2 := Int.tmod_eq_emod (by omega) (by omega)
    rw [hm] at hodd
    rw [hd] at ih
    have hhalf : e / 2 * Q ≤ e * Q := by
      apply mul_le_mul_of_nonneg_right _ hQ
      omega
    have hsum : e / 2 * Q + e / 2 * Q + Q = e * Q := by
      have : e = 2 * (e / 2) + 1 := by omega
      nth_rewrite 3 [this]
      ring
    have hh0 : 0 ≤ e / 2 * Q := mul_nonneg (by omega) hQ
    have h1 := ih hb (by omega) (by omega)
    have h2 := PolyMul_within _ _ (e / 2 * Q) (e / 2 * Q) hh0 hh0 (by omega) h1.1 h1.1
    have h3 := PolyMul_within _ _ (e / 2 * Q + e / 2 * Q) Q (by omega) hQ (by omega) h2.1 hb
    rw [PolyExpBySquaring]
    simp only [he, if_false, PolyIsZero, Bool.false_eq_true, hm, hodd, if_true, hd]
    rw [hsum] at h3
    refine ⟨h3.1, fun v => ?_⟩
    rw [h3.2, h2.2, h1.2]
    have hn : e.toNat = (e / 2).toNat + (e / 2).toNat + 1 := by omega
    rw [hn, pow_add, pow_add, pow_one]
  case case5 =>
    intro e he arr hodd hz ih hb hpos hlt
    have hd : e.tdiv 2 = e / 2 := Int.tdiv_eq_ediv (by omega) (by omega)
    have hm : e.tmod 2 = e % 2 := Int.tmod_eq_emod (by omega) (by omega)
    rw [hm] at hodd
    rw [hd] at ih
    have hhalf : e / 2 * Q ≤ e * Q := by
      apply mul_le_mul_of_nonneg_right _ hQ
      omega
    have hsum : e / 2 * Q + e / 2 * Q = e * Q := by
      have : e = 2 * (e / 2) := by omega
      nth_rewrite 3 [this]
      ring
    have hh0 : 0 ≤ e / 2 * Q := mul_nonneg (by omega) hQ
    have h1 := ih hb (by omega) (by omega)
    have h2 := PolyMul_within _ _ (e / 2 * Q) (e / 2 * Q) hh0 hh0 (by omega) h1.1 h1.1
    rw [PolyExpBySquaring]
    simp only [he, if_false, PolyIsZero, Bool.false_eq_true, hm, hodd, hd]
    rw [hsum] at h2
    refine ⟨h2.1, fun v => ?_⟩
    rw [h2.2, h1.2]
    have hn : e.toNat = (e / 2).toNat + (e / 2).toNat := by omega
    rw [hn, pow_add]

theorem ExpsWithin_getD (Q : Int) (q : List Poly) (hq : ∀ qi ∈ q, ExpsWithin Q qi) (i : Nat) :
    ExpsWithin Q (q.getD i PolyZero) := by
  by_cases h : i < q.length
  · rw [List.getD_eq_getElem _ _ h]
    exact hq _ (List.getElem_mem _)
  · rw [List.getD_eq_default _ _ (by omega)]
    simp [PolyZero, PolyFromCoeff, ExpsWithin]

theorem eval_substitutedVar (q : List Poly) (v : Nat → Word) (level : Nat) :
    eval (if level ≥ q.length then PolyZero else q.getD level PolyZero) v
      = composeAssignment q v level := by
  unfold composeAssignment
  by_cases h : level < q.length
  · have h2 : ¬ level ≥ q.length := by omega
    simp only [h2, if_false]
    rw [List.getD_eq_getElem _ _ h, List.get?_eq_get h]
    rfl
  · have h2 : level ≥ q.length := by omega
    simp only [h2, if_true]
    rw [List.get?_eq_none.mpr h2]
    simp [PolyZero, PolyFromCoeff, eval]

mutual
/-- PolyComposeHelper on a well-formed `p`, with every exponent of the `q[i]` at most
`Q` and `Q * maxPathSum p` in the range of `int`. -/
theorem PolyComposeHelper_within (Q : Int) (hQ : 0 ≤ Q) (q : List Poly)
    (hq : ∀ qi ∈ q, ExpsWithin Q qi) :
    ∀ (p : Poly) (level : Nat), WellFormed p → Q * maxPathSum p < 2 ^ 31 →
      ExpsWithin (Q * maxPathSum p) (PolyComposeHelper p q.length q level) ∧
        ∀ v, eval (PolyComposeHelper p q.length q level) v
          = eval p (fun i => composeAssignment q v (level + i))
  | Constant c, level, _, _ => by
    rw [PolyComposeHelper, PolyClone_eq]
    exact ⟨by simp [ExpsWithin], fun v => by simp [eval]⟩
  | Nested arr, level, hwf, hb => by
    simp only [WellFormed] at hwf
    rw [maxPathSum] at hb ⊢
    have h := PolyComposeLoop_within Q hQ q hq arr level PolyZero (Q * maxPathSumArr arr)
      hwf.2 (le_refl _) hb (by simp [PolyZero, PolyFromCoeff, ExpsWithin])
    rw [PolyComposeHelper]
    refine ⟨h.1, fun v => ?_⟩
    rw [h.2]
    simp [PolyZero, PolyFromCoeff, eval]
/-- The loop of PolyComposeHelper, with `Bd` a bound in the range of `int` on the
exponents of the sum so far and on `Q` times the path sums of what is left. -/
theorem PolyComposeLoop_within (Q : Int) (hQ : 0 ≤ Q) (q : List Poly)
    (hq : ∀ qi ∈ q, ExpsWithin Q qi) :
    ∀ (arr : List Mono) (level : Nat) (result : Poly) (Bd : Int), WellFormedMonos arr →
      Q * maxPathSumArr arr ≤ Bd → Bd < 2 ^ 31 → ExpsWithin Bd result →
      ExpsWithin Bd (PolyComposeLoop arr q.length q level result) ∧
        ∀ v, eval (PolyComposeLoop arr q.length q level result) v
          = eval result v + evalMonos arr (fun i => composeAssignment q v (level + i))
  | [], level, result, Bd, _, _, _, hr => by
    rw [PolyComposeLoop]
    exact ⟨hr, fun v => by simp [evalMonos]⟩
  | Mono.mk p e :: rest, level, result, Bd, hwf, hle, hBd, hr => by
    simp only [WellFormedMonos] at hwf
    rw [maxPathSumArr] at hle
    have hp0 := maxPathSum_nonneg p
    have hr0 := maxPathSumArr_nonneg rest
    have hl1 : Q * (e + maxPathSum p) ≤ Bd :=
      le_trans (mul_le_mul_of_nonneg_left (le_max_left _ _) hQ) hle
    have hl2 : Q * maxPathSumArr rest ≤ Bd :=
      le_trans (mul_le_mul_of_nonneg_left (le_max_right _ _) hQ) hle
    have hQe : 0 ≤ e * Q := mul_nonneg hwf.1 hQ
    have hQp : 0 ≤ Q * maxPathSum p := mul_nonneg hQ hp0
    have hexp : Q * (e + maxPathSum p) = Q * maxPathSum p + e * Q := by ring
    rw [hexp] at hl1
    have hc := PolyComposeHelper_within Q hQ q hq p (level + 1) hwf.2.1 (by omega)
    have hsub : ExpsWithin (e * Q)
        (PolyExpBySquaring (if level ≥ q.length then PolyZero else q.getD level PolyZero) e) ∧
        ∀ v, eval (PolyExpBySquaring
          (if level ≥ q.length then PolyZero else q.getD level PolyZero) e) v
            = composeAssignment q v level ^ e.toNat := by
      have hbase : ExpsWithin Q (if level ≥ q.length then PolyZero else q.getD level PolyZero) := by
        split
        · simp [PolyZero, PolyFromCoeff, ExpsWithin]
        · exact ExpsWithin_getD Q q hq level
      have h := PolyExpBySquaring_within Q hQ _ e hbase hwf.1 (by omega)
      refine ⟨h.1, fun v => ?_⟩
      rw [h.2, eval_substitutedVar]
    have hsubeq : (if level ≥ q.length then PolyExpBySquaring PolyZero e
        else PolyExpBySquaring (q.getD level PolyZero) e)
        = PolyExpBySquaring (if level ≥ q.length then PolyZero else q.getD level PolyZero) e := by
      split <;> rfl
    have hmul := PolyMul_within _ _ (Q * maxPathSum p) (e * Q) hQp (by omega) (by omega)
      hc.1 hsub.1
    have hadd := ExpsWithin_PolyAdd Bd (by omega) result _ hr
      (ExpsWithin_mono (by omega) _ hmul.1)
    have hrest := PolyComposeLoop_within Q hQ q hq rest level _ Bd hwf.2.2 hl2 hBd hadd
    rw [PolyComposeLoop]
    simp only [hsubeq]
    refine ⟨hrest.1, fun v => ?_⟩
    rw [hrest.2, eval_PolyAdd_aux, hmul.2, hc.2, hsub.2]
    simp only [evalMonos, Nat.add_zero]
    have hshift : (fun i => composeAssignment q v (level + 1 + i))
        = (fun i => composeAssignment q v (level + (i + 1))) := by
      funext i
      congr 1
      omega
    rw [hshift]
    ring
end

theorem maxExpOfArr_nonneg : ∀ arr : List Mono, 0 ≤ maxExpOfArr arr
  | [] => by simp [maxExpOfArr]
  | Mono.mk _ e :: rest => by
    rw [maxExpOfArr]
    exact le_max_of_le_right (maxExpOfArr_nonneg rest)

theorem MaxExpLoop_eq : ∀ (arr : List Mono) (m : Int), 0 ≤ m →
    MaxExpLoop arr m = max m (maxExpOfArr arr)
  | [], m, hm => by
    rw [MaxExpLoop, maxExpOfArr]; omega
  | Mono.mk _ e :: rest, m, hm => by
    have h0 := maxExpOfArr_nonneg rest
    rw [MaxExpLoop, maxExpOfArr, MaxExpLoop_eq rest _ (by split <;> omega)]
    split <;> omega

theorem PolyDegByHelper_at_depth (p : Poly) (c : Nat) (m : Int) (hm : 0 ≤ m) :
    PolyDegByHelper p c c m = max m (maxExpAtDepth p 0) := by
  cases p with
  | Constant a =>
    rw [PolyDegByHelper, maxExpAtDepth]
    simp only [gt_iff_lt, lt_self_iff_false, if_false]
    omega
  | Nested arr =>
    have h0 := maxExpOfArr_nonneg arr
    rw [PolyDegByHelper, maxExpAtDepth]
    simp only [gt_iff_lt, lt_self_iff_false, if_false, if_true]
    rw [MaxExpLoop_eq arr 0 (le_refl _)]
    split <;> omega

theorem PolyDegByHelperArr_below_depth : ∀ (arr : List Mono) (c : Nat) (m : Int), 0 ≤ m →
    PolyDegByHelperArr arr (c + 1) c m = max m (maxExpAtDepthArr arr 0)
  | [], c, m, hm => by
    rw [PolyDegByHelperArr, maxExpAtDepthArr]; omega
  | Mono.mk p e :: rest, c, m, hm => by
    rw [PolyDegByHelperArr, PolyDegByHelper_at_depth p (c + 1) m hm, maxExpAtDepthArr,
      PolyDegByHelperArr_below_depth rest c _ (by omega)]
    omega

/-- PolyDegBy for the variables 0 and 1 is the largest exponent at that nesting depth. -/
theorem PolyDegBy_zero_one (p : Poly) (hz : PolyIsZero p = false) :
    PolyDegBy p 0 = maxExpAtDepth p 0 ∧ PolyDegBy p 1 = maxExpAtDepth p 1 := by
  unfold PolyDegBy
  simp only [hz, Bool.false_eq_true, if_false]
  constructor
  · rw [PolyDegByHelper_at_depth p 0 0 (le_refl _)]
    cases p with
    | Constant a => simp [maxExpAtDepth]
    | Nested arr =>
      have := maxExpOfArr_nonneg arr
      rw [maxExpAtDepth]; omega
  · cases p with
    | Constant a => simp [PolyDegByHelper, maxExpAtDepth]
    | Nested arr =>
      rw [PolyDegByHelper, maxExpAtDepth]
      simp only [gt_iff_lt, Nat.lt_one_iff, if_true]
      have h := PolyDegByHelperArr_below_depth arr 0 0 (le_refl _)
      rw [Nat.zero_add] at h
      rw [h]
      have : 0 ≤ maxExpAtDepthArr arr 0 := by
        cases arr with
        | nil => simp [maxExpAtDepthArr]
        | cons x xs =>
          cases x with
          | mk q e =>
            rw [maxExpAtDepthArr]
            cases q with
            | Constant a => simp [maxExpAtDepth]
            | Nested arr2 =>
              rw [maxExpAtDepth]
              exact le_max_of_le_left (maxExpOfArr_nonneg arr2)
      omega

/-! ## Negation, subtraction, composition with constants and the commands -/

mutual
theorem PolyAdd_PolyNeg_self : ∀ p : Poly, PolyAdd p (PolyNeg p) = Constant 0
  | Constant c => by
    rw [PolyNeg, PolyFromCoeff, PolyAdd, AddTwoCoeff, PolyFromCoeff]
    have : wrap64 (c + wrap64 (-1 * c)) = 0 := by unfold wrap64; omega
    rw [this]
  | Nested arr => by
    rw [PolyNeg, PolyAdd_Nested_Nested, AddTwoArraysTogether_PolyNegArr arr]
    rfl
theorem AddTwoArraysTogether_PolyNegArr : ∀ arr : List Mono,
    AddTwoArraysTogether arr (PolyNegArr arr) = []
  | [] => by rw [PolyNegArr, AddTwoArraysTogether]
  | Mono.mk p e :: rest => by
    rw [PolyNegArr, MonoFromPoly, AddTwoArraysTogether]
    simp only [lt_self_iff_false, gt_iff_lt, if_false]
    rw [PolyAdd_PolyNeg_self p, AddTwoArraysTogether_PolyNegArr rest]
    simp [PolyIsZero]
end

mutual
theorem PolyNeg_PolyNeg : ∀ p : Poly, CoeffsInRange p → PolyNeg (PolyNeg p) = p
  | Constant c, h => by
    simp only [CoeffsInRange] at h
    rw [PolyNeg, PolyFromCoeff, PolyNeg, PolyFromCoeff]
    have : wrap64 (-1 * wrap64 (-1 * c)) = c := by unfold wrap64; omega
    rw [this]
  | Nested arr, h => by
    simp only [CoeffsInRange] at h
    rw [PolyNeg, PolyNeg, PolyNegArr_PolyNegArr arr h]
theorem PolyNegArr_PolyNegArr : ∀ arr : List Mono, CoeffsInRangeArr arr →
    PolyNegArr (PolyNegArr arr) = arr
  | [], _ => by rw [PolyNegArr, PolyNegArr]
  | Mono.mk p e :: rest, h => by
    simp only [CoeffsInRangeArr] at h
    rw [PolyNegArr, MonoFromPoly, PolyNegArr, MonoFromPoly, PolyNeg_PolyNeg p h.1,
      PolyNegArr_PolyNegArr rest h.2]
end

theorem PolyIsCoeff_PolyNeg (p : Poly) : PolyIsCoeff (PolyNeg p) = PolyIsCoeff p := by
  cases p <;> simp [PolyNeg, PolyFromCoeff, PolyIsCoeff]

theorem IsCoeffTimesXToZero_PolyNegArr (arr : List Mono) :
    IsCoeffTimesXToZero (PolyNegArr arr) = IsCoeffTimesXToZero arr := by
  match arr with
  | [] => simp [PolyNegArr]
  | [Mono.mk p e] =>
    simp [PolyNegArr, MonoFromPoly, IsCoeffTimesXToZero, PolyIsCoeff_PolyNeg]
  | Mono.mk p e :: Mono.mk q f :: rest =>
    simp [PolyNegArr, MonoFromPoly, IsCoeffTimesXToZero]

mutual
theorem Canonical_PolyNeg : ∀ p : Poly, Canonical p →
    Canonical (PolyNeg p) ∧ NegatedShape p (PolyNeg p) ∧
      (PolyIsZero p = false → PolyIsZero (PolyNeg p) = false)
  | Constant c, h => by
    simp only [Canonical] at h
    rw [PolyNeg, PolyFromCoeff]
    refine ⟨?_, ?_, ?_⟩
    · simp only [Canonical]; exact wrap64_range _
    · simp only [NegatedShape]; congr 1; ring
    · intro hz
      simp only [PolyIsZero, beq_eq_false_iff_ne, ne_eq] at hz ⊢
      unfold wrap64; omega
  | Nested arr, h => by
    simp only [Canonical] at h
    have ih := CanonicalMonos_PolyNegArr arr (-1) h.2.1
    rw [PolyNeg]
    refine ⟨?_, ?_, ?_⟩
    · simp only [Canonical]
      refine ⟨?_, ih.1, ?_⟩
      · intro hnil
        cases arr with
        | nil => exact h.1 rfl
        | cons m rest => cases m; simp [PolyNegArr] at hnil
      · rw [IsCoeffTimesXToZero_PolyNegArr]; exact h.2.2
    · simp only [NegatedShape]; exact ih.2
    · intro _; simp [PolyIsZero]
theorem CanonicalMonos_PolyNegArr : ∀ (arr : List Mono) (lo : Int), CanonicalMonos lo arr →
    CanonicalMonos lo (PolyNegArr arr) ∧ NegatedShapeArr arr (PolyNegArr arr)
  | [], _, _ => by simp [PolyNegArr, CanonicalMonos, NegatedShapeArr]
  | Mono.mk p e :: rest, lo, h => by
    simp only [CanonicalMonos] at h
    have h1 := Canonical_PolyNeg p h.2.2.1
    have h2 := CanonicalMonos_PolyNegArr rest e h.2.2.2.2
    rw [PolyNegArr, MonoFromPoly]
    simp only [CanonicalMonos, NegatedShapeArr]
    exact ⟨⟨h.1, h.2.1, h1.1, h1.2.2 h.2.2.2.1, h2.1⟩, trivial, h1.2.1, h2.2⟩
end

mutual
theorem eval_PolyNeg : ∀ (p : Poly) (v : Nat → Word), eval (PolyNeg p) v = - eval p v
  | Constant c, v => by
    rw [PolyNeg, PolyFromCoeff]
    simp only [eval, cast_wrap64]
    push_cast; ring
  | Nested arr, v => by
    rw [PolyNeg]
    simp only [eval]
    exact evalMonos_PolyNegArr arr v
theorem evalMonos_PolyNegArr : ∀ (arr : List Mono) (v : Nat → Word),
    evalMonos (PolyNegArr arr) v = - evalMonos arr v
  | [], v => by simp [PolyNegArr, evalMonos]
  | Mono.mk p e :: rest, v => by
    rw [PolyNegArr, MonoFromPoly]
    simp only [evalMonos]
    rw [eval_PolyNeg p, evalMonos_PolyNegArr rest v]
    ring
end

theorem ExponentiationLoop_zero_basis :
    ∀ (basis exponent result : Int), basis = 0 → 0 < exponent →
      ExponentiationLoop basis exponent result = 0 := by
  intro basis exponent result
  induction basis, exponent, result using ExponentiationLoop.induct with
  | case1 basis exponent result hpos ih =>
    intro hb _
    rw [ExponentiationLoop]
    simp only [hpos, if_true]
    have hb2 : wrap64 (basis * basis) = 0 := by rw [hb]; rfl
    by_cases h2 : 0 < exponent.tdiv 2
    · exact ih hb2 h2
    · have hd : exponent.tdiv 2 = exponent / 2 := Int.tdiv_eq_ediv (by omega) (by omega)
      have hm : exponent.tmod 2 = exponent % 2 := Int.tmod_eq_emod (by omega) (by omega)
      have h1 : exponent = 1 := by omega
      subst h1
      rw [ExponentiationLoop]
      simp [hb]
      rfl
  | case2 basis exponent result hneg =>
    intro _ hpos
    exact absurd hpos hneg

theorem Exponentiation_zero_basis (e : Int) (he : 0 < e) : Exponentiation 0 e = 0 := by
  unfold Exponentiation
  rw [if_neg (by omega)]
  exact ExponentiationLoop_zero_basis 0 e 1 rfl he

theorem Exponentiation_exp_zero (x : Int) : Exponentiation x 0 = 1 := by
  unfold Exponentiation
  split
  · rfl
  · rw [ExponentiationLoop]; simp

theorem composedMono_eq_partialResult (a c e : Int) (he : 0 ≤ e) :
    PolyMul (Constant a) (PolyExpBySquaring (Constant c) e)
      = PolyMulByCoeff (Constant a) (Exponentiation c e) := by
  rw [PolyExpBySquaring.eq_def]
  by_cases h0 : e = 0
  · subst h0
    simp [Exponentiation_exp_zero, PolyFromCoeff, PolyMul, PolyMulByCoeff]
  · rw [if_neg h0]
    by_cases hc : c = 0
    · subst hc
      rw [Exponentiation_zero_basis e (by omega)]
      simp [PolyIsZero, PolyZero, PolyFromCoeff, PolyMul, PolyMulByCoeff]
      rfl
    · simp only [PolyIsZero, beq_iff_eq, hc, if_false, PolyFromCoeff, Bool.false_eq_true]
      rw [PolyMul, PolyMulByCoeff]
      by_cases hm : Exponentiation c e = 0
      · rw [hm]; simp [PolyZero, PolyFromCoeff]; rfl
      · rw [if_neg hm]

theorem PolyComposeLoop_eq_PolyAtLoop (c : Int) :
    ∀ (arr : List Mono) (result : Poly), ConstantCoeffs arr → WellFormedMonos arr →
      PolyComposeLoop arr 1 [Constant c] 0 result = PolyAtLoop c arr result
  | [], result, _, _ => by rw [PolyComposeLoop, PolyAtLoop]
  | Mono.mk p e :: rest, result, hc, hw => by
    simp only [ConstantCoeffs] at hc
    simp only [WellFormedMonos] at hw
    cases p with
    | Nested arr => simp [PolyIsCoeff] at hc
    | Constant a =>
      rw [PolyComposeLoop, PolyAtLoop]
      simp only [PolyComposeHelper, PolyClone_eq, ge_iff_le, Nat.le_zero_eq, one_ne_zero, if_false,
        List.getD_cons_zero]
      rw [composedMono_eq_partialResult a c e hw.1]
      exact PolyComposeLoop_eq_PolyAtLoop c rest _ hc.2 hw.2.2

theorem PolyCompose_eq_PolyAt_aux (p : Poly) (c : Int) (hp : Canonical p)
    (h1 : OnlyFirstVariable p) : PolyCompose p 1 [Constant c] = PolyAt p c := by
  have hw := WellFormed_of_Canonical p hp
  cases p with
  | Constant a => simp [PolyCompose, PolyComposeHelper, PolyAt]
  | Nested arr =>
    simp only [OnlyFirstVariable] at h1
    simp only [WellFormed] at hw
    rw [PolyCompose, PolyComposeHelper, PolyAt]
    exact PolyComposeLoop_eq_PolyAtLoop c arr _ h1 hw.2

theorem PolyComposeLoop_zero_tail :
    ∀ (arr : List Mono) (lo : Int) (level : Nat) (r : Int), CanonicalMonos lo arr → 0 ≤ lo →
      -2 ^ 63 ≤ r → r < 2 ^ 63 →
      PolyComposeLoop arr 0 [] level (Constant r) = Constant r ∧ valueAtZeroArr arr = 0
  | [], _, _, _, _, _, _, _ => by simp [PolyComposeLoop, valueAtZeroArr]
  | Mono.mk p e :: rest, lo, level, r, h, hlo, hr1, hr2 => by
    simp only [CanonicalMonos] at h
    have he : e ≠ 0 := by omega
    have ih := PolyComposeLoop_zero_tail rest e level r h.2.2.2.2 (by omega) hr1 hr2
    rw [PolyComposeLoop]
    simp only [ge_iff_le, Nat.zero_le, if_true]
    have hs : PolyExpBySquaring PolyZero e = PolyZero := by
      rw [PolyExpBySquaring.eq_def]
      simp [he, PolyIsZero, PolyZero, PolyFromCoeff]
    rw [hs, PolyMul_zero_right, PolyAdd, AddTwoCoeff, PolyFromCoeff, add_zero, wrap64_eq hr1 hr2]
    exact ⟨ih.1, by rw [valueAtZeroArr, if_neg he]; exact ih.2⟩

mutual
theorem PolyComposeHelper_no_arguments : ∀ (p : Poly) (level : Nat), Canonical p →
    PolyComposeHelper p 0 [] level = Constant (valueAtZero p) ∧
      -2 ^ 63 ≤ valueAtZero p ∧ valueAtZero p < 2 ^ 63
  | Constant c, level, h => by
    simp only [Canonical] at h
    rw [PolyComposeHelper, PolyClone_eq, valueAtZero]
    exact ⟨rfl, h⟩
  | Nested arr, level, h => by
    simp only [Canonical] at h
    rw [PolyComposeHelper, valueAtZero]
    exact PolyComposeLoop_no_arguments arr level h.2.1
theorem PolyComposeLoop_no_arguments : ∀ (arr : List Mono) (level : Nat),
    CanonicalMonos (-1) arr →
    PolyComposeLoop arr 0 [] level PolyZero = Constant (valueAtZeroArr arr) ∧
      -2 ^ 63 ≤ valueAtZeroArr arr ∧ valueAtZeroArr arr < 2 ^ 63
  | [], _, _ => by
    rw [PolyComposeLoop, valueAtZeroArr]
    exact ⟨rfl, by norm_num, by norm_num⟩
  | Mono.mk p e :: rest, level, h => by
    simp only [CanonicalMonos] at h
    rw [PolyComposeLoop]
    simp only [ge_iff_le, Nat.zero_le, if_true]
    by_cases he : e = 0
    · subst he
      have ihp := PolyComposeHelper_no_arguments p (level + 1) h.2.2.1
      have hs : PolyExpBySquaring PolyZero 0 = Constant 1 := by
        rw [PolyExpBySquaring.eq_def]; simp [PolyFromCoeff]
      rw [hs, ihp.1, PolyMul, PolyFromCoeff, mul_one, wrap64_eq ihp.2.1 ihp.2.2, PolyZero,
        PolyFromCoeff, PolyAdd, AddTwoCoeff, PolyFromCoeff, zero_add, wrap64_eq ihp.2.1 ihp.2.2]
      have ht := PolyComposeLoop_zero_tail rest 0 level (valueAtZero p) h.2.2.2.2 (le_refl 0)
        ihp.2.1 ihp.2.2
      rw [valueAtZeroArr, if_pos rfl]
      exact ⟨ht.1, ihp.2⟩
    · have hs : PolyExpBySquaring PolyZero e = PolyZero := by
        rw [PolyExpBySquaring.eq_def]
        simp [he, PolyIsZero, PolyZero, PolyFromCoeff]
      rw [hs, PolyMul_zero_right, PolyZero, PolyFromCoeff, PolyAdd, AddTwoCoeff, PolyFromCoeff,
        add_zero]
      have hw : wrap64 0 = 0 := rfl
      rw [hw]
      have ht := PolyComposeLoop_zero_tail rest e level 0 h.2.2.2.2 (by omega) (by norm_num)
        (by norm_num)
      rw [valueAtZeroArr, if_neg he, ht.2]
      exact ⟨ht.1, by norm_num, by norm_num⟩
end

theorem maxPathSum_zero_mul (p : Poly) : (0 : Int) * maxPathSum p < 2 ^ 31 := by
  rw [zero_mul]; norm_num

theorem eval_valueAtZero (p : Poly) (hp : Canonical p) (v : Nat → Word) :
    ((valueAtZero p : Int) : Word) = eval p (fun _ => 0) := by
  have h := (PolyComposeHelper_within 0 (le_refl 0) [] (fun qi hqi => by simp at hqi) p 0
    (WellFormed_of_Canonical p hp) (maxPathSum_zero_mul p)).2 v
  have h2 := (PolyComposeHelper_no_arguments p 0 hp).1
  simp only [List.length_nil] at h
  rw [h2] at h
  simp only [eval] at h
  rw [h]
  congr 1

theorem PolyIsEq_Nested_iff (ps qs : List Mono) :
    PolyIsEq (Nested ps) (Nested qs) = true ↔
      List.Forall₂ (fun m n => Mono.exp m = Mono.exp n ∧ PolyIsEq (Mono.p m) (Mono.p n) = true)
        ps qs := by
  have hrel : (fun m n => Mono.exp m = Mono.exp n ∧ PolyIsEq (Mono.p m) (Mono.p n) = true)
      = (fun m n : Mono => m = n) := by
    funext m n
    cases m; cases n
    simp only [Mono.exp, Mono.p, PolyIsEq_iff, Mono.mk.injEq, eq_iff_iff]
    tauto
  rw [hrel, List.forall₂_eq_eq_eq, PolyIsEq_iff]
  simp

theorem CreateComposeArgumentsArray_append : ∀ (r rest : List Poly),
    CreateComposeArgumentsArray (r ++ rest) r.length = some (r.reverse, rest)
  | [], rest => by cases rest <;> rfl
  | top :: r, rest => by
    have ih := CreateComposeArgumentsArray_append r rest
    simp only [List.cons_append, List.length_cons, CreateComposeArgumentsArray, List.append_eq]
    rw [ih]
    simp

theorem COMPOSE_enough (p : Poly) (q rest : List Poly) :
    COMPOSE (p :: (q.reverse ++ rest)) q.length
      = some ⟨PolyCompose p q.length q :: rest, [], false⟩ := by
  have h := CreateComposeArgumentsArray_append q.reverse rest
  rw [List.length_reverse, List.reverse_reverse] at h
  simp [COMPOSE, IsStackOfSizeAtLeastN, h, Push, PolyClone_eq]

theorem COMPOSE_underflow (stack : Stack) (k : Nat) (h : stack.length < k + 1) :
    COMPOSE stack k = some ⟨stack, [], true⟩ := by
  cases stack with
  | nil => simp [COMPOSE, IsStackOfSizeAtLeastN]
  | cons p rest =>
    simp only [List.length_cons] at h
    have h2 : ¬ k ≤ rest.length := by omega
    simp [COMPOSE, IsStackOfSizeAtLeastN, h2]

theorem RunCommand_underflow (stack : Stack) (cmd : Command) (h : stack.length < needs cmd) :
    RunCommand stack cmd = some ⟨stack, [], true⟩ := by
  cases cmd with
  | COMPOSE k => exact COMPOSE_underflow stack k h
  | ZERO => simp [needs] at h
  | ADD | SUB | MUL | IS_EQ =>
    simp only [needs] at h
    match stack, h with
    | [], _ => rfl
    | [_], _ => rfl
  | IS_COEFF | IS_ZERO | CLONE | NEG | DEG | POP | PRINT | DEG_BY _ | AT _ =>
    simp only [needs] at h
    match stack, h with
    | [], _ => rfl

/-! ## The program as a whole, powers, the earlier addition and canonical forms -/

set_option maxRecDepth 4000 in
theorem PolyMul_square_example :
    PolyMul (Nested [Mono.mk (Constant 1) 0, Mono.mk (Constant 4294967296) 1])
      (Nested [Mono.mk (Constant 1) 0, Mono.mk (Constant 4294967296) 1])
      = Nested [Mono.mk (Constant 1) 0, Mono.mk (Constant 8589934592) 1, Mono.mk (Constant 0) 2] := by
  simp [PolyMul, MulTwoPolys, MulTwoPolysInner, PolyAdd, AddCoeffNonCoeff, AddTwoArraysTogether,
    AddTwoCoeff, PolyZero, PolyFromCoeff, PolyClone_eq, MonoFromPoly, wrap64, wrap32, PolyIsZero]

set_option maxRecDepth 4000 in
theorem PolyMul_cube_example :
    PolyMul (Nested [Mono.mk (Constant 1) 0, Mono.mk (Constant 8589934592) 1, Mono.mk (Constant 0) 2])
      (Nested [Mono.mk (Constant 1) 0, Mono.mk (Constant 4294967296) 1])
      = Nested [Mono.mk (Constant 1) 0, Mono.mk (Constant 12884901888) 1, Mono.mk (Constant 0) 3] := by
  simp [PolyMul, MulTwoPolys, MulTwoPolysInner, PolyAdd, AddCoeffNonCoeff, AddTwoArraysTogether,
    AddTwoCoeff, PolyZero, PolyFromCoeff, PolyClone_eq, MonoFromPoly, wrap64, wrap32, PolyIsZero]

set_option maxRecDepth 4000 in
theorem PolyMul_fourth_naive_example :
    PolyMul (Nested [Mono.mk (Constant 1) 0, Mono.mk (Constant 12884901888) 1, Mono.mk (Constant 0) 3])
      (Nested [Mono.mk (Constant 1) 0, Mono.mk (Constant 4294967296) 1])
      = Nested [Mono.mk (Constant 1) 0, Mono.mk (Constant 17179869184) 1, Mono.mk (Constant 0) 2,
          Mono.mk (Constant 0) 3, Mono.mk (Constant 0) 4] := by
  simp [PolyMul, MulTwoPolys, MulTwoPolysInner, PolyAdd, AddCoeffNonCoeff, AddTwoArraysTogether,
    AddTwoCoeff, PolyZero, PolyFromCoeff, PolyClone_eq, MonoFromPoly, wrap64, wrap32, PolyIsZero]

set_option maxRecDepth 4000 in
theorem PolyMul_fourth_squaring_example :
    PolyMul (Nested [Mono.mk (Constant 1) 0, Mono.mk (Constant 8589934592) 1, Mono.mk (Constant 0) 2])
      (Nested [Mono.mk (Constant 1) 0, Mono.mk (Constant 8589934592) 1, Mono.mk (Constant 0) 2])
      = Nested [Mono.mk (Constant 1) 0, Mono.mk (Constant 17179869184) 1, Mono.mk (Constant 0) 2,
          Mono.mk (Constant 0) 4] := by
  simp [PolyMul, MulTwoPolys, MulTwoPolysInner, PolyAdd, AddCoeffNonCoeff, AddTwoArraysTogether,
    AddTwoCoeff, PolyZero, PolyFromCoeff, PolyClone_eq, MonoFromPoly, wrap64, wrap32, PolyIsZero]

theorem PolyExpBySquaring_one (arr : List Mono) (h : Canonical (Nested arr)) :
    PolyExpBySquaring (Nested arr) 1 = Nested arr := by
  rw [PolyExpBySquaring.eq_def]
  simp only [one_ne_zero, if_false, PolyIsZero, Bool.false_eq_true]
  have h0 : PolyExpBySquaring (Nested arr) (Int.tdiv 1 2) = PolyFromCoeff 1 := by
    have e0 : Int.tdiv 1 2 = 0 := by decide
    rw [e0, PolyExpBySquaring.eq_def]
    simp
  rw [h0]
  have h1 : PolyMul (PolyFromCoeff 1) (PolyFromCoeff 1) = PolyFromCoeff 1 := by
    rw [PolyFromCoeff, PolyMul]; rfl
  simp only [h1]
  have h2 : Int.tmod 1 2 = 1 := by decide
  rw [if_pos h2]
  exact PolyMul_one_left _ h

theorem PolyExpBySquaring_fourth_example :
    PolyExpBySquaring (Nested [Mono.mk (Constant 1) 0, Mono.mk (Constant 4294967296) 1]) 4
      = Nested [Mono.mk (Constant 1) 0, Mono.mk (Constant 17179869184) 1, Mono.mk (Constant 0) 2,
          Mono.mk (Constant 0) 4] := by
  have hc : Canonical (Nested [Mono.mk (Constant 1) 0, Mono.mk (Constant 4294967296) 1]) := by
    simp [Canonical, CanonicalMonos, IsCoeffTimesXToZero, PolyIsZero, PolyIsCoeff]
  have h2 : PolyExpBySquaring (Nested [Mono.mk (Constant 1) 0, Mono.mk (Constant 4294967296) 1]) 2
      = Nested [Mono.mk (Constant 1) 0, Mono.mk (Constant 8589934592) 1, Mono.mk (Constant 0) 2] := by
    rw [PolyExpBySquaring.eq_def]
    have e1 : Int.tdiv 2 2 = 1 := by decide
    have e2 : Int.tmod 2 2 = 0 := by decide
    simp only [e1, e2, PolyIsZero, Bool.false_eq_true, if_false, OfNat.ofNat_ne_zero,
      zero_ne_one, PolyExpBySquaring_one _ hc, PolyMul_square_example]
  rw [PolyExpBySquaring.eq_def]
  have e1 : Int.tdiv 4 2 = 2 := by decide
  have e2 : Int.tmod 4 2 = 0 := by decide
  simp only [e1, e2, PolyIsZero, Bool.false_eq_true, if_false, OfNat.ofNat_ne_zero,
    zero_ne_one, h2, PolyMul_fourth_squaring_example]

theorem naivePower_fourth_example :
    naivePower (Nested [Mono.mk (Constant 1) 0, Mono.mk (Constant 4294967296) 1]) 4
      = Nested [Mono.mk (Constant 1) 0, Mono.mk (Constant 17179869184) 1, Mono.mk (Constant 0) 2,
          Mono.mk (Constant 0) 3, Mono.mk (Constant 0) 4] := by
  simp only [naivePower, PolyMul_square_example, PolyMul_cube_example, PolyMul_fourth_naive_example]

theorem int_eq_of_cast_eq {a b : Int} (ha1 : -2 ^ 63 ≤ a) (ha2 : a < 2 ^ 63)
    (hb1 : -2 ^ 63 ≤ b) (hb2 : b < 2 ^ 63) (h : (a : Word) = (b : Word)) : a = b := by
  have h2 := (ZMod.intCast_eq_intCast_iff_dvd_sub a b (2 ^ 64)).mp h
  have h3 : ((2 ^ 64 : Nat) : Int) = 18446744073709551616 := by norm_num
  rw [h3] at h2
  omega

theorem ExponentiationLoop_range (basis exponent result : Int)
    (h1 : -2 ^ 63 ≤ result) (h2 : result < 2 ^ 63) :
    -2 ^ 63 ≤ ExponentiationLoop basis exponent result ∧
      ExponentiationLoop basis exponent result < 2 ^ 63 := by
  induction basis, exponent, result using ExponentiationLoop.induct with
  | case1 basis exponent result hpos ih =>
    rw [ExponentiationLoop]
    simp only [hpos, if_true]
    apply ih
    · split
      · exact (wrap64_range _).1
      · exact h1
    · split
      · exact (wrap64_range _).2
      · exact h2
  | case2 basis exponent result hneg =>
    rw [ExponentiationLoop]
    simp only [hneg, if_false]
    exact ⟨h1, h2⟩

theorem Exponentiation_range (basis exp : Int) :
    -2 ^ 63 ≤ Exponentiation basis exp ∧ Exponentiation basis exp < 2 ^ 63 := by
  unfold Exponentiation
  split
  · norm_num
  · exact ExponentiationLoop_range basis exp 1 (by norm_num) (by norm_num)

theorem Exponentiation_eq_wrap64 (b e : Int) :
    Exponentiation b e = wrap64 (b ^ e.toNat) := by
  apply int_eq_of_cast_eq (Exponentiation_range b e).1 (Exponentiation_range b e).2
    (wrap64_range _).1 (wrap64_range _).2
  rw [Exponentiation_cast, cast_wrap64]
  push_cast
  rfl

theorem SkipComment_no_newline : ∀ (fuel : Nat) (text : List Char),
    (∀ c ∈ text, c ≠ '\n') → SkipComment fuel text = none
  | 0, _, _ => by rw [SkipComment]
  | fuel + 1, [], _ => by
    rw [SkipComment]
    exact SkipComment_no_newline fuel [] (by simp)
  | fuel + 1, c :: rest, h => by
    rw [SkipComment]
    have hc : c ≠ '\n' := h c (by simp)
    simp only [bne_iff_ne, ne_eq, hc, not_false_eq_true, if_true]
    exact SkipComment_no_newline fuel rest (fun d hd => h d (by simp [hd]))

theorem ReadInput_comment_no_newline (fuel : Nat) (stack : Stack) (text : List Char)
    (h : ∀ c ∈ text, c ≠ '\n') : ReadInput fuel stack ('#' :: text) = none := by
  unfold ReadInput
  cases fuel with
  | zero => rw [ReadInputLoop]
  | succ fuel =>
    rw [ReadInputLoop]
    have hc : IsComment '#' = true := by decide
    simp only [hc, if_true, SkipComment_no_newline (fuel + 1) text h]

theorem ReadInputLoop_PolyScan (fuel : Nat) (st : CalcState) (lineNumber : Nat) (c : Char)
    (rest line rest2 : List Char) (st2 : CalcState)
    (h1 : IsComment c = false) (h2 : IsCharLetter c = false) (h3 : (c == '\n') = false)
    (hg : getline (c :: rest) = (line, rest2)) (hs : PolyScan st lineNumber line = some st2) :
    ReadInputLoop (fuel + 1) st lineNumber (c :: rest)
      = ReadInputLoop fuel st2 (lineNumber + 1) rest2 := by
  rw [ReadInputLoop]
  simp only [h1, h2, h3, hg, hs, Bool.false_eq_true, if_false]

theorem ReadInputLoop_InstructionScan (fuel : Nat) (st : CalcState) (lineNumber : Nat)
    (c : Char) (rest line rest2 : List Char) (st2 : CalcState)
    (h1 : IsComment c = false) (h2 : IsCharLetter c = true)
    (hg : getline (c :: rest) = (line, rest2))
    (hs : InstructionScan st lineNumber line = some st2) :
    ReadInputLoop (fuel + 1) st lineNumber (c :: rest)
      = ReadInputLoop fuel st2 (lineNumber + 1) rest2 := by
  rw [ReadInputLoop]
  simp only [h1, h2, hg, hs, Bool.false_eq_true, if_false, if_true]

theorem ReadInputLoop_end (fuel : Nat) (st : CalcState) (lineNumber : Nat) :
    ReadInputLoop (fuel + 1) st lineNumber [] = some st := by
  rw [ReadInputLoop]

theorem ParsePoly_of_ParseLoop (stack : Stack) (polyS : List Char) (errno : Int) (fuel : Nat)
    (monos : List Mono) (errno2 : Int) (hlen : polyS.length = fuel + 1)
    (hc : IsCorrectPoly (polyS ++ [NUL]) (fuel + 1) = true)
    (hs : IsStringCoeff (polyS ++ [NUL]) (fuel + 1) = false)
    (hp : ParseLoop (ParseMono (Parse fuel)) (fuel + 1)
        (HowManyMonos (polyS ++ [NUL]) (fuel + 1)).toNat (polyS ++ [NUL]) 0 [] true errno
        = some (monos, true, errno2)) :
    ParsePoly stack polyS errno = some ⟨PolyAddMonos monos :: stack, false, errno2⟩ := by
  unfold ParsePoly
  simp only [hlen, hc, hs, Parse, hp, Push, PolyClone_eq, Bool.not_true, Bool.false_eq_true,
    if_false, if_true]

theorem PolyAddMonos_example :
    PolyAddMonos [Mono.mk (Constant 1) 0, Mono.mk (Constant (-1)) 0] = Constant 0 := by
  simp [PolyAddMonos, PolyCreateFromMonos, SortMonos, DeleteSameExponents,
    DeleteSameExponentsLoop, PolyAdd, AddTwoCoeff, PolyFromCoeff, PolyZero, PolyIsZero, Mono.exp,
    Mono.p, wrap64, List.insertionSort, List.orderedInsert]

theorem PolySub_example :
    PolySub (Constant 0) (Nested [Mono.mk (Constant 1) 0, Mono.mk (Constant 1) 1])
      = Nested [Mono.mk (Constant (-1)) 0, Mono.mk (Constant (-1)) 1] := by
  simp [PolySub, PolyNeg, PolyNegArr, PolyAdd, AddCoeffNonCoeff, PolyFromCoeff, MonoFromPoly,
    PolyClone_eq, wrap64]

theorem ReadInput_SUB_example (fuel : Nat) :
    ReadInput (fuel + 5) [] "(1,0)+(1,1)\n(1,0)+(-1,0)\nSUB\nPRINT\n".toList
      = some ⟨[Nested [Mono.mk (Constant (-1)) 0, Mono.mk (Constant (-1)) 1]], 0,
          "(-1,0)+(-1,1)\n".toList, []⟩ := by
  have s1 : PolyScan ⟨[], 0, [], []⟩ 1 "(1,0)+(1,1)\n".toList
      = some ⟨[Nested [Mono.mk (Constant 1) 0, Mono.mk (Constant 1) 1]], 0, [], []⟩ := rfl
  have p2 : ParsePoly [Nested [Mono.mk (Constant 1) 0, Mono.mk (Constant 1) 1]]
      "(1,0)+(-1,0)\n".toList 0
      = some ⟨PolyAddMonos [Mono.mk (Constant 1) 0, Mono.mk (Constant (-1)) 0] ::
          [Nested [Mono.mk (Constant 1) 0, Mono.mk (Constant 1) 1]], false, 0⟩ :=
    ParsePoly_of_ParseLoop _ _ 0 12 _ 0 rfl rfl rfl rfl
  have s2 : PolyScan ⟨[Nested [Mono.mk (Constant 1) 0, Mono.mk (Constant 1) 1]], 0, [], []⟩ 2
      "(1,0)+(-1,0)\n".toList
      = some ⟨[Constant 0, Nested [Mono.mk (Constant 1) 0, Mono.mk (Constant 1) 1]], 0, [], []⟩ := by
    unfold PolyScan
    simp only [p2, PolyAddMonos_example]
    rfl
  have c3 : SUB [Constant 0, Nested [Mono.mk (Constant 1) 0, Mono.mk (Constant 1) 1]]
      = ⟨[Nested [Mono.mk (Constant (-1)) 0, Mono.mk (Constant (-1)) 1]], [], false⟩ := by
    simp [SUB, TwoArgOperation, POP, Pop, Push, PolyClone_eq, PolySub_example]
  have s3 : InstructionScan
      ⟨[Constant 0, Nested [Mono.mk (Constant 1) 0, Mono.mk (Constant 1) 1]], 0, [], []⟩ 3
      "SUB\n".toList
      = some ⟨[Nested [Mono.mk (Constant (-1)) 0, Mono.mk (Constant (-1)) 1]], 0, [], []⟩ := by
    have h : InstructionScan
        ⟨[Constant 0, Nested [Mono.mk (Constant 1) 0, Mono.mk (Constant 1) 1]], 0, [], []⟩ 3
        "SUB\n".toList
        = some (afterCommand
            ⟨[Constant 0, Nested [Mono.mk (Constant 1) 0, Mono.mk (Constant 1) 1]], 0, [], []⟩ 3
            (SUB [Constant 0, Nested [Mono.mk (Constant 1) 0, Mono.mk (Constant 1) 1]])) := rfl
    rw [h, c3]
    rfl
  have s4 : InstructionScan
      ⟨[Nested [Mono.mk (Constant (-1)) 0, Mono.mk (Constant (-1)) 1]], 0, [], []⟩ 4
      "PRINT\n".toList
      = some ⟨[Nested [Mono.mk (Constant (-1)) 0, Mono.mk (Constant (-1)) 1]], 0,
          "(-1,0)+(-1,1)\n".toList, []⟩ := rfl
  unfold ReadInput
  exact (ReadInputLoop_PolyScan (fuel + 4) _ 1 '(' "1,0)+(1,1)\n(1,0)+(-1,0)\nSUB\nPRINT\n".toList
      _ "(1,0)+(-1,0)\nSUB\nPRINT\n".toList _ rfl rfl rfl rfl s1).trans
    ((ReadInputLoop_PolyScan (fuel + 3) _ 2 '(' "1,0)+(-1,0)\nSUB\nPRINT\n".toList
      _ "SUB\nPRINT\n".toList _ rfl rfl rfl rfl s2).trans
    ((ReadInputLoop_InstructionScan (fuel + 2) _ 3 'S' "UB\nPRINT\n".toList
      _ "PRINT\n".toList _ rfl rfl rfl s3).trans
    ((ReadInputLoop_InstructionScan (fuel + 1) _ 4 'P' "RINT\n".toList
      _ [] _ rfl rfl rfl s4).trans
    (ReadInputLoop_end fuel _ 5))))

theorem ReadInput_COMPOSE_example (fuel : Nat) :
    ReadInput (fuel + 6) [] "(1,1)\n(1,1)\n(1,0)\nCOMPOSE 2\nPRINT\n".toList
      = some ⟨[Constant 1], 0, "1\n".toList, []⟩ := by
  have s1 : PolyScan ⟨[], 0, [], []⟩ 1 "(1,1)\n".toList
      = some ⟨[Nested [Mono.mk (Constant 1) 1]], 0, [], []⟩ := rfl
  have s2 : PolyScan ⟨[Nested [Mono.mk (Constant 1) 1]], 0, [], []⟩ 2 "(1,1)\n".toList
      = some ⟨[Nested [Mono.mk (Constant 1) 1], Nested [Mono.mk (Constant 1) 1]], 0, [], []⟩ := rfl
  have s3 : PolyScan
      ⟨[Nested [Mono.mk (Constant 1) 1], Nested [Mono.mk (Constant 1) 1]], 0, [], []⟩ 3
      "(1,0)\n".toList
      = some ⟨[Constant 1, Nested [Mono.mk (Constant 1) 1], Nested [Mono.mk (Constant 1) 1]],
          0, [], []⟩ := rfl
  have s4 : InstructionScan
      ⟨[Constant 1, Nested [Mono.mk (Constant 1) 1], Nested [Mono.mk (Constant 1) 1]], 0, [], []⟩
      4 "COMPOSE 2\n".toList = some ⟨[Constant 1], 0, [], []⟩ := rfl
  have s5 : InstructionScan ⟨[Constant 1], 0, [], []⟩ 5 "PRINT\n".toList
      = some ⟨[Constant 1], 0, "1\n".toList, []⟩ := rfl
  unfold ReadInput
  exact (ReadInputLoop_PolyScan (fuel + 5) _ 1 '(' "1,1)\n(1,1)\n(1,0)\nCOMPOSE 2\nPRINT\n".toList
      _ "(1,1)\n(1,0)\nCOMPOSE 2\nPRINT\n".toList _ rfl rfl rfl rfl s1).trans
    ((ReadInputLoop_PolyScan (fuel + 4) _ 2 '(' "1,1)\n(1,0)\nCOMPOSE 2\nPRINT\n".toList
      _ "(1,0)\nCOMPOSE 2\nPRINT\n".toList _ rfl rfl rfl rfl s2).trans
    ((ReadInputLoop_PolyScan (fuel + 3) _ 3 '(' "1,0)\nCOMPOSE 2\nPRINT\n".toList
      _ "COMPOSE 2\nPRINT\n".toList _ rfl rfl rfl rfl s3).trans
    ((ReadInputLoop_InstructionScan (fuel + 2) _ 4 'C' "OMPOSE 2\nPRINT\n".toList
      _ "PRINT\n".toList _ rfl rfl rfl s4).trans
    ((ReadInputLoop_InstructionScan (fuel + 1) _ 5 'P' "RINT\n".toList
      _ [] _ rfl rfl rfl s5).trans
    (ReadInputLoop_end fuel _ 6)))))

theorem poly1_PolyAdd_Constant_Nested (a : Int) (qs : List Mono) (ha : a ≠ 0) :
    poly1.PolyAdd (Constant a) (Nested qs)
      = collapseRule (poly1.AddTwoArraysTogether [Mono.mk (Constant a) 0] qs) := by
  rw [poly1.PolyAdd]
  simp only [PolyIsZero, beq_iff_eq, ha, if_false, poly1.XToZeroFromCoeff, PolyFromCoeff,
    Bool.false_eq_true]
  unfold collapseRule
  rfl

theorem poly1_PolyAdd_Nested_Constant (ps : List Mono) (b : Int) (hb : b ≠ 0) :
    poly1.PolyAdd (Nested ps) (Constant b)
      = collapseRule (poly1.AddTwoArraysTogether ps [Mono.mk (Constant b) 0]) := by
  rw [poly1.PolyAdd]
  simp only [PolyIsZero, beq_iff_eq, hb, if_false, poly1.XToZeroFromCoeff, PolyFromCoeff,
    Bool.false_eq_true]
  unfold collapseRule
  rfl

theorem poly1_PolyAdd_Nested_Nested (ps qs : List Mono) :
    poly1.PolyAdd (Nested ps) (Nested qs)
      = collapseRule (poly1.AddTwoArraysTogether ps qs) := by
  rw [poly1.PolyAdd]
  unfold collapseRule
  rfl

theorem collapseRule_two (m1 m2 : Mono) (rest : List Mono) :
    collapseRule (m1 :: m2 :: rest) = Nested (m1 :: m2 :: rest) := by
  simp [collapseRule]

theorem collapseRule_Nested_coeff (arr : List Mono) (e : Int) (rest : List Mono) :
    collapseRule (Mono.mk (Nested arr) e :: rest) = Nested (Mono.mk (Nested arr) e :: rest) := by
  cases rest <;> simp [collapseRule]

theorem collapseRule_pos_exp (p : Poly) (e : Int) (rest : List Mono) (he : e ≠ 0) :
    collapseRule (Mono.mk p e :: rest) = Nested (Mono.mk p e :: rest) := by
  cases rest with
  | nil =>
    cases p with
    | Constant c =>
      unfold collapseRule
      split
      · rename_i h; cases h
      · rename_i h
        simp only [List.cons.injEq, Mono.mk.injEq, and_true] at h
        exact absurd h.2 he
      · rfl
    | Nested arr => simp [collapseRule]
  | cons m r => simp [collapseRule]

theorem PolyAdd_Nested_Constant_isCoeff (arr : List Mono) (c : Int) :
    PolyIsCoeff (PolyAdd (Nested arr) (Constant c)) = false := by
  rw [PolyAdd]; exact AddCoeffNonCoeff_isCoeff c arr

theorem Nested_of_isCoeff_false {p : Poly} (h : PolyIsCoeff p = false) :
    ∃ arr, p = Nested arr := by
  cases p with
  | Constant c => simp [PolyIsCoeff] at h
  | Nested arr => exact ⟨arr, rfl⟩

/-- For a canonical array and a non-zero coefficient, merging the array with the
one-monomial array of the coefficient and collapsing gives what AddCoeffNonCoeff
returns. -/
theorem collapse_merge_right (b : Int) (ps : List Mono) (hb : b ≠ 0)
    (hp : Canonical (Nested ps)) :
    collapseRule (AddTwoArraysTogether ps [Mono.mk (Constant b) 0]) = AddCoeffNonCoeff b ps := by
  simp only [Canonical] at hp
  match ps, hp with
  | [], hp => exact absurd rfl hp.1
  | Mono.mk p e :: rest, hp =>
    have hm := hp.2.1
    simp only [CanonicalMonos] at hm
    rw [AddTwoArraysTogether, AddCoeffNonCoeff]
    simp only [hb, if_false]
    have hlt : ¬ e < 0 := by omega
    by_cases he : e = 0
    · subst he
      simp only [lt_self_iff_false, gt_iff_lt, if_false, if_true]
      by_cases hz : PolyIsZero (PolyAdd p (Constant b)) = true
      · simp only [hz, Bool.not_true, Bool.false_eq_true, if_false]
        rw [AddTwoArraysTogether_nil_right]
        match rest, hm with
        | [], hm =>
          exfalso
          have hx := hp.2.2
          cases p with
          | Constant c => simp [IsCoeffTimesXToZero, PolyIsCoeff] at hx
          | Nested arr =>
            have := PolyIsZero_of_isCoeff_false (PolyAdd_Nested_Constant_isCoeff arr b)
            rw [this] at hz
            exact Bool.false_ne_true hz
        | Mono.mk q f :: r, hm =>
          have hq := hm.2.2.2.2
          simp only [CanonicalMonos] at hq
          exact collapseRule_pos_exp q f r (by omega)
      · simp only [Bool.not_eq_true] at hz
        simp only [hz, Bool.not_false, if_true, MonoFromPoly]
        rw [AddTwoArraysTogether_nil_right]
        match rest, hm with
        | [], hm =>
          have hx := hp.2.2
          cases p with
          | Constant c => simp [IsCoeffTimesXToZero, PolyIsCoeff] at hx
          | Nested arr =>
            obtain ⟨arr2, h2⟩ := Nested_of_isCoeff_false (PolyAdd_Nested_Constant_isCoeff arr b)
            rw [h2]
            exact collapseRule_Nested_coeff arr2 0 []
        | m2 :: r, _ => exact collapseRule_two _ _ _
    · have hgt : e > 0 := by omega
      simp only [hlt, hgt, he, if_false, if_true, MonoFromPoly, PolyClone_eq]
      rw [AddTwoArraysTogether_nil_right]
      exact collapseRule_two _ _ _

theorem AddTwoArraysTogether_nil_left (qs : List Mono) : AddTwoArraysTogether [] qs = qs := by
  rw [AddTwoArraysTogether]

theorem AddTwoArraysTogether_comm : ∀ (n : Nat) (ps qs : List Mono),
    ps.length + qs.length ≤ n → AddTwoArraysTogether ps qs = AddTwoArraysTogether qs ps
  | _, [], qs, _ => by rw [AddTwoArraysTogether_nil_left, AddTwoArraysTogether_nil_right]
  | _, Mono.mk p e :: ps, [], _ => by
    rw [AddTwoArraysTogether_nil_left, AddTwoArraysTogether_nil_right]
  | 0, Mono.mk p e :: ps, Mono.mk q f :: qs, h => by simp at h
  | n + 1, Mono.mk p e :: ps, Mono.mk q f :: qs, h => by
    simp only [List.length_cons] at h
    rw [AddTwoArraysTogether, AddTwoArraysTogether.eq_3 q f qs p e ps]
    by_cases h1 : e < f
    · have h2 : ¬ f < e := by omega
      simp only [h1, h2, gt_iff_lt, if_true, if_false]
      rw [AddTwoArraysTogether_comm n ps (Mono.mk q f :: qs) (by simp only [List.length_cons]; omega)]
    · by_cases h3 : f < e
      · simp only [h1, h3, gt_iff_lt, if_true, if_false]
        rw [AddTwoArraysTogether_comm n (Mono.mk p e :: ps) qs
          (by simp only [List.length_cons]; omega)]
      · have hef : e = f := by omega
        subst hef
        simp only [lt_self_iff_false, gt_iff_lt, if_false]
        rw [PolyAdd_comm_aux q p, AddTwoArraysTogether_comm n ps qs (by omega)]

theorem collapse_merge_left (a : Int) (qs : List Mono) (ha : a ≠ 0)
    (hq : Canonical (Nested qs)) :
    collapseRule (AddTwoArraysTogether [Mono.mk (Constant a) 0] qs) = AddCoeffNonCoeff a qs := by
  rw [AddTwoArraysTogether_comm _ _ _ (le_refl _)]
  exact collapse_merge_right a qs ha hq

theorem CoeffsCanonical_of_Canonical (arr : List Mono) (h : Canonical (Nested arr)) :
    CoeffsCanonical arr := by
  intro m hm
  exact (((Canonical_Nested_iff arr).mp h).2.2.1 m hm).2.2.1

theorem poly1_agree : ∀ n : Nat,
    (∀ p q : Poly, 2 * (polyWeight p + polyWeight q) + 1 ≤ n → Canonical p → Canonical q →
      poly1.PolyAdd p q = PolyAdd p q) ∧
    (∀ ps qs : List Mono, 2 * (monosWeight ps + monosWeight qs) ≤ n →
      CoeffsCanonical ps → CoeffsCanonical qs →
      poly1.AddTwoArraysTogether ps qs = AddTwoArraysTogether ps qs) := by
  intro n
  induction n with
  | zero =>
    refine ⟨fun p q h => by omega, fun ps qs h _ _ => ?_⟩
    match ps, qs, h with
    | [], qs, _ => rw [poly1.AddTwoArraysTogether, AddTwoArraysTogether, PolyCloneArr_eq]
    | Mono.mk p e :: ps, _, h => simp only [monosWeight] at h; omega
  | succ n ih =>
    have ihP := ih.1
    have ihA := ih.2
    have hA : ∀ ps qs : List Mono, 2 * (monosWeight ps + monosWeight qs) ≤ n + 1 →
        CoeffsCanonical ps → CoeffsCanonical qs →
        poly1.AddTwoArraysTogether ps qs = AddTwoArraysTogether ps qs := by
      intro ps qs h hps hqs
      match ps, qs, h, hps, hqs with
      | [], qs, _, _, _ => rw [poly1.AddTwoArraysTogether, AddTwoArraysTogether, PolyCloneArr_eq]
      | Mono.mk p e :: ps, [], _, _, _ =>
        rw [poly1.AddTwoArraysTogether, AddTwoArraysTogether, PolyCloneArr_eq]
      | Mono.mk p e :: ps, Mono.mk q f :: qs, h, hps, hqs =>
        simp only [monosWeight] at h
        have hps2 : CoeffsCanonical ps := fun m hm => hps m (List.mem_cons_of_mem _ hm)
        have hqs2 : CoeffsCanonical qs := fun m hm => hqs m (List.mem_cons_of_mem _ hm)
        have hp : Canonical p := by simpa [Mono.p] using hps (Mono.mk p e) (by simp)
        have hq : Canonical q := by simpa [Mono.p] using hqs (Mono.mk q f) (by simp)
        rw [poly1.AddTwoArraysTogether, AddTwoArraysTogether]
        rw [ihA ps (Mono.mk q f :: qs) (by simp only [monosWeight]; omega) hps2 hqs,
          ihA (Mono.mk p e :: ps) qs (by simp only [monosWeight]; omega) hps hqs2,
          ihA ps qs (by omega) hps2 hqs2,
          ihP p q (by omega) hp hq]
        simp only [PolyClone_eq]
    refine ⟨?_, hA⟩
    intro p q h hp hq
    match p, q, h, hp, hq with
    | Constant a, Constant b, _, _, _ =>
      rw [poly1.PolyAdd, PolyAdd, AddTwoCoeff]
    | Constant a, Nested qs, h, hp, hq =>
      simp only [polyWeight] at h
      by_cases ha : a = 0
      · subst ha
        rw [poly1.PolyAdd, PolyAdd]
        simp only [PolyIsZero, beq_self_eq_true, if_true]
        cases qs with
        | nil => rw [AddCoeffNonCoeff]; simp
        | cons m r => cases m; rw [AddCoeffNonCoeff]; simp
      · rw [poly1_PolyAdd_Constant_Nested a qs ha, PolyAdd, ← collapse_merge_left a qs ha hq]
        rw [hA _ _ (by simp only [monosWeight, polyWeight]; omega)
          (by intro m hm; simp only [List.mem_singleton] at hm; subst hm; simpa [Mono.p] using hp)
          (CoeffsCanonical_of_Canonical qs hq)]
    | Nested ps, Constant b, h, hp, hq =>
      simp only [polyWeight] at h
      by_cases hb : b = 0
      · subst hb
        rw [poly1.PolyAdd, PolyAdd]
        simp only [PolyIsZero, beq_self_eq_true, if_true]
        cases ps with
        | nil => rw [AddCoeffNonCoeff]; simp
        | cons m r => cases m; rw [AddCoeffNonCoeff]; simp
      · rw [poly1_PolyAdd_Nested_Constant ps b hb, PolyAdd, ← collapse_merge_right b ps hb hp]
        rw [hA _ _ (by simp only [monosWeight, polyWeight]; omega)
          (CoeffsCanonical_of_Canonical ps hp)
          (by intro m hm; simp only [List.mem_singleton] at hm; subst hm; simpa [Mono.p] using hq)]
    | Nested ps, Nested qs, h, hp, hq =>
      simp only [polyWeight] at h
      rw [poly1_PolyAdd_Nested_Nested, PolyAdd_Nested_Nested,
        ihA ps qs (by omega) (CoeffsCanonical_of_Canonical ps hp)
          (CoeffsCanonical_of_Canonical qs hq)]

theorem poly1_PolyAdd_eq (p q : Poly) (hp : Canonical p) (hq : Canonical q) :
    poly1.PolyAdd p q = PolyAdd p q :=
  (poly1_agree _).1 p q (le_refl _) hp hq

theorem coeffOf_Constant_split (c : Int) (idx : List Nat) :
    coeffOf (Constant c) idx
      = if (0 : Int) = ((idx.headD 0 : Nat) : Int) then coeffOf (Constant c) idx.tail else 0 := by
  cases idx with
  | nil => simp [coeffOf]
  | cons i r =>
    simp only [coeffOf, List.all_cons, List.headD_cons, List.tail_cons]
    by_cases hi : i = 0
    · subst hi; simp
    · have : ¬ (0 : Int) = (i : Int) := by omega
      simp [hi, this]

theorem coeffOf_zero (idx : List Nat) : coeffOf (Constant 0) idx = 0 := by
  simp [coeffOf]

theorem coeffOf_collapseRule (arr : List Mono) (idx : List Nat) :
    coeffOf (collapseRule arr) idx = coeffOfMonos arr (idx.headD 0) idx.tail := by
  unfold collapseRule
  split
  · simp [PolyZero, PolyFromCoeff, coeffOf, coeffOfMonos]
  · rename_i c
    rw [coeffOf_Constant_split]
    simp [coeffOfMonos]
  · simp [coeffOf]

theorem coeffOf_PolyAdd :
    ∀ p q : Poly, ∀ idx, coeffOf (PolyAdd p q) idx = coeffOf p idx + coeffOf q idx := by
  apply PolyAdd.induct
    (fun p q => ∀ idx, coeffOf (PolyAdd p q) idx = coeffOf p idx + coeffOf q idx)
    (fun ps qs => ∀ i idx, coeffOfMonos (AddTwoArraysTogether ps qs) i idx
        = coeffOfMonos ps i idx + coeffOfMonos qs i idx)
    (fun c arr => ∀ idx, coeffOf (AddCoeffNonCoeff c arr) idx
        = coeffOf (Constant c) idx + coeffOf (Nested arr) idx)
  case case1 =>
    intro a b idx
    rw [PolyAdd]
    simp only [AddTwoCoeff, PolyFromCoeff, coeffOf, cast_wrap64]
    split <;> simp
  case case2 =>
    intro a qs ih idx
    rw [PolyAdd, ih]
  case case3 =>
    intro ps b ih idx
    rw [PolyAdd, ih, add_comm]
  case case4 =>
    intro ps qs _ ih idx
    rw [PolyAdd_Nested_Nested, coeffOf_collapseRule, ih]
    simp [coeffOf]
  case case5 =>
    intro ps qs c _ ih idx
    rw [PolyAdd_Nested_Nested, coeffOf_collapseRule, ih]
    simp [coeffOf]
  case case6 =>
    intro ps qs _ _ ih idx
    rw [PolyAdd_Nested_Nested, coeffOf_collapseRule, ih]
    simp [coeffOf]
  case case7 =>
    intro qs i idx
    rw [AddTwoArraysTogether]
    simp [coeffOfMonos]
  case case8 =>
    intro p e ps i idx
    rw [AddTwoArraysTogether]
    simp [coeffOfMonos]
  case case9 =>
    intro p e ps q f qs hef ih i idx
    rw [AddTwoArraysTogether]
    simp only [hef, if_true, coeffOfMonos, ih]
    ring
  case case10 =>
    intro p e ps q f qs hef hfe ih i idx
    rw [AddTwoArraysTogether]
    simp only [hef, hfe, if_true, if_false, coeffOfMonos, ih]
    ring
  case case11 =>
    intro p e ps q f qs hef hfe sum hsum ih1 ih2 i idx
    rw [AddTwoArraysTogether]
    have hefeq : e = f := by omega
    subst hefeq
    have hs : (!PolyIsZero (PolyAdd p q)) = true := hsum
    simp only [hef, if_false, hs, if_true, coeffOfMonos, ih1, ih2]
    split <;> ring
  case case12 =>
    intro p e ps q f qs hef hfe sum hsum ih1 ih2 i idx
    rw [AddTwoArraysTogether]
    have hefeq : e = f := by omega
    subst hefeq
    have hs : ¬ (!PolyIsZero (PolyAdd p q)) = true := hsum
    have hz : PolyAdd p q = Constant 0 := PolyIsZero_eq_true.mp (by simpa using hs)
    have h0 := ih1 idx
    rw [hz, coeffOf_zero] at h0
    have hs2 : (!PolyIsZero (PolyAdd p q)) = false := by simpa using hs
    simp only [hef, if_false, hs2, Bool.false_eq_true, coeffOfMonos, ih2]
    split
    · linear_combination h0
    · ring
  case case13 =>
    intro idx
    rw [AddCoeffNonCoeff]
    simp [PolyClone_eq, coeffOf, coeffOfMonos]
  case case14 =>
    intro c hc idx
    rw [AddCoeffNonCoeff]
    simp only [hc, if_false, PolyClone_eq, MonoFromPoly]
    rw [coeffOf_Constant_split c idx]
    simp [coeffOf, coeffOfMonos]
  case case15 =>
    intro p e rest idx
    rw [AddCoeffNonCoeff]
    simp [PolyClone_eq, coeffOf_zero]
  case case16 =>
    intro c p rest hc sum hsum ih idx
    rw [AddCoeffNonCoeff]
    have hs : (!PolyIsZero (PolyAdd p (Constant c))) = true := hsum
    simp only [hc, if_false, if_true, hs, MonoFromPoly]
    rw [coeffOf_Constant_split c idx]
    simp only [coeffOf, coeffOfMonos, ih]
    split <;> ring
  case case17 =>
    intro c p rest hc sum hsum ih idx
    rw [AddCoeffNonCoeff]
    have hs : ¬ (!PolyIsZero (PolyAdd p (Constant c))) = true := hsum
    have hz : PolyAdd p (Constant c) = Constant 0 := PolyIsZero_eq_true.mp (by simpa using hs)
    have h0 := ih idx.tail
    rw [hz, coeffOf_zero] at h0
    have hs2 : (!PolyIsZero (PolyAdd p (Constant c))) = false := by simpa using hs
    simp only [hc, if_false, if_true, hs2, Bool.false_eq_true]
    rw [coeffOf_Constant_split c idx]
    simp only [coeffOf.eq_2, coeffOfMonos]
    by_cases h : (0 : Int) = ((idx.headD 0 : Nat) : Int)
    · simp only [h, if_true]
      linear_combination h0
    · simp only [h, if_false]
      ring
  case case18 =>
    intro c p e rest hc he idx
    rw [AddCoeffNonCoeff]
    simp only [hc, he, if_false, MonoFromPoly, PolyClone_eq]
    rw [coeffOf_Constant_split c idx]
    simp only [coeffOf, coeffOfMonos]

theorem coeffOf_of_PolyIsZero {p : Poly} (h : PolyIsZero p = true) (idx : List Nat) :
    coeffOf p idx = 0 := by
  rw [PolyIsZero_eq_true.mp h, coeffOf_zero]

theorem coeffOfMonos_DeleteSameExponentsLoop :
    ∀ (rest : List Mono) (prevExp : Int) (sum : Poly) (i : Nat) (idx : List Nat),
      coeffOfMonos (DeleteSameExponentsLoop prevExp sum rest) i idx
        = coeffOfMonos (Mono.mk sum prevExp :: rest) i idx
  | [], prevExp, sum, i, idx => by
    rw [DeleteSameExponentsLoop]
    by_cases hz : PolyIsZero sum = true
    · simp [hz, coeffOfMonos, coeffOf_of_PolyIsZero hz]
    · simp [hz, coeffOfMonos]
  | Mono.mk p e :: rest, prevExp, sum, i, idx => by
    rw [DeleteSameExponentsLoop]
    by_cases he : e = prevExp
    · subst he
      simp only [if_true]
      rw [coeffOfMonos_DeleteSameExponentsLoop rest e (PolyAdd sum p) i idx]
      simp only [coeffOfMonos, coeffOf_PolyAdd]
      split <;> ring
    · simp only [he, if_false]
      by_cases hz : PolyIsZero sum = true
      · simp only [hz, if_true]
        rw [coeffOfMonos_DeleteSameExponentsLoop rest e p i idx]
        simp [coeffOfMonos, coeffOf_of_PolyIsZero hz]
      · simp only [hz, Bool.false_eq_true, if_false]
        rw [coeffOfMonos.eq_2, coeffOfMonos_DeleteSameExponentsLoop rest e p i idx]
        simp only [coeffOfMonos]

theorem coeffOfMonos_DeleteSameExponents (s : List Mono) (i : Nat) (idx : List Nat) :
    coeffOfMonos (DeleteSameExponents s) i idx = coeffOfMonos s i idx := by
  match s with
  | [] => simp [DeleteSameExponents]
  | [m] => simp [DeleteSameExponents]
  | Mono.mk p e :: b :: r =>
    simp only [DeleteSameExponents]
    exact coeffOfMonos_DeleteSameExponentsLoop (b :: r) e p i idx

theorem coeffOfMonos_perm {l1 l2 : List Mono} (h : l1.Perm l2) (i : Nat) (idx : List Nat) :
    coeffOfMonos l1 i idx = coeffOfMonos l2 i idx := by
  induction h with
  | nil => rfl
  | cons m _ ih => cases m; simp only [coeffOfMonos, ih]
  | swap m1 m2 l => cases m1; cases m2; simp only [coeffOfMonos]; ring
  | trans _ _ ih1 ih2 => rw [ih1, ih2]

theorem coeffOf_PolyCreateFromMonos (monos : List Mono) (idx : List Nat) :
    coeffOf (PolyCreateFromMonos monos) idx = coeffOfMonos monos (idx.headD 0) idx.tail := by
  cases monos with
  | nil => simp [PolyCreateFromMonos, PolyZero, PolyFromCoeff, coeffOf, coeffOfMonos]
  | cons m rest =>
    by_cases hg : rest.length = 0 ∧ PolyIsZero (Mono.p m) = true
    · unfold PolyCreateFromMonos
      simp only [Bool.and_eq_true, decide_eq_true_eq, hg, and_self, if_true]
      have hr : rest = [] := List.length_eq_zero.mp hg.1
      subst hr
      cases m with
      | mk p e =>
        simp only [Mono.p] at hg
        simp [PolyZero, PolyFromCoeff, coeffOf_zero, coeffOfMonos, coeffOf_of_PolyIsZero hg.2]
    · rw [PolyCreateFromMonos_eq m rest hg, coeffOf_collapseRule,
        coeffOfMonos_DeleteSameExponents, coeffOfMonos_perm (SortMonos_perm _)]

theorem cast_ne_zero_of_range {c : Int} (h1 : -2 ^ 63 ≤ c) (h2 : c < 2 ^ 63) (h0 : c ≠ 0) :
    (c : Word) ≠ 0 := by
  intro h
  apply h0
  apply int_eq_of_cast_eq h1 h2 (by norm_num) (by norm_num)
  simpa using h

theorem coeffOfMonos_above : ∀ (arr : List Mono) (lo : Int) (i : Nat) (idx : List Nat),
    CanonicalMonos lo arr → (i : Int) ≤ lo → coeffOfMonos arr i idx = 0
  | [], _, _, _, _, _ => rfl
  | Mono.mk p e :: rest, lo, i, idx, h, hi => by
    simp only [CanonicalMonos] at h
    have hne : ¬ e = (i : Int) := by omega
    simp only [coeffOfMonos, hne, if_false, zero_add]
    exact coeffOfMonos_above rest e i idx h.2.2.2.2 (by omega)

theorem coeffOfMonos_before_head (q : Poly) (f : Int) (r : List Mono) (lo : Int) (i : Nat)
    (idx : List Nat) (h : CanonicalMonos lo (Mono.mk q f :: r)) (hi : (i : Int) < f) :
    coeffOfMonos (Mono.mk q f :: r) i idx = 0 := by
  simp only [CanonicalMonos] at h
  have hne : ¬ f = (i : Int) := by omega
  simp only [coeffOfMonos, hne, if_false, zero_add]
  exact coeffOfMonos_above r f i idx h.2.2.2.2 (by omega)

theorem coeffOfMonos_at_head (p : Poly) (e : Int) (rest : List Mono) (lo : Int)
    (idx : List Nat) (h : CanonicalMonos lo (Mono.mk p e :: rest)) (hlo : -1 ≤ lo) :
    coeffOfMonos (Mono.mk p e :: rest) e.toNat idx = coeffOf p idx := by
  simp only [CanonicalMonos] at h
  have he : e = ((e.toNat : Nat) : Int) := by omega
  rw [coeffOfMonos, if_pos he, coeffOfMonos_above rest e e.toNat idx h.2.2.2.2 (by omega),
    add_zero]

mutual
theorem exists_coeffOf_ne_zero : ∀ p : Poly, Canonical p → PolyIsZero p = false →
    ∃ idx, coeffOf p idx ≠ 0
  | Constant c, h, hz => by
    simp only [Canonical] at h
    simp only [PolyIsZero, beq_eq_false_iff_ne, ne_eq] at hz
    refine ⟨[], ?_⟩
    simp only [coeffOf, List.all_nil, if_true]
    exact cast_ne_zero_of_range h.1 h.2 hz
  | Nested arr, h, _ => by
    obtain ⟨idx, _, h2⟩ := exists_coeffOf_nonconstant arr h
    exact ⟨idx, h2⟩
theorem exists_coeffOf_nonconstant : ∀ arr : List Mono, Canonical (Nested arr) →
    ∃ idx, idx.all (fun i => i == 0) = false ∧ coeffOf (Nested arr) idx ≠ 0
  | [], h => by
    simp only [Canonical] at h
    exact absurd rfl h.1
  | [Mono.mk p e], h => by
    simp only [Canonical] at h
    have hm := h.2.1
    simp only [CanonicalMonos] at hm
    by_cases he : e = 0
    · subst he
      cases p with
      | Constant c => simp [IsCoeffTimesXToZero, PolyIsCoeff] at h
      | Nested arr2 =>
        obtain ⟨idx2, hnz, hc⟩ := exists_coeffOf_nonconstant arr2 hm.2.2.1
        refine ⟨0 :: idx2, ?_, ?_⟩
        · simpa using hnz
        · simpa [coeffOf.eq_2, coeffOfMonos] using hc
    · obtain ⟨idx0, h0⟩ := exists_coeffOf_ne_zero p hm.2.2.1 hm.2.2.2.1
      refine ⟨e.toNat :: idx0, ?_, ?_⟩
      · have : e.toNat ≠ 0 := by omega
        simp [this]
      · rw [coeffOf.eq_2]
        simp only [List.headD_cons, List.tail_cons]
        rw [coeffOfMonos_at_head p e [] (-1) idx0 h.2.1 (le_refl _)]
        exact h0
  | Mono.mk p e :: Mono.mk p2 e2 :: r, h => by
    simp only [Canonical] at h
    have hm := h.2.1
    simp only [CanonicalMonos] at hm
    obtain ⟨idx0, h0⟩ := exists_coeffOf_ne_zero p2 hm.2.2.2.2.2.2.1 hm.2.2.2.2.2.2.2.1
    refine ⟨e2.toNat :: idx0, ?_, ?_⟩
    · have : e2.toNat ≠ 0 := by omega
      simp [this]
    · rw [coeffOf.eq_2]
      simp only [List.headD_cons, List.tail_cons]
      have hne : ¬ e = ((e2.toNat : Nat) : Int) := by omega
      rw [coeffOfMonos, if_neg hne, zero_add]
      have hc2 : CanonicalMonos e (Mono.mk p2 e2 :: r) := by
        simp only [CanonicalMonos]; exact hm.2.2.2.2
      rw [coeffOfMonos_at_head p2 e2 r e idx0 hc2 (by omega)]
      exact h0
end

theorem exists_coeffOfMonos_head (p : Poly) (e : Int) (rest : List Mono) (lo : Int)
    (h : CanonicalMonos lo (Mono.mk p e :: rest)) (hlo : -1 ≤ lo) :
    ∃ idx, coeffOfMonos (Mono.mk p e :: rest) e.toNat idx ≠ 0 := by
  have hm := h
  simp only [CanonicalMonos] at hm
  obtain ⟨idx, h0⟩ := exists_coeffOf_ne_zero p hm.2.2.1 hm.2.2.2.1
  exact ⟨idx, by rw [coeffOfMonos_at_head p e rest lo idx h hlo]; exact h0⟩

mutual
theorem Canonical_unique : ∀ p q : Poly, Canonical p → Canonical q →
    (∀ idx, coeffOf p idx = coeffOf q idx) → p = q
  | Constant a, Constant b, hp, hq, h => by
    simp only [Canonical] at hp hq
    have h0 := h []
    simp only [coeffOf, List.all_nil, if_true] at h0
    rw [int_eq_of_cast_eq hp.1 hp.2 hq.1 hq.2 h0]
  | Constant a, Nested qs, _, hq, h => by
    exfalso
    obtain ⟨idx, hnz, hc⟩ := exists_coeffOf_nonconstant qs hq
    apply hc
    rw [← h idx]
    simp [coeffOf, hnz]
  | Nested ps, Constant b, hp, _, h => by
    exfalso
    obtain ⟨idx, hnz, hc⟩ := exists_coeffOf_nonconstant ps hp
    apply hc
    rw [h idx]
    simp [coeffOf, hnz]
  | Nested ps, Nested qs, hp, hq, h => by
    simp only [Canonical] at hp hq
    rw [CanonicalMonos_unique ps qs (-1) hp.2.1 hq.2.1 (le_refl _)
      (fun i idx => by simpa [coeffOf.eq_2] using h (i :: idx))]
theorem CanonicalMonos_unique : ∀ (ps qs : List Mono) (lo : Int), CanonicalMonos lo ps →
    CanonicalMonos lo qs → -1 ≤ lo →
    (∀ i idx, coeffOfMonos ps i idx = coeffOfMonos qs i idx) → ps = qs
  | [], [], _, _, _, _, _ => rfl
  | [], Mono.mk q f :: r, lo, _, hq, hlo, h => by
    exfalso
    obtain ⟨idx, hc⟩ := exists_coeffOfMonos_head q f r lo hq hlo
    apply hc
    rw [← h]
    rfl
  | Mono.mk p e :: rest, [], lo, hp, _, hlo, h => by
    exfalso
    obtain ⟨idx, hc⟩ := exists_coeffOfMonos_head p e rest lo hp hlo
    apply hc
    rw [h]
    rfl
  | Mono.mk p e :: rest, Mono.mk q f :: r, lo, hp, hq, hlo, h => by
    have hp2 := hp
    have hq2 := hq
    simp only [CanonicalMonos] at hp2 hq2
    by_cases h1 : e < f
    · exfalso
      obtain ⟨idx, hc⟩ := exists_coeffOfMonos_head p e rest lo hp hlo
      apply hc
      rw [h, coeffOfMonos_before_head q f r lo e.toNat idx hq (by omega)]
    · by_cases h2 : f < e
      · exfalso
        obtain ⟨idx, hc⟩ := exists_coeffOfMonos_head q f r lo hq hlo
        apply hc
        rw [← h, coeffOfMonos_before_head p e rest lo f.toNat idx hp (by omega)]
      · have hef : e = f := by omega
        subst hef
        have hpq : p = q := by
          apply Canonical_unique p q hp2.2.2.1 hq2.2.2.1
          intro idx
          have := h e.toNat idx
          rw [coeffOfMonos_at_head p e rest lo idx hp hlo,
            coeffOfMonos_at_head q e r lo idx hq hlo] at this
          exact this
        subst hpq
        have hrest : rest = r := by
          apply CanonicalMonos_unique rest r e hp2.2.2.2.2 hq2.2.2.2.2 (by omega)
          intro i idx
          have := h i idx
          simp only [coeffOfMonos] at this
          exact add_left_cancel this
        rw [hrest]
end

theorem PolyCreateFromMonos_perm (ms ms2 : List Mono)
    (h : ∀ m ∈ ms, 0 ≤ Mono.exp m ∧ Mono.exp m < 2 ^ 31 ∧ Canonical (Mono.p m))
    (hperm : ms2.Perm ms) : PolyCreateFromMonos ms2 = PolyCreateFromMonos ms := by
  apply Canonical_unique
  · exact PolyCreateFromMonos_canonical ms2 (fun m hm => h m (hperm.mem_iff.mp hm))
  · exact PolyCreateFromMonos_canonical ms h
  · intro idx
    rw [coeffOf_PolyCreateFromMonos, coeffOf_PolyCreateFromMonos, coeffOfMonos_perm hperm]

theorem collapse_DeleteSameExponents_perm (s s2 : List Mono)
    (h : ∀ m ∈ s, 0 ≤ Mono.exp m ∧ Mono.exp m < 2 ^ 31 ∧ Canonical (Mono.p m))
    (hperm : s2.Perm s)
    (hs : s.Pairwise (fun a b => Mono.exp a ≤ Mono.exp b))
    (hs2 : s2.Pairwise (fun a b => Mono.exp a ≤ Mono.exp b)) :
    collapseRule (DeleteSameExponents s2) = collapseRule (DeleteSameExponents s) := by
  by_cases hlen : s.length ≤ 1
  · have h2 : s2 = s := by
      match s, hlen, hperm with
      | [], _, hperm => exact List.Perm.eq_nil hperm
      | [m], _, hperm => exact List.perm_singleton.mp hperm
      | _ :: _ :: _, hlen, _ => simp at hlen
    rw [h2]
  · have hlen2 : ¬ s2.length ≤ 1 := by rw [hperm.length_eq]; exact hlen
    apply Canonical_unique
    · apply Canonical_collapseRule
      apply DeleteSameExponents_canonical s2 hs2 (fun m hm => h m (hperm.mem_iff.mp hm))
      intro m hm
      rw [hm] at hlen2
      simp at hlen2
    · apply Canonical_collapseRule
      apply DeleteSameExponents_canonical s hs h
      intro m hm
      rw [hm] at hlen
      simp at hlen
    · intro idx
      rw [coeffOf_collapseRule, coeffOf_collapseRule, coeffOfMonos_DeleteSameExponents,
        coeffOfMonos_DeleteSameExponents, coeffOfMonos_perm hperm]

/-! ## The dispatcher on well-formed lines -/

theorem find?_range'_first (p : Nat → Bool) (k : Nat) (hk : p k = true) :
    ∀ (n s : Nat), (∀ j, s ≤ j → j < k → p j = false) → s ≤ k → k < s + n →
      (List.range' s n).find? p = some k
  | 0, s, _, h1, h2 => by omega
  | n + 1, s, hb, h1, h2 => by
    rw [List.range'_succ, List.find?_cons]
    by_cases hs : s = k
    · subst hs; simp [hk]
    · rw [hb s (le_refl _) (by omega)]
      exact find?_range'_first p k hk n (s + 1) (fun j hj1 hj2 => hb j (by omega) hj2)
        (by omega) (by omega)

theorem find?_range_first (p : Nat → Bool) (k n : Nat) (hk : p k = true)
    (hb : ∀ j, j < k → p j = false) (hn : k < n) : (List.range n).find? p = some k := by
  rw [List.range_eq_range']
  exact find?_range'_first p k hk n 0 (fun j _ hj => hb j hj) (Nat.zero_le _) (by omega)

theorem decimalValue_eq (ds : List Char) (h : ∀ c ∈ ds, isdigit c = true) (acc : Nat) :
    ds.foldl (fun a c => a * 10 + (digitVal 10 c).getD 0) acc
      = ds.foldl (fun a c => a * 10 + (c.toNat - 48)) acc := by
  induction ds generalizing acc with
  | nil => rfl
  | cons d ds ih =>
    simp only [List.foldl_cons]
    rw [digitVal_of_isdigit d (h d (by simp))]
    exact ih (fun c hc => h c (by simp [hc])) _

theorem scanDigits_digits (ds : List Char) (h : ∀ c ∈ ds, isdigit c = true) :
    scanDigits 10 ds 0 = (decimalValue ds, []) := by
  have h2 := scanDigits_append 10 ds [] 0 (fun c hc => by
    rw [digitVal_of_isdigit c (h c hc)]; rfl)
  rw [List.append_nil] at h2
  rw [h2, decimalValue_eq ds h 0]
  rfl

theorem dropWhile_isspace_digits (d : Char) (ds : List Char) (hd : isdigit d = true) :
    (d :: ds).dropWhile isspace = d :: ds := by
  rw [List.dropWhile_cons, isspace_of_isdigit hd]
  simp

theorem strtoul_digits (d : Char) (ds : List Char) (h : ∀ c ∈ d :: ds, isdigit c = true) :
    strtoul (d :: ds) 10
      = if decimalValue (d :: ds) ≥ 2 ^ 64 then ⟨2 ^ 64 - 1, [], true⟩
        else ⟨decimalValue (d :: ds), [], false⟩ := by
  have hd : isdigit d = true := h d (by simp)
  unfold strtoul
  simp only [dropWhile_isspace_digits d ds hd, scanSign_digit hd, scanBase,
    digitVal_isSome_of_isdigit hd, scanDigits_digits (d :: ds) h]
  simp [digitVal_of_isdigit d hd, scanDigits_digits (d :: ds) h]

theorem strtol_digits (d : Char) (ds : List Char) (h : ∀ c ∈ d :: ds, isdigit c = true) :
    strtol (d :: ds) 10
      = if decimalValue (d :: ds) ≥ 2 ^ 63 then ⟨2 ^ 63 - 1, [], true⟩
        else ⟨(decimalValue (d :: ds) : Int), [], false⟩ := by
  have hd : isdigit d = true := h d (by simp)
  unfold strtol
  simp only [dropWhile_isspace_digits d ds hd, scanSign_digit hd, scanBase,
    digitVal_isSome_of_isdigit hd, scanDigits_digits (d :: ds) h]
  simp [digitVal_of_isdigit d hd, scanDigits_digits (d :: ds) h]

theorem strtol_minus_digits (d : Char) (ds : List Char)
    (h : ∀ c ∈ d :: ds, isdigit c = true) :
    strtol ('-' :: d :: ds) 10
      = if decimalValue (d :: ds) > 2 ^ 63 then ⟨-2 ^ 63, [], true⟩
        else ⟨-(decimalValue (d :: ds) : Int), [], false⟩ := by
  have hd : isdigit d = true := h d (by simp)
  unfold strtol
  have h1 : ('-' :: d :: ds).dropWhile isspace = '-' :: d :: ds := by
    rw [List.dropWhile_cons]
    have : isspace '-' = false := by decide
    simp [this]
  have h2 : scanSign ('-' :: d :: ds) = (true, d :: ds) := by
    unfold scanSign
    have : ('-'.toNat == 45) = true := by decide
    simp [this]
  simp only [h1, h2, scanBase, digitVal_isSome_of_isdigit hd, scanDigits_digits (d :: ds) h]
  simp [digitVal_of_isdigit d hd, scanDigits_digits (d :: ds) h]

theorem ne_NUL_of_isdigit {c : Char} (h : isdigit c = true) : c ≠ NUL := by
  intro hc
  rw [hc] at h
  exact absurd h (by decide)

theorem takeWhile_not_isspace_digits (ds rest : List Char)
    (h : ∀ c ∈ ds, isdigit c = true) :
    (ds ++ '\n' :: rest).takeWhile (fun c => !isspace c) = ds := by
  induction ds with
  | nil =>
    have : isspace '\n' = true := by decide
    simp [List.takeWhile_cons, this]
  | cons d ds ih =>
    rw [List.cons_append, List.takeWhile_cons, isspace_of_isdigit (h d (by simp))]
    simp only [Bool.not_false, if_true]
    rw [ih (fun c hc => h c (by simp [hc]))]

theorem cstr_digits_newline (pre ds : List Char) (hpre : ∀ c ∈ pre, c ≠ NUL)
    (h : ∀ c ∈ ds, isdigit c = true) :
    cstr (pre ++ ds ++ ['\n'] ++ [NUL]) = pre ++ ds ++ ['\n'] := by
  have e : pre ++ ds ++ ['\n'] ++ [NUL] = (pre ++ ds ++ ['\n']) ++ NUL :: [] := by simp
  rw [e, cstr_append_NUL]
  intro c hc
  simp only [List.mem_append, List.mem_singleton] at hc
  rcases hc with (hc | hc) | hc
  · exact hpre c hc
  · exact ne_NUL_of_isdigit (h c hc)
  · rw [hc]; decide

theorem commandBuffer_eq (name arg : List Char) :
    (name ++ [' '] ++ arg ++ ['\n']) ++ [NUL] = commandBuffer name arg := by
  simp [commandBuffer]

theorem commandBuffer_length (name arg : List Char) :
    (name ++ [' '] ++ arg ++ ['\n']).length = name.length + 1 + arg.length + 1 := by
  simp; omega

theorem commandBuffer_getD_name (name arg : List Char) (j : Nat) (hj : j < name.length) :
    (commandBuffer name arg).getD j NUL = name.getD j NUL := by
  unfold commandBuffer
  rw [List.getD_eq_getElem?_getD, List.getD_eq_getElem?_getD, List.getElem?_append_left hj]

theorem commandBuffer_getD_space (name arg : List Char) :
    (commandBuffer name arg).getD name.length NUL = ' ' :=
  getD_append_mid name ' ' _ NUL

theorem commandBuffer_getD_arg (name arg : List Char) (j : Nat) (hj : j < arg.length) :
    (commandBuffer name arg).getD (name.length + 1 + j) NUL = arg.getD j NUL := by
  unfold commandBuffer
  have e : name ++ ' ' :: (arg ++ ['\n', NUL]) = (name ++ [' ']) ++ (arg ++ ['\n', NUL]) := by
    simp
  rw [e, List.getD_eq_getElem?_getD, List.getD_eq_getElem?_getD,
    List.getElem?_append_right (by simp)]
  simp only [List.length_append, List.length_singleton, Nat.add_sub_cancel_left]
  rw [List.getElem?_append_left hj]

theorem commandBuffer_getD_newline (name arg : List Char) :
    (commandBuffer name arg).getD (name.length + 1 + arg.length) NUL = '\n' := by
  unfold commandBuffer
  have e : name ++ ' ' :: (arg ++ ['\n', NUL]) = (name ++ [' '] ++ arg) ++ '\n' :: [NUL] := by
    simp
  have e2 : name.length + 1 + arg.length = (name ++ [' '] ++ arg).length := by simp; omega
  rw [e, e2]
  exact getD_append_mid _ _ _ _

theorem getD_mem_of_lt (l : List Char) (j : Nat) (hj : j < l.length) : l.getD j NUL ∈ l := by
  rw [List.getD_eq_getElem?_getD, List.getElem?_eq_getElem hj]
  exact List.getElem_mem hj

theorem ne_space_of_not_isspace {c : Char} (h : isspace c = false) : c ≠ ' ' := by
  intro hc
  rw [hc] at h
  exact absurd h (by decide)

theorem DoesLineContainSpace_commandBuffer (name arg : List Char) :
    DoesLineContainSpace (commandBuffer name arg) (name.length + 1 + arg.length + 1) = true := by
  unfold DoesLineContainSpace
  rw [List.any_eq_true]
  exact ⟨name.length, List.mem_range.mpr (by omega), by
    rw [commandBuffer_getD_space]; rfl⟩

theorem FindSpace_commandBuffer (name arg : List Char)
    (hname : ∀ c ∈ name, c ≠ NUL ∧ isspace c = false) :
    FindSpace (commandBuffer name arg) (name.length + 1 + arg.length + 1) = name.length := by
  unfold FindSpace
  rw [find?_range_first _ name.length _ (by rw [commandBuffer_getD_space]; rfl)
    (fun j hj => by
      rw [commandBuffer_getD_name name arg j hj]
      have := ne_space_of_not_isspace (hname _ (getD_mem_of_lt name j hj)).2
      simpa using this)
    (by omega)]

theorem takeWhile_not_isspace_word (w : List Char) (c0 : Char) (rest : List Char)
    (h : ∀ c ∈ w, isspace c = false) (h0 : isspace c0 = true) :
    (w ++ c0 :: rest).takeWhile (fun c => !isspace c) = w := by
  induction w with
  | nil => simp [List.takeWhile_cons, h0]
  | cons d ds ih =>
    rw [List.cons_append, List.takeWhile_cons, h d (by simp)]
    simp only [Bool.not_false, if_true]
    rw [ih (fun c hc => h c (by simp [hc]))]

theorem commandBuffer_set (name arg : List Char) :
    (commandBuffer name arg).set (name.length + 1 + arg.length + 1) NUL
      = commandBuffer name arg := by
  unfold commandBuffer
  have e : name ++ ' ' :: (arg ++ ['\n', NUL]) = (name ++ [' '] ++ arg ++ ['\n']) ++ NUL :: [] := by
    simp
  have e2 : name.length + 1 + arg.length + 1 = (name ++ [' '] ++ arg ++ ['\n']).length := by
    simp; omega
  rw [e, e2, set_append_mid]

theorem cstr_commandBuffer_from (pre arg : List Char)
    (hpre : ∀ c ∈ pre, c ≠ NUL) (harg : ∀ c ∈ arg, c ≠ NUL ∧ isspace c = false) :
    cstr (pre ++ ' ' :: (arg ++ ['\n', NUL])) = pre ++ ' ' :: (arg ++ ['\n']) := by
  have e : pre ++ ' ' :: (arg ++ ['\n', NUL]) = (pre ++ ' ' :: (arg ++ ['\n'])) ++ NUL :: [] := by
    simp
  rw [e, cstr_append_NUL]
  intro c hc
  simp only [List.mem_append, List.mem_cons, List.mem_singleton, List.not_mem_nil,
    or_false] at hc
  rcases hc with hc | hc | hc | hc
  · exact hpre c hc
  · rw [hc]; decide
  · exact (harg c hc).1
  · rw [hc]; decide

theorem Cut_commandBuffer_name (n0 : Char) (ns arg : List Char)
    (hname : ∀ c ∈ n0 :: ns, c ≠ NUL ∧ isspace c = false)
    (harg : ∀ c ∈ arg, c ≠ NUL ∧ isspace c = false) :
    Cut (commandBuffer (n0 :: ns) arg) 0 ((n0 :: ns).length + 1 + arg.length + 1)
      = some ((n0 :: ns) ++ [NUL]) := by
  unfold Cut
  have hcond : (decide (0 ≤ (n0 :: ns).length + 1 + arg.length + 1)
      && decide ((n0 :: ns).length + 1 + arg.length + 1 < (commandBuffer (n0 :: ns) arg).length))
      = true := by
    simp [commandBuffer]; omega
  simp only [hcond, if_true, commandBuffer_set, List.drop_zero]
  unfold sscanfStr commandBuffer
  rw [cstr_commandBuffer_from (n0 :: ns) arg (fun c hc => (hname c hc).1) harg]
  have h1 : ((n0 :: ns) ++ ' ' :: (arg ++ ['\n'])).dropWhile isspace
      = (n0 :: ns) ++ ' ' :: (arg ++ ['\n']) := by
    rw [List.cons_append, List.dropWhile_cons, (hname n0 (by simp)).2]
    simp
  have hsp : isspace ' ' = true := by decide
  simp only [h1, takeWhile_not_isspace_word (n0 :: ns) ' ' _ (fun c hc => (hname c hc).2) hsp]
  simp

theorem Cut_commandBuffer_arg (name : List Char) (a : Char) (as : List Char)
    (harg : ∀ c ∈ a :: as, c ≠ NUL ∧ isspace c = false) :
    Cut (commandBuffer name (a :: as)) name.length (name.length + 1 + (a :: as).length + 1)
      = some ((a :: as) ++ [NUL]) := by
  unfold Cut
  have hcond : (decide (name.length ≤ name.length + 1 + (a :: as).length + 1)
      && decide (name.length + 1 + (a :: as).length + 1 < (commandBuffer name (a :: as)).length))
      = true := by
    simp [commandBuffer]; omega
  simp only [hcond, if_true, commandBuffer_set]
  unfold sscanfStr
  have hd : (commandBuffer name (a :: as)).drop name.length
      = [] ++ ' ' :: ((a :: as) ++ ['\n', NUL]) := by
    unfold commandBuffer
    simp
  rw [hd, cstr_commandBuffer_from [] (a :: as) (by simp) harg]
  have hsp : isspace ' ' = true := by decide
  have hnl : isspace '\n' = true := by decide
  have h1 : ([] ++ ' ' :: ((a :: as) ++ ['\n'])).dropWhile isspace = (a :: as) ++ ['\n'] := by
    rw [List.nil_append, List.dropWhile_cons, hsp]
    simp only [if_true]
    rw [List.cons_append, List.dropWhile_cons, (harg a (by simp)).2]
    simp
  simp only [h1, takeWhile_not_isspace_word (a :: as) '\n' [] (fun c hc => (harg c hc).2) hnl]
  simp

theorem digits_plain (ds : List Char) (h : ∀ c ∈ ds, isdigit c = true) :
    ∀ c ∈ ds, c ≠ NUL ∧ isspace c = false :=
  fun c hc => ⟨ne_NUL_of_isdigit (h c hc), isspace_of_isdigit (h c hc)⟩

theorem IsCorrectDegByComposeEnd_commandBuffer (name ds : List Char)
    (h : ∀ c ∈ ds, isdigit c = true) :
    IsCorrectDegByComposeEnd (commandBuffer name ds) (name.length + 1 + ds.length + 1)
      name.length = true := by
  unfold IsCorrectDegByComposeEnd
  rw [List.all_eq_true]
  intro i hi
  have hi2 := List.mem_range.mp hi
  by_cases h1 : i < name.length + 1
  · simp [h1]
  · simp only [h1, if_false]
    by_cases h2 : i < name.length + 1 + ds.length
    · obtain ⟨j, hj⟩ : ∃ j, i = name.length + 1 + j := ⟨i - (name.length + 1), by omega⟩
      subst hj
      rw [commandBuffer_getD_arg name ds j (by omega),
        h _ (getD_mem_of_lt ds j (by omega))]
      simp
    · have hi3 : i = name.length + 1 + ds.length := by omega
      subst hi3
      rw [commandBuffer_getD_newline]
      simp

theorem IsCorrectAtEnd_digits (name ds : List Char) (h : ∀ c ∈ ds, isdigit c = true) :
    IsCorrectAtEnd (commandBuffer name ds) (name.length + 1 + ds.length + 1) name.length
      = true := by
  unfold IsCorrectAtEnd
  rw [List.all_eq_true]
  intro i hi
  have hi2 := List.mem_range.mp hi
  by_cases h1 : i < name.length + 1
  · simp [h1]
  · simp only [h1, if_false]
    by_cases h2 : i < name.length + 1 + ds.length
    · obtain ⟨j, hj⟩ : ∃ j, i = name.length + 1 + j := ⟨i - (name.length + 1), by omega⟩
      subst hj
      have hd := h _ (getD_mem_of_lt ds j (by omega))
      have hm : (ds.getD j NUL == '-') = false := by
        have := isdigit_range hd
        simp only [beq_eq_false_iff_ne, ne_eq]
        intro hc
        rw [hc] at this
        exact absurd this (by decide)
      rw [commandBuffer_getD_arg name ds j (by omega), hm, hd]
      simp
    · have hi3 : i = name.length + 1 + ds.length := by omega
      subst hi3
      rw [commandBuffer_getD_newline]
      simp

theorem IsCorrectAtEnd_minus_digits (name ds : List Char) (h : ∀ c ∈ ds, isdigit c = true) :
    IsCorrectAtEnd (commandBuffer name ('-' :: ds)) (name.length + 1 + ('-' :: ds).length + 1)
      name.length = true := by
  unfold IsCorrectAtEnd
  rw [List.all_eq_true]
  intro i hi
  have hi2 := List.mem_range.mp hi
  by_cases h1 : i < name.length + 1
  · simp [h1]
  · simp only [h1, if_false]
    by_cases h2 : i < name.length + 1 + ('-' :: ds).length
    · obtain ⟨j, hj⟩ : ∃ j, i = name.length + 1 + j := ⟨i - (name.length + 1), by omega⟩
      subst hj
      rw [commandBuffer_getD_arg name ('-' :: ds) j (by omega)]
      cases j with
      | zero => simp
      | succ k =>
        simp only [List.length_cons] at h2
        have hd := h _ (getD_mem_of_lt ds k (by omega))
        have hm : (ds.getD k NUL == '-') = false := by
          have := isdigit_range hd
          simp only [beq_eq_false_iff_ne, ne_eq]
          intro hc
          rw [hc] at this
          exact absurd this (by decide)
        simp only [List.getD_cons_succ, hm, hd]
        simp
    · have hi3 : i = name.length + 1 + ('-' :: ds).length := by omega
      subst hi3
      rw [commandBuffer_getD_newline]
      simp

theorem name_plain_DEG_BY : ∀ c ∈ "DEG_BY".toList, c ≠ NUL ∧ isspace c = false := by decide

theorem name_plain_COMPOSE : ∀ c ∈ "COMPOSE".toList, c ≠ NUL ∧ isspace c = false := by decide

theorem name_plain_AT : ∀ c ∈ "AT".toList, c ≠ NUL ∧ isspace c = false := by decide

theorem InstructionScan_commandBuffer (st : CalcState) (lineNumber : Nat)
    (name arg : List Char) :
    InstructionScan st lineNumber (name ++ [' '] ++ arg ++ ['\n'])
      = ExecuteInstructionWithParametr st lineNumber (commandBuffer name arg)
          (name.length + 1 + arg.length + 1) := by
  unfold InstructionScan
  simp only [commandBuffer_length, commandBuffer_eq, DoesLineContainSpace_commandBuffer, if_true]

theorem ExecuteInstructionWithParametr_DEG_BY (st : CalcState) (lineNumber : Nat)
    (line : List Char) (lineSize : Nat) (instruction par : List Char)
    (h1 : Cut line 0 lineSize = some instruction)
    (h2 : memcmpEq (cstr instruction) "DEG_BY".toList 6 = true)
    (h3 : line.getD 6 NUL = ' ')
    (h4 : isdigit (line.getD (6 + 1) NUL) = true)
    (h5 : IsCorrectDegByComposeEnd line lineSize (FindSpace line lineSize) = true)
    (h6 : Cut line (FindSpace line lineSize) lineSize = some par)
    (h7 : (strtoul (cstr par) 10).pEnd = []) :
    ExecuteInstructionWithParametr st lineNumber line lineSize
      = if (if (strtoul (cstr par) 10).erange then ERANGE else st.errno) = ERANGE then
          some (afterError ⟨st.stack, ERANGE, st.stdout, st.stderr⟩ lineNumber
            "DEG BY WRONG VARIABLE")
        else some (afterCommand st lineNumber (DEG_BY st.stack (strtoul (cstr par) 10).value)) := by
  unfold ExecuteInstructionWithParametr
  simp only [h1, h2, h3, h4, h5, h6, h7, if_true, bne_self_eq_false, Bool.false_eq_true,
    if_false, Bool.not_true, Bool.or_self, bne_iff_ne, ne_eq, not_true_eq_false,
    Bool.and_false, Bool.or_false, beq_iff_eq, decide_False, decide_not]
  by_cases he : (if (strtoul (cstr par) 10).erange = true then ERANGE else st.errno) = ERANGE
  · simp only [he, if_true]
  · simp only [he, if_false]
    have he2 : (strtoul (cstr par) 10).erange = false := by
      cases hx : (strtoul (cstr par) 10).erange
      · rfl
      · rw [hx] at he; simp at he
    simp [he2, afterCommand]

theorem ExecuteInstructionWithParametr_COMPOSE (st : CalcState) (lineNumber : Nat)
    (line : List Char) (lineSize : Nat) (instruction par : List Char)
    (h1 : Cut line 0 lineSize = some instruction)
    (h0 : memcmpEq (cstr instruction) "DEG_BY".toList 6 = false)
    (h2 : memcmpEq (cstr instruction) "COMPOSE".toList 7 = true)
    (h3 : line.getD 7 NUL = ' ')
    (h4 : isdigit (line.getD (7 + 1) NUL) = true)
    (h5 : IsCorrectDegByComposeEnd line lineSize (FindSpace line lineSize) = true)
    (h6 : Cut line (FindSpace line lineSize) lineSize = some par)
    (h7 : (strtoul (cstr par) 10).pEnd = []) :
    ExecuteInstructionWithParametr st lineNumber line lineSize
      = if (if (strtoul (cstr par) 10).erange then ERANGE else st.errno) = ERANGE then
          some (afterError ⟨st.stack, ERANGE, st.stdout, st.stderr⟩ lineNumber
            "COMPOSE WRONG PARAMETER")
        else (COMPOSE st.stack (strtoul (cstr par) 10).value).map (afterCommand st lineNumber) := by
  unfold ExecuteInstructionWithParametr
  simp only [h1, h0, h2, h3, h4, h5, h6, h7, if_true, bne_self_eq_false, Bool.false_eq_true,
    if_false, Bool.not_true, Bool.or_self, bne_iff_ne, ne_eq, not_true_eq_false,
    Bool.and_false, Bool.or_false, beq_iff_eq, decide_False, decide_not]
  by_cases he : (if (strtoul (cstr par) 10).erange = true then ERANGE else st.errno) = ERANGE
  · simp only [he, if_true]
  · simp only [he, if_false]
    have he2 : (strtoul (cstr par) 10).erange = false := by
      cases hx : (strtoul (cstr par) 10).erange
      · rfl
      · rw [hx] at he; simp at he
    cases COMPOSE st.stack (strtoul (cstr par) 10).value <;> simp [he2, afterCommand]

theorem ExecuteInstructionWithParametr_AT (st : CalcState) (lineNumber : Nat)
    (line : List Char) (lineSize : Nat) (instruction par : List Char)
    (h1 : Cut line 0 lineSize = some instruction)
    (h0 : memcmpEq (cstr instruction) "DEG_BY".toList 6 = false)
    (h00 : memcmpEq (cstr instruction) "COMPOSE".toList 7 = false)
    (h2 : memcmpEq (cstr instruction) "AT".toList 2 = true)
    (h3 : line.getD 2 NUL = ' ')
    (h4 : (isdigit (line.getD (2 + 1) NUL) || line.getD (2 + 1) NUL == '-') = true)
    (h5 : IsCorrectAtEnd line lineSize (FindSpace line lineSize) = true)
    (h6 : Cut line (FindSpace line lineSize) lineSize = some par)
    (h7 : (strtol (cstr par) 10).pEnd = []) :
    ExecuteInstructionWithParametr st lineNumber line lineSize
      = if (if (strtol (cstr par) 10).erange then ERANGE else st.errno) = ERANGE then
          some (afterError ⟨st.stack, ERANGE, st.stdout, st.stderr⟩ lineNumber "AT WRONG VALUE")
        else some (afterCommand st lineNumber (AT st.stack (strtol (cstr par) 10).value)) := by
  unfold ExecuteInstructionWithParametr
  simp only [h1, h0, h00, h2, h3, h4, h5, h6, h7, if_true, bne_self_eq_false,
    Bool.false_eq_true, if_false, Bool.not_true, Bool.or_self, bne_iff_ne, ne_eq,
    not_true_eq_false, Bool.and_false, Bool.or_false, beq_iff_eq, decide_False, decide_not]
  by_cases he : (if (strtol (cstr par) 10).erange = true then ERANGE else st.errno) = ERANGE
  · simp only [he, if_true]
  · simp only [he, if_false]
    have he2 : (strtol (cstr par) 10).erange = false := by
      cases hx : (strtol (cstr par) 10).erange
      · rfl
      · rw [hx] at he; simp at he
    simp [he2, afterCommand]

/-- With `errno` clear, a line `DEG_BY`, one space, decimal digits and a newline runs
DEG_BY with the number the digits denote when it is below `2^64`, and otherwise gets
DEG BY WRONG VARIABLE and leaves `errno` at `ERANGE`. -/
theorem InstructionScan_DEG_BY (st : CalcState) (lineNumber : Nat) (d : Char) (ds : List Char)
    (h : ∀ c ∈ d :: ds, isdigit c = true) (herr : st.errno ≠ ERANGE) :
    InstructionScan st lineNumber ("DEG_BY".toList ++ [' '] ++ (d :: ds) ++ ['\n'])
      = if decimalValue (d :: ds) ≥ 2 ^ 64 then
          some (afterError ⟨st.stack, ERANGE, st.stdout, st.stderr⟩ lineNumber
            "DEG BY WRONG VARIABLE")
        else some (afterCommand st lineNumber (DEG_BY st.stack (decimalValue (d :: ds)))) := by
  have hplain := digits_plain (d :: ds) h
  have hs : cstr ((d :: ds) ++ [NUL]) = d :: ds :=
    cstr_append_NUL (d :: ds) [] (fun c hc => (hplain c hc).1)
  have c2 := FindSpace_commandBuffer "DEG_BY".toList (d :: ds) name_plain_DEG_BY
  rw [InstructionScan_commandBuffer]
  refine (ExecuteInstructionWithParametr_DEG_BY st lineNumber
      (commandBuffer "DEG_BY".toList (d :: ds))
      ("DEG_BY".toList.length + 1 + (d :: ds).length + 1) ("DEG_BY".toList ++ [NUL])
      ((d :: ds) ++ [NUL])
      (Cut_commandBuffer_name 'D' "EG_BY".toList (d :: ds) name_plain_DEG_BY hplain)
      (by decide)
      (commandBuffer_getD_space "DEG_BY".toList (d :: ds))
      (by
        have := commandBuffer_getD_arg "DEG_BY".toList (d :: ds) 0 (by simp)
        rw [show (6 + 1 : Nat) = "DEG_BY".toList.length + 1 + 0 from rfl, this]
        exact h d (by simp))
      (by rw [c2]; exact IsCorrectDegByComposeEnd_commandBuffer "DEG_BY".toList (d :: ds) h)
      (by rw [c2]; exact Cut_commandBuffer_arg "DEG_BY".toList d ds hplain)
      (by rw [hs, strtoul_digits d ds h]; split <;> rfl)).trans ?_
  rw [hs, strtoul_digits d ds h]
  by_cases hv : decimalValue (d :: ds) ≥ 2 ^ 64
  · simp only [hv, if_true]
  · simp only [hv, if_false, Bool.false_eq_true, herr]

/-- With `errno` clear, a line `COMPOSE`, one space, decimal digits and a newline runs
COMPOSE with the number the digits denote when it is below `2^64`, and otherwise gets
COMPOSE WRONG PARAMETER and leaves `errno` at `ERANGE`. -/
theorem InstructionScan_COMPOSE (st : CalcState) (lineNumber : Nat) (d : Char)
    (ds : List Char) (h : ∀ c ∈ d :: ds, isdigit c = true) (herr : st.errno ≠ ERANGE) :
    InstructionScan st lineNumber ("COMPOSE".toList ++ [' '] ++ (d :: ds) ++ ['\n'])
      = if decimalValue (d :: ds) ≥ 2 ^ 64 then
          some (afterError ⟨st.stack, ERANGE, st.stdout, st.stderr⟩ lineNumber
            "COMPOSE WRONG PARAMETER")
        else (COMPOSE st.stack (decimalValue (d :: ds))).map (afterCommand st lineNumber) := by
  have hplain := digits_plain (d :: ds) h
  have hs : cstr ((d :: ds) ++ [NUL]) = d :: ds :=
    cstr_append_NUL (d :: ds) [] (fun c hc => (hplain c hc).1)
  have c2 := FindSpace_commandBuffer "COMPOSE".toList (d :: ds) name_plain_COMPOSE
  rw [InstructionScan_commandBuffer]
  refine (ExecuteInstructionWithParametr_COMPOSE st lineNumber
      (commandBuffer "COMPOSE".toList (d :: ds))
      ("COMPOSE".toList.length + 1 + (d :: ds).length + 1) ("COMPOSE".toList ++ [NUL])
      ((d :: ds) ++ [NUL])
      (Cut_commandBuffer_name 'C' "OMPOSE".toList (d :: ds) name_plain_COMPOSE hplain)
      (by decide) (by decide)
      (commandBuffer_getD_space "COMPOSE".toList (d :: ds))
      (by
        have := commandBuffer_getD_arg "COMPOSE".toList (d :: ds) 0 (by simp)
        rw [show (7 + 1 : Nat) = "COMPOSE".toList.length + 1 + 0 from rfl, this]
        exact h d (by simp))
      (by rw [c2]; exact IsCorrectDegByComposeEnd_commandBuffer "COMPOSE".toList (d :: ds) h)
      (by rw [c2]; exact Cut_commandBuffer_arg "COMPOSE".toList d ds hplain)
      (by rw [hs, strtoul_digits d ds h]; split <;> rfl)).trans ?_
  rw [hs, strtoul_digits d ds h]
  by_cases hv : decimalValue (d :: ds) ≥ 2 ^ 64
  · simp only [hv, if_true]
  · simp only [hv, if_false, Bool.false_eq_true, herr]

/-- With `errno` clear, a line `AT`, one space, decimal digits and a newline runs AT
with the number the digits denote when it is below `2^63`, and otherwise gets AT WRONG
VALUE and leaves `errno` at `ERANGE`. -/
theorem InstructionScan_AT (st : CalcState) (lineNumber : Nat) (d : Char) (ds : List Char)
    (h : ∀ c ∈ d :: ds, isdigit c = true) (herr : st.errno ≠ ERANGE) :
    InstructionScan st lineNumber ("AT".toList ++ [' '] ++ (d :: ds) ++ ['\n'])
      = if decimalValue (d :: ds) ≥ 2 ^ 63 then
          some (afterError ⟨st.stack, ERANGE, st.stdout, st.stderr⟩ lineNumber "AT WRONG VALUE")
        else some (afterCommand st lineNumber (AT st.stack (decimalValue (d :: ds) : Int))) := by
  have hplain := digits_plain (d :: ds) h
  have hs : cstr ((d :: ds) ++ [NUL]) = d :: ds :=
    cstr_append_NUL (d :: ds) [] (fun c hc => (hplain c hc).1)
  have c2 := FindSpace_commandBuffer "AT".toList (d :: ds) name_plain_AT
  have c6 : (commandBuffer "AT".toList (d :: ds)).getD (2 + 1) NUL = d := by
    have := commandBuffer_getD_arg "AT".toList (d :: ds) 0 (by simp)
    rw [show (2 + 1 : Nat) = "AT".toList.length + 1 + 0 from rfl, this]
    rfl
  rw [InstructionScan_commandBuffer]
  refine (ExecuteInstructionWithParametr_AT st lineNumber
      (commandBuffer "AT".toList (d :: ds))
      ("AT".toList.length + 1 + (d :: ds).length + 1) ("AT".toList ++ [NUL])
      ((d :: ds) ++ [NUL])
      (Cut_commandBuffer_name 'A' "T".toList (d :: ds) name_plain_AT hplain)
      (by decide) (by decide) (by decide)
      (commandBuffer_getD_space "AT".toList (d :: ds))
      (by rw [c6, h d (by simp)]; rfl)
      (by rw [c2]; exact IsCorrectAtEnd_digits "AT".toList (d :: ds) h)
      (by rw [c2]; exact Cut_commandBuffer_arg "AT".toList d ds hplain)
      (by rw [hs, strtol_digits d ds h]; split <;> rfl)).trans ?_
  rw [hs, strtol_digits d ds h]
  by_cases hv : decimalValue (d :: ds) ≥ 2 ^ 63
  · simp only [hv, if_true]
  · simp only [hv, if_false, Bool.false_eq_true, herr]

/-- With `errno` clear, a line `AT`, one space, a minus sign, decimal digits and a
newline runs AT with minus the number the digits denote when that is at least `-2^63`,
and otherwise gets AT WRONG VALUE and leaves `errno` at `ERANGE`. -/
theorem InstructionScan_AT_minus (st : CalcState) (lineNumber : Nat) (d : Char)
    (ds : List Char) (h : ∀ c ∈ d :: ds, isdigit c = true) (herr : st.errno ≠ ERANGE) :
    InstructionScan st lineNumber ("AT".toList ++ [' '] ++ ('-' :: d :: ds) ++ ['\n'])
      = if decimalValue (d :: ds) > 2 ^ 63 then
          some (afterError ⟨st.stack, ERANGE, st.stdout, st.stderr⟩ lineNumber "AT WRONG VALUE")
        else some (afterCommand st lineNumber (AT st.stack (-(decimalValue (d :: ds) : Int)))) := by
  have hplain : ∀ c ∈ '-' :: d :: ds, c ≠ NUL ∧ isspace c = false := by
    intro c hc
    rw [List.mem_cons] at hc
    rcases hc with hc | hc
    · rw [hc]; decide
    · exact digits_plain (d :: ds) h c hc
  have hs : cstr (('-' :: d :: ds) ++ [NUL]) = '-' :: d :: ds :=
    cstr_append_NUL ('-' :: d :: ds) [] (fun c hc => (hplain c hc).1)
  have c2 := FindSpace_commandBuffer "AT".toList ('-' :: d :: ds) name_plain_AT
  have c6 : (commandBuffer "AT".toList ('-' :: d :: ds)).getD (2 + 1) NUL = '-' := by
    have := commandBuffer_getD_arg "AT".toList ('-' :: d :: ds) 0 (by simp)
    rw [show (2 + 1 : Nat) = "AT".toList.length + 1 + 0 from rfl, this]
    rfl
  rw [InstructionScan_commandBuffer]
  refine (ExecuteInstructionWithParametr_AT st lineNumber
      (commandBuffer "AT".toList ('-' :: d :: ds))
      ("AT".toList.length + 1 + ('-' :: d :: ds).length + 1) ("AT".toList ++ [NUL])
      (('-' :: d :: ds) ++ [NUL])
      (Cut_commandBuffer_name 'A' "T".toList ('-' :: d :: ds) name_plain_AT hplain)
      (by decide) (by decide) (by decide)
      (commandBuffer_getD_space "AT".toList ('-' :: d :: ds))
      (by rw [c6]; decide)
      (by rw [c2]; exact IsCorrectAtEnd_minus_digits "AT".toList (d :: ds) h)
      (by rw [c2]; exact Cut_commandBuffer_arg "AT".toList '-' (d :: ds) hplain)
      (by rw [hs, strtol_minus_digits d ds h]; split <;> rfl)).trans ?_
  rw [hs, strtol_minus_digits d ds h]
  by_cases hv : decimalValue (d :: ds) > 2 ^ 63
  · simp only [hv, if_true]
  · simp only [hv, if_false, Bool.false_eq_true, herr]

/-! ## Composition when no sum of exponents overflows -/

mutual
theorem ExpsWithin_of_Canonical : ∀ p : Poly, Canonical p → ExpsWithin (2 ^ 31 - 1) p
  | Constant _, _ => by simp [ExpsWithin]
  | Nested arr, h => by
    simp only [Canonical] at h
    simp only [ExpsWithin]
    exact ExpsWithinArr_of_CanonicalMonos arr (-1) (by norm_num) h.2.1
theorem ExpsWithinArr_of_CanonicalMonos : ∀ (arr : List Mono) (lo : Int), -1 ≤ lo →
    CanonicalMonos lo arr → ExpsWithinArr (2 ^ 31 - 1) arr
  | [], _, _, _ => by simp [ExpsWithinArr]
  | Mono.mk p e :: rest, lo, hlo, h => by
    simp only [CanonicalMonos] at h
    simp only [ExpsWithinArr]
    exact ⟨by omega, by omega, ExpsWithin_of_Canonical p h.2.2.1,
      ExpsWithinArr_of_CanonicalMonos rest e (by omega) h.2.2.2.2⟩
end

/-- PolyMul on polynomials with exponents between 0 and `2^31 - 1`, when no sum of
exponents it forms leaves the range of `int`: the exponents of the product are again
between 0 and `2^31 - 1`, and its value is the product of the values. -/
theorem PolyMul_noOverflow :
    ∀ p q : Poly, ExpsWithin (2 ^ 31 - 1) p → ExpsWithin (2 ^ 31 - 1) q → NoExpOverflow p q →
      ExpsWithin (2 ^ 31 - 1) (PolyMul p q) ∧
        ∀ v, eval (PolyMul p q) v = eval p v * eval q v := by
  apply PolyMul.induct
    (fun p q => ExpsWithin (2 ^ 31 - 1) p → ExpsWithin (2 ^ 31 - 1) q → NoExpOverflow p q →
      ExpsWithin (2 ^ 31 - 1) (PolyMul p q) ∧ ∀ v, eval (PolyMul p q) v = eval p v * eval q v)
    (fun ps qs result => ExpsWithinArr (2 ^ 31 - 1) ps → ExpsWithinArr (2 ^ 31 - 1) qs →
      NoExpOverflowArr ps qs → ExpsWithin (2 ^ 31 - 1) result →
      ExpsWithin (2 ^ 31 - 1) (MulTwoPolys ps qs result) ∧
        ∀ v, eval (MulTwoPolys ps qs result) v
          = eval result v + evalMonos ps v * evalMonos qs v)
    (fun m qs result => ExpsWithinArr (2 ^ 31 - 1) [m] → ExpsWithinArr (2 ^ 31 - 1) qs →
      NoExpOverflowInner m qs → ExpsWithin (2 ^ 31 - 1) result →
      ExpsWithin (2 ^ 31 - 1) (MulTwoPolysInner m qs result) ∧
        ∀ v, eval (MulTwoPolysInner m qs result) v
          = eval result v + evalMonos [m] v * evalMonos qs v)
  case case1 =>
    intro a b _ _ _
    rw [PolyMul]
    exact ⟨by simp [PolyFromCoeff, ExpsWithin],
      fun v => by simp [PolyFromCoeff, eval, cast_wrap64]⟩
  case case2 =>
    intro a qs _ hq _
    rw [PolyMul]
    refine ⟨ExpsWithin_PolyMulByCoeff _ _ a hq, fun v => ?_⟩
    rw [eval_PolyMulByCoeff]
    simp [eval, mul_comm]
  case case3 =>
    intro ps b hp _ _
    rw [PolyMul]
    refine ⟨ExpsWithin_PolyMulByCoeff _ _ b hp, fun v => ?_⟩
    rw [eval_PolyMulByCoeff]
    simp [eval]
  case case4 =>
    intro ps qs ih hp hq hno
    rw [NoExpOverflow] at hno
    simp only [ExpsWithin] at hp hq
    have h := ih hp hq hno (by simp [PolyZero, PolyFromCoeff, ExpsWithin])
    rw [PolyMul]
    refine ⟨h.1, fun v => ?_⟩
    rw [h.2]
    simp [PolyZero, PolyFromCoeff, eval]
  case case5 =>
    intro qs result _ _ _ hr
    rw [MulTwoPolys]
    exact ⟨hr, fun v => by simp [evalMonos]⟩
  case case6 =>
    intro m ps qs result ih3 ih2 hp hq hno hr
    rw [MulTwoPolys]
    rw [NoExpOverflowArr] at hno
    cases m with
    | mk p e =>
      simp only [ExpsWithinArr] at hp
      have h3 := ih3
        (by simp only [ExpsWithinArr]; exact ⟨hp.1, hp.2.1, hp.2.2.1, trivial⟩) hq hno.1 hr
      have h2 := ih2 hp.2.2.2 hq hno.2 h3.1
      refine ⟨h2.1, fun v => ?_⟩
      rw [h2.2, h3.2]
      simp only [evalMonos]
      ring
  case case7 =>
    intro m result _ _ _ hr
    rw [MulTwoPolysInner]
    exact ⟨hr, fun v => by simp [evalMonos]⟩
  case case8 =>
    intro p e q f qs result c1 c2 c3 c4 ih1 ih3 hp hq hno hr
    rw [MulTwoPolysInner]
    rw [NoExpOverflowInner] at hno
    simp only [ExpsWithinArr] at hp hq
    have h1 := ih1 hp.2.2.1 hq.2.2.1 hno.2.1
    have hw : wrap32 (e + f) = e + f := wrap32_eq (by omega) (by omega)
    have hn : (e + f).toNat = e.toNat + f.toNat := by omega
    have hsingle : ExpsWithin (2 ^ 31 - 1)
        (Nested [MonoFromPoly (PolyMul p q) (wrap32 (e + f))]) := by
      simp only [ExpsWithin, ExpsWithinArr, MonoFromPoly, hw]
      exact ⟨by omega, by omega, h1.1, trivial⟩
    have hadd := ExpsWithin_PolyAdd (2 ^ 31 - 1) (by norm_num) result _ hr hsingle
    have h3 := ih3
      (by simp only [ExpsWithinArr]; exact hp) hq.2.2.2 hno.2.2
      (by simp only [c4, c3, c2, c1, PolyClone_eq]; exact hadd)
    simp only [c4, c3, c2, c1] at h3
    refine ⟨h3.1, fun v => ?_⟩
    rw [h3.2, PolyClone_eq, eval_PolyAdd_aux]
    simp only [eval, evalMonos, MonoFromPoly, h1.2, hw, hn, pow_add]
    ring

/-- PolyExpBySquaring on a polynomial with exponents between 0 and `2^31 - 1`, for an
exponent at least 0, when no sum of exponents formed on the way leaves the range of
`int`: the exponents of the power are again between 0 and `2^31 - 1`, and its value is
the power of the value. -/
theorem PolyExpBySquaring_noOverflow :
    ∀ (basis : Poly) (e : Int), ExpsWithin (2 ^ 31 - 1) basis → 0 ≤ e →
      ExpBySquaringNoOverflow basis e →
      ExpsWithin (2 ^ 31 - 1) (PolyExpBySquaring basis e) ∧
        ∀ v, eval (PolyExpBySquaring basis e) v = eval basis v ^ e.toNat := by
  apply PolyExpBySquaring.induct
    (fun basis e => ExpsWithin (2 ^ 31 - 1) basis → 0 ≤ e → ExpBySquaringNoOverflow basis e →
      ExpsWithin (2 ^ 31 - 1) (PolyExpBySquaring basis e) ∧
        ∀ v, eval (PolyExpBySquaring basis e) v = eval basis v ^ e.toNat)
  case case1 =>
    intro basis _ _ _
    rw [PolyExpBySquaring.eq_def]
    simp [PolyFromCoeff, ExpsWithin, eval]
  case case2 =>
    intro basis e he hz _ hpos _
    rw [PolyExpBySquaring.eq_def]
    simp only [he, if_false, hz, if_true]
    have hb : basis = Constant 0 := PolyIsZero_eq_true.mp hz
    subst hb
    refine ⟨by simp [PolyZero, PolyFromCoeff, ExpsWithin], fun v => ?_⟩
    have : e.toNat ≠ 0 := by omega
    simp [PolyZero, PolyFromCoeff, eval, this]
  case case3 =>
    intro e he c hz _ _ _
    rw [PolyExpBySquaring]
    simp only [he, if_false, hz]
    refine ⟨by simp [PolyFromCoeff, ExpsWithin], fun v => ?_⟩
    simp [PolyFromCoeff, eval, Exponentiation_cast]
  case case4 =>
    intro e he arr hodd hz ih hb hpos hno
    rw [ExpBySquaringNoOverflow] at hno
    simp only [he, if_false, PolyIsZero, Bool.false_eq_true] at hno
    have hd : e.tdiv 2 = e / 2 := Int.tdiv_eq_ediv (by omega) (by omega)
    have hm : e.tmod 2 = e % 2 := Int.tmod_eq_emod (by omega) (by omega)
    have h1 := ih hb (by rw [hd]; omega) hno.1
    have h2 := PolyMul_noOverflow _ _ h1.1 h1.1 hno.2.1
    have h3 := PolyMul_noOverflow _ _ h2.1 hb (hno.2.2 hodd)
    rw [PolyExpBySquaring]
    simp only [he, if_false, PolyIsZero, Bool.false_eq_true, hodd, if_true]
    refine ⟨h3.1, fun v => ?_⟩
    rw [h3.2, h2.2, h1.2]
    rw [hm] at hodd
    have hn : e.toNat = (e.tdiv 2).toNat + (e.tdiv 2).toNat + 1 := by rw [hd]; omega
    rw [hn, pow_add, pow_add, pow_one]
  case case5 =>
    intro e he arr hodd hz ih hb hpos hno
    rw [ExpBySquaringNoOverflow] at hno
    simp only [he, if_false, PolyIsZero, Bool.false_eq_true] at hno
    have hd : e.tdiv 2 = e / 2 := Int.tdiv_eq_ediv (by omega) (by omega)
    have hm : e.tmod 2 = e % 2 := Int.tmod_eq_emod (by omega) (by omega)
    have h1 := ih hb (by rw [hd]; omega) hno.1
    have h2 := PolyMul_noOverflow _ _ h1.1 h1.1 hno.2.1
    rw [PolyExpBySquaring]
    simp only [he, if_false, PolyIsZero, Bool.false_eq_true, hodd]
    refine ⟨h2.1, fun v => ?_⟩
    rw [h2.2, h1.2]
    rw [hm] at hodd
    have hn : e.toNat = (e.tdiv 2).toNat + (e.tdiv 2).toNat := by rw [hd]; omega
    rw [hn, pow_add]

mutual
/-- PolyComposeHelper on a `p` with exponents between 0 and `2^31 - 1` and an array `q`
of such polynomials, when no sum of exponents formed on the way leaves the range of
`int`. -/
theorem PolyComposeHelper_noOverflow (q : List Poly)
    (hq : ∀ qi ∈ q, ExpsWithin (2 ^ 31 - 1) qi) :
    ∀ (p : Poly) (level : Nat), ExpsWithin (2 ^ 31 - 1) p →
      ComposeNoOverflow p q.length q level →
      ExpsWithin (2 ^ 31 - 1) (PolyComposeHelper p q.length q level) ∧
        ∀ v, eval (PolyComposeHelper p q.length q level) v
          = eval p (fun i => composeAssignment q v (level + i))
  | Constant c, level, _, _ => by
    rw [PolyComposeHelper, PolyClone_eq]
    exact ⟨by simp [ExpsWithin], fun v => by simp [eval]⟩
  | Nested arr, level, hp, hno => by
    simp only [ExpsWithin] at hp
    rw [ComposeNoOverflow] at hno
    have h := PolyComposeLoop_noOverflow q hq arr level PolyZero hp hno
      (by simp [PolyZero, PolyFromCoeff, ExpsWithin])
    rw [PolyComposeHelper]
    refine ⟨h.1, fun v => ?_⟩
    rw [h.2]
    simp [PolyZero, PolyFromCoeff, eval]
/-- The loop of PolyComposeHelper under the same conditions; `result` is the sum so
far. -/
theorem PolyComposeLoop_noOverflow (q : List Poly)
    (hq : ∀ qi ∈ q, ExpsWithin (2 ^ 31 - 1) qi) :
    ∀ (arr : List Mono) (level : Nat) (result : Poly), ExpsWithinArr (2 ^ 31 - 1) arr →
      ComposeLoopNoOverflow arr q.length q level → ExpsWithin (2 ^ 31 - 1) result →
      ExpsWithin (2 ^ 31 - 1) (PolyComposeLoop arr q.length q level result) ∧
        ∀ v, eval (PolyComposeLoop arr q.length q level result) v
          = eval result v + evalMonos arr (fun i => composeAssignment q v (level + i))
  | [], level, result, _, _, hr => by
    rw [PolyComposeLoop]
    exact ⟨hr, fun v => by simp [evalMonos]⟩
  | Mono.mk p e :: rest, level, result, hp, hno, hr => by
    simp only [ExpsWithinArr] at hp
    rw [ComposeLoopNoOverflow] at hno
    have hc := PolyComposeHelper_noOverflow q hq p (level + 1) hp.2.2.1 hno.1
    have hbase : ExpsWithin (2 ^ 31 - 1)
        (if level ≥ q.length then PolyZero else q.getD level PolyZero) := by
      split
      · simp [PolyZero, PolyFromCoeff, ExpsWithin]
      · exact ExpsWithin_getD _ q hq level
    have hsub := PolyExpBySquaring_noOverflow _ e hbase hp.1 hno.2.1
    have hsubeq : (if level ≥ q.length then PolyExpBySquaring PolyZero e
        else PolyExpBySquaring (q.getD level PolyZero) e)
        = PolyExpBySquaring (if level ≥ q.length then PolyZero else q.getD level PolyZero) e := by
      split <;> rfl
    have hmul := PolyMul_noOverflow _ _ hc.1 hsub.1 hno.2.2.1
    have hadd := ExpsWithin_PolyAdd (2 ^ 31 - 1) (by norm_num) result _ hr hmul.1
    have hrest := PolyComposeLoop_noOverflow q hq rest level _ hp.2.2.2 hno.2.2.2 hadd
    rw [PolyComposeLoop]
    simp only [hsubeq]
    refine ⟨hrest.1, fun v => ?_⟩
    rw [hrest.2, eval_PolyAdd_aux, hmul.2, hc.2, hsub.2, eval_substitutedVar]
    simp only [evalMonos, Nat.add_zero]
    have hshift : (fun i => composeAssignment q v (level + 1 + i))
        = (fun i => composeAssignment q v (level + (i + 1))) := by
      funext i
      congr 1
      omega
    rw [hshift]
    ring
end

/-- Polynomials whose exponents are at most `A` and at most `B`, with `A + B` in the
range of `int`, give PolyMul no sum of exponents outside that range. -/
theorem NoExpOverflow_of_within (A B : Int) (hAB : A + B < 2 ^ 31) :
    ∀ p q : Poly, ExpsWithin A p → ExpsWithin B q → NoExpOverflow p q := by
  apply NoExpOverflow.induct
    (fun p q => ExpsWithin A p → ExpsWithin B q → NoExpOverflow p q)
    (fun ps qs => ExpsWithinArr A ps → ExpsWithinArr B qs → NoExpOverflowArr ps qs)
    (fun m qs => ExpsWithinArr A [m] → ExpsWithinArr B qs → NoExpOverflowInner m qs)
  case case1 =>
    intro ps qs ih hp hq
    simp only [ExpsWithin] at hp hq
    rw [NoExpOverflow]
    exact ih hp hq
  case case2 =>
    intro _ _ _ _
    rw [NoExpOverflow]
    trivial
  case case3 =>
    intro _ _ _ _
    rw [NoExpOverflow]
    trivial
  case case4 =>
    intro qs _ _
    rw [NoExpOverflowArr]
    trivial
  case case5 =>
    intro m ps qs ih1 ih2 hp hq
    rw [NoExpOverflowArr]
    cases m with
    | mk p e =>
      simp only [ExpsWithinArr] at hp
      exact ⟨ih1 (by simp only [ExpsWithinArr]; exact ⟨hp.1, hp.2.1, hp.2.2.1, trivial⟩) hq,
        ih2 hp.2.2.2 hq⟩
  case case6 =>
    intro m _ _
    rw [NoExpOverflowInner]
    trivial
  case case7 =>
    intro p e q f qs ih1 ih2 hp hq
    rw [NoExpOverflowInner]
    simp only [ExpsWithinArr] at hp hq
    exact ⟨by omega, ih1 hp.2.2.1 hq.2.2.1,
      ih2 (by simp only [ExpsWithinArr]; exact hp) hq.2.2.2⟩

/-- A bound `e * Q` in the range of `int`, with `Q` a bound on the exponents of the
basis, keeps every sum of exponents of PolyExpBySquaring in that range. -/
theorem ExpBySquaringNoOverflow_of_within (Q : Int) (hQ : 0 ≤ Q) :
    ∀ (basis : Poly) (e : Int), ExpsWithin Q basis → 0 ≤ e → e * Q < 2 ^ 31 →
      ExpBySquaringNoOverflow basis e := by
  apply PolyExpBySquaring.induct
    (fun basis e => ExpsWithin Q basis → 0 ≤ e → e * Q < 2 ^ 31 →
      ExpBySquaringNoOverflow basis e)
  case case1 =>
    intro basis _ _ _
    rw [ExpBySquaringNoOverflow.eq_def]
    simp
  case case2 =>
    intro basis e he hz _ _ _
    rw [ExpBySquaringNoOverflow.eq_def]
    simp [he, hz]
  case case3 =>
    intro e he c hz _ _ _
    rw [ExpBySquaringNoOverflow]
    simp [he]
  case case4 =>
    intro e he arr hodd hz ih hb hpos hlt
    have hd : e.tdiv 2 = e / 2 := Int.tdiv_eq_ediv (by omega) (by omega)
    have hm : e.tmod 2 = e % 2 := Int.tmod_eq_emod (by omega) (by omega)
    rw [hm] at hodd
    have hhalf : e / 2 * Q ≤ e * Q := by
      apply mul_le_mul_of_nonneg_right _ hQ
      omega
    have hsum : e / 2 * Q + e / 2 * Q + Q = e * Q := by
      have : e = 2 * (e / 2) + 1 := by omega
      nth_rewrite 3 [this]
      ring
    have hh0 : 0 ≤ e / 2 * Q := mul_nonneg (by omega) hQ
    have h1 := PolyExpBySquaring_within Q hQ (Nested arr) (e / 2) hb (by omega) (by omega)
    have h2 := PolyMul_within _ _ (e / 2 * Q) (e / 2 * Q) hh0 hh0 (by omega) h1.1 h1.1
    rw [ExpBySquaringNoOverflow]
    simp only [he, if_false, PolyIsZero, Bool.false_eq_true, hd]
    rw [hd] at ih
    exact ⟨ih hb (by omega) (by omega),
      NoExpOverflow_of_within _ _ (by omega) _ _ h1.1 h1.1,
      fun _ => NoExpOverflow_of_within _ _ (by omega) _ _ h2.1 hb⟩
  case case5 =>
    intro e he arr hodd hz ih hb hpos hlt
    have hd : e.tdiv 2 = e / 2 := Int.tdiv_eq_ediv (by omega) (by omega)
    have hm : e.tmod 2 = e % 2 := Int.tmod_eq_emod (by omega) (by omega)
    have hhalf : e / 2 * Q ≤ e * Q := by
      apply mul_le_mul_of_nonneg_right _ hQ
      omega
    have hsum : e / 2 * Q + e / 2 * Q = e * Q := by
      have : e = 2 * (e / 2) := by omega
      nth_rewrite 3 [this]
      ring
    have hh0 : 0 ≤ e / 2 * Q := mul_nonneg (by omega) hQ
    have h1 := PolyExpBySquaring_within Q hQ (Nested arr) (e / 2) hb (by omega) (by omega)
    rw [ExpBySquaringNoOverflow]
    simp only [he, if_false, PolyIsZero, Bool.false_eq_true]
    refine ⟨?_, ?_, fun h => absurd h hodd⟩
    · rw [hd] at ih ⊢
      exact ih hb (by omega) (by omega)
    · rw [hd]
      exact NoExpOverflow_of_within _ _ (by omega) _ _ h1.1 h1.1

mutual
/-- A bound `Q * maxPathSum p` in the range of `int`, with `Q` a bound on the exponents
of the `q[i]`, keeps every sum of exponents of PolyComposeHelper in that range. -/
theorem ComposeNoOverflow_of_within (Q : Int) (hQ : 0 ≤ Q) (q : List Poly)
    (hq : ∀ qi ∈ q, ExpsWithin Q qi) :
    ∀ (p : Poly) (level : Nat), WellFormed p → Q * maxPathSum p < 2 ^ 31 →
      ComposeNoOverflow p q.length q level
  | Constant c, level, _, _ => by
    rw [ComposeNoOverflow]
    trivial
  | Nested arr, level, hwf, hb => by
    simp only [WellFormed] at hwf
    rw [maxPathSum] at hb
    rw [ComposeNoOverflow]
    exact ComposeLoopNoOverflow_of_within Q hQ q hq arr level hwf.2 hb
theorem ComposeLoopNoOverflow_of_within (Q : Int) (hQ : 0 ≤ Q) (q : List Poly)
    (hq : ∀ qi ∈ q, ExpsWithin Q qi) :
    ∀ (arr : List Mono) (level : Nat), WellFormedMonos arr →
      Q * maxPathSumArr arr < 2 ^ 31 → ComposeLoopNoOverflow arr q.length q level
  | [], level, _, _ => by
    rw [ComposeLoopNoOverflow]
    trivial
  | Mono.mk p e :: rest, level, hwf, hb => by
    simp only [WellFormedMonos] at hwf
    rw [maxPathSumArr] at hb
    have hp0 := maxPathSum_nonneg p
    have hl1 : Q * (e + maxPathSum p) < 2 ^ 31 :=
      lt_of_le_of_lt (mul_le_mul_of_nonneg_left (le_max_left _ _) hQ) hb
    have hl2 : Q * maxPathSumArr rest < 2 ^ 31 :=
      lt_of_le_of_lt (mul_le_mul_of_nonneg_left (le_max_right _ _) hQ) hb
    have hQe : 0 ≤ e * Q := mul_nonneg hwf.1 hQ
    have hQp : 0 ≤ Q * maxPathSum p := mul_nonneg hQ hp0
    have hexp : Q * (e + maxPathSum p) = Q * maxPathSum p + e * Q := by ring
    rw [hexp] at hl1
    have hc := PolyComposeHelper_within Q hQ q hq p (level + 1) hwf.2.1 (by omega)
    have hbase : ExpsWithin Q (if level ≥ q.length then PolyZero else q.getD level PolyZero) := by
      split
      · simp [PolyZero, PolyFromCoeff, ExpsWithin]
      · exact ExpsWithin_getD Q q hq level
    have hsub := PolyExpBySquaring_within Q hQ _ e hbase hwf.1 (by omega)
    rw [ComposeLoopNoOverflow]
    exact ⟨ComposeNoOverflow_of_within Q hQ q hq p (level + 1) hwf.2.1 (by omega),
      ExpBySquaringNoOverflow_of_within Q hQ _ e hbase hwf.1 (by omega),
      NoExpOverflow_of_within _ _ hl1 _ _ hc.1 hsub.1,
      ComposeLoopNoOverflow_of_within Q hQ q hq rest level hwf.2.2 hl2⟩
end

/-- C1: for every sequence of monomials whose exponents are at least 0 (and in the
range of `int`) and whose coefficients are canonical, in any order, with repeated
exponents and zero coefficients allowed, PolyAddMonos, PolyOwnMonos and PolyCloneMonos
return the same canonical polynomial; it is Constant 0 for the empty sequence and for
a sequence in which the coefficients of every exponent sum to zero. The last part
covers every order in which `qsort` may leave the monomials of equal exponent: the
steps that follow the sort give a canonical polynomial for every sorted arrangement. -/
theorem PolyAddMonos_canonical (monos : List Mono)
    (h : ∀ m ∈ monos, 0 ≤ m.exp ∧ m.exp < 2 ^ 31 ∧ Canonical m.p) :
    Canonical (PolyAddMonos monos) ∧
    PolyOwnMonos monos = PolyAddMonos monos ∧
    PolyCloneMonos monos = PolyAddMonos monos ∧
    (monos = [] → PolyAddMonos monos = Constant 0) ∧
    ((∀ e, sumCoeffs (coeffsAt e monos) = Constant 0) → PolyAddMonos monos = Constant 0) ∧
    (∀ sorted : List Mono, sorted.Perm monos →
      sorted.Pairwise (fun a b => a.exp ≤ b.exp) →
      (∀ m, monos = [m] → PolyIsZero m.p = false) →
      Canonical (collapseRule (DeleteSameExponents sorted))) := by
  refine ⟨PolyCreateFromMonos_canonical monos h, rfl, ?_, ?_,
    PolyCreateFromMonos_cancel monos, ?_⟩
  · simp [PolyCloneMonos, PolyAddMonos, PolyCloneArr_eq]
  · intro h0
    subst h0
    rfl
  · intro sorted hperm hsorted hsingle
    apply Canonical_collapseRule
    apply DeleteSameExponents_canonical sorted hsorted
    · intro x hx
      exact h x (hperm.mem_iff.mp hx)
    · intro x hx
      subst hx
      have hm : monos = [x] := List.perm_singleton.mp hperm.symm
      exact hsingle x hm

/-- Witness of C1: the monomials `1 x^2`, `3 x^0`, `-1 x^2`, `0 x^5`. -/
theorem PolyAddMonos_canonical_witness :
    (∀ m ∈ [Mono.mk (Constant 1) 2, Mono.mk (Constant 3) 0, Mono.mk (Constant (-1)) 2,
        Mono.mk (Constant 0) 5],
      0 ≤ m.exp ∧ m.exp < 2 ^ 31 ∧ Canonical m.p) ∧
    Canonical (PolyAddMonos [Mono.mk (Constant 1) 2, Mono.mk (Constant 3) 0,
      Mono.mk (Constant (-1)) 2, Mono.mk (Constant 0) 5]) :=
  ⟨by simp [Mono.exp, Mono.p, Canonical],
   (PolyAddMonos_canonical _ (by simp [Mono.exp, Mono.p, Canonical])).1⟩

/-- C2: for all canonical p and q, PolyAdd p q is canonical: a coefficient in the
range of `long`, or a non-empty array with strictly increasing exponents, no zero
coefficient at any level, and not a single monomial of exponent 0 with a Constant
coefficient. -/
theorem PolyAdd_canonical (p q : Poly) (hp : Canonical p) (hq : Canonical q) :
    Canonical (PolyAdd p q) :=
  PolyAdd_canonical_aux p q hp hq

/-- Witness of C2: `(1 + x) + (-x)`. -/
theorem PolyAdd_canonical_witness :
    Canonical (Nested [Mono.mk (Constant 1) 0, Mono.mk (Constant 1) 1]) ∧
    Canonical (Nested [Mono.mk (Constant (-1)) 1]) ∧
    Canonical (PolyAdd (Nested [Mono.mk (Constant 1) 0, Mono.mk (Constant 1) 1])
      (Nested [Mono.mk (Constant (-1)) 1])) :=
  ⟨by simp [Canonical, CanonicalMonos, IsCoeffTimesXToZero, PolyIsZero],
   by simp [Canonical, CanonicalMonos, IsCoeffTimesXToZero, PolyIsZero],
   PolyAdd_canonical _ _
     (by simp [Canonical, CanonicalMonos, IsCoeffTimesXToZero, PolyIsZero])
     (by simp [Canonical, CanonicalMonos, IsCoeffTimesXToZero, PolyIsZero])⟩

/-- C3, the code at two failing inputs: `(2 + (-2^63) x) * 2` is returned as the
one-monomial array `4 x^0` instead of Constant 4 (PolyMulByCoeff drops the monomial
whose product wraps to 0 but does not apply the collapse rule), and
`(2^32 + x) * (2^32 + x)` is returned with the monomial `0 x^0` (MulTwoPolys keeps a
product that wraps to 0). Both arguments are canonical, neither result is. -/
theorem PolyMul_result_not_canonical :
    Canonical (Nested [Mono.mk (Constant 2) 0, Mono.mk (Constant (-9223372036854775808)) 1]) ∧
    Canonical (Constant 2) ∧
    PolyMul (Nested [Mono.mk (Constant 2) 0, Mono.mk (Constant (-9223372036854775808)) 1])
      (Constant 2) = Nested [Mono.mk (Constant 4) 0] ∧
    ¬ Canonical (PolyMul
      (Nested [Mono.mk (Constant 2) 0, Mono.mk (Constant (-9223372036854775808)) 1])
      (Constant 2)) ∧
    Canonical (Nested [Mono.mk (Constant 4294967296) 0, Mono.mk (Constant 1) 1]) ∧
    PolyMul (Nested [Mono.mk (Constant 4294967296) 0, Mono.mk (Constant 1) 1])
      (Nested [Mono.mk (Constant 4294967296) 0, Mono.mk (Constant 1) 1])
      = Nested [Mono.mk (Constant 0) 0, Mono.mk (Constant 8589934592) 1, Mono.mk (Constant 1) 2] ∧
    ¬ Canonical (PolyMul (Nested [Mono.mk (Constant 4294967296) 0, Mono.mk (Constant 1) 1])
      (Nested [Mono.mk (Constant 4294967296) 0, Mono.mk (Constant 1) 1])) := by
  have h1 : PolyMul (Nested [Mono.mk (Constant 2) 0, Mono.mk (Constant (-9223372036854775808)) 1])
      (Constant 2) = Nested [Mono.mk (Constant 4) 0] := by
    rw [PolyMul]; rfl
  have h2 : PolyMul (Nested [Mono.mk (Constant 4294967296) 0, Mono.mk (Constant 1) 1])
      (Nested [Mono.mk (Constant 4294967296) 0, Mono.mk (Constant 1) 1])
      = Nested [Mono.mk (Constant 0) 0, Mono.mk (Constant 8589934592) 1, Mono.mk (Constant 1) 2] := by
    simp [PolyMul, MulTwoPolys, MulTwoPolysInner, PolyAdd, AddCoeffNonCoeff, AddTwoArraysTogether,
      AddTwoCoeff, PolyZero, PolyFromCoeff, PolyClone_eq, MonoFromPoly, wrap64, wrap32, PolyIsZero]
  refine ⟨?_, ?_, h1, ?_, ?_, h2, ?_⟩
  · simp [Canonical, CanonicalMonos, IsCoeffTimesXToZero, PolyIsZero]
  · simp [Canonical]
  · rw [h1]; simp [Canonical, CanonicalMonos, IsCoeffTimesXToZero, PolyIsCoeff]
  · simp [Canonical, CanonicalMonos, IsCoeffTimesXToZero, PolyIsZero]
  · rw [h2]; simp [Canonical, CanonicalMonos, IsCoeffTimesXToZero, PolyIsZero]

/-- C4, the code at a failing input: the first line `9223372036854775808` is rejected
and leaves `errno` at `ERANGE`; nothing resets it, so the next line `1`, which is the
text PRINT writes for the canonical Constant 1, is rejected as well, and so is the
text PRINT writes for `(-5 y + 7 y^3) + 2 x^4`. With `errno` at 0 on entry both texts
are accepted and parsed back to the polynomial printed; lemma ParsePoly_PRINT shows
the same for every canonical polynomial whenever `errno` is not `ERANGE` on entry. -/
theorem ParsePoly_rejects_printed_text_after_overflow :
    Canonical (Constant 1) ∧
    PRINT [Constant 1] = some "1\n".toList ∧
    ParsePoly [] "9223372036854775808\n".toList 0 = some ⟨[], true, ERANGE⟩ ∧
    ParsePoly [] "1\n".toList ERANGE = some ⟨[], true, ERANGE⟩ ∧
    ParsePoly [] "1\n".toList 0 = some ⟨[Constant 1], false, 0⟩ ∧
    Canonical (Nested [Mono.mk (Nested [Mono.mk (Constant (-5)) 1, Mono.mk (Constant 7) 3]) 0,
      Mono.mk (Constant 2) 4]) ∧
    PRINT [Nested [Mono.mk (Nested [Mono.mk (Constant (-5)) 1, Mono.mk (Constant 7) 3]) 0,
      Mono.mk (Constant 2) 4]] = some "((-5,1)+(7,3),0)+(2,4)\n".toList ∧
    ParsePoly [] "((-5,1)+(7,3),0)+(2,4)\n".toList ERANGE = some ⟨[], true, ERANGE⟩ ∧
    ParsePoly [] "((-5,1)+(7,3),0)+(2,4)\n".toList 0
      = some ⟨[Nested [Mono.mk (Nested [Mono.mk (Constant (-5)) 1, Mono.mk (Constant 7) 3]) 0,
          Mono.mk (Constant 2) 4]], false, 0⟩ :=
  ⟨by simp [Canonical], rfl, rfl, rfl, rfl,
   by simp [Canonical, CanonicalMonos, IsCoeffTimesXToZero, PolyIsZero, PolyIsCoeff],
   rfl, rfl, rfl⟩

/-- C5, the code at a failing input: `((1),2,3)` is not a string of the grammar, yet
IsCorrectPoly passes it and ParsePoly pushes Constant 0 without reporting WRONG POLY. -/
theorem ParsePoly_accepts_string_outside_grammar :
    InGrammar "((1),2,3)".toList = false ∧
    IsCorrectPoly ("((1),2,3)\n".toList ++ [NUL]) 10 = true ∧
    ParsePoly [] "((1),2,3)\n".toList 0 = some ⟨[Constant 0], false, 0⟩ :=
  ⟨rfl, rfl, rfl⟩

/-- C6, the code at a failing input: `(1,2)` is a string of the grammar with literals
in range; followed by a newline it is accepted and `1 x^2` is pushed, but when the
line stops at end-of-input without a newline it is rejected by IsCorrectPoly (the last
right parenthesis is not counted) and nothing is pushed. -/
theorem ParsePoly_rejects_literal_without_newline :
    InGrammar "(1,2)".toList = true ∧
    ParsePoly [] "(1,2)\n".toList 0 = some ⟨[Nested [Mono.mk (Constant 1) 2]], false, 0⟩ ∧
    IsCorrectPoly ("(1,2)".toList ++ [NUL]) 5 = false ∧
    ParsePoly [] "(1,2)".toList 0 = some ⟨[], true, 0⟩ :=
  ⟨rfl, rfl, rfl, rfl⟩

/-- C7, the code at a failing input: `(1,2147483648)` is a string of the grammar whose
Exp literal exceeds `2^31 - 1`; ParsePoly reports nothing and pushes the monomial with
the exponent truncated to `-2147483648`. -/
theorem ParsePoly_accepts_exponent_out_of_range :
    InGrammar "(1,2147483648)".toList = true ∧
    ParsePoly [] "(1,2147483648)\n".toList 0
      = some ⟨[Nested [Mono.mk (Constant 1) (-2147483648)]], false, 0⟩ :=
  ⟨rfl, rfl⟩

/-- C8, the code at two failing inputs: in `(010,1)` the Coeff literal `010` is read in
base 8 and the polynomial pushed is `8 x^1`, not `10 x^1`; in `(08,1)` the literal `08`
is read as 0 and the polynomial pushed is Constant 0, not `8 x^1`. -/
theorem ParsePoly_reads_leading_zero_as_octal :
    InGrammar "(010,1)".toList = true ∧
    ParsePoly [] "(010,1)\n".toList 0 = some ⟨[Nested [Mono.mk (Constant 8) 1]], false, 0⟩ ∧
    InGrammar "(08,1)".toList = true ∧
    ParsePoly [] "(08,1)\n".toList 0 = some ⟨[Constant 0], false, 0⟩ :=
  ⟨rfl, rfl, rfl, rfl⟩

/-- C9: for all well-formed p and q (non-empty arrays, exponents at least 0) and every
assignment v of 64-bit words, the value of PolyAdd p q is the sum of the values of p
and q modulo `2^64`. The hypotheses delimit the polynomials on which the C code reads
no `arr[0]` of an empty array and on which `x^exp` is defined. -/
theorem eval_PolyAdd (p q : Poly) (_hp : WellFormed p) (_hq : WellFormed q) (v : Nat → Word) :
    eval (PolyAdd p q) v = eval p v + eval q v :=
  eval_PolyAdd_aux p q v

/-- Witness of C9: `(3 + 5 x^2) + (-5 x^2 + y x^3)` at `x = 7, y = 11`. -/
theorem eval_PolyAdd_witness :
    WellFormed (Nested [Mono.mk (Constant 3) 0, Mono.mk (Constant 5) 2]) ∧
    WellFormed (Nested [Mono.mk (Constant (-5)) 2,
      Mono.mk (Nested [Mono.mk (Constant 1) 1]) 3]) ∧
    eval (PolyAdd (Nested [Mono.mk (Constant 3) 0, Mono.mk (Constant 5) 2])
        (Nested [Mono.mk (Constant (-5)) 2, Mono.mk (Nested [Mono.mk (Constant 1) 1]) 3]))
        (fun i => if i = 0 then 7 else 11)
      = eval (Nested [Mono.mk (Constant 3) 0, Mono.mk (Constant 5) 2])
          (fun i => if i = 0 then 7 else 11)
        + eval (Nested [Mono.mk (Constant (-5)) 2,
            Mono.mk (Nested [Mono.mk (Constant 1) 1]) 3])
          (fun i => if i = 0 then 7 else 11) :=
  ⟨by simp [WellFormed, WellFormedMonos], by simp [WellFormed, WellFormedMonos],
   eval_PolyAdd _ _ (by simp [WellFormed, WellFormedMonos])
     (by simp [WellFormed, WellFormedMonos]) _⟩

/-- C13, the code at a failing input: `x_0 x_1 x_2^7 + 3 x_0^2` is canonical and not
zero, the largest exponent at nesting depth 2 is 7, and PolyDegBy returns 0 for
variable 2: PolyDegByHelper sets `*maxExpIdx = 0` when it meets the coefficient 3 at
depth 1, after it has recorded the 7. Without that monomial it returns 7. For the
variables 0 and 1 no coefficient lies above the depth asked for, and PolyDegBy is
right (lemma PolyDegBy_zero_one). -/
theorem PolyDegBy_forgets_exponent_at_coefficient :
    Canonical (Nested [Mono.mk (Nested [Mono.mk (Nested [Mono.mk (Constant 1) 7]) 1]) 1,
      Mono.mk (Constant 3) 2]) ∧
    maxExpAtDepth (Nested [Mono.mk (Nested [Mono.mk (Nested [Mono.mk (Constant 1) 7]) 1]) 1,
      Mono.mk (Constant 3) 2]) 2 = 7 ∧
    PolyDegBy (Nested [Mono.mk (Nested [Mono.mk (Nested [Mono.mk (Constant 1) 7]) 1]) 1,
      Mono.mk (Constant 3) 2]) 2 = 0 ∧
    PolyDegBy (Nested [Mono.mk (Nested [Mono.mk (Nested [Mono.mk (Constant 1) 7]) 1]) 1]) 2 = 7 :=
  ⟨by simp [Canonical, CanonicalMonos, IsCoeffTimesXToZero, PolyIsZero, PolyIsCoeff],
   by decide, by decide, by decide⟩

/-- C14 as stated fails: `x_0^2147483647 x_1^2147483647` is canonical and not zero, the
sum of the exponents along its only path is 4294967294, and PolyDeg, which adds the
exponents in `int`, returns 0. -/
theorem PolyDeg_wraps_on_large_path_sum :
    Canonical (Nested [Mono.mk (Nested [Mono.mk (Constant 1) 2147483647]) 2147483647]) ∧
    PolyIsZero (Nested [Mono.mk (Nested [Mono.mk (Constant 1) 2147483647]) 2147483647]) = false ∧
    maxPathSum (Nested [Mono.mk (Nested [Mono.mk (Constant 1) 2147483647]) 2147483647])
      = 4294967294 ∧
    PolyDeg (Nested [Mono.mk (Nested [Mono.mk (Constant 1) 2147483647]) 2147483647]) = 0 :=
  ⟨by simp [Canonical, CanonicalMonos, IsCoeffTimesXToZero, PolyIsZero, PolyIsCoeff],
   rfl, by decide, by decide⟩

/-- C14 amended: for every canonical non-zero p in which no sum of exponents along a
path from the root to a coefficient exceeds `2^31 - 1`, PolyDeg p is the largest of
these sums. -/
theorem PolyDeg_eq_max_path_sum (p : Poly) (hp : Canonical p) (hz : p ≠ Constant 0)
    (hb : maxPathSum p < 2 ^ 31) : PolyDeg p = maxPathSum p :=
  PolyDeg_eq_maxPathSum p (WellFormed_of_Canonical p hp)
    (by
      cases h : PolyIsZero p with
      | false => rfl
      | true => exact absurd (PolyIsZero_eq_true.mp h) hz)
    hb

/-- Witness of the amended C14: `x_0 x_1 x_2^7 + 3 x_0^2` has degree 9. -/
theorem PolyDeg_eq_max_path_sum_witness :
    Canonical (Nested [Mono.mk (Nested [Mono.mk (Nested [Mono.mk (Constant 1) 7]) 1]) 1,
      Mono.mk (Constant 3) 2]) ∧
    Nested [Mono.mk (Nested [Mono.mk (Nested [Mono.mk (Constant 1) 7]) 1]) 1,
      Mono.mk (Constant 3) 2] ≠ Constant 0 ∧
    maxPathSum (Nested [Mono.mk (Nested [Mono.mk (Nested [Mono.mk (Constant 1) 7]) 1]) 1,
      Mono.mk (Constant 3) 2]) < 2 ^ 31 ∧
    PolyDeg (Nested [Mono.mk (Nested [Mono.mk (Nested [Mono.mk (Constant 1) 7]) 1]) 1,
      Mono.mk (Constant 3) 2])
      = maxPathSum (Nested [Mono.mk (Nested [Mono.mk (Nested [Mono.mk (Constant 1) 7]) 1]) 1,
          Mono.mk (Constant 3) 2]) :=
  ⟨by simp [Canonical, CanonicalMonos, IsCoeffTimesXToZero, PolyIsZero, PolyIsCoeff],
   by simp, by decide,
   PolyDeg_eq_max_path_sum _
     (by simp [Canonical, CanonicalMonos, IsCoeffTimesXToZero, PolyIsZero, PolyIsCoeff])
     (by simp) (by decide)⟩

/-- C15: for every polynomial p, PolyDeg p is -1 exactly when p is the coefficient 0,
and is at least 0 for every other p. -/
theorem PolyDeg_zero_iff (p : Poly) :
    (PolyDeg p = -1 ↔ p = Constant 0) ∧ (p = Constant 0 ∨ 0 ≤ PolyDeg p) := by
  cases h : PolyIsZero p with
  | true =>
    have hp := PolyIsZero_eq_true.mp h
    subst hp
    exact ⟨⟨fun _ => rfl, fun _ => rfl⟩, Or.inl rfl⟩
  | false =>
    have hn := PolyDeg_nonneg p h
    have hne : p ≠ Constant 0 := by
      intro hp; rw [hp] at h; simp [PolyIsZero] at h
    exact ⟨⟨fun h1 => by omega, fun h2 => absurd h2 hne⟩, Or.inr hn⟩

/-- C16 as stated fails: for the canonical `x_0^2147483647 x_1^2147483647` PolyDegBy
returns 2147483647 for variable 0 while PolyDeg, whose sum of exponents wraps,
returns 0. -/
theorem PolyDegBy_exceeds_PolyDeg :
    Canonical (Nested [Mono.mk (Nested [Mono.mk (Constant 1) 2147483647]) 2147483647]) ∧
    PolyDegBy (Nested [Mono.mk (Nested [Mono.mk (Constant 1) 2147483647]) 2147483647]) 0
      = 2147483647 ∧
    ¬ PolyDegBy (Nested [Mono.mk (Nested [Mono.mk (Constant 1) 2147483647]) 2147483647]) 0
      ≤ PolyDeg (Nested [Mono.mk (Nested [Mono.mk (Constant 1) 2147483647]) 2147483647]) :=
  ⟨by simp [Canonical, CanonicalMonos, IsCoeffTimesXToZero, PolyIsZero, PolyIsCoeff],
   by decide, by decide⟩

/-- C16 amended: for every canonical p in which no sum of exponents along a path from
the root to a coefficient exceeds `2^31 - 1`, and every variable index,
PolyDegBy p varIdx is at most PolyDeg p. -/
theorem PolyDegBy_le_PolyDeg (p : Poly) (hp : Canonical p) (hb : maxPathSum p < 2 ^ 31)
    (varIdx : Nat) : PolyDegBy p varIdx ≤ PolyDeg p := by
  have hwf := WellFormed_of_Canonical p hp
  cases h : PolyIsZero p with
  | true => simp [PolyDegBy, PolyDeg, h]
  | false =>
    rw [PolyDeg_eq_maxPathSum p hwf h hb]
    unfold PolyDegBy
    simp only [h, Bool.false_eq_true, if_false]
    have h1 := PolyDegByHelper_le p varIdx 0 0 hwf
    have h2 := maxPathSum_nonneg p
    omega

/-- Witness of the amended C16: `x_0 x_1 x_2^7 + 3 x_0^2` and variable 1. -/
theorem PolyDegBy_le_PolyDeg_witness :
    Canonical (Nested [Mono.mk (Nested [Mono.mk (Nested [Mono.mk (Constant 1) 7]) 1]) 1,
      Mono.mk (Constant 3) 2]) ∧
    maxPathSum (Nested [Mono.mk (Nested [Mono.mk (Nested [Mono.mk (Constant 1) 7]) 1]) 1,
      Mono.mk (Constant 3) 2]) < 2 ^ 31 ∧
    PolyDegBy (Nested [Mono.mk (Nested [Mono.mk (Nested [Mono.mk (Constant 1) 7]) 1]) 1,
      Mono.mk (Constant 3) 2]) 1
      ≤ PolyDeg (Nested [Mono.mk (Nested [Mono.mk (Nested [Mono.mk (Constant 1) 7]) 1]) 1,
          Mono.mk (Constant 3) 2]) :=
  ⟨by simp [Canonical, CanonicalMonos, IsCoeffTimesXToZero, PolyIsZero, PolyIsCoeff],
   by decide,
   PolyDegBy_le_PolyDeg _
     (by simp [Canonical, CanonicalMonos, IsCoeffTimesXToZero, PolyIsZero, PolyIsCoeff])
     (by decide) 1⟩

/-- C17: for every polynomial p other than the coefficient 0 and every variable index
at which p has no array of monomials (the index is at least the nesting depth of p),
PolyDegBy p varIdx is 0. -/
theorem PolyDegBy_beyond_nesting (p : Poly) (varIdx : Nat) (hz : p ≠ Constant 0)
    (h : NoNestedAtDepth p varIdx) : PolyDegBy p varIdx = 0 := by
  unfold PolyDegBy
  have hz2 : PolyIsZero p = false := by
    cases h2 : PolyIsZero p with
    | false => rfl
    | true => exact absurd (PolyIsZero_eq_true.mp h2) hz
  simp only [hz2, Bool.false_eq_true, if_false]
  have := PolyDegByHelper_zero p 0 varIdx h
  rw [Nat.zero_add] at this
  exact this

/-- Witness of C17: `x_0 x_1 x_2^7 + 3 x_0^2` has no array of monomials at depth 3. -/
theorem PolyDegBy_beyond_nesting_witness :
    Nested [Mono.mk (Nested [Mono.mk (Nested [Mono.mk (Constant 1) 7]) 1]) 1,
      Mono.mk (Constant 3) 2] ≠ Constant 0 ∧
    NoNestedAtDepth (Nested [Mono.mk (Nested [Mono.mk (Nested [Mono.mk (Constant 1) 7]) 1]) 1,
      Mono.mk (Constant 3) 2]) 3 ∧
    PolyDegBy (Nested [Mono.mk (Nested [Mono.mk (Nested [Mono.mk (Constant 1) 7]) 1]) 1,
      Mono.mk (Constant 3) 2]) 3 = 0 :=
  ⟨by simp, by simp [NoNestedAtDepth, NoNestedAtDepthArr],
   PolyDegBy_beyond_nesting _ 3 (by simp) (by simp [NoNestedAtDepth, NoNestedAtDepthArr])⟩

/-- C18: addition is commutative: for all polynomials p and q (canonical or not),
PolyIsEq holds of PolyAdd p q and PolyAdd q p. -/
theorem PolyAdd_comm (p q : Poly) : PolyIsEq (PolyAdd p q) (PolyAdd q p) = true := by
  rw [PolyAdd_comm_aux p q]
  exact PolyIsEq_refl _

/-- C19, the code at a failing input: `1 + x + 4294967296 x^2` and
`4294967296 - x + x^2` are canonical. The three products of exponent 2 are 1, -1 and
`4294967296 * 4294967296`, which is 0 in `long`; taken in this order the sum 1 + (-1)
is dropped and the 0 is then kept as a monomial, in the opposite order the 0 is
absorbed: the two products differ and PolyIsEq returns false. -/
theorem PolyMul_not_commutative :
    Canonical (Nested [Mono.mk (Constant 1) 0, Mono.mk (Constant 1) 1,
      Mono.mk (Constant 4294967296) 2]) ∧
    Canonical (Nested [Mono.mk (Constant 4294967296) 0, Mono.mk (Constant (-1)) 1,
      Mono.mk (Constant 1) 2]) ∧
    PolyMul (Nested [Mono.mk (Constant 1) 0, Mono.mk (Constant 1) 1,
        Mono.mk (Constant 4294967296) 2])
        (Nested [Mono.mk (Constant 4294967296) 0, Mono.mk (Constant (-1)) 1,
          Mono.mk (Constant 1) 2])
      = Nested [Mono.mk (Constant 4294967296) 0, Mono.mk (Constant 4294967295) 1,
          Mono.mk (Constant 0) 2, Mono.mk (Constant (-4294967295)) 3,
          Mono.mk (Constant 4294967296) 4] ∧
    PolyMul (Nested [Mono.mk (Constant 4294967296) 0, Mono.mk (Constant (-1)) 1,
        Mono.mk (Constant 1) 2])
        (Nested [Mono.mk (Constant 1) 0, Mono.mk (Constant 1) 1,
          Mono.mk (Constant 4294967296) 2])
      = Nested [Mono.mk (Constant 4294967296) 0, Mono.mk (Constant 4294967295) 1,
          Mono.mk (Constant (-4294967295)) 3, Mono.mk (Constant 4294967296) 4] ∧
    PolyIsEq
      (PolyMul (Nested [Mono.mk (Constant 1) 0, Mono.mk (Constant 1) 1,
        Mono.mk (Constant 4294967296) 2])
        (Nested [Mono.mk (Constant 4294967296) 0, Mono.mk (Constant (-1)) 1,
          Mono.mk (Constant 1) 2]))
      (PolyMul (Nested [Mono.mk (Constant 4294967296) 0, Mono.mk (Constant (-1)) 1,
        Mono.mk (Constant 1) 2])
        (Nested [Mono.mk (Constant 1) 0, Mono.mk (Constant 1) 1,
          Mono.mk (Constant 4294967296) 2])) = false := by
  have h1 : PolyMul (Nested [Mono.mk (Constant 1) 0, Mono.mk (Constant 1) 1,
        Mono.mk (Constant 4294967296) 2])
        (Nested [Mono.mk (Constant 4294967296) 0, Mono.mk (Constant (-1)) 1,
          Mono.mk (Constant 1) 2])
      = Nested [Mono.mk (Constant 4294967296) 0, Mono.mk (Constant 4294967295) 1,
          Mono.mk (Constant 0) 2, Mono.mk (Constant (-4294967295)) 3,
          Mono.mk (Constant 4294967296) 4] := by
    simp [PolyMul, MulTwoPolys, MulTwoPolysInner, PolyAdd, AddCoeffNonCoeff,
      AddTwoArraysTogether, AddTwoCoeff, PolyZero, PolyFromCoeff, PolyClone_eq, MonoFromPoly,
      wrap64, wrap32, PolyIsZero]
  have h2 : PolyMul (Nested [Mono.mk (Constant 4294967296) 0, Mono.mk (Constant (-1)) 1,
        Mono.mk (Constant 1) 2])
        (Nested [Mono.mk (Constant 1) 0, Mono.mk (Constant 1) 1,
          Mono.mk (Constant 4294967296) 2])
      = Nested [Mono.mk (Constant 4294967296) 0, Mono.mk (Constant 4294967295) 1,
          Mono.mk (Constant (-4294967295)) 3, Mono.mk (Constant 4294967296) 4] := by
    simp [PolyMul, MulTwoPolys, MulTwoPolysInner, PolyAdd, AddCoeffNonCoeff,
      AddTwoArraysTogether, AddTwoCoeff, PolyZero, PolyFromCoeff, PolyClone_eq, MonoFromPoly,
      wrap64, wrap32, PolyIsZero]
  refine ⟨?_, ?_, h1, h2, ?_⟩
  · simp [Canonical, CanonicalMonos, IsCoeffTimesXToZero, PolyIsZero]
  · simp [Canonical, CanonicalMonos, IsCoeffTimesXToZero, PolyIsZero]
  · rw [h1, h2]; rfl

/-- C20: zero and one behave as ring constants: for every canonical p, PolyAdd of p
and PolyZero, in either order, is p; PolyMul of p and PolyZero, in either order, is
the coefficient 0; PolyMul of p and PolyFromCoeff 1, in either order, is p. Equality
is structural: it is what PolyIsEq decides (lemma PolyIsEq_iff). -/
theorem PolyZero_PolyOne_laws (p : Poly) (hp : Canonical p) :
    PolyAdd p PolyZero = p ∧ PolyAdd PolyZero p = p ∧
    PolyMul p PolyZero = Constant 0 ∧ PolyMul PolyZero p = Constant 0 ∧
    PolyMul p (PolyFromCoeff 1) = p ∧ PolyMul (PolyFromCoeff 1) p = p :=
  ⟨PolyAdd_zero_right p hp, by rw [PolyAdd_comm_aux]; exact PolyAdd_zero_right p hp,
   PolyMul_zero_right p, PolyMul_zero_left p, PolyMul_one_right p hp, PolyMul_one_left p hp⟩

/-- Witness of C20: `x_0 x_1 x_2^7 + 3 x_0^2`. -/
theorem PolyZero_PolyOne_laws_witness :
    Canonical (Nested [Mono.mk (Nested [Mono.mk (Nested [Mono.mk (Constant 1) 7]) 1]) 1,
      Mono.mk (Constant 3) 2]) ∧
    PolyAdd (Nested [Mono.mk (Nested [Mono.mk (Nested [Mono.mk (Constant 1) 7]) 1]) 1,
      Mono.mk (Constant 3) 2]) PolyZero
      = Nested [Mono.mk (Nested [Mono.mk (Nested [Mono.mk (Constant 1) 7]) 1]) 1,
          Mono.mk (Constant 3) 2] ∧
    PolyMul (Nested [Mono.mk (Nested [Mono.mk (Nested [Mono.mk (Constant 1) 7]) 1]) 1,
      Mono.mk (Constant 3) 2]) (PolyFromCoeff 1)
      = Nested [Mono.mk (Nested [Mono.mk (Nested [Mono.mk (Constant 1) 7]) 1]) 1,
          Mono.mk (Constant 3) 2] :=
  ⟨by simp [Canonical, CanonicalMonos, IsCoeffTimesXToZero, PolyIsZero, PolyIsCoeff],
   (PolyZero_PolyOne_laws _
     (by simp [Canonical, CanonicalMonos, IsCoeffTimesXToZero, PolyIsZero, PolyIsCoeff])).1,
   (PolyZero_PolyOne_laws _
     (by simp [Canonical, CanonicalMonos, IsCoeffTimesXToZero, PolyIsZero, PolyIsCoeff])).2.2.2.2.1⟩

/-- C21: for every Poly p, with strictly increasing exponents or not, PolySub p p is
Constant 0: PolyNeg keeps the exponents, so PolyAdd meets only pairs of monomials of
equal exponent, every pair of coefficients cancels recursively, and the merged array is
empty, for which PolyAdd returns PolyZero. -/
theorem PolySub_self (p : Poly) : PolySub p p = Constant 0 := by
  unfold PolySub
  exact PolyAdd_PolyNeg_self p

/-- C22: negation is an involution. For every Poly p whose coefficients are values of
`long` (the coefficient -2^63, which negation maps to itself, included),
PolyNeg (PolyNeg p) is p itself. -/
theorem PolyNeg_involutive (p : Poly) (h : CoeffsInRange p) : PolyNeg (PolyNeg p) = p :=
  PolyNeg_PolyNeg p h

/-- Witness of C22: `-2^63 + (5 x_1^2) x_0`. -/
theorem PolyNeg_involutive_witness :
    CoeffsInRange (Nested [Mono.mk (Constant (-9223372036854775808)) 0,
      Mono.mk (Nested [Mono.mk (Constant 5) 2]) 1]) ∧
    PolyNeg (PolyNeg (Nested [Mono.mk (Constant (-9223372036854775808)) 0,
      Mono.mk (Nested [Mono.mk (Constant 5) 2]) 1]))
      = Nested [Mono.mk (Constant (-9223372036854775808)) 0,
          Mono.mk (Nested [Mono.mk (Constant 5) 2]) 1] :=
  ⟨by simp [CoeffsInRange, CoeffsInRangeArr],
   PolyNeg_involutive _ (by simp [CoeffsInRange, CoeffsInRangeArr])⟩

/-- C23: for every canonical Poly p, PolyNeg p is canonical and has the tree shape of p:
the same variant, the same number of monomials and the same exponents at every node,
and every Constant leaf `c` replaced by `-c` in `long`. -/
theorem PolyNeg_canonical_same_shape (p : Poly) (h : Canonical p) :
    Canonical (PolyNeg p) ∧ NegatedShape p (PolyNeg p) :=
  ⟨(Canonical_PolyNeg p h).1, (Canonical_PolyNeg p h).2.1⟩

/-- Witness of C23: `-2^63 + (5 x_1^2) x_0`. -/
theorem PolyNeg_canonical_same_shape_witness :
    Canonical (Nested [Mono.mk (Constant (-9223372036854775808)) 0,
      Mono.mk (Nested [Mono.mk (Constant 5) 2]) 1]) ∧
    Canonical (PolyNeg (Nested [Mono.mk (Constant (-9223372036854775808)) 0,
      Mono.mk (Nested [Mono.mk (Constant 5) 2]) 1])) ∧
    NegatedShape (Nested [Mono.mk (Constant (-9223372036854775808)) 0,
      Mono.mk (Nested [Mono.mk (Constant 5) 2]) 1])
      (PolyNeg (Nested [Mono.mk (Constant (-9223372036854775808)) 0,
        Mono.mk (Nested [Mono.mk (Constant 5) 2]) 1])) :=
  ⟨by simp [Canonical, CanonicalMonos, IsCoeffTimesXToZero, PolyIsZero, PolyIsCoeff],
   PolyNeg_canonical_same_shape _
     (by simp [Canonical, CanonicalMonos, IsCoeffTimesXToZero, PolyIsZero, PolyIsCoeff])⟩

/-- C24, the code at a failing input: `(2 + (-2^63) x_1) x_0` is canonical, and PolyAt at
`x = 2` multiplies the coefficient `2 + (-2^63) x_1` by 2 with PolyMulByCoeff, which drops
the monomial whose product wraps to 0 and returns the one-monomial array `4 x^0` without
applying the collapse rule. PolyAt returns that array, not Constant 4. -/
theorem PolyAt_result_not_canonical :
    Canonical (Nested [Mono.mk
      (Nested [Mono.mk (Constant 2) 0, Mono.mk (Constant (-9223372036854775808)) 1]) 1]) ∧
    PolyAt (Nested [Mono.mk
      (Nested [Mono.mk (Constant 2) 0, Mono.mk (Constant (-9223372036854775808)) 1]) 1]) 2
      = Nested [Mono.mk (Constant 4) 0] ∧
    ¬ Canonical (PolyAt (Nested [Mono.mk
      (Nested [Mono.mk (Constant 2) 0, Mono.mk (Constant (-9223372036854775808)) 1]) 1]) 2) := by
  have h1 : PolyAt (Nested [Mono.mk
      (Nested [Mono.mk (Constant 2) 0, Mono.mk (Constant (-9223372036854775808)) 1]) 1]) 2
      = Nested [Mono.mk (Constant 4) 0] := by
    have he : Exponentiation 2 1 = 2 := by
      unfold Exponentiation
      rw [ExponentiationLoop, ExponentiationLoop]
      rfl
    simp [PolyAt, PolyAtLoop, he, PolyClone_eq, PolyZero, PolyFromCoeff, PolyMulByCoeff,
      PolyMulByCoeffArr, PolyAdd, AddCoeffNonCoeff, MonoFromPoly, wrap64, PolyIsZero]
  refine ⟨?_, h1, ?_⟩
  · simp [Canonical, CanonicalMonos, IsCoeffTimesXToZero, PolyIsZero, PolyIsCoeff]
  · rw [h1]; simp [Canonical, CanonicalMonos, IsCoeffTimesXToZero, PolyIsCoeff]

/-- C25 as stated fails: for the canonical `x_0 x_1`, PolyCompose with `k = 1` and
`q = [Constant 2]` puts 2 for `x_0` and zero for `x_1` and returns Constant 0, while
PolyAt at 2 puts 2 for `x_0` and keeps the other variable, returning `2 x_0`. -/
theorem PolyCompose_differs_from_PolyAt :
    Canonical (Nested [Mono.mk (Nested [Mono.mk (Constant 1) 1]) 1]) ∧
    PolyCompose (Nested [Mono.mk (Nested [Mono.mk (Constant 1) 1]) 1]) 1 [Constant 2]
      = Constant 0 ∧
    PolyAt (Nested [Mono.mk (Nested [Mono.mk (Constant 1) 1]) 1]) 2
      = Nested [Mono.mk (Constant 2) 1] ∧
    PolyCompose (Nested [Mono.mk (Nested [Mono.mk (Constant 1) 1]) 1]) 1 [Constant 2]
      ≠ PolyAt (Nested [Mono.mk (Nested [Mono.mk (Constant 1) 1]) 1]) 2 := by
  have he : Exponentiation 2 1 = 2 := by
    unfold Exponentiation
    rw [ExponentiationLoop, ExponentiationLoop]
    rfl
  have h1 : PolyCompose (Nested [Mono.mk (Nested [Mono.mk (Constant 1) 1]) 1]) 1 [Constant 2]
      = Constant 0 := by
    simp [PolyCompose, PolyComposeHelper, PolyComposeLoop, PolyExpBySquaring.eq_def, PolyIsZero,
      PolyZero, PolyFromCoeff, PolyClone_eq, he, PolyMul, PolyAdd, AddTwoCoeff, wrap64]
  have h2 : PolyAt (Nested [Mono.mk (Nested [Mono.mk (Constant 1) 1]) 1]) 2
      = Nested [Mono.mk (Constant 2) 1] := by
    simp [PolyAt, PolyAtLoop, he, PolyClone_eq, PolyZero, PolyFromCoeff, PolyMulByCoeff,
      PolyMulByCoeffArr, PolyAdd, AddCoeffNonCoeff, MonoFromPoly, wrap64, PolyIsZero]
  refine ⟨?_, h1, h2, ?_⟩
  · simp [Canonical, CanonicalMonos, IsCoeffTimesXToZero, PolyIsZero, PolyIsCoeff]
  · rw [h1, h2]; simp

/-- C25 amended: for every canonical Poly p with no variable but `x_0` (every coefficient
of p is a Constant) and every c, PolyCompose p 1 [Constant c] is PolyAt p c. -/
theorem PolyCompose_eq_PolyAt (p : Poly) (c : Int) (hp : Canonical p)
    (h1 : OnlyFirstVariable p) : PolyCompose p 1 [Constant c] = PolyAt p c :=
  PolyCompose_eq_PolyAt_aux p c hp h1

/-- Witness of the amended C25: `3 + 5 x_0^2` at `c = 2`. -/
theorem PolyCompose_eq_PolyAt_witness :
    Canonical (Nested [Mono.mk (Constant 3) 0, Mono.mk (Constant 5) 2]) ∧
    OnlyFirstVariable (Nested [Mono.mk (Constant 3) 0, Mono.mk (Constant 5) 2]) ∧
    PolyCompose (Nested [Mono.mk (Constant 3) 0, Mono.mk (Constant 5) 2]) 1 [Constant 2]
      = PolyAt (Nested [Mono.mk (Constant 3) 0, Mono.mk (Constant 5) 2]) 2 :=
  ⟨by simp [Canonical, CanonicalMonos, IsCoeffTimesXToZero, PolyIsZero, PolyIsCoeff],
   by simp [OnlyFirstVariable, ConstantCoeffs, PolyIsCoeff],
   PolyCompose_eq_PolyAt _ 2
     (by simp [Canonical, CanonicalMonos, IsCoeffTimesXToZero, PolyIsZero, PolyIsCoeff])
     (by simp [OnlyFirstVariable, ConstantCoeffs, PolyIsCoeff])⟩

/-- C26: for every canonical Poly p, PolyCompose p 0 [] is the Constant reached by
following the monomial of exponent 0 at every nesting level (0 if some level has none),
and that coefficient is the value of p with every variable set to zero. -/
theorem PolyCompose_no_arguments (p : Poly) (hp : Canonical p) :
    PolyCompose p 0 [] = Constant (valueAtZero p) ∧
      ((valueAtZero p : Int) : Word) = eval p (fun _ => 0) :=
  ⟨(PolyComposeHelper_no_arguments p 0 hp).1, eval_valueAtZero p hp (fun _ => 0)⟩

/-- Witness of C26: `(7 + x_1) + x_0^3`, whose value at zero is 7. -/
theorem PolyCompose_no_arguments_witness :
    Canonical (Nested [Mono.mk (Nested [Mono.mk (Constant 7) 0, Mono.mk (Constant 1) 1]) 0,
      Mono.mk (Constant 1) 3]) ∧
    PolyCompose (Nested [Mono.mk (Nested [Mono.mk (Constant 7) 0, Mono.mk (Constant 1) 1]) 0,
      Mono.mk (Constant 1) 3]) 0 [] = Constant 7 :=
  ⟨by simp [Canonical, CanonicalMonos, IsCoeffTimesXToZero, PolyIsZero, PolyIsCoeff],
   (PolyCompose_no_arguments _
     (by simp [Canonical, CanonicalMonos, IsCoeffTimesXToZero, PolyIsZero, PolyIsCoeff])).1⟩

/-- C27: PolyIsEq decides structural equality. It is true exactly when the two Polys are
equal; two Constants are compared by their coefficients, a Constant and a Nested are
never equal, and two Nested are equal exactly when they have the same number of
monomials with pairwise equal exponents and pairwise PolyIsEq coefficients. Hence
PolyIsEq (PolyClone p) p holds for every p. -/
theorem PolyIsEq_structural (p q : Poly) :
    (PolyIsEq p q = true ↔ p = q) ∧
    (∀ a b : Int, (PolyIsEq (Constant a) (Constant b) = true ↔ a = b)) ∧
    (∀ (a : Int) (qs : List Mono), PolyIsEq (Constant a) (Nested qs) = false) ∧
    (∀ (ps : List Mono) (b : Int), PolyIsEq (Nested ps) (Constant b) = false) ∧
    (∀ ps qs : List Mono, (PolyIsEq (Nested ps) (Nested qs) = true ↔
      List.Forall₂ (fun m n => Mono.exp m = Mono.exp n ∧ PolyIsEq (Mono.p m) (Mono.p n) = true)
        ps qs)) ∧
    PolyIsEq (PolyClone p) p = true :=
  ⟨PolyIsEq_iff p q,
   fun a b => by simp [PolyIsEq],
   fun a qs => by simp [PolyIsEq],
   fun ps b => by simp [PolyIsEq],
   PolyIsEq_Nested_iff,
   by rw [PolyClone_eq]; exact PolyIsEq_refl p⟩

/-- C28: on a stack with p on top, then `q_(k-1)`, ..., `q_0` (the deepest of the k) and
any Polys `rest` below, COMPOSE k leaves PolyCompose p k [q_0, ..., q_(k-1)] on top of
`rest`, writes nothing and reports no underflow; the height goes down by k. -/
theorem COMPOSE_replaces_top (p : Poly) (q rest : List Poly) :
    COMPOSE (p :: (q.reverse ++ rest)) q.length
      = some ⟨PolyCompose p q.length q :: rest, [], false⟩ ∧
    (PolyCompose p q.length q :: rest).length + q.length
      = (p :: (q.reverse ++ rest)).length :=
  ⟨COMPOSE_enough p q rest, by simp; omega⟩

/-- C30: when the stack holds fewer Polys than a command needs, the command reports
STACK UNDERFLOW, writes nothing to stdout and leaves the stack as it was, also COMPOSE
after it has lowered the stack pointer past the receiver. -/
theorem command_underflow (stack : Stack) (cmd : Command) (h : stack.length < needs cmd) :
    RunCommand stack cmd = some ⟨stack, [], true⟩ :=
  RunCommand_underflow stack cmd h

/-- Witness of C30: COMPOSE 1 on a stack of one Poly. -/
theorem command_underflow_witness :
    [Constant 1].length < needs (Command.COMPOSE 1) ∧
    RunCommand [Constant 1] (Command.COMPOSE 1) = some ⟨[Constant 1], [], true⟩ :=
  ⟨by decide, command_underflow [Constant 1] (Command.COMPOSE 1) (by decide)⟩

set_option maxRecDepth 100000 in
/-- C31, the code at a failing input. With `errno` clear the dispatcher behaves as
claimed: the second run executes `AT 1`, `DEG_BY 0` and `COMPOSE 0` and the first run
gives each malformed line its diagnostic. But `strtol` and `strtoul` leave `errno` at
`ERANGE` after an out-of-range argument and nothing resets it: in the third run the
line `AT 9223372036854775808` is rejected as it should be, and then the well-formed,
in-range lines `AT 1`, `DEG_BY 0` and `COMPOSE 0` are rejected too. -/
theorem argument_rejected_after_range_error :
    ReadInput 16 []
      "ZERO\nAT\nDEG_BY\nCOMPOSE\nFOO\nFOO 1\nATX 1\nDEG_BY  1\nDEG_BY 1 \nAT -\nAT 5-\nCOMPOSE -1\nDEG_BY 0\nAT 7\nCOMPOSE 0\n".toList
      = some ⟨[Constant 0], 0, "-1\n".toList,
          "ERROR 2 AT WRONG VALUE\nERROR 3 DEG BY WRONG VARIABLE\nERROR 4 COMPOSE WRONG PARAMETER\nERROR 5 WRONG COMMAND\nERROR 6 WRONG COMMAND\nERROR 7 WRONG COMMAND\nERROR 8 DEG BY WRONG VARIABLE\nERROR 9 DEG BY WRONG VARIABLE\nERROR 10 AT WRONG VALUE\nERROR 11 AT WRONG VALUE\nERROR 12 COMPOSE WRONG PARAMETER\n".toList⟩ ∧
    ReadInput 5 [] "ZERO\nAT 1\nDEG_BY 0\nCOMPOSE 0\n".toList
      = some ⟨[Constant 0], 0, "-1\n".toList, []⟩ ∧
    ReadInput 6 [] "ZERO\nAT 9223372036854775808\nAT 1\nDEG_BY 0\nCOMPOSE 0\n".toList
      = some ⟨[Constant 0], ERANGE, [],
          "ERROR 2 AT WRONG VALUE\nERROR 3 AT WRONG VALUE\nERROR 4 DEG BY WRONG VARIABLE\nERROR 5 COMPOSE WRONG PARAMETER\n".toList⟩ :=
  ⟨rfl, rfl, rfl⟩

/-- C32 as stated fails: on the four lines `(1,0)+(1,1)`, `(1,0)+(-1,0)`, `SUB`, `PRINT`
the program writes `(-1,0)+(-1,1)`, not `(1,1)`: the second literal is the zero
polynomial, it is on top of the stack, and SUB subtracts the polynomial under the top
from the top. -/
theorem ReadInput_SUB_does_not_print_x :
    ReadInput 5 [] "(1,0)+(1,1)\n(1,0)+(-1,0)\nSUB\nPRINT\n".toList
      = some ⟨[Nested [Mono.mk (Constant (-1)) 0, Mono.mk (Constant (-1)) 1]], 0,
          "(-1,0)+(-1,1)\n".toList, []⟩ ∧
    "(-1,0)+(-1,1)\n".toList ≠ "(1,1)\n".toList :=
  ⟨ReadInput_SUB_example 0, by decide⟩

/-- C32 amended: starting from an empty stack, the four input lines `(1,0)+(1,1)`,
`(1,0)+(-1,0)`, `SUB`, `PRINT` write exactly the line `(-1,0)+(-1,1)` to stdout and
nothing to stderr, whatever budget above five iterations the loop is given. -/
theorem ReadInput_SUB_prints_negated (fuel : Nat) :
    (ReadInput (fuel + 5) [] "(1,0)+(1,1)\n(1,0)+(-1,0)\nSUB\nPRINT\n".toList).map
        (fun st => (CalcState.stdout st, CalcState.stderr st))
      = some ("(-1,0)+(-1,1)\n".toList, []) := by
  rw [ReadInput_SUB_example fuel]
  rfl

/-- C33 as stated fails: on the five lines `(1,1)`, `(1,1)`, `(1,0)`, `COMPOSE 2`,
`PRINT` the program writes `1`, not `(1,1)`: the receiver of COMPOSE is the top of the
stack, which is the Constant 1 read from `(1,0)`, and composing a Constant gives it
back. -/
theorem ReadInput_COMPOSE_does_not_print_x :
    ReadInput 6 [] "(1,1)\n(1,1)\n(1,0)\nCOMPOSE 2\nPRINT\n".toList
      = some ⟨[Constant 1], 0, "1\n".toList, []⟩ ∧
    "1\n".toList ≠ "(1,1)\n".toList :=
  ⟨ReadInput_COMPOSE_example 0, by decide⟩

/-- C33 amended: starting from an empty stack, the five input lines `(1,1)`, `(1,1)`,
`(1,0)`, `COMPOSE 2`, `PRINT` write exactly the line `1` to stdout and nothing to
stderr, whatever budget above six iterations the loop is given. -/
theorem ReadInput_COMPOSE_prints_one (fuel : Nat) :
    (ReadInput (fuel + 6) [] "(1,1)\n(1,1)\n(1,0)\nCOMPOSE 2\nPRINT\n".toList).map
        (fun st => (CalcState.stdout st, CalcState.stderr st))
      = some ("1\n".toList, []) := by
  rw [ReadInput_COMPOSE_example fuel]
  rfl

/-- C34, the code at a failing input: the histories `ZERO` and `9223372036854775808`,
`ZERO` leave the same stack (one zero polynomial), but the second leaves `errno` at
`ERANGE`. After the first the literal `1` is pushed and `DEG_BY 0` is executed; after
the second the literal is rejected with WRONG POLY and the command with DEG BY WRONG
VARIABLE. -/
theorem verdict_depends_on_earlier_lines :
    ReadInput 2 [] "ZERO\n".toList = some ⟨[Constant 0], 0, [], []⟩ ∧
    ReadInput 3 [] "9223372036854775808\nZERO\n".toList
      = some ⟨[Constant 0], ERANGE, [], "ERROR 1 WRONG POLY\n".toList⟩ ∧
    PolyScan ⟨[Constant 0], 0, [], []⟩ 2 "1\n".toList
      = some ⟨[Constant 1, Constant 0], 0, [], []⟩ ∧
    PolyScan ⟨[Constant 0], ERANGE, [], "ERROR 1 WRONG POLY\n".toList⟩ 3 "1\n".toList
      = some ⟨[Constant 0], ERANGE, [], "ERROR 1 WRONG POLY\nERROR 3 WRONG POLY\n".toList⟩ ∧
    InstructionScan ⟨[Constant 0], 0, [], []⟩ 2 "DEG_BY 0\n".toList
      = some ⟨[Constant 0], 0, "-1\n".toList, []⟩ ∧
    InstructionScan ⟨[Constant 0], ERANGE, [], "ERROR 1 WRONG POLY\n".toList⟩ 3
        "DEG_BY 0\n".toList
      = some ⟨[Constant 0], ERANGE, [],
          "ERROR 1 WRONG POLY\nERROR 3 DEG BY WRONG VARIABLE\n".toList⟩ :=
  ⟨rfl, rfl, rfl, rfl, rfl, rfl⟩

/-- C35: for every basis b and every exponent e at least 0, Exponentiation b e is `b^e`
reduced modulo `2^64` to the range of `long`; in particular Exponentiation b 0 is 1
for every b, also for b = 0. -/
theorem Exponentiation_is_power (b : Int) (e : Nat) :
    Exponentiation b (e : Int) = wrap64 (b ^ e) ∧ Exponentiation b 0 = 1 ∧
      Exponentiation 0 0 = 1 := by
  refine ⟨?_, Exponentiation_exp_zero b, Exponentiation_exp_zero 0⟩
  rw [Exponentiation_eq_wrap64, Int.toNat_ofNat]

/-- C36, the code at a failing input: for the canonical `q = 1 + 2^32 x` squaring twice
gives `1 + 2^34 x + 0 x^2 + 0 x^4` while multiplying by `q` three times gives
`1 + 2^34 x + 0 x^2 + 0 x^3 + 0 x^4`. MulTwoPolys keeps the products that wrap to 0 as
monomials, so the two results depend on the order of the multiplications. -/
theorem PolyExpBySquaring_differs_from_naivePower :
    Canonical (Nested [Mono.mk (Constant 1) 0, Mono.mk (Constant 4294967296) 1]) ∧
    PolyExpBySquaring (Nested [Mono.mk (Constant 1) 0, Mono.mk (Constant 4294967296) 1]) 4
      = Nested [Mono.mk (Constant 1) 0, Mono.mk (Constant 17179869184) 1, Mono.mk (Constant 0) 2,
          Mono.mk (Constant 0) 4] ∧
    naivePower (Nested [Mono.mk (Constant 1) 0, Mono.mk (Constant 4294967296) 1]) 4
      = Nested [Mono.mk (Constant 1) 0, Mono.mk (Constant 17179869184) 1, Mono.mk (Constant 0) 2,
          Mono.mk (Constant 0) 3, Mono.mk (Constant 0) 4] ∧
    PolyExpBySquaring (Nested [Mono.mk (Constant 1) 0, Mono.mk (Constant 4294967296) 1]) 4
      ≠ naivePower (Nested [Mono.mk (Constant 1) 0, Mono.mk (Constant 4294967296) 1]) 4 := by
  refine ⟨?_, PolyExpBySquaring_fourth_example, naivePower_fourth_example, ?_⟩
  · simp [Canonical, CanonicalMonos, IsCoeffTimesXToZero, PolyIsZero, PolyIsCoeff]
  · rw [PolyExpBySquaring_fourth_example, naivePower_fourth_example]
    simp

/-- C37: the result of PolyAddMonos does not depend on the order of its input. For
monomials with canonical coefficients and exponents in `[0, 2^31)` and every
permutation of them the two results are equal; and whatever sorted arrangements
`qsort` leaves of the two inputs, the steps that follow the sort give equal results. -/
theorem PolyAddMonos_perm (ms ms2 : List Mono)
    (h : ∀ m ∈ ms, 0 ≤ Mono.exp m ∧ Mono.exp m < 2 ^ 31 ∧ Canonical (Mono.p m))
    (hperm : ms2.Perm ms) :
    PolyAddMonos ms2 = PolyAddMonos ms ∧
    ∀ sorted sorted2 : List Mono, sorted.Perm ms → sorted2.Perm ms2 →
      sorted.Pairwise (fun a b => Mono.exp a ≤ Mono.exp b) →
      sorted2.Pairwise (fun a b => Mono.exp a ≤ Mono.exp b) →
      collapseRule (DeleteSameExponents sorted2) = collapseRule (DeleteSameExponents sorted) := by
  refine ⟨PolyCreateFromMonos_perm ms ms2 h hperm, ?_⟩
  intro sorted sorted2 hs hs2 hp hp2
  exact collapse_DeleteSameExponents_perm sorted sorted2
    (fun m hm => h m (hs.mem_iff.mp hm)) ((hs2.trans hperm).trans hs.symm) hp hp2

/-- Witness of C37: the monomials `1 x^2`, `(3 + y) x^2` and their swap. -/
theorem PolyAddMonos_perm_witness :
    (∀ m ∈ [Mono.mk (Constant 1) 2, Mono.mk (Nested [Mono.mk (Constant 3) 0, Mono.mk (Constant 1) 1]) 2],
      0 ≤ Mono.exp m ∧ Mono.exp m < 2 ^ 31 ∧ Canonical (Mono.p m)) ∧
    PolyAddMonos [Mono.mk (Nested [Mono.mk (Constant 3) 0, Mono.mk (Constant 1) 1]) 2,
        Mono.mk (Constant 1) 2]
      = PolyAddMonos [Mono.mk (Constant 1) 2,
          Mono.mk (Nested [Mono.mk (Constant 3) 0, Mono.mk (Constant 1) 1]) 2] :=
  ⟨by simp [Mono.exp, Mono.p, Canonical, CanonicalMonos, IsCoeffTimesXToZero, PolyIsZero,
      PolyIsCoeff],
   (PolyAddMonos_perm _ _
     (by simp [Mono.exp, Mono.p, Canonical, CanonicalMonos, IsCoeffTimesXToZero, PolyIsZero,
       PolyIsCoeff])
     (List.Perm.swap _ _ [])).1⟩

/-- C38: the rewritten addition refines the earlier one. For all canonical p and q,
PolyAdd of poly.c returns the polynomial that PolyAdd of poly1.c returns. -/
theorem PolyAdd_refines_poly1 (p q : Poly) (hp : Canonical p) (hq : Canonical q) :
    PolyAdd p q = poly1.PolyAdd p q :=
  (poly1_PolyAdd_eq p q hp hq).symm

/-- Witness of C38: `3` and `-3 + x`, whose sum is `x`. -/
theorem PolyAdd_refines_poly1_witness :
    Canonical (Constant 3) ∧
    Canonical (Nested [Mono.mk (Constant (-3)) 0, Mono.mk (Constant 1) 1]) ∧
    PolyAdd (Constant 3) (Nested [Mono.mk (Constant (-3)) 0, Mono.mk (Constant 1) 1])
      = poly1.PolyAdd (Constant 3) (Nested [Mono.mk (Constant (-3)) 0, Mono.mk (Constant 1) 1]) :=
  ⟨by simp [Canonical],
   by simp [Canonical, CanonicalMonos, IsCoeffTimesXToZero, PolyIsZero, PolyIsCoeff],
   PolyAdd_refines_poly1 _ _ (by simp [Canonical])
     (by simp [Canonical, CanonicalMonos, IsCoeffTimesXToZero, PolyIsZero, PolyIsCoeff])⟩

/-- C39, the code at a failing input: IsCorrectPoly accepts the line `(1,2,3)+(4)` (it
counts parentheses and commas over the whole line), the line is not a bare coefficient,
Parse cuts out the monomials `(1,2,3)` and `(4)`, and the second holds no comma: the
backward scan of FindComaBeforeExp passes index 0 of it. -/
theorem FindComaBeforeExp_runs_below_zero :
    IsCorrectPoly ("(1,2,3)+(4)\n".toList ++ [NUL]) 12 = true ∧
    IsStringCoeff ("(1,2,3)+(4)\n".toList ++ [NUL]) 12 = false ∧
    HowManyMonos ("(1,2,3)+(4)\n".toList ++ [NUL]) 12 = 2 ∧
    CutMono ("(1,2,3)+(4)\n".toList ++ [NUL]) 12 0
      = some ("(1,2,3)".toList ++ [NUL],
          "(1,2,3)".toList ++ [NUL] ++ "(4)\n".toList ++ [NUL], 7) ∧
    CutMono ("(1,2,3)".toList ++ [NUL] ++ "(4)\n".toList ++ [NUL]) 12 8
      = some ("(4)".toList ++ [NUL],
          "(1,2,3)".toList ++ [NUL] ++ "(4)".toList ++ [NUL, NUL], 11) ∧
    FindComaBeforeExp ("(4)".toList ++ [NUL]) 3 = none ∧
    ParsePoly [] "(1,2,3)+(4)\n".toList 0 = none :=
  ⟨rfl, rfl, rfl, rfl, rfl, rfl, rfl⟩

/-- C40, the code at a failing input: when the last line is a comment that does not end
with a newline, SkipComment reads `EOF` again and again waiting for a newline, and
ReadInput returns for no budget of iterations. With the newline it returns. -/
theorem ReadInput_hangs_on_last_comment (fuel : Nat) (stack : Stack) :
    SkipComment fuel " last line".toList = none ∧
    ReadInput fuel stack "# last line".toList = none ∧
    ReadInput (fuel + 2) stack "#\n".toList = some ⟨stack, 0, [], []⟩ :=
  ⟨SkipComment_no_newline fuel _ (by decide),
   ReadInput_comment_no_newline fuel stack _ (by decide),
   rfl⟩

end PolyCalc
